import Mathlib

/-!
# Row merge kernels of the host-based sparse matrix-matrix product

Shallow embedding of `viennacl/linalg/host_based/spgemm_vector.hpp`, and of the
operator names `evaluate` and `evaluate_str` of
`viennacl/device_specific/tree_parsing/evaluate_expression.hpp`.

Conventions of the embedding.

* A pointer parameter is the list of cells starting at the pointer; a local
  pointer variable that the code advances is a `Nat` offset into that list.
  `p + k` on a parameter that is only indexed is `List.drop k`.
* Every read and every write is bounds checked: an access outside the list
  is `Fault.outOfBounds`.
* `while` loops take a `fuel` argument and yield `Fault.outOfFuel` when it is
  used up; counted `for` loops recurse on their trip count.
* `unsigned int` is `Nat`; the operations that can wrap (the subtractions that
  are not protected by a comparison, `row + 1`, and the cast of a pointer
  difference) are taken modulo `2^32`.
* `NumericT` is a type `R` with `0`, `1`, `+` and `*`.
* Statements about every iteration of the drivers' loop are made over
  `symbolic_chunk_history`, the loop of `row_C_scan_symbolic_vector` returning
  the states it passes through; `symbolic_chunk_history_last` ties it to the
  loop itself.
* Statements about every iteration of the main loop of the front merges are
  made over `symbolic_front_history` and `numeric_front_history`, the same
  loops returning the fronts they pass through; `symbolic_front_history_last`
  and `numeric_front_history_sim` tie them to the loops themselves.
-/

namespace Spgemm

/-- Ways in which a run of the embedded code fails to return a value. -/
inductive Fault where
  | outOfBounds
  | outOfFuel
  deriving DecidableEq, Repr

deriving instance DecidableEq for Except

/-- Number of values of an `unsigned int`. -/
def U32 : Nat := 4294967296

/-- Addition of `unsigned int`. -/
def u32_add (a b : Nat) : Nat := (a + b) % U32

/-- Subtraction of `unsigned int` (operands below `2^32`). -/
def u32_sub (a b : Nat) : Nat := (a + U32 - b) % U32

/-- `static_cast<unsigned int>` of a non-negative pointer difference. -/
def u32_cast (a : Nat) : Nat := a % U32

/-- Checked read `xs[i]`. -/
def readAt {α : Type} (xs : List α) (i : Nat) : Except Fault α :=
  match xs[i]? with
  | some v => .ok v
  | none => .error .outOfBounds

/-- Checked write `xs[i] = v`. -/
def writeAt {α : Type} (xs : List α) (i : Nat) (v : α) : Except Fault (List α) :=
  if i < xs.length then .ok (xs.set i v) else .error .outOfBounds

/-- The expression `(p < p_end) ? *p : B_size2`. -/
def load_index (buf : List Nat) (p p_end B_size2 : Nat) : Except Fault Nat :=
  if p < p_end then readAt buf p else .ok B_size2

/-- The expression `(p < p_end) ? *q : NumericT(0)`. -/
def load_value {R : Type} [Zero R] (vbuf : List R) (p p_end q : Nat) : Except Fault R :=
  if p < p_end then readAt vbuf q else .ok 0

/-! ## Symbolic merge of `IndexNum` rows -/

/-- One slot of the arrays `index_front`, `index_front_start`, `index_front_end`;
`buf` is the array the two pointers point into. -/
structure FrontEntry where
  buf : List Nat
  index_front : Nat
  index_front_start : Nat
  index_front_end : Nat
  deriving DecidableEq, Repr

/-- The loop "Set up pointers for loading the indices" (slots `i .. i+n-1`). -/
def setup_front (row_indices_B B_row_buffer B_col_buffer : List Nat) :
    Nat → Nat → Except Fault (List FrontEntry)
  | 0, _ => .ok []
  | n + 1, i => do
    let row_B ← readAt row_indices_B i
    let s ← readAt B_row_buffer row_B
    let e ← readAt B_row_buffer (u32_add row_B 1)
    let rest ← setup_front row_indices_B B_row_buffer B_col_buffer n (i + 1)
    .ok ({ buf := B_col_buffer, index_front := 0,
           index_front_start := s, index_front_end := e } :: rest)

/-- The loop "load indices". -/
def load_front (B_size2 : Nat) : List FrontEntry → Except Fault (List FrontEntry)
  | [] => .ok []
  | e :: es => do
    let v ← load_index e.buf e.index_front_start e.index_front_end B_size2
    let es1 ← load_front B_size2 es
    .ok ({ e with index_front := v } :: es1)

/-- The loop "get minimum index in current front", started from `m`. -/
def min_index_in_front (m : Nat) (front : List FrontEntry) : Nat :=
  front.foldl (fun acc e => min acc e.index_front) m

/-- The loop "advance index front where equal to minimum index". -/
def advance_front (B_size2 m : Nat) : List FrontEntry → Except Fault (List FrontEntry)
  | [] => .ok []
  | e :: es =>
    if e.index_front = m then do
      let v ← load_index e.buf (e.index_front_start + 1) e.index_front_end B_size2
      let es1 ← advance_front B_size2 m es
      .ok ({ e with index_front_start := e.index_front_start + 1, index_front := v } :: es1)
    else do
      let es1 ← advance_front B_size2 m es
      .ok (e :: es1)

/-- The `while (1)` loop of `row_C_scan_symbolic_vector_N`; yields the output
buffer and `output_ptr`. -/
def symbolic_front_loop (B_size2 : Nat) :
    Nat → List FrontEntry → List Nat → Nat → Except Fault (List Nat × Nat)
  | 0, _, _, _ => .error .outOfFuel
  | fuel + 1, front, out, output_ptr =>
    let m := min_index_in_front B_size2 front
    if m = B_size2 then .ok (out, output_ptr)
    else do
      let front1 ← advance_front B_size2 m front
      let out1 ← writeAt out output_ptr m
      symbolic_front_loop B_size2 fuel front1 out1 (output_ptr + 1)

/-- `row_C_scan_symbolic_vector_N<IndexNum>`: returns the count and the
contents of `row_C_vector_output`. -/
def row_C_scan_symbolic_vector_N (fuel IndexNum : Nat) (row_indices_B : List Nat)
    (B_row_buffer B_col_buffer : List Nat) (B_size2 : Nat)
    (row_C_vector_input : List Nat) (row_C_vector_input_end : Nat)
    (row_C_vector_output : List Nat) : Except Fault (Nat × List Nat) := do
  let rows ← setup_front row_indices_B B_row_buffer B_col_buffer IndexNum 0
  let front ← load_front B_size2
    (rows ++ [{ buf := row_C_vector_input, index_front := 0,
                index_front_start := 0, index_front_end := row_C_vector_input_end }])
  let r ← symbolic_front_loop B_size2 fuel front row_C_vector_output 0
  .ok (u32_cast r.2, r.1)

/-! ## Symbolic merge of one row -/

/-- Local state of `row_C_scan_symbolic_vector_1`. -/
structure Scan1 where
  row_C_vector_input : Nat
  current_col_input : Nat
  out : List Nat
  output_ptr : Nat
  deriving DecidableEq, Repr

/-- The loop `while (current_col_input < col_B)`. -/
def advance_input (input : List Nat) (input_end B_size2 col_B : Nat) :
    Nat → Scan1 → Except Fault Scan1
  | 0, _ => .error .outOfFuel
  | fuel + 1, st =>
    if st.current_col_input < col_B then do
      let out1 ← writeAt st.out st.output_ptr st.current_col_input
      let c ← load_index input (st.row_C_vector_input + 1) input_end B_size2
      advance_input input input_end B_size2 col_B fuel
        { row_C_vector_input := st.row_C_vector_input + 1, current_col_input := c,
          out := out1, output_ptr := st.output_ptr + 1 }
    else .ok st

/-- The loop `for (j = ...; j < row_B_end; ++j)` with `n = row_B_end - j`. -/
def scan_row_B (B_col_buffer input : List Nat) (input_end B_size2 fuel : Nat) :
    Nat → Nat → Scan1 → Except Fault Scan1
  | 0, _, st => .ok st
  | n + 1, j, st => do
    let col_B ← readAt B_col_buffer j
    let st1 ← advance_input input input_end B_size2 col_B fuel st
    let out1 ← writeAt st1.out st1.output_ptr col_B
    let st2 ←
      if st1.current_col_input = col_B then do
        let c ← load_index input (st1.row_C_vector_input + 1) input_end B_size2
        pure { row_C_vector_input := st1.row_C_vector_input + 1, current_col_input := c,
               out := out1, output_ptr := st1.output_ptr + 1 : Scan1 }
      else
        pure { st1 with out := out1, output_ptr := st1.output_ptr + 1 }
    scan_row_B B_col_buffer input input_end B_size2 fuel n (j + 1) st2

/-- The loop "write remaining entries" with `n = input_end - input`. -/
def copy_remaining (input : List Nat) : Nat → Nat → List Nat → Nat → Except Fault (List Nat × Nat)
  | 0, _, out, output_ptr => .ok (out, output_ptr)
  | n + 1, p, out, output_ptr => do
    let v ← readAt input p
    let out1 ← writeAt out output_ptr v
    copy_remaining input n (p + 1) out1 (output_ptr + 1)

/-- `row_C_scan_symbolic_vector_1`: returns the count and the contents of
`row_C_vector_output`. -/
def row_C_scan_symbolic_vector_1 (fuel row_index_B : Nat)
    (B_row_buffer B_col_buffer : List Nat) (B_size2 : Nat)
    (row_C_vector_input : List Nat) (row_C_vector_input_end : Nat)
    (row_C_vector_output : List Nat) : Except Fault (Nat × List Nat) := do
  let current_col_input ← load_index row_C_vector_input 0 row_C_vector_input_end B_size2
  let row_B_end ← readAt B_row_buffer (u32_add row_index_B 1)
  let j ← readAt B_row_buffer row_index_B
  let st ← scan_row_B B_col_buffer row_C_vector_input row_C_vector_input_end B_size2 fuel
    (row_B_end - j) j
    { row_C_vector_input := 0, current_col_input := current_col_input,
      out := row_C_vector_output, output_ptr := 0 }
  let r ← copy_remaining row_C_vector_input (row_C_vector_input_end - st.row_C_vector_input)
    st.row_C_vector_input st.out st.output_ptr
  .ok (u32_cast r.2, r.1)

/-! ## Symbolic row driver -/

/-- The loop `while (row_end_A > row_start_A)` of `row_C_scan_symbolic_vector`;
yields `row_C_len` and the two scratch pointers as they stand after the last swap. -/
def symbolic_chunk_loop (A_col_buffer B_row_buffer B_col_buffer : List Nat)
    (B_size2 row_end_A fuel : Nat) :
    Nat → Nat → Nat → List Nat → List Nat → Except Fault (Nat × List Nat × List Nat)
  | 0, _, _, _, _ => .error .outOfFuel
  | k + 1, row_start_A, row_C_len, row_C_vector_1, row_C_vector_2 =>
    if row_end_A > row_start_A then
      if row_end_A - row_start_A > 3 then do
        let r ← row_C_scan_symbolic_vector_N fuel 3 (A_col_buffer.drop row_start_A)
          B_row_buffer B_col_buffer B_size2 row_C_vector_1 row_C_len row_C_vector_2
        symbolic_chunk_loop A_col_buffer B_row_buffer B_col_buffer B_size2 row_end_A fuel
          k (row_start_A + 3) r.1 r.2 row_C_vector_1
      else do
        let row ← readAt A_col_buffer row_start_A
        let r ← row_C_scan_symbolic_vector_1 fuel row
          B_row_buffer B_col_buffer B_size2 row_C_vector_1 row_C_len row_C_vector_2
        symbolic_chunk_loop A_col_buffer B_row_buffer B_col_buffer B_size2 row_end_A fuel
          k (row_start_A + 1) r.1 r.2 row_C_vector_1
    else .ok (row_C_len, row_C_vector_1, row_C_vector_2)

/-- `row_C_scan_symbolic_vector`: returns the length and the two scratch
buffers (first the one the local `row_C_vector_1` designates on return). -/
def row_C_scan_symbolic_vector (fuel row_start_A row_end_A : Nat) (A_col_buffer : List Nat)
    (B_row_buffer B_col_buffer : List Nat) (B_size2 : Nat)
    (row_C_vector_1 row_C_vector_2 : List Nat) : Except Fault (Nat × List Nat × List Nat) :=
  if row_start_A = row_end_A then .ok (0, row_C_vector_1, row_C_vector_2)
  else if u32_sub row_end_A row_start_A = 1 then do
    let A_col ← readAt A_col_buffer row_start_A
    let hi ← readAt B_row_buffer (u32_add A_col 1)
    let lo ← readAt B_row_buffer A_col
    .ok (u32_sub hi lo, row_C_vector_1, row_C_vector_2)
  else
    symbolic_chunk_loop A_col_buffer B_row_buffer B_col_buffer B_size2 row_end_A fuel
      fuel row_start_A 0 row_C_vector_1 row_C_vector_2

/-! ## Numeric merge of `IndexNum` rows -/

/-- One slot of the arrays `index_front`, `index_front_start`, `index_front_end`,
`value_front_start` and `values_A`; `buf` and `vbuf` are the arrays the index
and value pointers point into. -/
structure NumFrontEntry (R : Type) where
  buf : List Nat
  vbuf : List R
  index_front : Nat
  index_front_start : Nat
  index_front_end : Nat
  value_front_start : Nat
  values_A : R
  deriving DecidableEq, Repr

/-- The loop "Set up pointers for loading the indices" (numeric variant). -/
def setup_front_numeric {R : Type} (row_indices_B : List Nat) (val_A : List R)
    (B_row_buffer B_col_buffer : List Nat) (B_elements : List R) :
    Nat → Nat → Except Fault (List (NumFrontEntry R))
  | 0, _ => .ok []
  | n + 1, i => do
    let row_B ← readAt row_indices_B i
    let s ← readAt B_row_buffer row_B
    let e ← readAt B_row_buffer (u32_add row_B 1)
    let a ← readAt val_A i
    let rest ← setup_front_numeric row_indices_B val_A B_row_buffer B_col_buffer B_elements
      n (i + 1)
    .ok ({ buf := B_col_buffer, vbuf := B_elements, index_front := 0,
           index_front_start := s, index_front_end := e,
           value_front_start := s, values_A := a } :: rest)

/-- The loop "load indices" (numeric variant). -/
def load_front_numeric {R : Type} (B_size2 : Nat) :
    List (NumFrontEntry R) → Except Fault (List (NumFrontEntry R))
  | [] => .ok []
  | e :: es => do
    let v ← load_index e.buf e.index_front_start e.index_front_end B_size2
    let es1 ← load_front_numeric B_size2 es
    .ok ({ e with index_front := v } :: es1)

/-- The loop "get minimum index in current front" (numeric variant). -/
def min_index_in_front_numeric {R : Type} (m : Nat) (front : List (NumFrontEntry R)) : Nat :=
  front.foldl (fun acc e => min acc e.index_front) m

/-- The loop "advance index front where equal to minimum index" (numeric
variant); the second argument and second result are `row_C_value`. -/
def advance_front_numeric {R : Type} [Add R] [Mul R] (B_size2 m : Nat) :
    List (NumFrontEntry R) → R → Except Fault (List (NumFrontEntry R) × R)
  | [], row_C_value => .ok ([], row_C_value)
  | e :: es, row_C_value =>
    if e.index_front = m then do
      let v ← load_index e.buf (e.index_front_start + 1) e.index_front_end B_size2
      let x ← readAt e.vbuf e.value_front_start
      let r ← advance_front_numeric B_size2 m es (row_C_value + e.values_A * x)
      .ok ({ e with index_front_start := e.index_front_start + 1, index_front := v,
                    value_front_start := e.value_front_start + 1 } :: r.1, r.2)
    else do
      let r ← advance_front_numeric B_size2 m es row_C_value
      .ok (e :: r.1, r.2)

/-- Output side of the numeric merges: the two output buffers and the two
output pointers. -/
structure NumOut (R : Type) where
  out : List Nat
  out_values : List R
  output_ptr : Nat
  output_ptr_values : Nat
  deriving DecidableEq, Repr

/-- The `while (1)` loop of `row_C_scan_numeric_vector_N`. -/
def numeric_front_loop {R : Type} [Zero R] [Add R] [Mul R] (B_size2 : Nat) :
    Nat → List (NumFrontEntry R) → NumOut R → Except Fault (NumOut R)
  | 0, _, _ => .error .outOfFuel
  | fuel + 1, front, o =>
    let m := min_index_in_front_numeric B_size2 front
    if m = B_size2 then .ok o
    else do
      let r ← advance_front_numeric B_size2 m front 0
      let out1 ← writeAt o.out o.output_ptr m
      let outv1 ← writeAt o.out_values o.output_ptr_values r.2
      numeric_front_loop B_size2 fuel r.1
        { out := out1, out_values := outv1, output_ptr := o.output_ptr + 1,
          output_ptr_values := o.output_ptr_values + 1 }

/-- `row_C_scan_numeric_vector_N<IndexNum>`: returns the count and the
contents of `row_C_vector_output` and `row_C_vector_output_values`. -/
def row_C_scan_numeric_vector_N {R : Type} [Zero R] [One R] [Add R] [Mul R]
    (fuel IndexNum : Nat) (row_indices_B : List Nat) (val_A : List R)
    (B_row_buffer B_col_buffer : List Nat) (B_elements : List R) (B_size2 : Nat)
    (row_C_vector_input : List Nat) (row_C_vector_input_end : Nat)
    (row_C_vector_input_values : List R)
    (row_C_vector_output : List Nat) (row_C_vector_output_values : List R) :
    Except Fault (Nat × List Nat × List R) := do
  let rows ← setup_front_numeric row_indices_B val_A B_row_buffer B_col_buffer B_elements
    IndexNum 0
  let front ← load_front_numeric B_size2
    (rows ++ [{ buf := row_C_vector_input, vbuf := row_C_vector_input_values,
                index_front := 0, index_front_start := 0,
                index_front_end := row_C_vector_input_end,
                value_front_start := 0, values_A := 1 }])
  let r ← numeric_front_loop B_size2 fuel front
    { out := row_C_vector_output, out_values := row_C_vector_output_values,
      output_ptr := 0, output_ptr_values := 0 }
  .ok (u32_cast r.output_ptr, r.out, r.out_values)

/-! ## Numeric merge of one row -/

/-- Local state of `row_C_scan_numeric_vector_1`. -/
structure NumScan1 (R : Type) where
  row_C_vector_input : Nat
  row_C_vector_input_values : Nat
  current_col_input : Nat
  current_col_input_value : R
  out : List Nat
  out_values : List R
  output_ptr : Nat
  output_ptr_values : Nat
  deriving DecidableEq, Repr

/-- The loop `while (current_col_input < col_B)` (numeric variant). -/
def advance_input_numeric {R : Type} [Zero R] (input : List Nat) (input_values : List R)
    (input_end B_size2 col_B : Nat) : Nat → NumScan1 R → Except Fault (NumScan1 R)
  | 0, _ => .error .outOfFuel
  | fuel + 1, st =>
    if st.current_col_input < col_B then do
      let out1 ← writeAt st.out st.output_ptr st.current_col_input
      let outv1 ← writeAt st.out_values st.output_ptr_values st.current_col_input_value
      let c ← load_index input (st.row_C_vector_input + 1) input_end B_size2
      let x ← load_value input_values (st.row_C_vector_input + 1) input_end
        (st.row_C_vector_input_values + 1)
      advance_input_numeric input input_values input_end B_size2 col_B fuel
        { row_C_vector_input := st.row_C_vector_input + 1,
          row_C_vector_input_values := st.row_C_vector_input_values + 1,
          current_col_input := c, current_col_input_value := x,
          out := out1, out_values := outv1,
          output_ptr := st.output_ptr + 1, output_ptr_values := st.output_ptr_values + 1 }
    else .ok st

/-- The loop `for (j = ...; j < row_B_end; ++j)` (numeric variant) with
`n = row_B_end - j`. -/
def scan_row_B_numeric {R : Type} [Zero R] [Add R] [Mul R] (val_A : R)
    (B_col_buffer : List Nat) (B_elements : List R) (input : List Nat) (input_values : List R)
    (input_end B_size2 fuel : Nat) : Nat → Nat → NumScan1 R → Except Fault (NumScan1 R)
  | 0, _, st => .ok st
  | n + 1, j, st => do
    let col_B ← readAt B_col_buffer j
    let st1 ← advance_input_numeric input input_values input_end B_size2 col_B fuel st
    let out1 ← writeAt st1.out st1.output_ptr col_B
    let st2 ←
      if st1.current_col_input = col_B then do
        let b ← readAt B_elements j
        let outv1 ← writeAt st1.out_values st1.output_ptr_values
          (val_A * b + st1.current_col_input_value)
        let c ← load_index input (st1.row_C_vector_input + 1) input_end B_size2
        let x ← load_value input_values (st1.row_C_vector_input + 1) input_end
          (st1.row_C_vector_input_values + 1)
        pure { row_C_vector_input := st1.row_C_vector_input + 1,
               row_C_vector_input_values := st1.row_C_vector_input_values + 1,
               current_col_input := c, current_col_input_value := x,
               out := out1, out_values := outv1,
               output_ptr := st1.output_ptr + 1,
               output_ptr_values := st1.output_ptr_values + 1 : NumScan1 R }
      else do
        let b ← readAt B_elements j
        let outv1 ← writeAt st1.out_values st1.output_ptr_values (val_A * b)
        pure { st1 with out := out1, out_values := outv1,
                        output_ptr := st1.output_ptr + 1,
                        output_ptr_values := st1.output_ptr_values + 1 }
    scan_row_B_numeric val_A B_col_buffer B_elements input input_values input_end B_size2 fuel
      n (j + 1) st2

/-- The loop "write remaining entries" (numeric variant) with
`n = input_end - input`; `p` and `q` are the two input pointers. -/
def copy_remaining_numeric {R : Type} (input : List Nat) (input_values : List R) :
    Nat → Nat → Nat → NumOut R → Except Fault (NumOut R)
  | 0, _, _, o => .ok o
  | n + 1, p, q, o => do
    let c ← readAt input p
    let out1 ← writeAt o.out o.output_ptr c
    let x ← readAt input_values q
    let outv1 ← writeAt o.out_values o.output_ptr_values x
    copy_remaining_numeric input input_values n (p + 1) (q + 1)
      { out := out1, out_values := outv1, output_ptr := o.output_ptr + 1,
        output_ptr_values := o.output_ptr_values + 1 }

/-- `row_C_scan_numeric_vector_1`: returns the count and the contents of
`row_C_vector_output` and `row_C_vector_output_values`. -/
def row_C_scan_numeric_vector_1 {R : Type} [Zero R] [Add R] [Mul R]
    (fuel row_index_B : Nat) (val_A : R)
    (B_row_buffer B_col_buffer : List Nat) (B_elements : List R) (B_size2 : Nat)
    (row_C_vector_input : List Nat) (row_C_vector_input_end : Nat)
    (row_C_vector_input_values : List R)
    (row_C_vector_output : List Nat) (row_C_vector_output_values : List R) :
    Except Fault (Nat × List Nat × List R) := do
  let current_col_input ← load_index row_C_vector_input 0 row_C_vector_input_end B_size2
  let current_col_input_value ← load_value row_C_vector_input_values 0 row_C_vector_input_end 0
  let row_B_end ← readAt B_row_buffer (u32_add row_index_B 1)
  let j ← readAt B_row_buffer row_index_B
  let st ← scan_row_B_numeric val_A B_col_buffer B_elements row_C_vector_input
    row_C_vector_input_values row_C_vector_input_end B_size2 fuel (row_B_end - j) j
    { row_C_vector_input := 0, row_C_vector_input_values := 0,
      current_col_input := current_col_input,
      current_col_input_value := current_col_input_value,
      out := row_C_vector_output, out_values := row_C_vector_output_values,
      output_ptr := 0, output_ptr_values := 0 }
  let r ← copy_remaining_numeric row_C_vector_input row_C_vector_input_values
    (row_C_vector_input_end - st.row_C_vector_input)
    st.row_C_vector_input st.row_C_vector_input_values
    { out := st.out, out_values := st.out_values, output_ptr := st.output_ptr,
      output_ptr_values := st.output_ptr_values }
  .ok (u32_cast r.output_ptr, r.out, r.out_values)

/-! ## Numeric row driver -/

/-- Scratch state of the drivers: `row_C_len` and the four scratch pointers as
the local variables designate them. -/
structure Scratch (R : Type) where
  row_C_len : Nat
  row_C_vector_1 : List Nat
  row_C_vector_1_values : List R
  row_C_vector_2 : List Nat
  row_C_vector_2_values : List R
  deriving DecidableEq, Repr

/-- The loop `while (row_end_A > row_start_A)` of `row_C_scan_numeric_vector`. -/
def numeric_chunk_loop {R : Type} [Zero R] [One R] [Add R] [Mul R]
    (A_col_buffer : List Nat) (A_elements : List R)
    (B_row_buffer B_col_buffer : List Nat) (B_elements : List R)
    (B_size2 row_end_A fuel : Nat) : Nat → Nat → Scratch R → Except Fault (Scratch R)
  | 0, _, _ => .error .outOfFuel
  | k + 1, row_start_A, s =>
    if row_end_A > row_start_A then
      if row_end_A - row_start_A > 3 then do
        let r ← row_C_scan_numeric_vector_N fuel 3 (A_col_buffer.drop row_start_A)
          (A_elements.drop row_start_A) B_row_buffer B_col_buffer B_elements B_size2
          s.row_C_vector_1 s.row_C_len s.row_C_vector_1_values
          s.row_C_vector_2 s.row_C_vector_2_values
        numeric_chunk_loop A_col_buffer A_elements B_row_buffer B_col_buffer B_elements
          B_size2 row_end_A fuel k (row_start_A + 3)
          { row_C_len := r.1, row_C_vector_1 := r.2.1, row_C_vector_1_values := r.2.2,
            row_C_vector_2 := s.row_C_vector_1,
            row_C_vector_2_values := s.row_C_vector_1_values }
      else do
        let row ← readAt A_col_buffer row_start_A
        let a ← readAt A_elements row_start_A
        let r ← row_C_scan_numeric_vector_1 fuel row a
          B_row_buffer B_col_buffer B_elements B_size2
          s.row_C_vector_1 s.row_C_len s.row_C_vector_1_values
          s.row_C_vector_2 s.row_C_vector_2_values
        numeric_chunk_loop A_col_buffer A_elements B_row_buffer B_col_buffer B_elements
          B_size2 row_end_A fuel k (row_start_A + 1)
          { row_C_len := r.1, row_C_vector_1 := r.2.1, row_C_vector_1_values := r.2.2,
            row_C_vector_2 := s.row_C_vector_1,
            row_C_vector_2_values := s.row_C_vector_1_values }
    else .ok s

/-- The copy loop of the length-one case with `n = B_end - j`; `p` is the
common offset of the advanced `C_col_buffer` and `C_elements`. -/
def copy_scaled_row {R : Type} [Mul R] (A_value : R) (B_col_buffer : List Nat)
    (B_elements : List R) : Nat → Nat → Nat → List Nat → List R →
    Except Fault (List Nat × List R × Nat)
  | 0, _, p, C_col_buffer, C_elements => .ok (C_col_buffer, C_elements, p)
  | n + 1, j, p, C_col_buffer, C_elements => do
    let c ← readAt B_col_buffer j
    let C_col1 ← writeAt C_col_buffer p c
    let b ← readAt B_elements j
    let C_el1 ← writeAt C_elements p (A_value * b)
    copy_scaled_row A_value B_col_buffer B_elements n (j + 1) (p + 1) C_col1 C_el1

/-- The loop "copy to output" with `n = row_C_len - i`. -/
def copy_to_output {R : Type} (row_C_vector_1 : List Nat) (row_C_vector_1_values : List R) :
    Nat → Nat → Nat → List Nat → List R → Except Fault (List Nat × List R × Nat)
  | 0, _, p, C_col_buffer, C_elements => .ok (C_col_buffer, C_elements, p)
  | n + 1, i, p, C_col_buffer, C_elements => do
    let c ← readAt row_C_vector_1 i
    let C_col1 ← writeAt C_col_buffer p c
    let x ← readAt row_C_vector_1_values i
    let C_el1 ← writeAt C_elements p x
    copy_to_output row_C_vector_1 row_C_vector_1_values n (i + 1) (p + 1) C_col1 C_el1

/-- What `row_C_scan_numeric_vector` leaves behind: the two output arrays, the
scratch buffers, and `written`, the number of cells by which the local
`C_col_buffer` (and `C_elements`) pointer was advanced past `row_start_C`,
that is, the number of entries written. -/
structure NumericResult (R : Type) where
  C_col_buffer : List Nat
  C_elements : List R
  written : Nat
  row_C_vector_1 : List Nat
  row_C_vector_1_values : List R
  row_C_vector_2 : List Nat
  row_C_vector_2_values : List R
  deriving DecidableEq, Repr

/-- `row_C_scan_numeric_vector` (`row_end_C` is unused, as in the source). -/
def row_C_scan_numeric_vector {R : Type} [Zero R] [One R] [Add R] [Mul R]
    (fuel row_start_A row_end_A : Nat) (A_col_buffer : List Nat) (A_elements : List R)
    (B_row_buffer B_col_buffer : List Nat) (B_elements : List R) (B_size2 : Nat)
    (row_start_C _row_end_C : Nat) (C_col_buffer : List Nat) (C_elements : List R)
    (row_C_vector_1 : List Nat) (row_C_vector_1_values : List R)
    (row_C_vector_2 : List Nat) (row_C_vector_2_values : List R) :
    Except Fault (NumericResult R) :=
  if row_start_A = row_end_A then
    .ok { C_col_buffer := C_col_buffer, C_elements := C_elements, written := 0,
          row_C_vector_1 := row_C_vector_1, row_C_vector_1_values := row_C_vector_1_values,
          row_C_vector_2 := row_C_vector_2, row_C_vector_2_values := row_C_vector_2_values }
  else if u32_sub row_end_A row_start_A = 1 then do
    let A_col ← readAt A_col_buffer row_start_A
    let B_end ← readAt B_row_buffer (u32_add A_col 1)
    let A_value ← readAt A_elements row_start_A
    let j ← readAt B_row_buffer A_col
    let r ← copy_scaled_row A_value B_col_buffer B_elements (B_end - j) j row_start_C
      C_col_buffer C_elements
    .ok { C_col_buffer := r.1, C_elements := r.2.1, written := r.2.2 - row_start_C,
          row_C_vector_1 := row_C_vector_1, row_C_vector_1_values := row_C_vector_1_values,
          row_C_vector_2 := row_C_vector_2, row_C_vector_2_values := row_C_vector_2_values }
  else do
    let s ← numeric_chunk_loop A_col_buffer A_elements B_row_buffer B_col_buffer B_elements
      B_size2 row_end_A fuel fuel row_start_A
      { row_C_len := 0, row_C_vector_1 := row_C_vector_1,
        row_C_vector_1_values := row_C_vector_1_values,
        row_C_vector_2 := row_C_vector_2, row_C_vector_2_values := row_C_vector_2_values }
    let r ← copy_to_output s.row_C_vector_1 s.row_C_vector_1_values s.row_C_len 0 row_start_C
      C_col_buffer C_elements
    .ok { C_col_buffer := r.1, C_elements := r.2.1, written := r.2.2 - row_start_C,
          row_C_vector_1 := s.row_C_vector_1, row_C_vector_1_values := s.row_C_vector_1_values,
          row_C_vector_2 := s.row_C_vector_2, row_C_vector_2_values := s.row_C_vector_2_values }


/-! ## Specification-level definitions

Sparse rows as lists of (column, value) pairs, and the merges written as list
functions with the control structure of the code above. -/

/-- A sparse row: (column, value) pairs in storage order. -/
abbrev Row (R : Type) := List (Nat × R)

/-- Column sequence of a row. -/
def cols {R : Type} (s : Row R) : List Nat := s.map Prod.fst

/-- Value sequence of a row. -/
def vals {R : Type} (s : Row R) : List R := s.map Prod.snd

/-- Value a row holds for column `c`: that of its first entry at `c`, zero
when the row has no entry at `c`. -/
def value_at {R : Type} [Zero R] : Row R → Nat → R
  | [], _ => 0
  | e :: rest, c => if e.1 = c then e.2 else value_at rest c

/-- Cells `lo .. hi-1` of an array. -/
def slice {α : Type} (xs : List α) (lo hi : Nat) : List α := (xs.drop lo).take (hi - lo)

/-- Column indices of row `r` of a CSR matrix. -/
def csr_cols (row_buffer col_buffer : List Nat) (r : Nat) : List Nat :=
  slice col_buffer (row_buffer.getD r 0) (row_buffer.getD (r + 1) 0)

/-- Row `r` of a CSR matrix. -/
def csr_row {R : Type} (row_buffer col_buffer : List Nat) (elements : List R) (r : Nat) :
    Row R :=
  (slice col_buffer (row_buffer.getD r 0) (row_buffer.getD (r + 1) 0)).zip
    (slice elements (row_buffer.getD r 0) (row_buffer.getD (r + 1) 0))

/-- Strictly ascending column sequence. -/
def StrictAsc (l : List Nat) : Prop := l.Pairwise (fun a b => a < b)

instance (l : List Nat) : Decidable (StrictAsc l) := by
  unfold StrictAsc; exact inferInstance

/-- Current value of a cursor over `s`: its next column, or the sentinel. -/
def head_col {R : Type} (B_size2 : Nat) : Row R → Nat
  | [] => B_size2
  | e :: _ => e.1

/-- Minimum over a front of weighted streams, started from `m`. -/
def min_head {R : Type} (B_size2 m : Nat) (streams : List (R × Row R)) : Nat :=
  streams.foldl (fun acc p => min acc (head_col B_size2 p.2)) m

/-- A stream after the cursors equal to `m` were advanced. -/
def drop_tied_row {R : Type} (m : Nat) : Row R → Row R
  | [] => []
  | e :: t => if e.1 = m then t else e :: t

/-- The front after the cursors equal to `m` were advanced. -/
def drop_tied {R : Type} (m : Nat) (streams : List (R × Row R)) : List (R × Row R) :=
  streams.map (fun p => (p.1, drop_tied_row m p.2))

/-- The value accumulated over the cursors equal to `m`, in slot order,
starting from `acc`. -/
def tied_sum {R : Type} [Add R] [Mul R] (m : Nat) : List (R × Row R) → R → R
  | [], acc => acc
  | (_, []) :: rest, acc => tied_sum m rest acc
  | (w, e :: _) :: rest, acc =>
    if e.1 = m then tied_sum m rest (acc + w * e.2) else tied_sum m rest acc

/-- The front merge as a list function: the entries the `while (1)` loop
emits from a front of weighted streams. -/
def merge_streams {R : Type} [Zero R] [Add R] [Mul R] (B_size2 : Nat) :
    Nat → List (R × Row R) → Row R
  | 0, _ => []
  | fuel + 1, streams =>
    let m := min_head B_size2 B_size2 streams
    if m = B_size2 then []
    else (m, tied_sum m streams 0) :: merge_streams B_size2 fuel (drop_tied m streams)

/-- The single-row merge as a list function: row `b` scaled by `w` merged
into the carried row `inp`. -/
def merge_row {R : Type} [Add R] [Mul R] (w : R) : Row R → Row R → Row R
  | [], inp => inp
  | e :: bs, inp =>
    inp.takeWhile (fun x => x.1 < e.1) ++
      (match inp.dropWhile (fun x => x.1 < e.1) with
       | [] => (e.1, w * e.2) :: merge_row w bs []
       | x :: rest =>
         if x.1 = e.1 then (e.1, w * e.2 + x.2) :: merge_row w bs rest
         else (e.1, w * e.2) :: merge_row w bs (x :: rest))

/-- Sum of the lengths of the streams of a front. -/
def total_length {R : Type} (streams : List (R × Row R)) : Nat :=
  (streams.map (fun p => p.2.length)).sum

/-- Weighted sum of the values the streams of a front hold for column `c`. -/
def weighted_sum {R : Type} [Zero R] [Add R] [Mul R] (streams : List (R × Row R)) (c : Nat) : R :=
  (streams.map (fun p => p.1 * value_at p.2 c)).sum

/-- A well-formed stream: strictly ascending columns, all below the sentinel. -/
def StreamOK {R : Type} (B_size2 : Nat) (s : Row R) : Prop :=
  StrictAsc (cols s) ∧ ∀ c ∈ cols s, c < B_size2

/-- Value a stream contributes at the column `m` the front is tied on. -/
def tied_val {R : Type} [Zero R] (m : Nat) : Row R → R
  | [] => 0
  | e :: _ => if e.1 = m then e.2 else 0

/-- What the front merge guarantees about its output `res` for the streams
`streams`: strictly ascending columns, exactly the union of the streams'
columns, each carrying the weighted sum of the streams' values. -/
def IsMergeOf {R : Type} [Zero R] [Add R] [Mul R] (res : Row R) (streams : List (R × Row R)) : Prop :=
  StrictAsc (cols res) ∧
  (∀ c, c ∈ cols res ↔ ∃ p ∈ streams, c ∈ cols p.2) ∧
  (∀ c, value_at res c = weighted_sum streams c)

/-- The cells of `buf` from offset `p` on, and of `vbuf` from offset `q` on,
hold the entries of `s`. -/
def Rep {R : Type} (buf : List Nat) (vbuf : List R) : Nat → Nat → Row R → Prop
  | _, _, [] => True
  | p, q, e :: t => buf[p]? = some e.1 ∧ vbuf[q]? = some e.2 ∧ Rep buf vbuf (p + 1) (q + 1) t

/-- Slot `e` of a numeric front is a cursor over the stream `ws.2` with weight `ws.1`. -/
def EntryRep {R : Type} (B_size2 : Nat) (e : NumFrontEntry R) (ws : R × Row R) : Prop :=
  e.values_A = ws.1 ∧ e.index_front_end - e.index_front_start = ws.2.length ∧
  Rep e.buf e.vbuf e.index_front_start e.value_front_start ws.2 ∧
  e.index_front = head_col B_size2 ws.2

/-- The front merge with the fuel its streams need. -/
def merge_front {R : Type} [Zero R] [Add R] [Mul R] (B_size2 : Nat)
    (streams : List (R × Row R)) : Row R :=
  merge_streams B_size2 (total_length streams + 1) streams

/-- Row `r` of the CSR matrix B can be read: its two row pointers exist, are
ordered and lie within the column and value arrays, and `r + 1` does not wrap. -/
def RowValid (B_row_buffer B_col_buffer : List Nat) (n_elements r : Nat) : Prop :=
  r + 1 < B_row_buffer.length ∧ r + 1 < U32 ∧
  B_row_buffer.getD r 0 ≤ B_row_buffer.getD (r + 1) 0 ∧
  B_row_buffer.getD (r + 1) 0 ≤ B_col_buffer.length ∧
  B_row_buffer.getD (r + 1) 0 ≤ n_elements

instance (B_row_buffer B_col_buffer : List Nat) (n_elements r : Nat) :
    Decidable (RowValid B_row_buffer B_col_buffer n_elements r) := by
  unfold RowValid; exact inferInstance

/-- The weighted rows of B selected by the `n` entries at offsets `i .. i+n-1`
of a left row given by its column and value arrays. -/
def selected_rows {R : Type} [Zero R] (row_indices_B : List Nat) (val_A : List R)
    (B_row_buffer B_col_buffer : List Nat) (B_elements : List R) : Nat → Nat → List (R × Row R)
  | 0, _ => []
  | n + 1, i =>
    (val_A.getD i 0, csr_row B_row_buffer B_col_buffer B_elements (row_indices_B.getD i 0)) ::
      selected_rows row_indices_B val_A B_row_buffer B_col_buffer B_elements n (i + 1)

/-- The carried partial row: the first `input_end` cells of the two input buffers. -/
def carried_row {R : Type} (input : List Nat) (input_values : List R) (input_end : Nat) : Row R :=
  (slice input 0 input_end).zip (slice input_values 0 input_end)

/-- Slot `e` of a numeric front, before its `index_front` is loaded, is a
cursor over the stream `ws.2` with weight `ws.1`. -/
def CursorRep {R : Type} (e : NumFrontEntry R) (ws : R × Row R) : Prop :=
  e.values_A = ws.1 ∧ e.index_front_end - e.index_front_start = ws.2.length ∧
  Rep e.buf e.vbuf e.index_front_start e.value_front_start ws.2

/-- Value under a cursor over `s`: its next value, or zero when exhausted. -/
def head_val {R : Type} [Zero R] : Row R → R
  | [] => 0
  | e :: _ => e.2

/-- The state `st` of the single-row merge stands in front of the carried
entries `inp`, with `pre` written so far and `rest` the unwritten part of the
output buffers. -/
def Scan1Rep {R : Type} [Zero R] (B_size2 : Nat) (input : List Nat) (input_values : List R)
    (input_end : Nat) (st : NumScan1 R) (inp : Row R)
    (pre rest : List Nat) (prev restv : List R) : Prop :=
  Rep input input_values st.row_C_vector_input st.row_C_vector_input_values inp ∧
  input_end - st.row_C_vector_input = inp.length ∧
  st.current_col_input = head_col B_size2 inp ∧
  st.current_col_input_value = head_val inp ∧
  st.out = pre ++ rest ∧ st.output_ptr = pre.length ∧
  st.out_values = prev ++ restv ∧ st.output_ptr_values = prev.length

/-- The chunk loop of the drivers as a list function: `entries` are the
weighted rows still to be merged, `cur` is the carried partial row. -/
def merge_chunks {R : Type} [Zero R] [One R] [Add R] [Mul R] (B_size2 : Nat) :
    Nat → List (R × Row R) → Row R → Row R
  | 0, _, cur => cur
  | k + 1, entries, cur =>
    if entries.length > 3 then
      merge_chunks B_size2 k (entries.drop 3)
        (merge_front B_size2 (entries.take 3 ++ [(1, cur)]))
    else
      match entries with
      | [] => cur
      | e :: es => merge_chunks B_size2 k es (merge_row e.1 e.2 cur)

/-- The scratch state `s` carries the partial row `cur` in its first buffer
pair, and all four buffers have at least `cap` cells. -/
def ScratchRep {R : Type} (s : Scratch R) (cur : Row R) (cap : Nat) : Prop :=
  s.row_C_len = cur.length ∧
  carried_row s.row_C_vector_1 s.row_C_vector_1_values s.row_C_len = cur ∧
  cap ≤ s.row_C_vector_1.length ∧ cap ≤ s.row_C_vector_1_values.length ∧
  cap ≤ s.row_C_vector_2.length ∧ cap ≤ s.row_C_vector_2_values.length

/-- Every entry `i` of the left row in `row_start_A .. row_end_A - 1` can be
read and selects a readable row of B whose columns lie below `B_size2`. -/
def EntriesValid {R : Type} (row_start_A row_end_A : Nat) (A_col_buffer : List Nat)
    (A_elements : List R) (B_row_buffer B_col_buffer : List Nat) (B_elements : List R)
    (B_size2 : Nat) : Prop :=
  ∀ i, row_start_A ≤ i → i < row_end_A →
    i < A_col_buffer.length ∧ i < A_elements.length ∧
    RowValid B_row_buffer B_col_buffer B_elements.length (A_col_buffer.getD i 0) ∧
    ∀ c ∈ csr_cols B_row_buffer B_col_buffer (A_col_buffer.getD i 0), c < B_size2

/-- A row with every value multiplied on the left by `a`. -/
def scale_row {R : Type} [Mul R] (a : R) (row : Row R) : Row R :=
  row.map (fun e => (e.1, a * e.2))

/-- The weighted rows of B selected by the left row `row_start_A .. row_end_A - 1`. -/
def row_entries {R : Type} [Zero R] (row_start_A row_end_A : Nat) (A_col_buffer : List Nat)
    (A_elements : List R) (B_row_buffer B_col_buffer : List Nat) (B_elements : List R) :
    List (R × Row R) :=
  selected_rows A_col_buffer A_elements B_row_buffer B_col_buffer B_elements
    (row_end_A - row_start_A) row_start_A

/-- The output row of the numeric driver as a list function of the weighted
rows it selects: empty, one scaled row, or the chunked merge. -/
def product_row {R : Type} [Zero R] [One R] [Add R] [Mul R] (B_size2 : Nat)
    (entries : List (R × Row R)) : Row R :=
  match entries with
  | [] => []
  | [e] => scale_row e.1 e.2
  | _ => merge_chunks B_size2 entries.length entries []

/-- An array after the cells `xs` were written into it from offset `p` on. -/
def written_at {α : Type} (C : List α) (p : Nat) (xs : List α) : List α :=
  C.take p ++ xs ++ C.drop (p + xs.length)

/-- The index fields of a numeric front slot. -/
def index_part {R : Type} (e : NumFrontEntry R) : FrontEntry :=
  { buf := e.buf, index_front := e.index_front,
    index_front_start := e.index_front_start, index_front_end := e.index_front_end }

/-- The index fields of the state of the numeric single-row merge. -/
def index_state {R : Type} (st : NumScan1 R) : Scan1 :=
  { row_C_vector_input := st.row_C_vector_input, current_col_input := st.current_col_input,
    out := st.out, output_ptr := st.output_ptr }

/-- The entries the numeric driver left in the output arrays: cells
`row_start_C .. row_start_C + written - 1` of `C_col_buffer` and `C_elements`. -/
def written_row {R : Type} (r : NumericResult R) (row_start_C : Nat) : Row R :=
  (slice r.C_col_buffer row_start_C (row_start_C + r.written)).zip
    (slice r.C_elements row_start_C (row_start_C + r.written))

/-- Sum of the nonzero counts of the rows of B selected by the left row. -/
def selected_nnz (row_start_A row_end_A : Nat) (A_col_buffer B_row_buffer B_col_buffer : List Nat) :
    Nat :=
  ((List.range' row_start_A (row_end_A - row_start_A)).map
    (fun i => (csr_cols B_row_buffer B_col_buffer (A_col_buffer.getD i 0)).length)).sum

/-- Well-formed input of the size pass: a left row `row_start_A .. row_end_A - 1`
whose columns are readable rows of B, each strictly ascending with columns
below `B_size2`; `unsigned int` arguments in range; and scratch buffers with
room for the sum of the nonzero counts of the selected rows. -/
def SymbolicInput (row_start_A row_end_A : Nat) (A_col_buffer B_row_buffer B_col_buffer : List Nat)
    (B_size2 : Nat) (row_C_vector_1 row_C_vector_2 : List Nat) : Prop :=
  row_start_A ≤ row_end_A ∧ row_end_A < U32 ∧ B_size2 < U32 ∧
  (∀ i, row_start_A ≤ i → i < row_end_A →
    i < A_col_buffer.length ∧
    RowValid B_row_buffer B_col_buffer B_col_buffer.length (A_col_buffer.getD i 0) ∧
    StrictAsc (csr_cols B_row_buffer B_col_buffer (A_col_buffer.getD i 0)) ∧
    ∀ c ∈ csr_cols B_row_buffer B_col_buffer (A_col_buffer.getD i 0), c < B_size2) ∧
  selected_nnz row_start_A row_end_A A_col_buffer B_row_buffer B_col_buffer
    ≤ row_C_vector_1.length ∧
  selected_nnz row_start_A row_end_A A_col_buffer B_row_buffer B_col_buffer
    ≤ row_C_vector_2.length

instance (row_start_A row_end_A : Nat) (A_col_buffer B_row_buffer B_col_buffer : List Nat)
    (B_size2 : Nat) (row_C_vector_1 row_C_vector_2 : List Nat) :
    Decidable (SymbolicInput row_start_A row_end_A A_col_buffer B_row_buffer B_col_buffer
      B_size2 row_C_vector_1 row_C_vector_2) := by
  unfold SymbolicInput; exact inferInstance

/-- Well-formed input of the content pass: a well-formed input of the size
pass whose value arrays run parallel to the column arrays and whose value
scratch buffers have the same room as the column scratch buffers. -/
def NumericInput {R : Type} (row_start_A row_end_A : Nat) (A_col_buffer : List Nat)
    (A_elements : List R) (B_row_buffer B_col_buffer : List Nat) (B_elements : List R)
    (B_size2 : Nat) (row_C_vector_1 : List Nat) (row_C_vector_1_values : List R)
    (row_C_vector_2 : List Nat) (row_C_vector_2_values : List R) : Prop :=
  SymbolicInput row_start_A row_end_A A_col_buffer B_row_buffer B_col_buffer B_size2
    row_C_vector_1 row_C_vector_2 ∧
  A_elements.length = A_col_buffer.length ∧ B_elements.length = B_col_buffer.length ∧
  selected_nnz row_start_A row_end_A A_col_buffer B_row_buffer B_col_buffer
    ≤ row_C_vector_1_values.length ∧
  selected_nnz row_start_A row_end_A A_col_buffer B_row_buffer B_col_buffer
    ≤ row_C_vector_2_values.length

instance {R : Type} (row_start_A row_end_A : Nat) (A_col_buffer : List Nat)
    (A_elements : List R) (B_row_buffer B_col_buffer : List Nat) (B_elements : List R)
    (B_size2 : Nat) (row_C_vector_1 : List Nat) (row_C_vector_1_values : List R)
    (row_C_vector_2 : List Nat) (row_C_vector_2_values : List R) :
    Decidable (NumericInput row_start_A row_end_A A_col_buffer A_elements B_row_buffer
      B_col_buffer B_elements B_size2 row_C_vector_1 row_C_vector_1_values
      row_C_vector_2 row_C_vector_2_values) := by
  unfold NumericInput; exact inferInstance

/-- The length the size pass returns for the row (zero if it does not return). -/
def symbolic_length (fuel row_start_A row_end_A : Nat) (A_col_buffer : List Nat)
    (B_row_buffer B_col_buffer : List Nat) (B_size2 : Nat)
    (row_C_vector_1 row_C_vector_2 : List Nat) : Nat :=
  match row_C_scan_symbolic_vector fuel row_start_A row_end_A A_col_buffer
      B_row_buffer B_col_buffer B_size2 row_C_vector_1 row_C_vector_2 with
  | .ok r => r.1
  | .error _ => 0

/-- A value array of integer zeros running parallel to `xs`. -/
def zeros (xs : List Nat) : List Int := xs.map (fun _ => 0)

/-- The left row `row_start_A .. row_end_A - 1` of A as a sparse row. -/
def left_row {R : Type} (row_start_A row_end_A : Nat) (A_col_buffer : List Nat)
    (A_elements : List R) : Row R :=
  (slice A_col_buffer row_start_A row_end_A).zip (slice A_elements row_start_A row_end_A)

/-- Entry `c` of the dense product row: the sum over all rows `k` of B of
`A[i,k] * B[k,c]`, where absent entries count as zero. -/
def dense_entry {R : Type} [Zero R] [Add R] [Mul R] (row_start_A row_end_A : Nat)
    (A_col_buffer : List Nat) (A_elements : List R)
    (B_row_buffer B_col_buffer : List Nat) (B_elements : List R) (c : Nat) : R :=
  ((List.range (B_row_buffer.length - 1)).map (fun k =>
    value_at (left_row row_start_A row_end_A A_col_buffer A_elements) k *
      value_at (csr_row B_row_buffer B_col_buffer B_elements k) c)).sum

/-- A call of the merge of `IndexNum` rows (size pass) whose memory is valid:
the `IndexNum` row indices can be read and select readable rows of B with
columns below `B_size2`; the carried input lies within its buffer; and the
output buffer has room for the nonzero counts of the selected rows plus the
carried input. -/
def FrontValid (IndexNum : Nat) (row_indices_B B_row_buffer B_col_buffer : List Nat)
    (B_size2 : Nat) (input : List Nat) (input_end : Nat) (out : List Nat) : Prop :=
  IndexNum ≤ row_indices_B.length ∧
  (∀ k, k < IndexNum →
    RowValid B_row_buffer B_col_buffer B_col_buffer.length (row_indices_B.getD k 0) ∧
    ∀ c ∈ csr_cols B_row_buffer B_col_buffer (row_indices_B.getD k 0), c < B_size2) ∧
  input_end ≤ input.length ∧
  selected_nnz 0 IndexNum row_indices_B B_row_buffer B_col_buffer + input_end ≤ out.length

instance (IndexNum : Nat) (row_indices_B B_row_buffer B_col_buffer : List Nat)
    (B_size2 : Nat) (input : List Nat) (input_end : Nat) (out : List Nat) :
    Decidable (FrontValid IndexNum row_indices_B B_row_buffer B_col_buffer B_size2 input
      input_end out) := by
  unfold FrontValid; exact inferInstance

/-- A call of the merge of `IndexNum` rows (content pass) whose memory is
valid: a valid call of the size pass whose value arrays run parallel to the
column arrays. -/
def FrontValidNumeric {R : Type} (IndexNum : Nat) (row_indices_B : List Nat) (val_A : List R)
    (B_row_buffer B_col_buffer : List Nat) (B_elements : List R) (B_size2 : Nat)
    (input : List Nat) (input_end : Nat) (input_values : List R)
    (out : List Nat) (out_values : List R) : Prop :=
  FrontValid IndexNum row_indices_B B_row_buffer B_col_buffer B_size2 input input_end out ∧
  IndexNum ≤ val_A.length ∧ B_elements.length = B_col_buffer.length ∧
  input_end ≤ input_values.length ∧
  selected_nnz 0 IndexNum row_indices_B B_row_buffer B_col_buffer + input_end
    ≤ out_values.length

instance {R : Type} (IndexNum : Nat) (row_indices_B : List Nat) (val_A : List R)
    (B_row_buffer B_col_buffer : List Nat) (B_elements : List R) (B_size2 : Nat)
    (input : List Nat) (input_end : Nat) (input_values : List R)
    (out : List Nat) (out_values : List R) :
    Decidable (FrontValidNumeric IndexNum row_indices_B val_A B_row_buffer B_col_buffer
      B_elements B_size2 input input_end input_values out out_values) := by
  unfold FrontValidNumeric; exact inferInstance

/-- The streams of a call of the merge of `IndexNum` rows are well formed:
each selected row of B and the carried input are strictly ascending, and the
columns of the carried input are below `B_size2`. -/
def FrontSorted (IndexNum : Nat) (row_indices_B B_row_buffer B_col_buffer : List Nat)
    (B_size2 : Nat) (input : List Nat) (input_end : Nat) : Prop :=
  (∀ k, k < IndexNum →
    StrictAsc (csr_cols B_row_buffer B_col_buffer (row_indices_B.getD k 0))) ∧
  StrictAsc (input.take input_end) ∧ ∀ c ∈ input.take input_end, c < B_size2

instance (IndexNum : Nat) (row_indices_B B_row_buffer B_col_buffer : List Nat)
    (B_size2 : Nat) (input : List Nat) (input_end : Nat) :
    Decidable (FrontSorted IndexNum row_indices_B B_row_buffer B_col_buffer B_size2 input
      input_end) := by
  unfold FrontSorted; exact inferInstance

/-- A call of the single-row merge (size pass) whose memory is valid: row
`row_index_B` of B can be read and its columns are below `B_size2`; the
carried input lies within its buffer; and the output buffer has room for the
row plus the carried input. -/
def SingleValid (row_index_B : Nat) (B_row_buffer B_col_buffer : List Nat)
    (B_size2 : Nat) (input : List Nat) (input_end : Nat) (out : List Nat) : Prop :=
  RowValid B_row_buffer B_col_buffer B_col_buffer.length row_index_B ∧
  (∀ c ∈ csr_cols B_row_buffer B_col_buffer row_index_B, c < B_size2) ∧
  input_end ≤ input.length ∧
  (csr_cols B_row_buffer B_col_buffer row_index_B).length + input_end ≤ out.length

instance (row_index_B : Nat) (B_row_buffer B_col_buffer : List Nat)
    (B_size2 : Nat) (input : List Nat) (input_end : Nat) (out : List Nat) :
    Decidable (SingleValid row_index_B B_row_buffer B_col_buffer B_size2 input
      input_end out) := by
  unfold SingleValid; exact inferInstance

/-- A call of the single-row merge (content pass) whose memory is valid: a
valid call of the size pass whose value arrays run parallel to the column
arrays. -/
def SingleValidNumeric {R : Type} (row_index_B : Nat)
    (B_row_buffer B_col_buffer : List Nat) (B_elements : List R) (B_size2 : Nat)
    (input : List Nat) (input_end : Nat) (input_values : List R)
    (out : List Nat) (out_values : List R) : Prop :=
  SingleValid row_index_B B_row_buffer B_col_buffer B_size2 input input_end out ∧
  B_elements.length = B_col_buffer.length ∧
  input_end ≤ input_values.length ∧
  (csr_cols B_row_buffer B_col_buffer row_index_B).length + input_end ≤ out_values.length

instance {R : Type} (row_index_B : Nat)
    (B_row_buffer B_col_buffer : List Nat) (B_elements : List R) (B_size2 : Nat)
    (input : List Nat) (input_end : Nat) (input_values : List R)
    (out : List Nat) (out_values : List R) :
    Decidable (SingleValidNumeric row_index_B B_row_buffer B_col_buffer B_elements B_size2
      input input_end input_values out out_values) := by
  unfold SingleValidNumeric; exact inferInstance

/-- The streams of a call of the single-row merge are well formed: the
selected row of B and the carried input are strictly ascending, and the
columns of the carried input are below `B_size2`. -/
def SingleSorted (row_index_B : Nat) (B_row_buffer B_col_buffer : List Nat)
    (B_size2 : Nat) (input : List Nat) (input_end : Nat) : Prop :=
  StrictAsc (csr_cols B_row_buffer B_col_buffer row_index_B) ∧
  StrictAsc (input.take input_end) ∧ ∀ c ∈ input.take input_end, c < B_size2

instance (row_index_B : Nat) (B_row_buffer B_col_buffer : List Nat)
    (B_size2 : Nat) (input : List Nat) (input_end : Nat) :
    Decidable (SingleSorted row_index_B B_row_buffer B_col_buffer B_size2 input
      input_end) := by
  unfold SingleSorted; exact inferInstance

/-- Input of the size pass whose memory is valid: a left row
`row_start_A .. row_end_A - 1` whose columns are readable rows of B with
columns below `B_size2`; `unsigned int` arguments in range; and scratch
buffers with room for the sum of the nonzero counts of the selected rows.
Nothing is assumed about the order of the columns within a row. -/
def DriverValid (row_start_A row_end_A : Nat) (A_col_buffer B_row_buffer B_col_buffer : List Nat)
    (B_size2 : Nat) (row_C_vector_1 row_C_vector_2 : List Nat) : Prop :=
  row_start_A ≤ row_end_A ∧ row_end_A < U32 ∧
  (∀ i, row_start_A ≤ i → i < row_end_A →
    i < A_col_buffer.length ∧
    RowValid B_row_buffer B_col_buffer B_col_buffer.length (A_col_buffer.getD i 0) ∧
    ∀ c ∈ csr_cols B_row_buffer B_col_buffer (A_col_buffer.getD i 0), c < B_size2) ∧
  selected_nnz row_start_A row_end_A A_col_buffer B_row_buffer B_col_buffer
    ≤ row_C_vector_1.length ∧
  selected_nnz row_start_A row_end_A A_col_buffer B_row_buffer B_col_buffer
    ≤ row_C_vector_2.length

instance (row_start_A row_end_A : Nat) (A_col_buffer B_row_buffer B_col_buffer : List Nat)
    (B_size2 : Nat) (row_C_vector_1 row_C_vector_2 : List Nat) :
    Decidable (DriverValid row_start_A row_end_A A_col_buffer B_row_buffer B_col_buffer
      B_size2 row_C_vector_1 row_C_vector_2) := by
  unfold DriverValid; exact inferInstance

/-- Input of the content pass whose memory is valid: a valid input of the
size pass whose value arrays run parallel to the column arrays and whose
value scratch buffers have the same room as the column scratch buffers. -/
def DriverValidNumeric {R : Type} (row_start_A row_end_A : Nat) (A_col_buffer : List Nat)
    (A_elements : List R) (B_row_buffer B_col_buffer : List Nat) (B_elements : List R)
    (B_size2 : Nat) (row_C_vector_1 : List Nat) (row_C_vector_1_values : List R)
    (row_C_vector_2 : List Nat) (row_C_vector_2_values : List R) : Prop :=
  DriverValid row_start_A row_end_A A_col_buffer B_row_buffer B_col_buffer B_size2
    row_C_vector_1 row_C_vector_2 ∧
  A_elements.length = A_col_buffer.length ∧ B_elements.length = B_col_buffer.length ∧
  selected_nnz row_start_A row_end_A A_col_buffer B_row_buffer B_col_buffer
    ≤ row_C_vector_1_values.length ∧
  selected_nnz row_start_A row_end_A A_col_buffer B_row_buffer B_col_buffer
    ≤ row_C_vector_2_values.length

instance {R : Type} (row_start_A row_end_A : Nat) (A_col_buffer : List Nat)
    (A_elements : List R) (B_row_buffer B_col_buffer : List Nat) (B_elements : List R)
    (B_size2 : Nat) (row_C_vector_1 : List Nat) (row_C_vector_1_values : List R)
    (row_C_vector_2 : List Nat) (row_C_vector_2_values : List R) :
    Decidable (DriverValidNumeric row_start_A row_end_A A_col_buffer A_elements B_row_buffer
      B_col_buffer B_elements B_size2 row_C_vector_1 row_C_vector_1_values
      row_C_vector_2 row_C_vector_2_values) := by
  unfold DriverValidNumeric; exact inferInstance

/-- The local variables of the loop of `row_C_scan_symbolic_vector`. -/
structure SymScratch where
  row_start_A : Nat
  row_C_len : Nat
  row_C_vector_1 : List Nat
  row_C_vector_2 : List Nat
  deriving DecidableEq, Repr

/-- The loop `while (row_end_A > row_start_A)` of `row_C_scan_symbolic_vector`
with its history: the same loop, yielding the values its local variables have
at each evaluation of the loop condition, in order. -/
def symbolic_chunk_history (A_col_buffer B_row_buffer B_col_buffer : List Nat)
    (B_size2 row_end_A fuel : Nat) :
    Nat → Nat → Nat → List Nat → List Nat → Except Fault (List SymScratch)
  | 0, _, _, _, _ => .error .outOfFuel
  | k + 1, row_start_A, row_C_len, row_C_vector_1, row_C_vector_2 =>
    if row_end_A > row_start_A then
      if row_end_A - row_start_A > 3 then do
        let r ← row_C_scan_symbolic_vector_N fuel 3 (A_col_buffer.drop row_start_A)
          B_row_buffer B_col_buffer B_size2 row_C_vector_1 row_C_len row_C_vector_2
        let rest ← symbolic_chunk_history A_col_buffer B_row_buffer B_col_buffer B_size2
          row_end_A fuel k (row_start_A + 3) r.1 r.2 row_C_vector_1
        .ok ({ row_start_A := row_start_A, row_C_len := row_C_len,
               row_C_vector_1 := row_C_vector_1, row_C_vector_2 := row_C_vector_2 } :: rest)
      else do
        let row ← readAt A_col_buffer row_start_A
        let r ← row_C_scan_symbolic_vector_1 fuel row
          B_row_buffer B_col_buffer B_size2 row_C_vector_1 row_C_len row_C_vector_2
        let rest ← symbolic_chunk_history A_col_buffer B_row_buffer B_col_buffer B_size2
          row_end_A fuel k (row_start_A + 1) r.1 r.2 row_C_vector_1
        .ok ({ row_start_A := row_start_A, row_C_len := row_C_len,
               row_C_vector_1 := row_C_vector_1, row_C_vector_2 := row_C_vector_2 } :: rest)
    else .ok [{ row_start_A := row_start_A, row_C_len := row_C_len,
                row_C_vector_1 := row_C_vector_1, row_C_vector_2 := row_C_vector_2 }]

/-- Number of stream elements the cursors of a front have not consumed yet:
the sum of `index_front_end[i] - index_front_start[i]` over the slots. -/
def unconsumed (front : List FrontEntry) : Nat :=
  (front.map (fun e => e.index_front_end - e.index_front_start)).sum

/-- The enumeration `scheduler::operation_node_type`. Its declaration
(`viennacl/scheduler/forwards.h`) is not among the sources: the enumerators
are those `evaluate_expression.hpp` names as `case` labels, which the `switch`
of `evaluate` requires to be pairwise distinct; every other value of the type
is `other x`, the type `Other` of those values being a parameter. -/
inductive operation_node_type (Other : Type) where
  | OPERATION_UNARY_ABS_TYPE
  | OPERATION_UNARY_ACOS_TYPE
  | OPERATION_UNARY_ASIN_TYPE
  | OPERATION_UNARY_ATAN_TYPE
  | OPERATION_UNARY_CEIL_TYPE
  | OPERATION_UNARY_COS_TYPE
  | OPERATION_UNARY_COSH_TYPE
  | OPERATION_UNARY_EXP_TYPE
  | OPERATION_UNARY_FABS_TYPE
  | OPERATION_UNARY_FLOOR_TYPE
  | OPERATION_UNARY_LOG_TYPE
  | OPERATION_UNARY_LOG10_TYPE
  | OPERATION_UNARY_SIN_TYPE
  | OPERATION_UNARY_SINH_TYPE
  | OPERATION_UNARY_SQRT_TYPE
  | OPERATION_UNARY_TAN_TYPE
  | OPERATION_UNARY_TANH_TYPE
  | OPERATION_BINARY_ELEMENT_ARGMAX_TYPE
  | OPERATION_BINARY_ELEMENT_ARGMIN_TYPE
  | OPERATION_BINARY_ELEMENT_POW_TYPE
  | OPERATION_UNARY_MINUS_TYPE
  | OPERATION_BINARY_ASSIGN_TYPE
  | OPERATION_BINARY_INPLACE_ADD_TYPE
  | OPERATION_BINARY_INPLACE_SUB_TYPE
  | OPERATION_BINARY_ADD_TYPE
  | OPERATION_BINARY_SUB_TYPE
  | OPERATION_BINARY_MULT_TYPE
  | OPERATION_BINARY_ELEMENT_PROD_TYPE
  | OPERATION_BINARY_DIV_TYPE
  | OPERATION_BINARY_ELEMENT_DIV_TYPE
  | OPERATION_BINARY_ACCESS_TYPE
  | OPERATION_BINARY_ELEMENT_EQ_TYPE
  | OPERATION_BINARY_ELEMENT_NEQ_TYPE
  | OPERATION_BINARY_ELEMENT_GREATER_TYPE
  | OPERATION_BINARY_ELEMENT_GEQ_TYPE
  | OPERATION_BINARY_ELEMENT_LESS_TYPE
  | OPERATION_BINARY_ELEMENT_LEQ_TYPE
  | OPERATION_BINARY_ELEMENT_FMAX_TYPE
  | OPERATION_BINARY_ELEMENT_FMIN_TYPE
  | OPERATION_UNARY_TRANS_TYPE
  | OPERATION_BINARY_INNER_PROD_TYPE
  | OPERATION_BINARY_MAT_MAT_PROD_TYPE
  | OPERATION_BINARY_MAT_VEC_PROD_TYPE
  | OPERATION_BINARY_VECTOR_DIAG_TYPE
  | OPERATION_BINARY_MATRIX_DIAG_TYPE
  | OPERATION_BINARY_MATRIX_ROW_TYPE
  | OPERATION_BINARY_MATRIX_COLUMN_TYPE
  | other (x : Other)

/-- The exception `generator_not_supported_exception` with its message. -/
structure generator_not_supported_exception where
  message : String
  deriving DecidableEq, Repr

/-- `evaluate`: the string generated from an `operation_node_type`; the
`default` branch throws. -/
def evaluate {Other : Type} :
    operation_node_type Other → Except generator_not_supported_exception String
  | .OPERATION_UNARY_ABS_TYPE => .ok "abs"
  | .OPERATION_UNARY_ACOS_TYPE => .ok "acos"
  | .OPERATION_UNARY_ASIN_TYPE => .ok "asin"
  | .OPERATION_UNARY_ATAN_TYPE => .ok "atan"
  | .OPERATION_UNARY_CEIL_TYPE => .ok "ceil"
  | .OPERATION_UNARY_COS_TYPE => .ok "cos"
  | .OPERATION_UNARY_COSH_TYPE => .ok "cosh"
  | .OPERATION_UNARY_EXP_TYPE => .ok "exp"
  | .OPERATION_UNARY_FABS_TYPE => .ok "fabs"
  | .OPERATION_UNARY_FLOOR_TYPE => .ok "floor"
  | .OPERATION_UNARY_LOG_TYPE => .ok "log"
  | .OPERATION_UNARY_LOG10_TYPE => .ok "log10"
  | .OPERATION_UNARY_SIN_TYPE => .ok "sin"
  | .OPERATION_UNARY_SINH_TYPE => .ok "sinh"
  | .OPERATION_UNARY_SQRT_TYPE => .ok "sqrt"
  | .OPERATION_UNARY_TAN_TYPE => .ok "tan"
  | .OPERATION_UNARY_TANH_TYPE => .ok "tanh"
  | .OPERATION_BINARY_ELEMENT_ARGMAX_TYPE => .ok "argmax"
  | .OPERATION_BINARY_ELEMENT_ARGMIN_TYPE => .ok "argmin"
  | .OPERATION_BINARY_ELEMENT_POW_TYPE => .ok "pow"
  | .OPERATION_UNARY_MINUS_TYPE => .ok "-"
  | .OPERATION_BINARY_ASSIGN_TYPE => .ok "="
  | .OPERATION_BINARY_INPLACE_ADD_TYPE => .ok "+="
  | .OPERATION_BINARY_INPLACE_SUB_TYPE => .ok "-="
  | .OPERATION_BINARY_ADD_TYPE => .ok "+"
  | .OPERATION_BINARY_SUB_TYPE => .ok "-"
  | .OPERATION_BINARY_MULT_TYPE => .ok "*"
  | .OPERATION_BINARY_ELEMENT_PROD_TYPE => .ok "*"
  | .OPERATION_BINARY_DIV_TYPE => .ok "/"
  | .OPERATION_BINARY_ELEMENT_DIV_TYPE => .ok "/"
  | .OPERATION_BINARY_ACCESS_TYPE => .ok "[]"
  | .OPERATION_BINARY_ELEMENT_EQ_TYPE => .ok "isequal"
  | .OPERATION_BINARY_ELEMENT_NEQ_TYPE => .ok "isnotequal"
  | .OPERATION_BINARY_ELEMENT_GREATER_TYPE => .ok "isgreater"
  | .OPERATION_BINARY_ELEMENT_GEQ_TYPE => .ok "isgreaterequal"
  | .OPERATION_BINARY_ELEMENT_LESS_TYPE => .ok "isless"
  | .OPERATION_BINARY_ELEMENT_LEQ_TYPE => .ok "islessequal"
  | .OPERATION_BINARY_ELEMENT_FMAX_TYPE => .ok "fmax"
  | .OPERATION_BINARY_ELEMENT_FMIN_TYPE => .ok "fmin"
  | .OPERATION_UNARY_TRANS_TYPE => .ok "trans"
  | .OPERATION_BINARY_INNER_PROD_TYPE => .ok "iprod"
  | .OPERATION_BINARY_MAT_MAT_PROD_TYPE => .ok "mmprod"
  | .OPERATION_BINARY_MAT_VEC_PROD_TYPE => .ok "mvprod"
  | .OPERATION_BINARY_VECTOR_DIAG_TYPE => .ok "diag"
  | .OPERATION_BINARY_MATRIX_DIAG_TYPE => .ok "diag"
  | .OPERATION_BINARY_MATRIX_ROW_TYPE => .ok "row"
  | .OPERATION_BINARY_MATRIX_COLUMN_TYPE => .ok "col"
  | .other _ => .error { message := "Unsupported operator" }

/-- `evaluate_str`: eleven cases of its own, `evaluate` in the `default` branch. -/
def evaluate_str {Other : Type} :
    operation_node_type Other → Except generator_not_supported_exception String
  | .OPERATION_UNARY_MINUS_TYPE => .ok "mi"
  | .OPERATION_BINARY_ASSIGN_TYPE => .ok "as"
  | .OPERATION_BINARY_INPLACE_ADD_TYPE => .ok "iad"
  | .OPERATION_BINARY_INPLACE_SUB_TYPE => .ok "isu"
  | .OPERATION_BINARY_ADD_TYPE => .ok "ad"
  | .OPERATION_BINARY_SUB_TYPE => .ok "su"
  | .OPERATION_BINARY_MULT_TYPE => .ok "mu"
  | .OPERATION_BINARY_ELEMENT_PROD_TYPE => .ok "epr"
  | .OPERATION_BINARY_DIV_TYPE => .ok "di"
  | .OPERATION_BINARY_ELEMENT_DIV_TYPE => .ok "edi"
  | .OPERATION_BINARY_ACCESS_TYPE => .ok "ac"
  | type => evaluate type

/-- The eleven operator types `evaluate_str` has a `case` of its own for. -/
def overridden_types (Other : Type) : List (operation_node_type Other) :=
  [.OPERATION_UNARY_MINUS_TYPE, .OPERATION_BINARY_ASSIGN_TYPE,
   .OPERATION_BINARY_INPLACE_ADD_TYPE, .OPERATION_BINARY_INPLACE_SUB_TYPE,
   .OPERATION_BINARY_ADD_TYPE, .OPERATION_BINARY_SUB_TYPE,
   .OPERATION_BINARY_MULT_TYPE, .OPERATION_BINARY_ELEMENT_PROD_TYPE,
   .OPERATION_BINARY_DIV_TYPE, .OPERATION_BINARY_ELEMENT_DIV_TYPE,
   .OPERATION_BINARY_ACCESS_TYPE]

/-- The `while (1)` loop of `row_C_scan_symbolic_vector_N` with its history:
the same loop, yielding the values the arrays `index_front`,
`index_front_start` and `index_front_end` have at the start of each iteration
(the last one being the iteration that leaves the loop), in order. -/
def symbolic_front_history (B_size2 : Nat) :
    Nat → List FrontEntry → List Nat → Nat → Except Fault (List (List FrontEntry))
  | 0, _, _, _ => .error .outOfFuel
  | fuel + 1, front, out, output_ptr =>
    let m := min_index_in_front B_size2 front
    if m = B_size2 then .ok [front]
    else do
      let front1 ← advance_front B_size2 m front
      let out1 ← writeAt out output_ptr m
      let rest ← symbolic_front_history B_size2 fuel front1 out1 (output_ptr + 1)
      .ok (front :: rest)

/-- `row_C_scan_symbolic_vector_N<IndexNum>` with the history of its main
loop: the same statements, yielding the fronts of `symbolic_front_history`
in place of the count. -/
def row_C_scan_symbolic_vector_N_history (fuel IndexNum : Nat) (row_indices_B : List Nat)
    (B_row_buffer B_col_buffer : List Nat) (B_size2 : Nat)
    (row_C_vector_input : List Nat) (row_C_vector_input_end : Nat)
    (row_C_vector_output : List Nat) : Except Fault (List (List FrontEntry)) := do
  let rows ← setup_front row_indices_B B_row_buffer B_col_buffer IndexNum 0
  let front ← load_front B_size2
    (rows ++ [{ buf := row_C_vector_input, index_front := 0,
                index_front_start := 0, index_front_end := row_C_vector_input_end }])
  symbolic_front_history B_size2 fuel front row_C_vector_output 0

/-- The `while (1)` loop of `row_C_scan_numeric_vector_N` with its history:
the same loop, yielding the values the front arrays have at the start of each
iteration (the last one being the iteration that leaves the loop), in order. -/
def numeric_front_history {R : Type} [Zero R] [Add R] [Mul R] (B_size2 : Nat) :
    Nat → List (NumFrontEntry R) → NumOut R → Except Fault (List (List (NumFrontEntry R)))
  | 0, _, _ => .error .outOfFuel
  | fuel + 1, front, o =>
    let m := min_index_in_front_numeric B_size2 front
    if m = B_size2 then .ok [front]
    else do
      let r ← advance_front_numeric B_size2 m front 0
      let out1 ← writeAt o.out o.output_ptr m
      let outv1 ← writeAt o.out_values o.output_ptr_values r.2
      let rest ← numeric_front_history B_size2 fuel r.1
        { out := out1, out_values := outv1, output_ptr := o.output_ptr + 1,
          output_ptr_values := o.output_ptr_values + 1 }
      .ok (front :: rest)

/-- `row_C_scan_numeric_vector_N<IndexNum>` with the history of its main
loop: the same statements, yielding the fronts of `numeric_front_history` in
place of the count. -/
def row_C_scan_numeric_vector_N_history {R : Type} [Zero R] [One R] [Add R] [Mul R]
    (fuel IndexNum : Nat) (row_indices_B : List Nat) (val_A : List R)
    (B_row_buffer B_col_buffer : List Nat) (B_elements : List R) (B_size2 : Nat)
    (row_C_vector_input : List Nat) (row_C_vector_input_end : Nat)
    (row_C_vector_input_values : List R)
    (row_C_vector_output : List Nat) (row_C_vector_output_values : List R) :
    Except Fault (List (List (NumFrontEntry R))) := do
  let rows ← setup_front_numeric row_indices_B val_A B_row_buffer B_col_buffer B_elements
    IndexNum 0
  let front ← load_front_numeric B_size2
    (rows ++ [{ buf := row_C_vector_input, vbuf := row_C_vector_input_values,
                index_front := 0, index_front_start := 0,
                index_front_end := row_C_vector_input_end,
                value_front_start := 0, values_A := 1 }])
  numeric_front_history B_size2 fuel front
    { out := row_C_vector_output, out_values := row_C_vector_output_values,
      output_ptr := 0, output_ptr_values := 0 }

/-- Cursor invariant of one slot of the front: `index_front` is the element
at `index_front_start` when `index_front_start < index_front_end`, and is
`B_size2` otherwise. -/
def CursorLoaded (B_size2 : Nat) (e : FrontEntry) : Prop :=
  if e.index_front_start < e.index_front_end then
    e.buf[e.index_front_start]? = some e.index_front
  else e.index_front = B_size2

instance (B_size2 : Nat) (e : FrontEntry) : Decidable (CursorLoaded B_size2 e) := by
  unfold CursorLoaded; exact inferInstance

/-- The stream each slot of a front reads: the array its pointers point into
and its end pointer. -/
def front_streams (front : List FrontEntry) : List (List Nat × Nat) :=
  front.map (fun e => (e.buf, e.index_front_end))

/-- The streams of the `IndexNum + 1` contributors of a front merge: the rows
of B selected by `row_indices_B[0 .. IndexNum-1]`, each ending at its row end
in `B_col_buffer`, followed by the carried input. -/
def contributor_streams (IndexNum : Nat) (row_indices_B B_row_buffer B_col_buffer : List Nat)
    (row_C_vector_input : List Nat) (row_C_vector_input_end : Nat) : List (List Nat × Nat) :=
  (row_indices_B.take IndexNum).map (fun r => (B_col_buffer, B_row_buffer.getD (r + 1) 0))
    ++ [(row_C_vector_input, row_C_vector_input_end)]

/-- Every element the cursor of slot `e` has not consumed yet is below
`B_size2`. -/
def FrontBelow (B_size2 : Nat) (e : FrontEntry) : Prop :=
  ∀ p, e.index_front_start ≤ p → p < e.index_front_end →
    ∃ c, e.buf[p]? = some c ∧ c < B_size2

/-- Number of positions at which two arrays of the same length hold different
cells. -/
def changed_cells (before after : List Nat) : Nat :=
  (before.zip after).countP (fun p => decide (p.1 ≠ p.2))

/-! # Lemmas -/

variable {R : Type}

theorem min_head_le_start (B : Nat) (streams : List (R × Row R)) (m : Nat) :
    min_head B m streams ≤ m := by
  induction streams generalizing m with
  | nil => simp [min_head]
  | cons p ps ih =>
    simp only [min_head, List.foldl_cons] at ih ⊢
    exact le_trans (ih _) (Nat.min_le_left _ _)

theorem min_head_le_head (B : Nat) (streams : List (R × Row R)) (m : Nat)
    (p : R × Row R) (hp : p ∈ streams) : min_head B m streams ≤ head_col B p.2 := by
  induction streams generalizing m with
  | nil => simp at hp
  | cons q qs ih =>
    simp only [min_head, List.foldl_cons] at ih ⊢
    rcases List.mem_cons.1 hp with h | h
    · subst h
      exact le_trans (min_head_le_start B qs _) (Nat.min_le_right _ _)
    · exact ih _ h

theorem min_head_cases (B : Nat) (streams : List (R × Row R)) (m : Nat) :
    min_head B m streams = m ∨ ∃ p ∈ streams, min_head B m streams = head_col B p.2 := by
  induction streams generalizing m with
  | nil => left; simp [min_head]
  | cons q qs ih =>
    simp only [min_head, List.foldl_cons] at ih ⊢
    rcases ih (min m (head_col B q.2)) with h | ⟨p, hp, h⟩
    · rcases Nat.le_total m (head_col B q.2) with h1 | h1
      · left; rw [h, Nat.min_eq_left h1]
      · right; exact ⟨q, List.mem_cons_self _ _, by rw [h, Nat.min_eq_right h1]⟩
    · right; exact ⟨p, List.mem_cons_of_mem _ hp, h⟩

theorem cols_cons (e : Nat × R) (t : Row R) : cols (e :: t) = e.1 :: cols t := rfl

theorem cols_nil : cols ([] : Row R) = [] := rfl

theorem cols_append (s t : Row R) : cols (s ++ t) = cols s ++ cols t := by
  simp [cols]

theorem length_cols (s : Row R) : (cols s).length = s.length := by simp [cols]

theorem length_vals (s : Row R) : (vals s).length = s.length := by simp [vals]

theorem streamOK_tail {B : Nat} {e : Nat × R} {t : Row R} (h : StreamOK B (e :: t)) :
    StreamOK B t := by
  obtain ⟨h1, h2⟩ := h
  refine ⟨(List.pairwise_cons.1 h1).2, fun c hc => h2 c ?_⟩
  rw [cols_cons]; exact List.mem_cons_of_mem _ hc

theorem streamOK_drop_tied_row {B : Nat} (m : Nat) {s : Row R} (h : StreamOK B s) :
    StreamOK B (drop_tied_row m s) := by
  cases s with
  | nil => exact h
  | cons e t =>
    simp only [drop_tied_row]
    split
    · exact streamOK_tail h
    · exact h

theorem drop_tied_row_subset (m : Nat) (s : Row R) (c : Nat)
    (h : c ∈ cols (drop_tied_row m s)) : c ∈ cols s := by
  cases s with
  | nil => exact h
  | cons e t =>
    simp only [drop_tied_row] at h
    split at h
    · rw [cols_cons]; exact List.mem_cons_of_mem _ h
    · exact h

theorem mem_cols_drop_tied_row (m : Nat) (s : Row R) (c : Nat) (h : c ∈ cols s) :
    c = m ∨ c ∈ cols (drop_tied_row m s) := by
  cases s with
  | nil => simp [cols] at h
  | cons e t =>
    simp only [drop_tied_row]
    rw [cols_cons] at h
    split
    · rename_i he
      rcases List.mem_cons.1 h with h1 | h1
      · left; rw [h1, he]
      · right; exact h1
    · right; rw [cols_cons]; exact h

theorem drop_tied_row_gt {B : Nat} (m : Nat) (s : Row R) (hs : StrictAsc (cols s))
    (hm : m ≤ head_col B s) (c : Nat) (h : c ∈ cols (drop_tied_row m s)) : m < c := by
  cases s with
  | nil => simp [drop_tied_row, cols] at h
  | cons e t =>
    simp only [drop_tied_row] at h
    simp only [head_col] at hm
    rw [cols_cons] at hs
    have hp := List.pairwise_cons.1 hs
    split at h
    · rename_i he
      have := hp.1 c h
      omega
    · rename_i he
      rw [cols_cons] at h
      rcases List.mem_cons.1 h with h1 | h1
      · omega
      · have := hp.1 c h1
        omega

theorem length_drop_tied_row_le (m : Nat) (s : Row R) :
    (drop_tied_row m s).length ≤ s.length := by
  cases s with
  | nil => simp [drop_tied_row]
  | cons e t =>
    simp only [drop_tied_row]
    split <;> simp

theorem total_length_drop_tied_le (m : Nat) (streams : List (R × Row R)) :
    total_length (drop_tied m streams) ≤ total_length streams := by
  induction streams with
  | nil => simp [drop_tied, total_length]
  | cons p ps ih =>
    simp only [drop_tied, total_length, List.map_cons, List.sum_cons] at ih ⊢
    have := length_drop_tied_row_le m p.2
    omega

theorem length_drop_tied_row_lt (B m : Nat) (hm : m ≠ B) (s : Row R)
    (hh : head_col B s = m) : (drop_tied_row m s).length < s.length := by
  cases s with
  | nil => simp [head_col] at hh; omega
  | cons e t =>
    simp only [head_col] at hh
    simp [drop_tied_row, hh]

theorem total_length_drop_tied_lt (B m : Nat) (hm : m ≠ B) (streams : List (R × Row R))
    (p : R × Row R) (hp : p ∈ streams) (hh : head_col B p.2 = m) :
    total_length (drop_tied m streams) < total_length streams := by
  induction streams with
  | nil => simp at hp
  | cons q qs ih =>
    have hle := total_length_drop_tied_le m qs
    have hq := length_drop_tied_row_le m q.2
    simp only [drop_tied, total_length, List.map_cons, List.sum_cons] at ih hle ⊢
    rcases List.mem_cons.1 hp with h | h
    · subst h
      have := length_drop_tied_row_lt B m hm p.2 hh
      omega
    · have := ih h
      omega

theorem min_head_tied (B : Nat) (streams : List (R × Row R))
    (hm : min_head B B streams ≠ B) :
    ∃ p ∈ streams, head_col B p.2 = min_head B B streams := by
  rcases min_head_cases B streams B with h | ⟨p, hp, h⟩
  · exact absurd h hm
  · exact ⟨p, hp, h.symm⟩

theorem length_merge_streams_le [Zero R] [Add R] [Mul R] (B fuel : Nat)
    (streams : List (R × Row R)) :
    (merge_streams B fuel streams).length ≤ total_length streams := by
  induction fuel generalizing streams with
  | zero => simp [merge_streams]
  | succ n ih =>
    simp only [merge_streams]
    split
    · simp
    · rename_i hm
      obtain ⟨p, hp, hh⟩ := min_head_tied B streams hm
      have h1 := total_length_drop_tied_lt B _ hm streams p hp hh
      have h2 := ih (drop_tied (min_head B B streams) streams)
      simp only [List.length_cons]
      omega

theorem merge_streams_fuel [Zero R] [Add R] [Mul R] (B : Nat) (f1 f2 : Nat)
    (streams : List (R × Row R)) (h1 : total_length streams < f1)
    (h2 : total_length streams < f2) :
    merge_streams B f1 streams = merge_streams B f2 streams := by
  induction f1 generalizing f2 streams with
  | zero => omega
  | succ n ih =>
    cases f2 with
    | zero => omega
    | succ k =>
      simp only [merge_streams]
      split
      · rfl
      · rename_i hm
        obtain ⟨p, hp, hh⟩ := min_head_tied B streams hm
        have h3 := total_length_drop_tied_lt B _ hm streams p hp hh
        rw [ih k _ (by omega) (by omega)]

theorem value_at_of_not_mem [Zero R] (s : Row R) (c : Nat) (h : c ∉ cols s) :
    value_at s c = 0 := by
  induction s with
  | nil => rfl
  | cons e t ih =>
    rw [cols_cons] at h
    simp only [List.mem_cons, not_or] at h
    simp only [value_at]
    rw [if_neg (fun hh => h.1 hh.symm)]
    exact ih h.2

theorem value_at_tied [Zero R] {B : Nat} (m : Nat) (s : Row R) (hs : StrictAsc (cols s))
    (hm : m ≤ head_col B s) : value_at s m = tied_val m s := by
  cases s with
  | nil => rfl
  | cons e t =>
    simp only [value_at, tied_val]
    split
    · rfl
    · rename_i he
      apply value_at_of_not_mem
      intro hmem
      simp only [head_col] at hm
      rw [cols_cons] at hs
      have := (List.pairwise_cons.1 hs).1 m hmem
      omega

theorem value_at_drop_tied_row_self [Zero R] {B : Nat} (m : Nat) (s : Row R)
    (hs : StrictAsc (cols s)) (hm : m ≤ head_col B s) :
    value_at (drop_tied_row m s) m = 0 := by
  apply value_at_of_not_mem
  intro h
  have := drop_tied_row_gt m s hs hm m h
  omega

theorem value_at_drop_tied_row_ne [Zero R] (m : Nat) (s : Row R) (c : Nat) (hc : m ≠ c) :
    value_at (drop_tied_row m s) c = value_at s c := by
  cases s with
  | nil => rfl
  | cons e t =>
    simp only [drop_tied_row]
    split
    · rename_i he
      simp only [value_at]
      rw [if_neg (by rw [he]; exact hc)]
    · rfl

theorem tied_sum_eq [CommRing R] (m : Nat) (streams : List (R × Row R)) (acc : R) :
    tied_sum m streams acc = acc + (streams.map (fun p => p.1 * tied_val m p.2)).sum := by
  induction streams generalizing acc with
  | nil => simp [tied_sum]
  | cons p ps ih =>
    obtain ⟨w, s⟩ := p
    cases s with
    | nil =>
      have h0 : tied_val m ([] : Row R) = 0 := rfl
      simp only [tied_sum, List.map_cons, List.sum_cons, h0, ih, mul_zero, zero_add]
    | cons e t =>
      have h0 : tied_val m (e :: t) = if e.1 = m then e.2 else 0 := rfl
      simp only [tied_sum, List.map_cons, List.sum_cons, h0]
      split
      · rw [ih]; ring
      · rw [ih]; ring

theorem merge_streams_mem [Zero R] [Add R] [Mul R] (B fuel : Nat) (streams : List (R × Row R))
    (hok : ∀ p ∈ streams, StreamOK B p.2) (hfuel : total_length streams < fuel) (c : Nat) :
    c ∈ cols (merge_streams B fuel streams) ↔ ∃ p ∈ streams, c ∈ cols p.2 := by
  induction fuel generalizing streams with
  | zero => omega
  | succ n ih =>
    simp only [merge_streams]
    split
    · rename_i hm
      simp only [cols_nil, List.not_mem_nil, false_iff, not_exists, not_and]
      intro p hp hc
      have h1 := min_head_le_head B streams B p hp
      have h2 := (hok p hp).2 c hc
      cases hs : p.2 with
      | nil => rw [hs] at hc; simp [cols] at hc
      | cons e t =>
        rw [hs] at h1 hc
        simp only [head_col] at h1
        have h3 := (hok p hp).2 e.1 (by rw [hs, cols_cons]; exact List.mem_cons_self _ _)
        omega
    · rename_i hm
      obtain ⟨p, hp, hh⟩ := min_head_tied B streams hm
      have h3 := total_length_drop_tied_lt B _ hm streams p hp hh
      have hok2 : ∀ q ∈ drop_tied (min_head B B streams) streams, StreamOK B q.2 := by
        intro q hq
        simp only [drop_tied, List.mem_map] at hq
        obtain ⟨q0, hq0, rfl⟩ := hq
        exact streamOK_drop_tied_row _ (hok q0 hq0)
      rw [cols_cons, List.mem_cons, ih _ hok2 (by omega)]
      constructor
      · rintro (h | ⟨q, hq, hc⟩)
        · refine ⟨p, hp, ?_⟩
          cases hs : p.2 with
          | nil => rw [hs] at hh; simp only [head_col] at hh; exact absurd hh.symm hm
          | cons e t =>
            rw [hs] at hh
            simp only [head_col] at hh
            rw [cols_cons, h, ← hh]
            exact List.mem_cons_self _ _
        · simp only [drop_tied, List.mem_map] at hq
          obtain ⟨q0, hq0, rfl⟩ := hq
          exact ⟨q0, hq0, drop_tied_row_subset _ _ _ hc⟩
      · rintro ⟨q, hq, hc⟩
        rcases mem_cols_drop_tied_row (min_head B B streams) q.2 c hc with h | h
        · left; exact h
        · right
          exact ⟨(q.1, drop_tied_row _ q.2), by
            simp only [drop_tied, List.mem_map]; exact ⟨q, hq, rfl⟩, h⟩

theorem merge_streams_sorted [Zero R] [Add R] [Mul R] (B fuel : Nat)
    (streams : List (R × Row R))
    (hok : ∀ p ∈ streams, StreamOK B p.2) (hfuel : total_length streams < fuel) :
    StrictAsc (cols (merge_streams B fuel streams)) := by
  induction fuel generalizing streams with
  | zero => omega
  | succ n ih =>
    simp only [merge_streams]
    split
    · exact List.Pairwise.nil
    · rename_i hm
      obtain ⟨p, hp, hh⟩ := min_head_tied B streams hm
      have h3 := total_length_drop_tied_lt B _ hm streams p hp hh
      have hok2 : ∀ q ∈ drop_tied (min_head B B streams) streams, StreamOK B q.2 := by
        intro q hq
        simp only [drop_tied, List.mem_map] at hq
        obtain ⟨q0, hq0, rfl⟩ := hq
        exact streamOK_drop_tied_row _ (hok q0 hq0)
      rw [cols_cons]
      refine List.pairwise_cons.2 ⟨?_, ih _ hok2 (by omega)⟩
      intro c hc
      rw [merge_streams_mem B n _ hok2 (by omega)] at hc
      obtain ⟨q, hq, hc⟩ := hc
      simp only [drop_tied, List.mem_map] at hq
      obtain ⟨q0, hq0, rfl⟩ := hq
      exact drop_tied_row_gt _ q0.2 (hok q0 hq0).1 (min_head_le_head B streams B q0 hq0) c hc

theorem merge_streams_value [CommRing R] (B fuel : Nat) (streams : List (R × Row R))
    (hok : ∀ p ∈ streams, StreamOK B p.2) (hfuel : total_length streams < fuel) (c : Nat) :
    value_at (merge_streams B fuel streams) c = weighted_sum streams c := by
  induction fuel generalizing streams with
  | zero => omega
  | succ n ih =>
    simp only [merge_streams]
    split
    · rename_i hm
      simp only [value_at, weighted_sum]
      symm
      apply List.sum_eq_zero
      intro x hx
      simp only [List.mem_map] at hx
      obtain ⟨p, hp, rfl⟩ := hx
      have : c ∉ cols p.2 := by
        intro hc
        have := (merge_streams_mem B (n + 1) streams hok hfuel c).2 ⟨p, hp, hc⟩
        simp [merge_streams, hm, cols] at this
      rw [value_at_of_not_mem _ _ this, mul_zero]
    · rename_i hm
      obtain ⟨p, hp, hh⟩ := min_head_tied B streams hm
      have h3 := total_length_drop_tied_lt B _ hm streams p hp hh
      have hok2 : ∀ q ∈ drop_tied (min_head B B streams) streams, StreamOK B q.2 := by
        intro q hq
        simp only [drop_tied, List.mem_map] at hq
        obtain ⟨q0, hq0, rfl⟩ := hq
        exact streamOK_drop_tied_row _ (hok q0 hq0)
      simp only [value_at]
      split
      · rename_i hc
        subst hc
        rw [tied_sum_eq, zero_add, weighted_sum]
        congr 1
        apply List.map_congr_left
        intro q hq
        rw [value_at_tied _ q.2 (hok q hq).1 (min_head_le_head B streams B q hq)]
      · rename_i hc
        rw [ih _ hok2 (by omega), weighted_sum, weighted_sum, drop_tied, List.map_map]
        congr 1
        apply List.map_congr_left
        intro q _
        simp only [Function.comp]
        rw [value_at_drop_tied_row_ne _ _ _ hc]

theorem dropWhile_head_ge (k : Nat) (inp : Row R) :
    k ≤ head_col k (inp.dropWhile (fun x => x.1 < k)) := by
  induction inp with
  | nil => simp [head_col]
  | cons x rest ih =>
    rw [List.dropWhile_cons]
    split
    · exact ih
    · rename_i h
      simp only [head_col]
      simpa using h

theorem takeWhile_lt (k : Nat) (inp : Row R) (c : Nat)
    (h : c ∈ cols (inp.takeWhile (fun x => x.1 < k))) : c < k := by
  simp only [cols, List.mem_map] at h
  obtain ⟨x, hx, rfl⟩ := h
  simpa using List.mem_takeWhile_imp hx

theorem cols_take_drop (k : Nat) (inp : Row R) :
    cols (inp.takeWhile (fun x => x.1 < k)) ++ cols (inp.dropWhile (fun x => x.1 < k))
      = cols inp := by
  rw [← cols_append, List.takeWhile_append_dropWhile]

theorem strictAsc_takeWhile (k : Nat) (inp : Row R) (h : StrictAsc (cols inp)) :
    StrictAsc (cols (inp.takeWhile (fun x => x.1 < k))) := by
  rw [← cols_take_drop k inp] at h
  exact (List.pairwise_append.1 h).1

theorem strictAsc_dropWhile (k : Nat) (inp : Row R) (h : StrictAsc (cols inp)) :
    StrictAsc (cols (inp.dropWhile (fun x => x.1 < k))) := by
  rw [← cols_take_drop k inp] at h
  exact (List.pairwise_append.1 h).2.1

theorem strictAsc_drop_tied_row (m : Nat) (s : Row R) (h : StrictAsc (cols s)) :
    StrictAsc (cols (drop_tied_row m s)) := by
  cases s with
  | nil => exact h
  | cons e t =>
    simp only [drop_tied_row]
    split
    · exact (List.pairwise_cons.1 h).2
    · exact h

theorem merge_row_cons [CommRing R] (w : R) (e : Nat × R) (bs inp : Row R) :
    merge_row w (e :: bs) inp =
      inp.takeWhile (fun x => x.1 < e.1) ++
        (e.1, w * e.2 + tied_val e.1 (inp.dropWhile (fun x => x.1 < e.1))) ::
          merge_row w bs (drop_tied_row e.1 (inp.dropWhile (fun x => x.1 < e.1))) := by
  rw [merge_row]
  congr 1
  cases inp.dropWhile (fun x => x.1 < e.1) with
  | nil => simp [tied_val, drop_tied_row]
  | cons x rest =>
    simp only [tied_val, drop_tied_row]
    split
    · rfl
    · simp

theorem value_at_append [Zero R] (s t : Row R) (c : Nat) :
    value_at (s ++ t) c = if c ∈ cols s then value_at s c else value_at t c := by
  induction s with
  | nil => simp [cols]
  | cons e s ih =>
    simp only [List.cons_append, value_at, cols_cons, List.mem_cons]
    by_cases h : e.1 = c
    · simp [h]
    · have h2 : ¬ c = e.1 := fun hh => h hh.symm
      simp only [h, h2, if_false, false_or]
      exact ih

theorem length_merge_row_le [CommRing R] (w : R) (b inp : Row R) :
    (merge_row w b inp).length ≤ b.length + inp.length := by
  induction b generalizing inp with
  | nil => simp [merge_row]
  | cons e bs ih =>
    rw [merge_row_cons]
    have h1 := ih (drop_tied_row e.1 (inp.dropWhile (fun x => x.1 < e.1)))
    have h2 := length_drop_tied_row_le e.1 (inp.dropWhile (fun x => x.1 < e.1))
    have h3 : (inp.takeWhile (fun x => x.1 < e.1)).length
        + (inp.dropWhile (fun x => x.1 < e.1)).length = inp.length := by
      rw [← List.length_append, List.takeWhile_append_dropWhile]
    simp only [List.length_append, List.length_cons]
    omega

theorem merge_row_mem [CommRing R] (w : R) (b inp : Row R) (c : Nat) :
    c ∈ cols (merge_row w b inp) ↔ c ∈ cols b ∨ c ∈ cols inp := by
  induction b generalizing inp with
  | nil => simp [merge_row, cols]
  | cons e bs ih =>
    rw [merge_row_cons, cols_append, cols_cons, List.mem_append, List.mem_cons, ih,
      cols_cons, List.mem_cons, ← cols_take_drop e.1 inp, List.mem_append]
    constructor
    · rintro (h | h | h | h)
      · exact Or.inr (Or.inl h)
      · exact Or.inl (Or.inl h)
      · exact Or.inl (Or.inr h)
      · exact Or.inr (Or.inr (drop_tied_row_subset _ _ _ h))
    · rintro ((h | h) | h | h)
      · exact Or.inr (Or.inl h)
      · exact Or.inr (Or.inr (Or.inl h))
      · exact Or.inl h
      · rcases mem_cols_drop_tied_row e.1 _ c h with h1 | h1
        · exact Or.inr (Or.inl h1)
        · exact Or.inr (Or.inr (Or.inr h1))

theorem merge_row_sorted [CommRing R] (w : R) (b inp : Row R) (hb : StrictAsc (cols b))
    (hi : StrictAsc (cols inp)) : StrictAsc (cols (merge_row w b inp)) := by
  induction b generalizing inp with
  | nil => simpa [merge_row] using hi
  | cons e bs ih =>
    rw [merge_row_cons, cols_append, cols_cons]
    rw [cols_cons] at hb
    have hbp := List.pairwise_cons.1 hb
    have hd := strictAsc_dropWhile e.1 inp hi
    have hgt : ∀ c ∈ cols (merge_row w bs
        (drop_tied_row e.1 (inp.dropWhile (fun x => x.1 < e.1)))), e.1 < c := by
      intro c hc
      rcases (merge_row_mem w bs _ c).1 hc with h | h
      · exact hbp.1 c h
      · exact drop_tied_row_gt e.1 _ hd (dropWhile_head_ge e.1 inp) c h
    refine List.pairwise_append.2 ⟨strictAsc_takeWhile e.1 inp hi, ?_, ?_⟩
    · exact List.pairwise_cons.2 ⟨hgt, ih _ hbp.2 (strictAsc_drop_tied_row _ _ hd)⟩
    · intro a ha c hc
      have h1 := takeWhile_lt e.1 inp a ha
      rcases List.mem_cons.1 hc with h | h
      · omega
      · have := hgt c h
        omega

theorem merge_row_value [CommRing R] (w : R) (b inp : Row R) (hb : StrictAsc (cols b))
    (hi : StrictAsc (cols inp)) (c : Nat) :
    value_at (merge_row w b inp) c = w * value_at b c + value_at inp c := by
  induction b generalizing inp with
  | nil => simp [merge_row, value_at]
  | cons e bs ih =>
    rw [merge_row_cons, value_at_append]
    rw [cols_cons] at hb
    have hbp := List.pairwise_cons.1 hb
    have hd := strictAsc_dropWhile e.1 inp hi
    have hsplit : value_at inp c =
        if c ∈ cols (inp.takeWhile (fun x => x.1 < e.1))
        then value_at (inp.takeWhile (fun x => x.1 < e.1)) c
        else value_at (inp.dropWhile (fun x => x.1 < e.1)) c := by
      rw [← value_at_append, List.takeWhile_append_dropWhile]
    rw [hsplit]
    split
    · rename_i hc
      have hlt := takeWhile_lt e.1 inp c hc
      have : value_at (e :: bs) c = 0 := by
        apply value_at_of_not_mem
        rw [cols_cons]
        intro hmem
        rcases List.mem_cons.1 hmem with h | h
        · omega
        · have := hbp.1 c h
          omega
      rw [this, mul_zero, zero_add]
    · simp only [value_at]
      split
      · rename_i _ hc
        rw [← hc, value_at_tied e.1 _ hd (dropWhile_head_ge e.1 inp)]
      · rename_i _ hc
        rw [ih _ hbp.2 (strictAsc_drop_tied_row _ _ hd), value_at_drop_tied_row_ne _ _ _ hc]

@[simp] theorem ok_bind {α β : Type} (a : α) (f : α → Except Fault β) :
    (Except.ok a >>= f) = f a := rfl

@[simp] theorem error_bind {α β : Type} (x : Fault) (f : α → Except Fault β) :
    ((Except.error x : Except Fault α) >>= f) = Except.error x := rfl

@[simp] theorem pure_eq_ok {α : Type} (a : α) : (pure a : Except Fault α) = Except.ok a := rfl

theorem readAt_ok {α : Type} (xs : List α) (i : Nat) (v : α) (h : xs[i]? = some v) :
    readAt xs i = .ok v := by
  simp [readAt, h]

theorem writeAt_append {α : Type} (pre : List α) (x : α) (rest : List α) (v : α) :
    writeAt (pre ++ x :: rest) pre.length v = .ok (pre ++ v :: rest) := by
  simp [writeAt, List.set_append]

theorem writeAt_append_of_length {α : Type} (pre rest : List α) (v : α) (n : Nat)
    (hn : n = pre.length) (h : 0 < rest.length) :
    writeAt (pre ++ rest) n v = .ok ((pre ++ [v]) ++ rest.drop 1) := by
  subst hn
  cases rest with
  | nil => simp at h
  | cons x rest => simp [writeAt_append]

theorem slice_cons {α : Type} (xs : List α) (lo hi : Nat) (x : α) (h : lo < hi)
    (hx : xs[lo]? = some x) : slice xs lo hi = x :: slice xs (lo + 1) hi := by
  unfold slice
  have hlt : lo < xs.length := by
    rcases List.getElem?_eq_some_iff.1 hx with ⟨h1, _⟩
    exact h1
  have hx2 : xs[lo] = x := by
    rcases List.getElem?_eq_some_iff.1 hx with ⟨_, h2⟩
    exact h2
  rw [List.drop_eq_getElem_cons hlt, hx2]
  have : hi - lo = (hi - (lo + 1)) + 1 := by omega
  rw [this, List.take_succ_cons]

theorem slice_nil {α : Type} (xs : List α) (lo hi : Nat) (h : hi ≤ lo) : slice xs lo hi = [] := by
  unfold slice
  have : hi - lo = 0 := by omega
  rw [this, List.take_zero]

theorem length_slice {α : Type} (xs : List α) (lo hi : Nat) (h : hi ≤ xs.length) :
    (slice xs lo hi).length = hi - lo := by
  unfold slice
  simp only [List.length_take, List.length_drop]
  omega

theorem rep_slice (buf : List Nat) (vbuf : List R) (n lo hi : Nat) (hn : hi - lo = n)
    (h1 : hi ≤ buf.length) (h2 : hi ≤ vbuf.length) :
    Rep buf vbuf lo lo ((slice buf lo hi).zip (slice vbuf lo hi)) := by
  induction n generalizing lo with
  | zero =>
    rw [slice_nil buf lo hi (by omega)]
    simp [Rep]
  | succ k ih =>
    have hb : lo < buf.length := by omega
    have hv : lo < vbuf.length := by omega
    rw [slice_cons buf lo hi buf[lo] (by omega) (List.getElem?_eq_getElem hb),
      slice_cons vbuf lo hi vbuf[lo] (by omega) (List.getElem?_eq_getElem hv)]
    simp only [List.zip_cons_cons, Rep]
    exact ⟨List.getElem?_eq_getElem hb, List.getElem?_eq_getElem hv, ih (lo + 1) (by omega)⟩

theorem length_zip_slice (buf : List Nat) (vbuf : List R) (lo hi : Nat)
    (h1 : hi ≤ buf.length) (h2 : hi ≤ vbuf.length) :
    ((slice buf lo hi).zip (slice vbuf lo hi)).length = hi - lo := by
  rw [List.length_zip, length_slice _ _ _ h1, length_slice _ _ _ h2, Nat.min_self]

theorem cols_zip_slice (buf : List Nat) (vbuf : List R) (lo hi : Nat)
    (h1 : hi ≤ buf.length) (h2 : hi ≤ vbuf.length) :
    cols ((slice buf lo hi).zip (slice vbuf lo hi)) = slice buf lo hi := by
  unfold cols
  rw [List.map_fst_zip]
  rw [length_slice _ _ _ h1, length_slice _ _ _ h2]

theorem min_index_numeric_spec (B m0 : Nat) (front : List (NumFrontEntry R))
    (streams : List (R × Row R)) (h : List.Forall₂ (EntryRep B) front streams) :
    min_index_in_front_numeric m0 front = min_head B m0 streams := by
  induction h generalizing m0 with
  | nil => rfl
  | cons hab _ ih =>
    simp only [min_index_in_front_numeric, min_head, List.foldl_cons] at ih ⊢
    rw [hab.2.2.2]
    exact ih _

theorem load_index_rep (B : Nat) (buf : List Nat) (vbuf : List R) (p q stop : Nat) (s : Row R)
    (hlen : stop - p = s.length) (hrep : Rep buf vbuf p q s) :
    load_index buf p stop B = .ok (head_col B s) := by
  unfold load_index
  cases s with
  | nil =>
    simp only [List.length_nil] at hlen
    rw [if_neg (by omega)]
    rfl
  | cons e t =>
    simp only [List.length_cons] at hlen
    rw [if_pos (by omega)]
    exact readAt_ok _ _ _ hrep.1

theorem advance_front_numeric_spec [Add R] [Mul R] (B m : Nat) (hm : m ≠ B)
    (front : List (NumFrontEntry R)) (streams : List (R × Row R))
    (h : List.Forall₂ (EntryRep B) front streams) (acc : R) :
    ∃ front1, advance_front_numeric B m front acc = .ok (front1, tied_sum m streams acc) ∧
      List.Forall₂ (EntryRep B) front1 (drop_tied m streams) := by
  induction h generalizing acc with
  | nil => exact ⟨[], rfl, List.Forall₂.nil⟩
  | @cons e ws es wss hab _ ih =>
    obtain ⟨w, s⟩ := ws
    obtain ⟨hw, hlen, hrep, hidx⟩ := hab
    simp only at hw hlen hrep hidx
    cases s with
    | nil =>
      simp only [head_col] at hidx
      obtain ⟨front1, h1, h2⟩ := ih acc
      refine ⟨e :: front1, ?_, ?_⟩
      · simp only [advance_front_numeric, tied_sum]
        rw [if_neg (by rw [hidx]; exact fun hh => hm hh.symm), h1]
        rfl
      · simp only [drop_tied, List.map_cons]
        exact List.Forall₂.cons ⟨hw, hlen, hrep, hidx⟩ h2
    | cons x t =>
      simp only [head_col] at hidx
      simp only [List.length_cons] at hlen
      by_cases hx : x.1 = m
      · obtain ⟨front1, h1, h2⟩ := ih (acc + w * x.2)
        have hload := load_index_rep B e.buf e.vbuf (e.index_front_start + 1)
          (e.value_front_start + 1) e.index_front_end t (by omega) hrep.2.2
        refine ⟨{ e with index_front_start := e.index_front_start + 1,
                         index_front := head_col B t,
                         value_front_start := e.value_front_start + 1 } :: front1, ?_, ?_⟩
        · simp only [advance_front_numeric, tied_sum]
          rw [if_pos (by rw [hidx]; exact hx), if_pos hx, hload, readAt_ok _ _ _ hrep.2.1]
          simp only [ok_bind, hw, h1]
        · simp only [drop_tied, List.map_cons, drop_tied_row, if_pos hx]
          refine List.Forall₂.cons ⟨hw, ?_, hrep.2.2, rfl⟩ h2
          simp only
          omega
      · obtain ⟨front1, h1, h2⟩ := ih acc
        refine ⟨e :: front1, ?_, ?_⟩
        · simp only [advance_front_numeric, tied_sum]
          rw [if_neg (by rw [hidx]; exact hx), if_neg hx, h1]
          rfl
        · simp only [drop_tied, List.map_cons, drop_tied_row, if_neg hx]
          refine List.Forall₂.cons ⟨hw, ?_, hrep, hidx⟩ h2
          simp only [List.length_cons]
          omega

theorem cols_merge_step (m : Nat) (a : R) (res : Row R) : cols ((m, a) :: res) = m :: cols res := rfl

theorem vals_cons (e : Nat × R) (t : Row R) : vals (e :: t) = e.2 :: vals t := rfl

theorem vals_nil : vals ([] : Row R) = [] := rfl

theorem vals_append (s t : Row R) : vals (s ++ t) = vals s ++ vals t := by
  simp [vals]

theorem numeric_front_loop_spec [Zero R] [Add R] [Mul R] (B fuel : Nat)
    (front : List (NumFrontEntry R)) (streams : List (R × Row R))
    (h : List.Forall₂ (EntryRep B) front streams) (hfuel : total_length streams < fuel)
    (pre rest : List Nat) (prev restv : List R)
    (hc : (merge_streams B fuel streams).length ≤ rest.length)
    (hcv : (merge_streams B fuel streams).length ≤ restv.length) :
    numeric_front_loop B fuel front
      { out := pre ++ rest, out_values := prev ++ restv,
        output_ptr := pre.length, output_ptr_values := prev.length } =
    .ok { out := pre ++ cols (merge_streams B fuel streams)
                  ++ rest.drop (merge_streams B fuel streams).length,
          out_values := prev ++ vals (merge_streams B fuel streams)
                  ++ restv.drop (merge_streams B fuel streams).length,
          output_ptr := pre.length + (merge_streams B fuel streams).length,
          output_ptr_values := prev.length + (merge_streams B fuel streams).length } := by
  induction fuel generalizing front streams pre rest prev restv with
  | zero => omega
  | succ n ih =>
    simp only [numeric_front_loop, merge_streams] at hc hcv ⊢
    rw [min_index_numeric_spec B B front streams h]
    by_cases hm : min_head B B streams = B
    · simp only [hm, if_true, cols_nil, vals_nil, List.length_nil, List.drop_zero,
        List.append_nil, Nat.add_zero]
    · simp only [hm, if_false, List.length_cons] at hc hcv ⊢
      obtain ⟨front1, h1, h2⟩ :=
        advance_front_numeric_spec B (min_head B B streams) hm front streams h 0
      obtain ⟨p, hp, hh⟩ := min_head_tied B streams hm
      have h3 := total_length_drop_tied_lt B _ hm streams p hp hh
      rw [h1]
      simp only [ok_bind]
      rw [writeAt_append_of_length pre rest _ _ rfl (by omega),
        writeAt_append_of_length prev restv _ _ rfl (by omega)]
      simp only [ok_bind]
      have e1 : pre.length + 1 = (pre ++ [min_head B B streams]).length := by simp
      have e2 : prev.length + 1 =
          (prev ++ [tied_sum (min_head B B streams) streams 0]).length := by simp
      rw [e1, e2, ih front1 _ h2 (by omega) _ _ _ _
        (by simp only [List.length_drop]; omega) (by simp only [List.length_drop]; omega)]
      simp only [cols_merge_step, vals_cons, List.append_assoc, List.singleton_append,
        List.drop_drop, List.length_append, List.length_singleton, Nat.add_assoc,
        Nat.add_comm 1]

theorem getElem?_of_getD {α : Type} (xs : List α) (i : Nat) (d : α) (h : i < xs.length) :
    xs[i]? = some (xs.getD i d) := by
  rw [List.getD_eq_getElem?_getD, List.getElem?_eq_getElem h]
  rfl

theorem readAt_getD {α : Type} (xs : List α) (i : Nat) (d : α) (h : i < xs.length) :
    readAt xs i = .ok (xs.getD i d) :=
  readAt_ok _ _ _ (getElem?_of_getD xs i d h)

theorem u32_add_one (r : Nat) (h : r + 1 < U32) : u32_add r 1 = r + 1 := by
  unfold u32_add
  exact Nat.mod_eq_of_lt h

theorem u32_cast_of_lt (a : Nat) (h : a < U32) : u32_cast a = a := by
  unfold u32_cast
  exact Nat.mod_eq_of_lt h

theorem rowValid_cursor [Zero R] (B_row_buffer B_col_buffer : List Nat) (B_elements : List R)
    (r : Nat) (h : RowValid B_row_buffer B_col_buffer B_elements.length r) :
    Rep B_col_buffer B_elements (B_row_buffer.getD r 0) (B_row_buffer.getD r 0)
      (csr_row B_row_buffer B_col_buffer B_elements r) ∧
    (csr_row B_row_buffer B_col_buffer B_elements r).length
      = B_row_buffer.getD (r + 1) 0 - B_row_buffer.getD r 0 := by
  obtain ⟨_, _, h3, h4, h5⟩ := h
  exact ⟨rep_slice _ _ _ _ _ rfl h4 h5, length_zip_slice _ _ _ _ h4 h5⟩

theorem setup_front_numeric_spec [Zero R] (row_indices_B : List Nat) (val_A : List R)
    (B_row_buffer B_col_buffer : List Nat) (B_elements : List R) (n i : Nat)
    (h : ∀ k, i ≤ k → k < i + n → k < row_indices_B.length ∧ k < val_A.length ∧
      RowValid B_row_buffer B_col_buffer B_elements.length (row_indices_B.getD k 0)) :
    ∃ front, setup_front_numeric row_indices_B val_A B_row_buffer B_col_buffer B_elements n i
        = .ok front ∧
      List.Forall₂ CursorRep front
        (selected_rows row_indices_B val_A B_row_buffer B_col_buffer B_elements n i) := by
  induction n generalizing i with
  | zero => exact ⟨[], rfl, List.Forall₂.nil⟩
  | succ n ih =>
    obtain ⟨h1, h2, h3⟩ := h i (le_refl _) (by omega)
    obtain ⟨front, hf1, hf2⟩ := ih (i + 1) (fun k hk1 hk2 => h k (by omega) (by omega))
    have hc := rowValid_cursor B_row_buffer B_col_buffer B_elements _ h3
    obtain ⟨g1, g2, g3, g4, g5⟩ := h3
    refine ⟨{ buf := B_col_buffer, vbuf := B_elements, index_front := 0,
              index_front_start := B_row_buffer.getD (row_indices_B.getD i 0) 0,
              index_front_end := B_row_buffer.getD (row_indices_B.getD i 0 + 1) 0,
              value_front_start := B_row_buffer.getD (row_indices_B.getD i 0) 0,
              values_A := val_A.getD i 0 } :: front, ?_, ?_⟩
    · simp only [setup_front_numeric]
      rw [readAt_getD row_indices_B i 0 h1]
      simp only [ok_bind]
      rw [readAt_getD B_row_buffer _ 0 (by omega), u32_add_one _ g2,
        readAt_getD B_row_buffer _ 0 g1, readAt_getD val_A i 0 h2, hf1]
      simp only [ok_bind]
    · simp only [selected_rows]
      exact List.Forall₂.cons ⟨rfl, hc.2.symm, hc.1⟩ hf2

theorem load_front_numeric_spec (B : Nat) (front : List (NumFrontEntry R))
    (streams : List (R × Row R)) (h : List.Forall₂ CursorRep front streams) :
    ∃ front1, load_front_numeric B front = .ok front1 ∧
      List.Forall₂ (EntryRep B) front1 streams := by
  induction h with
  | nil => exact ⟨[], rfl, List.Forall₂.nil⟩
  | @cons e ws es wss hab _ ih =>
    obtain ⟨front1, h1, h2⟩ := ih
    obtain ⟨hw, hlen, hrep⟩ := hab
    refine ⟨{ e with index_front := head_col B ws.2 } :: front1, ?_, ?_⟩
    · simp only [load_front_numeric]
      rw [load_index_rep B e.buf e.vbuf _ _ _ ws.2 hlen hrep, h1]
      rfl
    · exact List.Forall₂.cons ⟨hw, hlen, hrep, rfl⟩ h2

theorem carried_cursor (input : List Nat) (input_values : List R) (input_end : Nat)
    (h1 : input_end ≤ input.length) (h2 : input_end ≤ input_values.length) :
    Rep input input_values 0 0 (carried_row input input_values input_end) ∧
      (carried_row input input_values input_end).length = input_end :=
  ⟨rep_slice _ _ _ _ _ rfl h1 h2, by
    unfold carried_row; rw [length_zip_slice _ _ _ _ h1 h2]; rfl⟩

theorem row_C_scan_numeric_vector_N_spec [Zero R] [One R] [Add R] [Mul R]
    (fuel IndexNum : Nat) (row_indices_B : List Nat) (val_A : List R)
    (B_row_buffer B_col_buffer : List Nat) (B_elements : List R) (B_size2 : Nat)
    (input : List Nat) (input_end : Nat) (input_values : List R)
    (out : List Nat) (out_values : List R) (streams : List (R × Row R))
    (hs : streams = selected_rows row_indices_B val_A B_row_buffer B_col_buffer B_elements
      IndexNum 0 ++ [(1, carried_row input input_values input_end)])
    (h : ∀ k, k < IndexNum → k < row_indices_B.length ∧ k < val_A.length ∧
      RowValid B_row_buffer B_col_buffer B_elements.length (row_indices_B.getD k 0))
    (hi1 : input_end ≤ input.length) (hi2 : input_end ≤ input_values.length)
    (hfuel : total_length streams < fuel)
    (hc : (merge_front B_size2 streams).length ≤ out.length)
    (hcv : (merge_front B_size2 streams).length ≤ out_values.length)
    (hu : (merge_front B_size2 streams).length < U32) :
    row_C_scan_numeric_vector_N fuel IndexNum row_indices_B val_A B_row_buffer B_col_buffer
      B_elements B_size2 input input_end input_values out out_values =
    .ok ((merge_front B_size2 streams).length,
         cols (merge_front B_size2 streams) ++ out.drop (merge_front B_size2 streams).length,
         vals (merge_front B_size2 streams)
           ++ out_values.drop (merge_front B_size2 streams).length) := by
  obtain ⟨rows, hr1, hr2⟩ := setup_front_numeric_spec row_indices_B val_A B_row_buffer
    B_col_buffer B_elements IndexNum 0 (fun k _ hk => h k (by omega))
  have hcar := carried_cursor input input_values input_end hi1 hi2
  have hall : List.Forall₂ CursorRep
      (rows ++ [{ buf := input, vbuf := input_values, index_front := 0,
                  index_front_start := 0, index_front_end := input_end,
                  value_front_start := 0, values_A := (1 : R) }]) streams := by
    rw [hs]
    exact List.rel_append hr2 (List.Forall₂.cons ⟨rfl, by simp only [hcar.2]; rfl, hcar.1⟩
      List.Forall₂.nil)
  obtain ⟨front, hf1, hf2⟩ := load_front_numeric_spec B_size2 _ _ hall
  have hfe : merge_streams B_size2 fuel streams = merge_front B_size2 streams :=
    merge_streams_fuel B_size2 _ _ streams hfuel (by omega)
  have hloop := numeric_front_loop_spec B_size2 fuel front streams hf2 hfuel [] out []
    out_values (by rw [hfe]; exact hc) (by rw [hfe]; exact hcv)
  simp only [row_C_scan_numeric_vector_N]
  rw [hr1]
  simp only [ok_bind]
  rw [hf1]
  simp only [ok_bind]
  simp only [List.nil_append, List.length_nil, Nat.zero_add] at hloop
  rw [hloop]
  simp only [ok_bind]
  rw [hfe, u32_cast_of_lt _ hu]

theorem load_value_rep [Zero R] (buf : List Nat) (vbuf : List R) (p q stop : Nat) (s : Row R)
    (hlen : stop - p = s.length) (hrep : Rep buf vbuf p q s) :
    load_value vbuf p stop q = .ok (head_val s) := by
  unfold load_value
  cases s with
  | nil =>
    simp only [List.length_nil] at hlen
    rw [if_neg (by omega)]
    rfl
  | cons e t =>
    simp only [List.length_cons] at hlen
    rw [if_pos (by omega)]
    exact readAt_ok _ _ _ hrep.2.1

theorem rep_drop (buf : List Nat) (vbuf : List R) (p q : Nat) (s t : Row R)
    (h : Rep buf vbuf p q (s ++ t)) : Rep buf vbuf (p + s.length) (q + s.length) t := by
  induction s generalizing p q with
  | nil => simpa using h
  | cons e s ih =>
    have := ih (p + 1) (q + 1) h.2.2
    simp only [List.length_cons]
    rw [show p + (s.length + 1) = p + 1 + s.length by omega,
      show q + (s.length + 1) = q + 1 + s.length by omega]
    exact this

theorem advance_input_numeric_spec [Zero R] (B : Nat) (input : List Nat)
    (input_values : List R) (input_end col_B : Nat) (hcol : col_B ≤ B)
    (inp : Row R) (fuel : Nat) (st : NumScan1 R) (pre rest : List Nat) (prev restv : List R)
    (h : Scan1Rep B input input_values input_end st inp pre rest prev restv)
    (hfuel : inp.length < fuel)
    (hc : (inp.takeWhile (fun x => x.1 < col_B)).length ≤ rest.length)
    (hcv : (inp.takeWhile (fun x => x.1 < col_B)).length ≤ restv.length) :
    ∃ st1, advance_input_numeric input input_values input_end B col_B fuel st = .ok st1 ∧
      Scan1Rep B input input_values input_end st1 (inp.dropWhile (fun x => x.1 < col_B))
        (pre ++ cols (inp.takeWhile (fun x => x.1 < col_B)))
        (rest.drop (inp.takeWhile (fun x => x.1 < col_B)).length)
        (prev ++ vals (inp.takeWhile (fun x => x.1 < col_B)))
        (restv.drop (inp.takeWhile (fun x => x.1 < col_B)).length) := by
  induction inp generalizing fuel st pre rest prev restv with
  | nil =>
    obtain ⟨h1, h2, h3, h4, h5, h6, h7, h8⟩ := h
    cases fuel with
    | zero => omega
    | succ f =>
      refine ⟨st, ?_, ?_⟩
      · simp only [advance_input_numeric]
        rw [if_neg (by rw [h3]; simp only [head_col]; omega)]
      · simp only [List.takeWhile_nil, List.dropWhile_nil, cols_nil, vals_nil,
          List.append_nil, List.length_nil, List.drop_zero]
        exact ⟨h1, h2, h3, h4, h5, h6, h7, h8⟩
  | cons x t ih =>
    obtain ⟨h1, h2, h3, h4, h5, h6, h7, h8⟩ := h
    cases fuel with
    | zero => omega
    | succ f =>
      simp only [List.length_cons] at hfuel h2
      by_cases hx : x.1 < col_B
      · have htw : List.takeWhile (fun x => decide (x.1 < col_B)) (x :: t)
            = x :: List.takeWhile (fun x => decide (x.1 < col_B)) t := by
          rw [List.takeWhile_cons]; simp [hx]
        have hdw : List.dropWhile (fun x => decide (x.1 < col_B)) (x :: t)
            = List.dropWhile (fun x => decide (x.1 < col_B)) t := by
          rw [List.dropWhile_cons]; simp [hx]
        rw [htw, hdw]
        rw [htw] at hc hcv
        simp only [List.length_cons] at hc hcv
        have hw1 := writeAt_append_of_length pre rest st.current_col_input st.output_ptr h6
          (by omega)
        have hw2 := writeAt_append_of_length prev restv st.current_col_input_value
          st.output_ptr_values h8 (by omega)
        have hl1 := load_index_rep B input input_values (st.row_C_vector_input + 1)
          (st.row_C_vector_input_values + 1) input_end t (by omega) h1.2.2
        have hl2 := load_value_rep input input_values (st.row_C_vector_input + 1)
          (st.row_C_vector_input_values + 1) input_end t (by omega) h1.2.2
        obtain ⟨st1, hs1, hs2⟩ := ih f
          { row_C_vector_input := st.row_C_vector_input + 1,
            row_C_vector_input_values := st.row_C_vector_input_values + 1,
            current_col_input := head_col B t, current_col_input_value := head_val t,
            out := (pre ++ [st.current_col_input]) ++ rest.drop 1,
            out_values := (prev ++ [st.current_col_input_value]) ++ restv.drop 1,
            output_ptr := st.output_ptr + 1,
            output_ptr_values := st.output_ptr_values + 1 }
          (pre ++ [st.current_col_input]) (rest.drop 1)
          (prev ++ [st.current_col_input_value]) (restv.drop 1)
          ⟨h1.2.2, by simp only; omega, rfl, rfl, rfl, by simp [h6], rfl, by simp [h8]⟩
          (by omega) (by simp only [List.length_drop]; omega)
          (by simp only [List.length_drop]; omega)
        refine ⟨st1, ?_, ?_⟩
        · simp only [advance_input_numeric]
          rw [if_pos (by rw [h3]; exact hx), h5, h7, hw1, hw2]
          simp only [ok_bind]
          rw [hl1, hl2]
          simp only [ok_bind]
          exact hs1
        · rw [h3, h4] at hs2
          simp only [head_col, head_val, List.drop_drop] at hs2
          simp only [cols_cons, vals_cons, List.length_cons]
          rw [show (List.takeWhile (fun x => decide (x.1 < col_B)) t).length + 1
            = 1 + (List.takeWhile (fun x => decide (x.1 < col_B)) t).length by omega]
          simpa [List.append_assoc] using hs2
      · have htw : List.takeWhile (fun x => decide (x.1 < col_B)) (x :: t) = [] := by
          rw [List.takeWhile_cons]; simp [hx]
        have hdw : List.dropWhile (fun x => decide (x.1 < col_B)) (x :: t) = x :: t := by
          rw [List.dropWhile_cons]; simp [hx]
        rw [htw, hdw]
        refine ⟨st, ?_, ?_⟩
        · simp only [advance_input_numeric]
          rw [if_neg (by rw [h3]; exact hx)]
        · simp only [cols_nil, vals_nil, List.append_nil, List.length_nil, List.drop_zero]
          exact ⟨h1, by simpa using h2, h3, h4, h5, h6, h7, h8⟩

theorem copy_remaining_numeric_spec (input : List Nat) (input_values : List R)
    (inp : Row R) (p q : Nat) (o : NumOut R) (pre rest : List Nat) (prev restv : List R)
    (hrep : Rep input input_values p q inp)
    (ho : o.out = pre ++ rest) (hp : o.output_ptr = pre.length)
    (hov : o.out_values = prev ++ restv) (hpv : o.output_ptr_values = prev.length)
    (hc : inp.length ≤ rest.length) (hcv : inp.length ≤ restv.length) :
    copy_remaining_numeric input input_values inp.length p q o =
      .ok { out := pre ++ cols inp ++ rest.drop inp.length,
            out_values := prev ++ vals inp ++ restv.drop inp.length,
            output_ptr := pre.length + inp.length,
            output_ptr_values := prev.length + inp.length } := by
  induction inp generalizing p q o pre rest prev restv with
  | nil =>
    simp only [List.length_nil, copy_remaining_numeric, cols_nil, vals_nil, List.append_nil,
      List.drop_zero, Nat.add_zero]
    rw [← ho, ← hp, ← hov, ← hpv]
  | cons x t ih =>
    simp only [List.length_cons] at hc hcv
    simp only [List.length_cons, copy_remaining_numeric]
    rw [readAt_ok _ _ _ hrep.1, readAt_ok _ _ _ hrep.2.1]
    simp only [ok_bind]
    rw [ho, hov, writeAt_append_of_length pre rest x.1 _ hp (by omega),
      writeAt_append_of_length prev restv x.2 _ hpv (by omega)]
    simp only [ok_bind]
    rw [ih (p + 1) (q + 1) _ (pre ++ [x.1]) (rest.drop 1) (prev ++ [x.2]) (restv.drop 1)
      hrep.2.2 rfl (by simp [hp]) rfl (by simp [hpv])
      (by simp only [List.length_drop]; omega) (by simp only [List.length_drop]; omega)]
    simp only [cols_cons, vals_cons, List.append_assoc, List.singleton_append,
      List.drop_drop, List.length_append, List.length_singleton, Nat.add_assoc,
      Nat.add_comm 1]

theorem length_takeWhile_add_dropWhile {α : Type} (p : α → Bool) (l : List α) :
    (l.takeWhile p).length + (l.dropWhile p).length = l.length := by
  rw [← List.length_append, List.takeWhile_append_dropWhile]

theorem out_combine {α : Type} (pre a : List α) (x : α) (b rest : List α) :
    (pre ++ a ++ [x]) ++ b ++ ((rest.drop a.length).drop 1).drop b.length
      = pre ++ (a ++ x :: b) ++ rest.drop (a ++ x :: b).length := by
  simp only [List.drop_drop, List.append_assoc, List.singleton_append, List.length_append,
    List.length_cons]
  rw [show a.length + 1 + b.length = a.length + (b.length + 1) by omega]

theorem scan_row_B_numeric_spec [Zero R] [Add R] [Mul R] (w : R) (B : Nat)
    (B_col_buffer : List Nat) (B_elements : List R) (input : List Nat)
    (input_values : List R) (input_end fuel : Nat)
    (brow : Row R) (j : Nat) (hb : Rep B_col_buffer B_elements j j brow)
    (hlt : ∀ c ∈ cols brow, c < B)
    (inp : Row R) (st : NumScan1 R) (pre rest : List Nat) (prev restv : List R)
    (h : Scan1Rep B input input_values input_end st inp pre rest prev restv)
    (hfuel : inp.length < fuel)
    (hc : (merge_row w brow inp).length ≤ rest.length)
    (hcv : (merge_row w brow inp).length ≤ restv.length) :
    (scan_row_B_numeric w B_col_buffer B_elements input input_values input_end B fuel
        brow.length j st >>= fun st1 =>
      copy_remaining_numeric input input_values (input_end - st1.row_C_vector_input)
        st1.row_C_vector_input st1.row_C_vector_input_values
        { out := st1.out, out_values := st1.out_values, output_ptr := st1.output_ptr,
          output_ptr_values := st1.output_ptr_values }) =
    .ok { out := pre ++ cols (merge_row w brow inp) ++ rest.drop (merge_row w brow inp).length,
          out_values := prev ++ vals (merge_row w brow inp)
            ++ restv.drop (merge_row w brow inp).length,
          output_ptr := pre.length + (merge_row w brow inp).length,
          output_ptr_values := prev.length + (merge_row w brow inp).length } := by
  induction brow generalizing j inp st pre rest prev restv fuel with
  | nil =>
    obtain ⟨h1, h2, h3, h4, h5, h6, h7, h8⟩ := h
    simp only [merge_row] at hc hcv ⊢
    simp only [List.length_nil, scan_row_B_numeric, ok_bind]
    rw [h2]
    exact copy_remaining_numeric_spec input input_values inp _ _ _ pre rest prev restv h1
      h5 h6 h7 h8 hc hcv
  | cons e bs ih =>
    have he : e.1 < B := hlt e.1 (by rw [cols_cons]; exact List.mem_cons_self _ _)
    have hlt2 : ∀ c ∈ cols bs, c < B := fun c hc =>
      hlt c (by rw [cols_cons]; exact List.mem_cons_of_mem _ hc)
    have hsum := length_takeWhile_add_dropWhile (fun x : Nat × R => decide (x.1 < e.1)) inp
    -- capacity for the inner loop
    have hlen1 : (inp.takeWhile (fun x => x.1 < e.1)).length + 1
        ≤ (merge_row w (e :: bs) inp).length := by
      rw [merge_row, List.length_append]
      cases inp.dropWhile (fun x => x.1 < e.1) with
      | nil => simp
      | cons x t =>
        simp only
        split <;> simp
    obtain ⟨st1, hs1, hs2⟩ := advance_input_numeric_spec B input input_values input_end e.1
      (by omega) inp fuel st pre rest prev restv h hfuel (by omega) (by omega)
    obtain ⟨g1, g2, g3, g4, g5, g6, g7, g8⟩ := hs2
    have hw1 := writeAt_append_of_length (pre ++ cols (inp.takeWhile (fun x => x.1 < e.1)))
      (rest.drop (inp.takeWhile (fun x => x.1 < e.1)).length) e.1 st1.output_ptr g6
      (by simp only [List.length_drop]; omega)
    simp only [List.length_cons, scan_row_B_numeric]
    rw [readAt_ok _ _ _ hb.1]
    simp only [ok_bind]
    rw [hs1]
    simp only [ok_bind]
    rw [g5, hw1, readAt_ok _ _ _ hb.2.1]
    simp only [ok_bind]
    rw [merge_row] at hc hcv ⊢
    revert g1 g2 g3 g4 hc hcv hsum
    cases inp.dropWhile (fun x => x.1 < e.1) with
    | nil =>
      intro hc hcv hsum g1 g2 g3 g4
      simp only [List.length_append, List.length_cons] at hc hcv
      have hw2 := writeAt_append_of_length (prev ++ vals (inp.takeWhile (fun x => x.1 < e.1)))
        (restv.drop (inp.takeWhile (fun x => x.1 < e.1)).length) (w * e.2)
        st1.output_ptr_values g8 (by simp only [List.length_drop]; omega)
      simp only [head_col] at g3
      rw [if_neg (by rw [g3]; omega), g7, hw2]
      simp only [ok_bind, pure_eq_ok]
      refine Eq.trans (ih fuel (j + 1) hb.2.2 hlt2 []
        { row_C_vector_input := st1.row_C_vector_input,
            row_C_vector_input_values := st1.row_C_vector_input_values,
            current_col_input := st1.current_col_input, current_col_input_value := st1.current_col_input_value,
            out := pre ++ cols (inp.takeWhile (fun x => x.1 < e.1)) ++ [e.1]
              ++ (rest.drop (inp.takeWhile (fun x => x.1 < e.1)).length).drop 1,
            out_values := prev ++ vals (inp.takeWhile (fun x => x.1 < e.1)) ++ [w * e.2]
              ++ (restv.drop (inp.takeWhile (fun x => x.1 < e.1)).length).drop 1,
            output_ptr := st1.output_ptr + 1,
            output_ptr_values := st1.output_ptr_values + 1 }
        (pre ++ cols (inp.takeWhile (fun x => x.1 < e.1)) ++ [e.1])
        ((rest.drop (inp.takeWhile (fun x => x.1 < e.1)).length).drop 1)
        (prev ++ vals (inp.takeWhile (fun x => x.1 < e.1)) ++ [w * e.2])
        ((restv.drop (inp.takeWhile (fun x => x.1 < e.1)).length).drop 1)
        ⟨g1, g2, g3, g4, rfl, by simp only [g6, List.length_append, List.length_singleton], rfl,
          by simp only [g8, List.length_append, List.length_singleton]⟩
        (by simp only [List.length_nil]; omega)
        (by simp only [List.length_drop]; omega) (by simp only [List.length_drop]; omega)) ?_
      have c1 := out_combine pre (cols (inp.takeWhile (fun x => x.1 < e.1))) e.1
        (cols (merge_row w bs [])) rest
      have c2 := out_combine prev (vals (inp.takeWhile (fun x => x.1 < e.1))) (w * e.2)
        (vals (merge_row w bs [])) restv
      simp only [length_cols, length_vals] at c1 c2
      simp only [cols_append, vals_append, cols_cons, vals_cons, length_cols, length_vals,
        List.length_append, List.length_cons, List.length_nil, c1, c2]
      congr 2 <;> omega
    | cons x t =>
      intro hc hcv hsum g1 g2 g3 g4
      simp only [head_col] at g3
      simp only [head_val] at g4
      simp only [List.length_cons] at hsum g2
      by_cases hx : x.1 = e.1
      · simp only [if_pos hx, List.length_append, List.length_cons] at hc hcv ⊢
        have hw2 := writeAt_append_of_length
          (prev ++ vals (inp.takeWhile (fun x => x.1 < e.1)))
          (restv.drop (inp.takeWhile (fun x => x.1 < e.1)).length) (w * e.2 + x.2)
          st1.output_ptr_values g8 (by simp only [List.length_drop]; omega)
        rw [if_pos (by rw [g3]; exact hx), g7, g4, hw2]
        simp only [ok_bind, pure_eq_ok]
        rw [load_index_rep B input input_values (st1.row_C_vector_input + 1)
            (st1.row_C_vector_input_values + 1) input_end t (by omega) g1.2.2,
          load_value_rep input input_values (st1.row_C_vector_input + 1)
            (st1.row_C_vector_input_values + 1) input_end t (by omega) g1.2.2]
        simp only [ok_bind]
        refine Eq.trans (ih fuel (j + 1) hb.2.2 hlt2 t
          { row_C_vector_input := st1.row_C_vector_input + 1,
            row_C_vector_input_values := st1.row_C_vector_input_values + 1,
            current_col_input := head_col B t, current_col_input_value := head_val t,
            out := pre ++ cols (inp.takeWhile (fun x => x.1 < e.1)) ++ [e.1]
              ++ (rest.drop (inp.takeWhile (fun x => x.1 < e.1)).length).drop 1,
            out_values := prev ++ vals (inp.takeWhile (fun x => x.1 < e.1)) ++ [w * e.2 + x.2]
              ++ (restv.drop (inp.takeWhile (fun x => x.1 < e.1)).length).drop 1,
            output_ptr := st1.output_ptr + 1,
            output_ptr_values := st1.output_ptr_values + 1 }
          (pre ++ cols (inp.takeWhile (fun x => x.1 < e.1)) ++ [e.1])
          ((rest.drop (inp.takeWhile (fun x => x.1 < e.1)).length).drop 1)
          (prev ++ vals (inp.takeWhile (fun x => x.1 < e.1)) ++ [w * e.2 + x.2])
          ((restv.drop (inp.takeWhile (fun x => x.1 < e.1)).length).drop 1)
          ⟨g1.2.2, by simp only; omega, rfl, rfl, rfl, by simp only [g6, List.length_append, List.length_singleton], rfl, by simp only [g8, List.length_append, List.length_singleton]⟩
          (by omega)
          (by simp only [List.length_drop]; omega) (by simp only [List.length_drop]; omega)) ?_
        have c1 := out_combine pre (cols (inp.takeWhile (fun x => x.1 < e.1))) e.1
          (cols (merge_row w bs t)) rest
        have c2 := out_combine prev (vals (inp.takeWhile (fun x => x.1 < e.1)))
          (w * e.2 + x.2) (vals (merge_row w bs t)) restv
        simp only [length_cols, length_vals] at c1 c2
        simp only [cols_append, vals_append, cols_cons, vals_cons, length_cols, length_vals,
          List.length_append, List.length_cons, List.length_nil, c1, c2]
        congr 2 <;> omega
      · simp only [if_neg hx, List.length_append, List.length_cons] at hc hcv ⊢
        have hw2 := writeAt_append_of_length
          (prev ++ vals (inp.takeWhile (fun x => x.1 < e.1)))
          (restv.drop (inp.takeWhile (fun x => x.1 < e.1)).length) (w * e.2)
          st1.output_ptr_values g8 (by simp only [List.length_drop]; omega)
        rw [if_neg (by rw [g3]; exact hx), g7, hw2]
        simp only [ok_bind, pure_eq_ok]
        refine Eq.trans (ih fuel (j + 1) hb.2.2 hlt2 (x :: t)
          { row_C_vector_input := st1.row_C_vector_input,
            row_C_vector_input_values := st1.row_C_vector_input_values,
            current_col_input := st1.current_col_input, current_col_input_value := st1.current_col_input_value,
            out := pre ++ cols (inp.takeWhile (fun x => x.1 < e.1)) ++ [e.1]
              ++ (rest.drop (inp.takeWhile (fun x => x.1 < e.1)).length).drop 1,
            out_values := prev ++ vals (inp.takeWhile (fun x => x.1 < e.1)) ++ [w * e.2]
              ++ (restv.drop (inp.takeWhile (fun x => x.1 < e.1)).length).drop 1,
            output_ptr := st1.output_ptr + 1,
            output_ptr_values := st1.output_ptr_values + 1 }
          (pre ++ cols (inp.takeWhile (fun x => x.1 < e.1)) ++ [e.1])
          ((rest.drop (inp.takeWhile (fun x => x.1 < e.1)).length).drop 1)
          (prev ++ vals (inp.takeWhile (fun x => x.1 < e.1)) ++ [w * e.2])
          ((restv.drop (inp.takeWhile (fun x => x.1 < e.1)).length).drop 1)
          ⟨g1, by simp only [List.length_cons]; omega, g3, g4, rfl, by simp only [g6, List.length_append, List.length_singleton], rfl,
            by simp only [g8, List.length_append, List.length_singleton]⟩
          (by simp only [List.length_cons]; omega)
          (by simp only [List.length_drop]; omega) (by simp only [List.length_drop]; omega)) ?_
        have c1 := out_combine pre (cols (inp.takeWhile (fun x => x.1 < e.1))) e.1
          (cols (merge_row w bs (x :: t))) rest
        have c2 := out_combine prev (vals (inp.takeWhile (fun x => x.1 < e.1)))
          (w * e.2) (vals (merge_row w bs (x :: t))) restv
        simp only [length_cols, length_vals] at c1 c2
        simp only [cols_append, vals_append, cols_cons, vals_cons, length_cols, length_vals,
          List.length_append, List.length_cons, List.length_nil, c1, c2]
        congr 2 <;> omega

theorem row_C_scan_numeric_vector_1_spec [Zero R] [Add R] [Mul R]
    (fuel r : Nat) (w : R)
    (B_row_buffer B_col_buffer : List Nat) (B_elements : List R) (B_size2 : Nat)
    (input : List Nat) (input_end : Nat) (input_values : List R)
    (out : List Nat) (out_values : List R) (res : Row R)
    (hres : res = merge_row w (csr_row B_row_buffer B_col_buffer B_elements r)
      (carried_row input input_values input_end))
    (hr : RowValid B_row_buffer B_col_buffer B_elements.length r)
    (hlt : ∀ c ∈ cols (csr_row B_row_buffer B_col_buffer B_elements r), c < B_size2)
    (hi1 : input_end ≤ input.length) (hi2 : input_end ≤ input_values.length)
    (hfuel : input_end < fuel)
    (hc : res.length ≤ out.length) (hcv : res.length ≤ out_values.length)
    (hu : res.length < U32) :
    row_C_scan_numeric_vector_1 fuel r w B_row_buffer B_col_buffer B_elements B_size2
      input input_end input_values out out_values =
    .ok (res.length, cols res ++ out.drop res.length, vals res ++ out_values.drop res.length) := by
  have hcar := carried_cursor input input_values input_end hi1 hi2
  have hrow := rowValid_cursor B_row_buffer B_col_buffer B_elements r hr
  obtain ⟨g1, g2, g3, g4, g5⟩ := hr
  have hspec := scan_row_B_numeric_spec w B_size2 B_col_buffer B_elements input input_values
    input_end fuel (csr_row B_row_buffer B_col_buffer B_elements r) (B_row_buffer.getD r 0)
    hrow.1 hlt (carried_row input input_values input_end)
    { row_C_vector_input := 0, row_C_vector_input_values := 0,
      current_col_input := head_col B_size2 (carried_row input input_values input_end),
      current_col_input_value := head_val (carried_row input input_values input_end),
      out := out, out_values := out_values, output_ptr := 0, output_ptr_values := 0 }
    [] out [] out_values
    ⟨hcar.1, by simp only [hcar.2]; rfl, rfl, rfl, rfl, rfl, rfl, rfl⟩
    (by rw [hcar.2]; exact hfuel) (by rw [← hres]; exact hc) (by rw [← hres]; exact hcv)
  simp only [row_C_scan_numeric_vector_1]
  rw [load_index_rep B_size2 input input_values 0 0 input_end _ (by simp only [hcar.2]; rfl)
      hcar.1,
    load_value_rep input input_values 0 0 input_end _ (by simp only [hcar.2]; rfl) hcar.1]
  simp only [ok_bind]
  rw [u32_add_one _ g2, readAt_getD B_row_buffer _ 0 g1, readAt_getD B_row_buffer _ 0 (by omega)]
  simp only [ok_bind]
  rw [← hrow.2, ← bind_assoc, hspec]
  simp only [ok_bind, List.nil_append, List.length_nil, Nat.zero_add]
  rw [← hres, u32_cast_of_lt _ hu]

theorem getD_drop {α : Type} (l : List α) (s i : Nat) (d : α) :
    (l.drop s).getD i d = l.getD (s + i) d := by
  simp [List.getD_eq_getElem?_getD, List.getElem?_drop]

theorem selected_rows_drop [Zero R] (A_col_buffer : List Nat) (A_elements : List R)
    (B_row_buffer B_col_buffer : List Nat) (B_elements : List R) (s n i : Nat) :
    selected_rows (A_col_buffer.drop s) (A_elements.drop s) B_row_buffer B_col_buffer
      B_elements n i =
    selected_rows A_col_buffer A_elements B_row_buffer B_col_buffer B_elements n (s + i) := by
  induction n generalizing i with
  | zero => rfl
  | succ n ih =>
    simp only [selected_rows, getD_drop]
    rw [ih (i + 1)]
    rfl

theorem selected_rows_add [Zero R] (A_col_buffer : List Nat) (A_elements : List R)
    (B_row_buffer B_col_buffer : List Nat) (B_elements : List R) (n m i : Nat) :
    selected_rows A_col_buffer A_elements B_row_buffer B_col_buffer B_elements (n + m) i =
    selected_rows A_col_buffer A_elements B_row_buffer B_col_buffer B_elements n i ++
      selected_rows A_col_buffer A_elements B_row_buffer B_col_buffer B_elements m (i + n) := by
  induction n generalizing i with
  | zero => simp [selected_rows]
  | succ n ih =>
    rw [show n + 1 + m = (n + m) + 1 by omega]
    simp only [selected_rows, List.cons_append]
    rw [ih (i + 1), show i + 1 + n = i + (n + 1) by omega]

theorem length_selected_rows [Zero R] (A_col_buffer : List Nat) (A_elements : List R)
    (B_row_buffer B_col_buffer : List Nat) (B_elements : List R) (n i : Nat) :
    (selected_rows A_col_buffer A_elements B_row_buffer B_col_buffer B_elements n i).length
      = n := by
  induction n generalizing i with
  | zero => rfl
  | succ n ih => simp only [selected_rows, List.length_cons, ih]

theorem total_length_append (s t : List (R × Row R)) :
    total_length (s ++ t) = total_length s + total_length t := by
  simp [total_length]

theorem total_length_cons (p : R × Row R) (t : List (R × Row R)) :
    total_length (p :: t) = p.2.length + total_length t := by
  simp [total_length]

theorem length_merge_front_le [Zero R] [Add R] [Mul R] (B : Nat) (streams : List (R × Row R)) :
    (merge_front B streams).length ≤ total_length streams :=
  length_merge_streams_le B _ streams

theorem zip_cols_vals (res : Row R) : (cols res).zip (vals res) = res := by
  induction res with
  | nil => rfl
  | cons e t ih => simp only [cols_cons, vals_cons, List.zip_cons_cons, ih]

theorem carried_row_append (res : Row R) (a : List Nat) (b : List R) :
    carried_row (cols res ++ a) (vals res ++ b) res.length = res := by
  unfold carried_row slice
  simp only [List.drop_zero, Nat.sub_zero]
  rw [List.take_left' (length_cols res), List.take_left' (length_vals res), zip_cols_vals]

theorem length_out_buffer {α : Type} (xs out : List α) (h : xs.length ≤ out.length) :
    (xs ++ out.drop xs.length).length = out.length := by
  simp only [List.length_append, List.length_drop]
  omega

theorem length_cols_out (res : Row R) (out : List Nat) (h : res.length ≤ out.length) :
    (cols res ++ out.drop res.length).length = out.length := by
  simp only [List.length_append, List.length_drop, length_cols]
  omega

theorem length_vals_out (res : Row R) (out : List R) (h : res.length ≤ out.length) :
    (vals res ++ out.drop res.length).length = out.length := by
  simp only [List.length_append, List.length_drop, length_vals]
  omega

theorem length_merge_row_le_raw [Add R] [Mul R] (w : R) (b inp : Row R) :
    (merge_row w b inp).length ≤ b.length + inp.length := by
  induction b generalizing inp with
  | nil => simp [merge_row]
  | cons e bs ih =>
    have h3 := length_takeWhile_add_dropWhile (fun x : Nat × R => decide (x.1 < e.1)) inp
    rw [merge_row, List.length_append]
    revert h3
    cases inp.dropWhile (fun x => x.1 < e.1) with
    | nil =>
      intro h3
      have := ih []
      simp only [List.length_cons, List.length_nil] at this h3 ⊢
      omega
    | cons x t =>
      intro h3
      simp only
      split
      · have := ih t
        simp only [List.length_cons] at this h3 ⊢
        omega
      · have := ih (x :: t)
        simp only [List.length_cons] at this h3 ⊢
        omega

theorem cols_csr_row (B_row_buffer B_col_buffer : List Nat) (B_elements : List R) (r : Nat)
    (h : RowValid B_row_buffer B_col_buffer B_elements.length r) :
    cols (csr_row B_row_buffer B_col_buffer B_elements r)
      = csr_cols B_row_buffer B_col_buffer r := by
  unfold csr_row csr_cols
  exact cols_zip_slice _ _ _ _ h.2.2.2.1 h.2.2.2.2

theorem weighted_sum_append [CommRing R] (s t : List (R × Row R)) (c : Nat) :
    weighted_sum (s ++ t) c = weighted_sum s c + weighted_sum t c := by
  simp [weighted_sum]

theorem weighted_sum_cons [CommRing R] (p : R × Row R) (t : List (R × Row R)) (c : Nat) :
    weighted_sum (p :: t) c = p.1 * value_at p.2 c + weighted_sum t c := by
  simp [weighted_sum]

theorem weighted_sum_nil [CommRing R] (c : Nat) :
    weighted_sum ([] : List (R × Row R)) c = 0 := rfl

theorem merge_front_isMergeOf [CommRing R] (B : Nat) (streams : List (R × Row R))
    (hok : ∀ p ∈ streams, StreamOK B p.2) :
    IsMergeOf (merge_front B streams) streams :=
  ⟨merge_streams_sorted B _ streams hok (Nat.lt_succ_self _),
    merge_streams_mem B _ streams hok (Nat.lt_succ_self _),
    merge_streams_value B _ streams hok (Nat.lt_succ_self _)⟩

theorem merge_front_streamOK [CommRing R] (B : Nat) (streams : List (R × Row R))
    (hok : ∀ p ∈ streams, StreamOK B p.2) : StreamOK B (merge_front B streams) := by
  refine ⟨(merge_front_isMergeOf B streams hok).1, fun c hc => ?_⟩
  obtain ⟨p, hp, hcp⟩ := ((merge_front_isMergeOf B streams hok).2.1 c).1 hc
  exact (hok p hp).2 c hcp

theorem merge_row_streamOK [CommRing R] (B : Nat) (w : R) (b inp : Row R)
    (hb : StreamOK B b) (hi : StreamOK B inp) : StreamOK B (merge_row w b inp) := by
  refine ⟨merge_row_sorted w b inp hb.1 hi.1, fun c hc => ?_⟩
  rcases (merge_row_mem w b inp c).1 hc with h | h
  · exact hb.2 c h
  · exact hi.2 c h

theorem merge_chunks_spec [CommRing R] (B k : Nat) (entries : List (R × Row R)) (cur : Row R)
    (hk : entries.length ≤ k) (hok : ∀ p ∈ entries, StreamOK B p.2) (hcur : StreamOK B cur) :
    StreamOK B (merge_chunks B k entries cur) ∧
    (∀ c, c ∈ cols (merge_chunks B k entries cur) ↔
      (∃ p ∈ entries, c ∈ cols p.2) ∨ c ∈ cols cur) ∧
    (∀ c, value_at (merge_chunks B k entries cur) c
      = weighted_sum entries c + value_at cur c) := by
  induction k generalizing entries cur with
  | zero =>
    have : entries = [] := List.length_eq_zero.1 (by omega)
    subst this
    simp only [merge_chunks]
    exact ⟨hcur, fun c => by simp, fun c => by simp [weighted_sum_nil]⟩
  | succ k ih =>
    simp only [merge_chunks]
    split
    · rename_i h3
      have hsplit : entries.take 3 ++ entries.drop 3 = entries := List.take_append_drop 3 entries
      have hok3 : ∀ p ∈ entries.take 3 ++ [((1 : R), cur)], StreamOK B p.2 := by
        intro p hp
        rcases List.mem_append.1 hp with h | h
        · exact hok p (List.mem_of_mem_take h)
        · simp only [List.mem_singleton] at h
          subst h
          exact hcur
      have hm := merge_front_isMergeOf B _ hok3
      obtain ⟨i1, i2, i3⟩ := ih (entries.drop 3)
        (merge_front B (entries.take 3 ++ [((1 : R), cur)]))
        (by simp only [List.length_drop]; omega)
        (fun p hp => hok p (List.mem_of_mem_drop hp))
        (merge_front_streamOK B _ hok3)
      refine ⟨i1, fun c => ?_, fun c => ?_⟩
      · rw [i2 c, hm.2.1 c]
        constructor
        · rintro (⟨p, hp, hc⟩ | ⟨p, hp, hc⟩)
          · exact Or.inl ⟨p, List.mem_of_mem_drop hp, hc⟩
          · rcases List.mem_append.1 hp with h | h
            · exact Or.inl ⟨p, List.mem_of_mem_take h, hc⟩
            · simp only [List.mem_singleton] at h
              subst h
              exact Or.inr hc
        · rintro (⟨p, hp, hc⟩ | hc)
          · rw [← hsplit] at hp
            rcases List.mem_append.1 hp with h | h
            · exact Or.inr ⟨p, List.mem_append_left _ h, hc⟩
            · exact Or.inl ⟨p, h, hc⟩
          · exact Or.inr ⟨(1, cur), List.mem_append_right _ (List.mem_singleton_self _), hc⟩
      · rw [i3 c, hm.2.2 c, weighted_sum_append, weighted_sum_cons, weighted_sum_nil]
        conv_rhs => rw [← hsplit, weighted_sum_append]
        simp only
        ring
    · cases entries with
      | nil =>
        simp only
        exact ⟨hcur, fun c => by simp, fun c => by simp [weighted_sum_nil]⟩
      | cons e es =>
        simp only
        have he := hok e (List.mem_cons_self _ _)
        obtain ⟨i1, i2, i3⟩ := ih es (merge_row e.1 e.2 cur)
          (by simp only [List.length_cons] at hk; omega)
          (fun p hp => hok p (List.mem_cons_of_mem _ hp))
          (merge_row_streamOK B e.1 e.2 cur he hcur)
        refine ⟨i1, fun c => ?_, fun c => ?_⟩
        · rw [i2 c, merge_row_mem]
          constructor
          · rintro (⟨p, hp, hc⟩ | hc | hc)
            · exact Or.inl ⟨p, List.mem_cons_of_mem _ hp, hc⟩
            · exact Or.inl ⟨e, List.mem_cons_self _ _, hc⟩
            · exact Or.inr hc
          · rintro (⟨p, hp, hc⟩ | hc)
            · rcases List.mem_cons.1 hp with h | h
              · subst h
                exact Or.inr (Or.inl hc)
              · exact Or.inl ⟨p, h, hc⟩
            · exact Or.inr (Or.inr hc)
        · rw [i3 c, merge_row_value e.1 e.2 cur he.1 hcur.1, weighted_sum_cons]
          ring

theorem merge_chunks_fuel [Zero R] [One R] [Add R] [Mul R] (B k1 k2 : Nat)
    (entries : List (R × Row R)) (cur : Row R)
    (h1 : entries.length ≤ k1) (h2 : entries.length ≤ k2) :
    merge_chunks B k1 entries cur = merge_chunks B k2 entries cur := by
  induction k1 generalizing k2 entries cur with
  | zero =>
    have : entries = [] := List.length_eq_zero.1 (by omega)
    subst this
    cases k2 <;> simp [merge_chunks]
  | succ k ih =>
    cases k2 with
    | zero =>
      have : entries = [] := List.length_eq_zero.1 (by omega)
      subst this
      simp [merge_chunks]
    | succ k2 =>
      simp only [merge_chunks]
      split
      · exact ih k2 _ _ (by simp only [List.length_drop]; omega)
          (by simp only [List.length_drop]; omega)
      · cases entries with
        | nil => rfl
        | cons e es =>
          simp only [List.length_cons] at h1 h2
          exact ih k2 _ _ (by omega) (by omega)

theorem length_le_of_strictAsc (B : Nat) (l : List Nat) (h1 : StrictAsc l)
    (h2 : ∀ c ∈ l, c < B) : l.length ≤ B := by
  have hnd : l.Nodup := List.Pairwise.imp (fun h => Nat.ne_of_lt h) h1
  have hsub : l.toFinset ⊆ Finset.range B := by
    intro c hc
    rw [List.mem_toFinset] at hc
    exact Finset.mem_range.2 (h2 c hc)
  have := Finset.card_le_card hsub
  rw [List.toFinset_card_of_nodup hnd, Finset.card_range] at this
  exact this

theorem length_le_of_streamOK (B : Nat) (s : Row R) (h : StreamOK B s) : s.length ≤ B := by
  rw [← length_cols]
  exact length_le_of_strictAsc B _ h.1 h.2

theorem numeric_chunk_loop_spec [CommRing R]
    (A_col_buffer : List Nat) (A_elements : List R)
    (B_row_buffer B_col_buffer : List Nat) (B_elements : List R)
    (B_size2 row_end_A fuel cap : Nat) (hcapf : cap < fuel)
    (k row_start_A : Nat) (s : Scratch R) (cur : Row R)
    (hv : EntriesValid row_start_A row_end_A A_col_buffer A_elements B_row_buffer B_col_buffer
      B_elements B_size2)
    (hs : ScratchRep s cur cap)
    (hcap : cur.length + total_length (selected_rows A_col_buffer A_elements B_row_buffer
      B_col_buffer B_elements (row_end_A - row_start_A) row_start_A) ≤ cap)
    (hU : cap < U32 ∨ (B_size2 < U32 ∧ StreamOK B_size2 cur ∧
      ∀ p ∈ selected_rows A_col_buffer A_elements B_row_buffer B_col_buffer B_elements
        (row_end_A - row_start_A) row_start_A, StreamOK B_size2 p.2))
    (hk : row_end_A - row_start_A < k) :
    ∃ s1, numeric_chunk_loop A_col_buffer A_elements B_row_buffer B_col_buffer B_elements
        B_size2 row_end_A fuel k row_start_A s = .ok s1 ∧
      ScratchRep s1 (merge_chunks B_size2 k (selected_rows A_col_buffer A_elements B_row_buffer
        B_col_buffer B_elements (row_end_A - row_start_A) row_start_A) cur) cap := by
  induction k generalizing row_start_A s cur with
  | zero => omega
  | succ k ih =>
    obtain ⟨s1, s2, s3, s4, s5, s6⟩ := hs
    simp only [numeric_chunk_loop, merge_chunks, length_selected_rows]
    by_cases h0 : row_end_A > row_start_A
    · rw [if_pos h0]
      by_cases h3 : row_end_A - row_start_A > 3
      · rw [if_pos h3, if_pos h3]
        -- the three rows merged by this chunk, and the rows left
        have hsplit := selected_rows_add A_col_buffer A_elements B_row_buffer B_col_buffer
          B_elements 3 (row_end_A - (row_start_A + 3)) row_start_A
        rw [show 3 + (row_end_A - (row_start_A + 3)) = row_end_A - row_start_A by omega] at hsplit
        have hl3 := length_selected_rows A_col_buffer A_elements B_row_buffer B_col_buffer
          B_elements 3 row_start_A
        rw [hsplit, List.take_left' hl3, List.drop_left' hl3]
        rw [hsplit, total_length_append] at hcap
        rw [hsplit] at hU
        have hstreams : selected_rows (A_col_buffer.drop row_start_A)
            (A_elements.drop row_start_A) B_row_buffer B_col_buffer B_elements 3 0
            ++ [(1, carried_row s.row_C_vector_1 s.row_C_vector_1_values s.row_C_len)]
            = selected_rows A_col_buffer A_elements B_row_buffer B_col_buffer B_elements 3
              row_start_A ++ [(1, cur)] := by
          rw [selected_rows_drop, s2]; rfl
        have htl : total_length (selected_rows A_col_buffer A_elements B_row_buffer
            B_col_buffer B_elements 3 row_start_A ++ [((1 : R), cur)])
            = total_length (selected_rows A_col_buffer A_elements B_row_buffer
            B_col_buffer B_elements 3 row_start_A) + cur.length := by
          rw [total_length_append, total_length_cons]; simp [total_length]
        have hml := length_merge_front_le B_size2 (selected_rows A_col_buffer A_elements
          B_row_buffer B_col_buffer B_elements 3 row_start_A ++ [((1 : R), cur)])
        have hU1 : (merge_front B_size2 (selected_rows A_col_buffer A_elements
            B_row_buffer B_col_buffer B_elements 3 row_start_A ++ [((1 : R), cur)])).length < U32
            ∧ (cap < U32 ∨ (B_size2 < U32 ∧ StreamOK B_size2 (merge_front B_size2
              (selected_rows A_col_buffer A_elements B_row_buffer B_col_buffer B_elements 3
                row_start_A ++ [((1 : R), cur)])) ∧
              ∀ p ∈ selected_rows A_col_buffer A_elements B_row_buffer B_col_buffer B_elements
                (row_end_A - (row_start_A + 3)) (row_start_A + 3), StreamOK B_size2 p.2)) := by
          rcases hU with h | ⟨hB, hc, he⟩
          · exact ⟨by omega, Or.inl h⟩
          · have hok3 : ∀ p ∈ selected_rows A_col_buffer A_elements B_row_buffer B_col_buffer
                B_elements 3 row_start_A ++ [((1 : R), cur)], StreamOK B_size2 p.2 := by
              intro p hp
              rcases List.mem_append.1 hp with h | h
              · exact he p (List.mem_append_left _ h)
              · simp only [List.mem_singleton] at h
                subst h
                exact hc
            have hs := merge_front_streamOK B_size2 _ hok3
            exact ⟨lt_of_le_of_lt (length_le_of_streamOK _ _ hs) hB,
              Or.inr ⟨hB, hs, fun p hp => he p (List.mem_append_right _ hp)⟩⟩
        have hN := row_C_scan_numeric_vector_N_spec fuel 3 (A_col_buffer.drop row_start_A)
          (A_elements.drop row_start_A) B_row_buffer B_col_buffer B_elements B_size2
          s.row_C_vector_1 s.row_C_len s.row_C_vector_1_values
          s.row_C_vector_2 s.row_C_vector_2_values _ hstreams.symm
          (by
            intro i hi
            obtain ⟨a1, a2, a3, _⟩ := hv (row_start_A + i) (by omega) (by omega)
            refine ⟨by simp only [List.length_drop]; omega,
              by simp only [List.length_drop]; omega, ?_⟩
            rw [getD_drop]; exact a3)
          (by omega) (by omega) (by omega) (by omega) (by omega) hU1.1
        rw [hN]
        simp only [ok_bind]
        rw [show row_end_A - (row_start_A + 3) = row_end_A - (row_start_A + 3) from rfl]
        exact ih (row_start_A + 3) _ _
          (fun i hi1 hi2 => hv i (by omega) hi2)
          ⟨rfl, carried_row_append _ _ _,
            by simp only; rw [length_cols_out _ _ (by omega)]; exact s5,
            by simp only; rw [length_vals_out _ _ (by omega)]; exact s6,
            s3, s4⟩
          (by omega) hU1.2 (by omega)
      · rw [if_neg h3, if_neg h3]
        have hsplit := selected_rows_add A_col_buffer A_elements B_row_buffer B_col_buffer
          B_elements 1 (row_end_A - (row_start_A + 1)) row_start_A
        rw [show 1 + (row_end_A - (row_start_A + 1)) = row_end_A - row_start_A by omega] at hsplit
        simp only [selected_rows, List.singleton_append] at hsplit
        rw [hsplit]
        rw [hsplit, total_length_cons] at hcap
        rw [hsplit] at hU
        simp only at hcap ⊢
        obtain ⟨a1, a2, a3, a4⟩ := hv row_start_A (le_refl _) h0
        have hml := length_merge_row_le_raw (A_elements.getD row_start_A 0)
          (csr_row B_row_buffer B_col_buffer B_elements (A_col_buffer.getD row_start_A 0)) cur
        have hU1 : (merge_row (A_elements.getD row_start_A 0) (csr_row B_row_buffer B_col_buffer
            B_elements (A_col_buffer.getD row_start_A 0)) cur).length < U32
            ∧ (cap < U32 ∨ (B_size2 < U32 ∧ StreamOK B_size2 (merge_row
              (A_elements.getD row_start_A 0) (csr_row B_row_buffer B_col_buffer
                B_elements (A_col_buffer.getD row_start_A 0)) cur) ∧
              ∀ p ∈ selected_rows A_col_buffer A_elements B_row_buffer B_col_buffer B_elements
                (row_end_A - (row_start_A + 1)) (row_start_A + 1), StreamOK B_size2 p.2)) := by
          rcases hU with h | ⟨hB, hc, he⟩
          · exact ⟨by omega, Or.inl h⟩
          · have hs := merge_row_streamOK B_size2 (A_elements.getD row_start_A 0) _ cur
              (he _ (List.mem_cons_self _ _)) hc
            exact ⟨lt_of_le_of_lt (length_le_of_streamOK _ _ hs) hB,
              Or.inr ⟨hB, hs, fun p hp => he p (List.mem_cons_of_mem _ hp)⟩⟩
        have h1 := row_C_scan_numeric_vector_1_spec fuel (A_col_buffer.getD row_start_A 0)
          (A_elements.getD row_start_A 0) B_row_buffer B_col_buffer B_elements B_size2
          s.row_C_vector_1 s.row_C_len s.row_C_vector_1_values
          s.row_C_vector_2 s.row_C_vector_2_values _ (by rw [s2]) a3
          (by rw [cols_csr_row _ _ _ _ a3]; exact a4)
          (by omega) (by omega) (by omega) (by omega) (by omega) hU1.1
        rw [readAt_getD A_col_buffer _ 0 a1, readAt_getD A_elements _ 0 a2]
        simp only [ok_bind]
        rw [h1]
        simp only [ok_bind]
        exact ih (row_start_A + 1) _ _
          (fun i hi1 hi2 => hv i (by omega) hi2)
          ⟨rfl, carried_row_append _ _ _,
            by simp only; rw [length_cols_out _ _ (by omega)]; exact s5,
            by simp only; rw [length_vals_out _ _ (by omega)]; exact s6,
            s3, s4⟩
          (by omega) hU1.2 (by omega)
    · rw [if_neg h0, if_neg (by omega)]
      rw [show row_end_A - row_start_A = 0 by omega]
      simp only [selected_rows]
      exact ⟨s, rfl, s1, s2, s3, s4, s5, s6⟩

theorem cols_scale_row [Mul R] (a : R) (row : Row R) : cols (scale_row a row) = cols row := by
  simp [scale_row, cols]

theorem length_scale_row [Mul R] (a : R) (row : Row R) :
    (scale_row a row).length = row.length := by
  simp [scale_row]

theorem scale_row_cons [Mul R] (a : R) (e : Nat × R) (t : Row R) :
    scale_row a (e :: t) = (e.1, a * e.2) :: scale_row a t := rfl

theorem copy_scaled_row_spec [Mul R] (a : R) (B_col_buffer : List Nat) (B_elements : List R)
    (brow : Row R) (j p : Nat) (C_col_buffer : List Nat) (C_elements : List R)
    (pre rest : List Nat) (prev restv : List R)
    (hrep : Rep B_col_buffer B_elements j j brow)
    (hC : C_col_buffer = pre ++ rest) (hCv : C_elements = prev ++ restv)
    (hp : p = pre.length) (hpv : p = prev.length)
    (hc : brow.length ≤ rest.length) (hcv : brow.length ≤ restv.length) :
    copy_scaled_row a B_col_buffer B_elements brow.length j p C_col_buffer C_elements =
      .ok (pre ++ cols (scale_row a brow) ++ rest.drop brow.length,
           prev ++ vals (scale_row a brow) ++ restv.drop brow.length,
           p + brow.length) := by
  induction brow generalizing j p C_col_buffer C_elements pre rest prev restv with
  | nil =>
    simp only [List.length_nil, copy_scaled_row, scale_row, List.map_nil, cols_nil, vals_nil,
      List.append_nil, List.drop_zero, Nat.add_zero, hC, hCv]
  | cons e t ih =>
    simp only [List.length_cons] at hc hcv
    simp only [List.length_cons, copy_scaled_row]
    rw [readAt_ok _ _ _ hrep.1, readAt_ok _ _ _ hrep.2.1]
    simp only [ok_bind]
    rw [hC, hCv, writeAt_append_of_length pre rest e.1 _ hp (by omega),
      writeAt_append_of_length prev restv (a * e.2) _ hpv (by omega)]
    simp only [ok_bind]
    rw [ih (j + 1) (p + 1) _ _ (pre ++ [e.1]) (rest.drop 1) (prev ++ [a * e.2]) (restv.drop 1)
      hrep.2.2 rfl rfl (by simp [hp]) (by simp [hpv])
      (by simp only [List.length_drop]; omega) (by simp only [List.length_drop]; omega)]
    simp only [scale_row_cons, cols_cons, vals_cons, List.append_assoc, List.singleton_append,
      List.drop_drop, Nat.add_assoc, Nat.add_comm 1]

theorem copy_to_output_spec (row_C_vector_1 : List Nat) (row_C_vector_1_values : List R)
    (res : Row R) (i p : Nat) (C_col_buffer : List Nat) (C_elements : List R)
    (pre rest : List Nat) (prev restv : List R)
    (hrep : Rep row_C_vector_1 row_C_vector_1_values i i res)
    (hC : C_col_buffer = pre ++ rest) (hCv : C_elements = prev ++ restv)
    (hp : p = pre.length) (hpv : p = prev.length)
    (hc : res.length ≤ rest.length) (hcv : res.length ≤ restv.length) :
    copy_to_output row_C_vector_1 row_C_vector_1_values res.length i p C_col_buffer C_elements =
      .ok (pre ++ cols res ++ rest.drop res.length,
           prev ++ vals res ++ restv.drop res.length,
           p + res.length) := by
  induction res generalizing i p C_col_buffer C_elements pre rest prev restv with
  | nil =>
    simp only [List.length_nil, copy_to_output, cols_nil, vals_nil,
      List.append_nil, List.drop_zero, Nat.add_zero, hC, hCv]
  | cons e t ih =>
    simp only [List.length_cons] at hc hcv
    simp only [List.length_cons, copy_to_output]
    rw [readAt_ok _ _ _ hrep.1, readAt_ok _ _ _ hrep.2.1]
    simp only [ok_bind]
    rw [hC, hCv, writeAt_append_of_length pre rest e.1 _ hp (by omega),
      writeAt_append_of_length prev restv e.2 _ hpv (by omega)]
    simp only [ok_bind]
    rw [ih (i + 1) (p + 1) _ _ (pre ++ [e.1]) (rest.drop 1) (prev ++ [e.2]) (restv.drop 1)
      hrep.2.2 rfl rfl (by simp [hp]) (by simp [hpv])
      (by simp only [List.length_drop]; omega) (by simp only [List.length_drop]; omega)]
    simp only [cols_cons, vals_cons, List.append_assoc, List.singleton_append,
      List.drop_drop, Nat.add_assoc, Nat.add_comm 1]

theorem u32_sub_of_le (a b : Nat) (h1 : b ≤ a) (h2 : a < U32) : u32_sub a b = a - b := by
  unfold u32_sub
  rw [show a + U32 - b = (a - b) + U32 by omega, Nat.add_mod_right]
  exact Nat.mod_eq_of_lt (by omega)

theorem scratchRep_rep (s : Scratch R) (cur : Row R) (cap : Nat) (h : ScratchRep s cur cap)
    (hc : cur.length ≤ cap) :
    Rep s.row_C_vector_1 s.row_C_vector_1_values 0 0 cur := by
  obtain ⟨h1, h2, h3, h4, _, _⟩ := h
  have := (carried_cursor s.row_C_vector_1 s.row_C_vector_1_values s.row_C_len
    (by omega) (by omega)).1
  rw [h2] at this
  exact this

theorem row_C_scan_numeric_vector_one [Zero R] [One R] [Add R] [Mul R]
    (fuel row_start_A row_end_A : Nat) (A_col_buffer : List Nat) (A_elements : List R)
    (B_row_buffer B_col_buffer : List Nat) (B_elements : List R) (B_size2 : Nat)
    (row_start_C row_end_C : Nat) (C_col_buffer : List Nat) (C_elements : List R)
    (v1 : List Nat) (v1v : List R) (v2 : List Nat) (v2v : List R)
    (h1 : row_end_A = row_start_A + 1) (hu : row_end_A < U32)
    (ha : row_start_A < A_col_buffer.length) (hav : row_start_A < A_elements.length)
    (hr : RowValid B_row_buffer B_col_buffer B_elements.length
      (A_col_buffer.getD row_start_A 0))
    (hC : row_start_C + (csr_row B_row_buffer B_col_buffer B_elements
      (A_col_buffer.getD row_start_A 0)).length ≤ C_col_buffer.length)
    (hCv : row_start_C + (csr_row B_row_buffer B_col_buffer B_elements
      (A_col_buffer.getD row_start_A 0)).length ≤ C_elements.length) :
    row_C_scan_numeric_vector fuel row_start_A row_end_A A_col_buffer A_elements
      B_row_buffer B_col_buffer B_elements B_size2 row_start_C row_end_C
      C_col_buffer C_elements v1 v1v v2 v2v =
    .ok { C_col_buffer := written_at C_col_buffer row_start_C
            (cols (scale_row (A_elements.getD row_start_A 0) (csr_row B_row_buffer B_col_buffer
              B_elements (A_col_buffer.getD row_start_A 0)))),
          C_elements := written_at C_elements row_start_C
            (vals (scale_row (A_elements.getD row_start_A 0) (csr_row B_row_buffer B_col_buffer
              B_elements (A_col_buffer.getD row_start_A 0)))),
          written := (csr_row B_row_buffer B_col_buffer B_elements
              (A_col_buffer.getD row_start_A 0)).length,
          row_C_vector_1 := v1, row_C_vector_1_values := v1v,
          row_C_vector_2 := v2, row_C_vector_2_values := v2v } := by
  have hrow := rowValid_cursor B_row_buffer B_col_buffer B_elements _ hr
  obtain ⟨g1, g2, g3, g4, g5⟩ := hr
  have hsub : u32_sub row_end_A row_start_A = 1 := by
    rw [u32_sub_of_le _ _ (by omega) hu]; omega
  have hcopy := copy_scaled_row_spec (A_elements.getD row_start_A 0) B_col_buffer B_elements
    (csr_row B_row_buffer B_col_buffer B_elements (A_col_buffer.getD row_start_A 0))
    (B_row_buffer.getD (A_col_buffer.getD row_start_A 0) 0) row_start_C
    C_col_buffer C_elements (C_col_buffer.take row_start_C) (C_col_buffer.drop row_start_C)
    (C_elements.take row_start_C) (C_elements.drop row_start_C) hrow.1
    (List.take_append_drop _ _).symm (List.take_append_drop _ _).symm
    (by rw [List.length_take]; omega) (by rw [List.length_take]; omega)
    (by rw [List.length_drop]; omega) (by rw [List.length_drop]; omega)
  simp only [row_C_scan_numeric_vector]
  rw [if_neg (by omega), if_pos hsub, readAt_getD A_col_buffer _ 0 ha]
  simp only [ok_bind]
  rw [u32_add_one _ g2, readAt_getD B_row_buffer _ 0 g1, readAt_getD A_elements _ 0 hav,
    readAt_getD B_row_buffer _ 0 (by omega)]
  simp only [ok_bind]
  rw [← hrow.2, hcopy]
  simp only [ok_bind, written_at, List.drop_drop, length_cols, length_vals, length_scale_row,
    Nat.add_sub_cancel_left]

theorem length_merge_chunks_le [Zero R] [One R] [Add R] [Mul R] (B k : Nat)
    (entries : List (R × Row R)) (cur : Row R) :
    (merge_chunks B k entries cur).length ≤ cur.length + total_length entries := by
  induction k generalizing entries cur with
  | zero => simp [merge_chunks]
  | succ k ih =>
    simp only [merge_chunks]
    split
    · have h1 := ih (entries.drop 3) (merge_front B (entries.take 3 ++ [((1 : R), cur)]))
      have h2 := length_merge_front_le B (entries.take 3 ++ [((1 : R), cur)])
      have h3 : total_length (entries.take 3) + total_length (entries.drop 3)
          = total_length entries := by
        rw [← total_length_append, List.take_append_drop]
      rw [total_length_append, total_length_cons] at h2
      simp only [total_length, List.map_nil, List.sum_nil] at h1 h2 h3 ⊢
      omega
    · cases entries with
      | nil => simp
      | cons e es =>
        have h1 := ih es (merge_row e.1 e.2 cur)
        have h2 := length_merge_row_le_raw e.1 e.2 cur
        rw [total_length_cons]
        simp only at h1 ⊢
        omega

theorem row_C_scan_numeric_vector_many [CommRing R]
    (fuel row_start_A row_end_A : Nat) (A_col_buffer : List Nat) (A_elements : List R)
    (B_row_buffer B_col_buffer : List Nat) (B_elements : List R) (B_size2 : Nat)
    (row_start_C row_end_C : Nat) (C_col_buffer : List Nat) (C_elements : List R)
    (v1 : List Nat) (v1v : List R) (v2 : List Nat) (v2v : List R)
    (entries : List (R × Row R)) (res : Row R)
    (hent : entries = row_entries row_start_A row_end_A A_col_buffer A_elements
      B_row_buffer B_col_buffer B_elements)
    (hres : res = merge_chunks B_size2 entries.length entries [])
    (h2 : row_start_A + 2 ≤ row_end_A) (hu : row_end_A < U32)
    (hv : EntriesValid row_start_A row_end_A A_col_buffer A_elements B_row_buffer B_col_buffer
      B_elements B_size2)
    (hc1 : total_length entries ≤ v1.length) (hc1v : total_length entries ≤ v1v.length)
    (hc2 : total_length entries ≤ v2.length) (hc2v : total_length entries ≤ v2v.length)
    (hfuel : total_length entries + (row_end_A - row_start_A) < fuel)
    (hU : total_length entries < U32 ∨
      (B_size2 < U32 ∧ ∀ p ∈ entries, StreamOK B_size2 p.2))
    (hC : row_start_C + res.length ≤ C_col_buffer.length)
    (hCv : row_start_C + res.length ≤ C_elements.length) :
    ∃ r, row_C_scan_numeric_vector fuel row_start_A row_end_A A_col_buffer A_elements
      B_row_buffer B_col_buffer B_elements B_size2 row_start_C row_end_C
      C_col_buffer C_elements v1 v1v v2 v2v = .ok r ∧
      r.C_col_buffer = written_at C_col_buffer row_start_C (cols res) ∧
      r.C_elements = written_at C_elements row_start_C (vals res) ∧
      r.written = res.length ∧
      carried_row r.row_C_vector_1 r.row_C_vector_1_values res.length = res := by
  have hsub : ¬ u32_sub row_end_A row_start_A = 1 := by
    rw [u32_sub_of_le _ _ (by omega) hu]; omega
  have hlen : entries.length = row_end_A - row_start_A := by
    rw [hent]; exact length_selected_rows _ _ _ _ _ _ _
  obtain ⟨s1, hs1, hs2⟩ := numeric_chunk_loop_spec A_col_buffer A_elements B_row_buffer
    B_col_buffer B_elements B_size2 row_end_A fuel (total_length entries) (by omega)
    fuel row_start_A
    { row_C_len := 0, row_C_vector_1 := v1, row_C_vector_1_values := v1v,
      row_C_vector_2 := v2, row_C_vector_2_values := v2v } [] hv
    ⟨rfl, by simp [carried_row, slice], hc1, hc1v, hc2, hc2v⟩
    (by rw [hent]; simp [row_entries])
    (by
      rcases hU with h | ⟨hB, he⟩
      · exact Or.inl h
      · refine Or.inr ⟨hB, ⟨List.Pairwise.nil, fun c hc => by simp [cols] at hc⟩, ?_⟩
        rw [hent] at he; exact he)
    (by omega)
  have hmc : merge_chunks B_size2 fuel (selected_rows A_col_buffer A_elements B_row_buffer
      B_col_buffer B_elements (row_end_A - row_start_A) row_start_A) [] = res := by
    rw [hres, hent]
    exact merge_chunks_fuel B_size2 _ _ _ _
      (by rw [length_selected_rows]; omega)
      (by simp only [row_entries, length_selected_rows]; exact le_refl _)
  rw [hmc] at hs2
  have hrl : res.length ≤ total_length entries := by
    have := length_merge_chunks_le B_size2 entries.length entries []
    rw [← hres] at this
    simpa using this
  have hrep := scratchRep_rep s1 res _ hs2 hrl
  have hcopy := copy_to_output_spec s1.row_C_vector_1 s1.row_C_vector_1_values res 0
    row_start_C C_col_buffer C_elements (C_col_buffer.take row_start_C)
    (C_col_buffer.drop row_start_C) (C_elements.take row_start_C)
    (C_elements.drop row_start_C) hrep
    (List.take_append_drop _ _).symm (List.take_append_drop _ _).symm
    (by rw [List.length_take]; omega) (by rw [List.length_take]; omega)
    (by rw [List.length_drop]; omega) (by rw [List.length_drop]; omega)
  refine ⟨{ C_col_buffer := C_col_buffer.take row_start_C ++ cols res
                ++ (C_col_buffer.drop row_start_C).drop res.length,
            C_elements := C_elements.take row_start_C ++ vals res
                ++ (C_elements.drop row_start_C).drop res.length,
            written := row_start_C + res.length - row_start_C,
            row_C_vector_1 := s1.row_C_vector_1,
            row_C_vector_1_values := s1.row_C_vector_1_values,
            row_C_vector_2 := s1.row_C_vector_2,
            row_C_vector_2_values := s1.row_C_vector_2_values }, ?_, ?_⟩
  · simp only [row_C_scan_numeric_vector]
    rw [if_neg (by omega), if_neg hsub, hs1]
    simp only [ok_bind]
    rw [hs2.1, hcopy]
    simp only [ok_bind]
  · refine ⟨?_, ?_, ?_, ?_⟩
    · simp only [written_at, List.drop_drop, length_cols]
    · simp only [written_at, List.drop_drop, length_vals]
    · simp only [Nat.add_sub_cancel_left]
    · simp only
      rw [← hs2.1]
      exact hs2.2.1

theorem bind_eq_ok {α β : Type} {x : Except Fault α} {f : α → Except Fault β} {r : β}
    (h : (x >>= f) = .ok r) : ∃ a, x = .ok a ∧ f a = .ok r := by
  cases x with
  | error e => simp at h
  | ok a => exact ⟨a, rfl, h⟩

theorem setup_front_sim (row_indices_B : List Nat) (val_A : List R)
    (B_row_buffer B_col_buffer : List Nat) (B_elements : List R) (n i : Nat)
    (front : List (NumFrontEntry R))
    (h : setup_front_numeric row_indices_B val_A B_row_buffer B_col_buffer B_elements n i
      = .ok front) :
    setup_front row_indices_B B_row_buffer B_col_buffer n i = .ok (front.map index_part) := by
  induction n generalizing i front with
  | zero =>
    simp only [setup_front_numeric] at h
    cases h
    rfl
  | succ n ih =>
    simp only [setup_front_numeric] at h
    obtain ⟨row_B, h1, h⟩ := bind_eq_ok h
    obtain ⟨s, h2, h⟩ := bind_eq_ok h
    obtain ⟨e, h3, h⟩ := bind_eq_ok h
    obtain ⟨a, h4, h⟩ := bind_eq_ok h
    obtain ⟨rest, h5, h⟩ := bind_eq_ok h
    cases h
    simp only [setup_front, h1, h2, h3, ok_bind, ih _ _ h5, List.map_cons, index_part]

theorem load_front_sim (B : Nat) (front front1 : List (NumFrontEntry R))
    (h : load_front_numeric B front = .ok front1) :
    load_front B (front.map index_part) = .ok (front1.map index_part) := by
  induction front generalizing front1 with
  | nil =>
    simp only [load_front_numeric] at h
    cases h
    rfl
  | cons e es ih =>
    simp only [load_front_numeric] at h
    obtain ⟨v, h1, h⟩ := bind_eq_ok h
    obtain ⟨es1, h2, h⟩ := bind_eq_ok h
    cases h
    simp only [List.map_cons, load_front, index_part, h1, ok_bind, ih _ h2]

theorem min_index_sim (m : Nat) (front : List (NumFrontEntry R)) :
    min_index_in_front m (front.map index_part) = min_index_in_front_numeric m front := by
  induction front generalizing m with
  | nil => rfl
  | cons e es ih =>
    simp only [List.map_cons, min_index_in_front, min_index_in_front_numeric,
      List.foldl_cons] at ih ⊢
    exact ih _

theorem advance_front_sim [Add R] [Mul R] (B m : Nat) (front : List (NumFrontEntry R))
    (acc : R) (r : List (NumFrontEntry R) × R)
    (h : advance_front_numeric B m front acc = .ok r) :
    advance_front B m (front.map index_part) = .ok (r.1.map index_part) := by
  induction front generalizing acc r with
  | nil =>
    simp only [advance_front_numeric] at h
    cases h
    rfl
  | cons e es ih =>
    simp only [advance_front_numeric] at h
    by_cases he : e.index_front = m
    · rw [if_pos he] at h
      obtain ⟨v, h1, h⟩ := bind_eq_ok h
      obtain ⟨x, h2, h⟩ := bind_eq_ok h
      obtain ⟨r1, h3, h⟩ := bind_eq_ok h
      cases h
      simp only [List.map_cons, advance_front, index_part, if_pos he, h1, ok_bind, ih _ _ h3]
    · rw [if_neg he] at h
      obtain ⟨r1, h3, h⟩ := bind_eq_ok h
      cases h
      simp only [List.map_cons, advance_front, index_part, if_neg he, ok_bind, ih _ _ h3]

theorem numeric_front_loop_sim [Zero R] [Add R] [Mul R] (B fuel : Nat)
    (front : List (NumFrontEntry R)) (o o1 : NumOut R)
    (h : numeric_front_loop B fuel front o = .ok o1) :
    symbolic_front_loop B fuel (front.map index_part) o.out o.output_ptr
      = .ok (o1.out, o1.output_ptr) := by
  induction fuel generalizing front o with
  | zero => simp [numeric_front_loop] at h
  | succ n ih =>
    simp only [numeric_front_loop] at h
    simp only [symbolic_front_loop, min_index_sim]
    by_cases hm : min_index_in_front_numeric B front = B
    · rw [if_pos hm] at h
      cases h
      rw [if_pos hm]
    · rw [if_neg hm] at h
      rw [if_neg hm]
      obtain ⟨r, h1, h⟩ := bind_eq_ok h
      obtain ⟨out1, h2, h⟩ := bind_eq_ok h
      obtain ⟨outv1, h3, h⟩ := bind_eq_ok h
      rw [advance_front_sim B _ front 0 r h1, h2]
      simp only [ok_bind]
      exact ih _ _ h

theorem row_C_scan_numeric_vector_N_sim [Zero R] [One R] [Add R] [Mul R]
    (fuel IndexNum : Nat) (row_indices_B : List Nat) (val_A : List R)
    (B_row_buffer B_col_buffer : List Nat) (B_elements : List R) (B_size2 : Nat)
    (input : List Nat) (input_end : Nat) (input_values : List R)
    (out : List Nat) (out_values : List R) (r : Nat × List Nat × List R)
    (h : row_C_scan_numeric_vector_N fuel IndexNum row_indices_B val_A B_row_buffer
      B_col_buffer B_elements B_size2 input input_end input_values out out_values = .ok r) :
    row_C_scan_symbolic_vector_N fuel IndexNum row_indices_B B_row_buffer B_col_buffer B_size2
      input input_end out = .ok (r.1, r.2.1) := by
  simp only [row_C_scan_numeric_vector_N] at h
  obtain ⟨rows, h1, h⟩ := bind_eq_ok h
  obtain ⟨front, h2, h⟩ := bind_eq_ok h
  obtain ⟨o1, h3, h⟩ := bind_eq_ok h
  cases h
  have h2s := load_front_sim B_size2 _ _ h2
  simp only [List.map_append, List.map_cons, List.map_nil, index_part] at h2s
  have h3s := numeric_front_loop_sim B_size2 fuel front _ _ h3
  simp only [row_C_scan_symbolic_vector_N, setup_front_sim _ _ _ _ _ _ _ _ h1, ok_bind, h2s,
    h3s]

theorem advance_input_sim [Zero R] (input : List Nat) (input_values : List R)
    (input_end B col_B fuel : Nat) (st st1 : NumScan1 R)
    (h : advance_input_numeric input input_values input_end B col_B fuel st = .ok st1) :
    advance_input input input_end B col_B fuel (index_state st) = .ok (index_state st1) := by
  induction fuel generalizing st with
  | zero => simp [advance_input_numeric] at h
  | succ n ih =>
    simp only [advance_input_numeric] at h
    simp only [advance_input, index_state]
    by_cases hc : st.current_col_input < col_B
    · rw [if_pos hc] at h
      rw [if_pos hc]
      obtain ⟨out1, h1, h⟩ := bind_eq_ok h
      obtain ⟨outv1, h2, h⟩ := bind_eq_ok h
      obtain ⟨c, h3, h⟩ := bind_eq_ok h
      obtain ⟨x, h4, h⟩ := bind_eq_ok h
      rw [h1, h3]
      simp only [ok_bind]
      exact ih _ h
    · rw [if_neg hc] at h
      cases h
      rw [if_neg hc]

theorem scan_row_B_sim [Zero R] [Add R] [Mul R] (val_A : R) (B_col_buffer : List Nat)
    (B_elements : List R) (input : List Nat) (input_values : List R)
    (input_end B fuel n j : Nat) (st st1 : NumScan1 R)
    (h : scan_row_B_numeric val_A B_col_buffer B_elements input input_values input_end B fuel
      n j st = .ok st1) :
    scan_row_B B_col_buffer input input_end B fuel n j (index_state st)
      = .ok (index_state st1) := by
  induction n generalizing j st with
  | zero =>
    simp only [scan_row_B_numeric] at h
    cases h
    rfl
  | succ n ih =>
    simp only [scan_row_B_numeric] at h
    obtain ⟨col_B, h1, h⟩ := bind_eq_ok h
    obtain ⟨sa, h2, h⟩ := bind_eq_ok h
    obtain ⟨out1, h3, h⟩ := bind_eq_ok h
    have h2s := advance_input_sim _ _ _ _ _ _ _ _ h2
    simp only [scan_row_B, h1, ok_bind, h2s]
    have e1 : (index_state sa).out = sa.out := rfl
    have e2 : (index_state sa).output_ptr = sa.output_ptr := rfl
    have e3 : (index_state sa).current_col_input = sa.current_col_input := rfl
    have e4 : (index_state sa).row_C_vector_input = sa.row_C_vector_input := rfl
    rw [e1, e2, e3, e4, h3]
    simp only [ok_bind]
    by_cases hc : sa.current_col_input = col_B
    · rw [if_pos hc] at h
      rw [if_pos hc]
      obtain ⟨b, g1, h⟩ := bind_eq_ok h
      obtain ⟨outv1, g2, h⟩ := bind_eq_ok h
      obtain ⟨c, g3, h⟩ := bind_eq_ok h
      obtain ⟨x, g4, h⟩ := bind_eq_ok h
      rw [g3]
      simp only [ok_bind, pure_eq_ok] at h ⊢
      exact ih _ _ h
    · rw [if_neg hc] at h
      rw [if_neg hc]
      obtain ⟨b, g1, h⟩ := bind_eq_ok h
      obtain ⟨outv1, g2, h⟩ := bind_eq_ok h
      simp only [ok_bind, pure_eq_ok] at h ⊢
      exact ih _ _ h

theorem copy_remaining_sim (input : List Nat) (input_values : List R) (n p q : Nat)
    (o o1 : NumOut R) (h : copy_remaining_numeric input input_values n p q o = .ok o1) :
    copy_remaining input n p o.out o.output_ptr = .ok (o1.out, o1.output_ptr) := by
  induction n generalizing p q o with
  | zero =>
    simp only [copy_remaining_numeric] at h
    cases h
    rfl
  | succ n ih =>
    simp only [copy_remaining_numeric] at h
    obtain ⟨c, h1, h⟩ := bind_eq_ok h
    obtain ⟨out1, h2, h⟩ := bind_eq_ok h
    obtain ⟨x, h3, h⟩ := bind_eq_ok h
    obtain ⟨outv1, h4, h⟩ := bind_eq_ok h
    simp only [copy_remaining, h1, h2, ok_bind]
    exact ih _ _ _ h

theorem row_C_scan_numeric_vector_1_sim [Zero R] [Add R] [Mul R]
    (fuel row_index_B : Nat) (val_A : R)
    (B_row_buffer B_col_buffer : List Nat) (B_elements : List R) (B_size2 : Nat)
    (input : List Nat) (input_end : Nat) (input_values : List R)
    (out : List Nat) (out_values : List R) (r : Nat × List Nat × List R)
    (h : row_C_scan_numeric_vector_1 fuel row_index_B val_A B_row_buffer B_col_buffer
      B_elements B_size2 input input_end input_values out out_values = .ok r) :
    row_C_scan_symbolic_vector_1 fuel row_index_B B_row_buffer B_col_buffer B_size2
      input input_end out = .ok (r.1, r.2.1) := by
  simp only [row_C_scan_numeric_vector_1] at h
  obtain ⟨c, h1, h⟩ := bind_eq_ok h
  obtain ⟨x, h2, h⟩ := bind_eq_ok h
  obtain ⟨row_B_end, h3, h⟩ := bind_eq_ok h
  obtain ⟨j, h4, h⟩ := bind_eq_ok h
  obtain ⟨st, h5, h⟩ := bind_eq_ok h
  obtain ⟨o1, h6, h⟩ := bind_eq_ok h
  cases h
  have h5s := scan_row_B_sim _ _ _ _ _ _ _ _ _ _ _ _ h5
  have h6s := copy_remaining_sim _ _ _ _ _ _ _ h6
  simp only [index_state] at h5s
  simp only [row_C_scan_symbolic_vector_1, h1, h3, h4, ok_bind, h5s, h6s]

theorem numeric_chunk_loop_sim [Zero R] [One R] [Add R] [Mul R]
    (A_col_buffer : List Nat) (A_elements : List R)
    (B_row_buffer B_col_buffer : List Nat) (B_elements : List R)
    (B_size2 row_end_A fuel k row_start_A : Nat) (s s1 : Scratch R)
    (h : numeric_chunk_loop A_col_buffer A_elements B_row_buffer B_col_buffer B_elements
      B_size2 row_end_A fuel k row_start_A s = .ok s1) :
    symbolic_chunk_loop A_col_buffer B_row_buffer B_col_buffer B_size2 row_end_A fuel
      k row_start_A s.row_C_len s.row_C_vector_1 s.row_C_vector_2
      = .ok (s1.row_C_len, s1.row_C_vector_1, s1.row_C_vector_2) := by
  induction k generalizing row_start_A s with
  | zero => simp [numeric_chunk_loop] at h
  | succ k ih =>
    simp only [numeric_chunk_loop] at h
    simp only [symbolic_chunk_loop]
    by_cases h0 : row_end_A > row_start_A
    · rw [if_pos h0] at h
      rw [if_pos h0]
      by_cases h3 : row_end_A - row_start_A > 3
      · rw [if_pos h3] at h
        rw [if_pos h3]
        obtain ⟨r, h1, h⟩ := bind_eq_ok h
        rw [row_C_scan_numeric_vector_N_sim _ _ _ _ _ _ _ _ _ _ _ _ _ _ h1]
        simp only [ok_bind]
        exact ih _ _ h
      · rw [if_neg h3] at h
        rw [if_neg h3]
        obtain ⟨row, h1, h⟩ := bind_eq_ok h
        obtain ⟨a, h2, h⟩ := bind_eq_ok h
        obtain ⟨r, h4, h⟩ := bind_eq_ok h
        rw [h1]
        simp only [ok_bind]
        rw [row_C_scan_numeric_vector_1_sim _ _ _ _ _ _ _ _ _ _ _ _ _ h4]
        simp only [ok_bind]
        exact ih _ _ h
    · rw [if_neg h0] at h
      cases h
      rw [if_neg h0]

theorem selected_rows_eq_map [Zero R] (A_col_buffer : List Nat) (A_elements : List R)
    (B_row_buffer B_col_buffer : List Nat) (B_elements : List R) (n s : Nat) :
    selected_rows A_col_buffer A_elements B_row_buffer B_col_buffer B_elements n s =
      (List.range' s n).map (fun i => (A_elements.getD i 0,
        csr_row B_row_buffer B_col_buffer B_elements (A_col_buffer.getD i 0))) := by
  induction n generalizing s with
  | zero => rfl
  | succ n ih => simp only [selected_rows, List.range'_succ, List.map_cons, ih]

theorem mem_selected_rows [Zero R] (A_col_buffer : List Nat) (A_elements : List R)
    (B_row_buffer B_col_buffer : List Nat) (B_elements : List R) (n s : Nat) (p : R × Row R) :
    p ∈ selected_rows A_col_buffer A_elements B_row_buffer B_col_buffer B_elements n s ↔
      ∃ i, s ≤ i ∧ i < s + n ∧ p = (A_elements.getD i 0,
        csr_row B_row_buffer B_col_buffer B_elements (A_col_buffer.getD i 0)) := by
  rw [selected_rows_eq_map, List.mem_map]
  constructor
  · rintro ⟨i, hi, rfl⟩
    rw [List.mem_range'_1] at hi
    exact ⟨i, hi.1, hi.2, rfl⟩
  · rintro ⟨i, h1, h2, rfl⟩
    exact ⟨i, List.mem_range'_1.2 ⟨h1, h2⟩, rfl⟩

theorem weighted_sum_selected_rows [CommRing R] (A_col_buffer : List Nat) (A_elements : List R)
    (B_row_buffer B_col_buffer : List Nat) (B_elements : List R) (n s c : Nat) :
    weighted_sum (selected_rows A_col_buffer A_elements B_row_buffer B_col_buffer B_elements
      n s) c =
    ((List.range' s n).map (fun i => A_elements.getD i 0 *
      value_at (csr_row B_row_buffer B_col_buffer B_elements (A_col_buffer.getD i 0)) c)).sum := by
  rw [selected_rows_eq_map, weighted_sum, List.map_map]
  rfl

theorem value_at_scale_row [CommRing R] (a : R) (row : Row R) (c : Nat) :
    value_at (scale_row a row) c = a * value_at row c := by
  induction row with
  | nil => simp [scale_row, value_at]
  | cons e t ih =>
    rw [scale_row_cons]
    simp only [value_at]
    split
    · rfl
    · exact ih

theorem product_row_spec [CommRing R] (B : Nat) (entries : List (R × Row R))
    (hok : ∀ p ∈ entries, StreamOK B p.2) :
    StreamOK B (product_row B entries) ∧
    (∀ c, c ∈ cols (product_row B entries) ↔ ∃ p ∈ entries, c ∈ cols p.2) ∧
    (∀ c, value_at (product_row B entries) c = weighted_sum entries c) := by
  have hnil : StreamOK B ([] : Row R) :=
    ⟨List.Pairwise.nil, fun c hc => by simp [cols] at hc⟩
  match entries, hok with
  | [], _ =>
    simp only [product_row]
    exact ⟨hnil, fun c => by simp [cols], fun c => by simp [value_at, weighted_sum_nil]⟩
  | [e], hok =>
    simp only [product_row]
    have he := hok e (List.mem_singleton_self _)
    refine ⟨?_, fun c => ?_, fun c => ?_⟩
    · unfold StreamOK
      rw [cols_scale_row]
      exact he
    · rw [cols_scale_row]
      simp
    · rw [value_at_scale_row, weighted_sum_cons, weighted_sum_nil, add_zero]
  | e1 :: e2 :: es, hok =>
    simp only [product_row]
    obtain ⟨h1, h2, h3⟩ := merge_chunks_spec B (e1 :: e2 :: es).length (e1 :: e2 :: es) []
      (le_refl _) hok hnil
    refine ⟨h1, fun c => ?_, fun c => ?_⟩
    · rw [h2 c]
      simp [cols]
    · rw [h3 c]
      simp [value_at]

theorem slice_written_at {α : Type} (C : List α) (p : Nat) (xs : List α) (h : p ≤ C.length) :
    slice (written_at C p xs) p (p + xs.length) = xs := by
  unfold slice written_at
  have hl : (C.take p).length = p := by rw [List.length_take]; omega
  rw [List.append_assoc, List.drop_left' hl, Nat.add_sub_cancel_left, List.take_left' rfl]

theorem length_written_at {α : Type} (C : List α) (p : Nat) (xs : List α)
    (h : p + xs.length ≤ C.length) : (written_at C p xs).length = C.length := by
  unfold written_at
  simp only [List.length_append, List.length_take, List.length_drop]
  omega

theorem getElem?_written_at {α : Type} (C : List α) (p : Nat) (xs : List α)
    (h : p + xs.length ≤ C.length) (i : Nat) (hi : i < p ∨ p + xs.length ≤ i) :
    (written_at C p xs)[i]? = C[i]? := by
  unfold written_at
  have hl : (C.take p).length = p := by rw [List.length_take]; omega
  rcases hi with hi | hi
  · rw [List.append_assoc, List.getElem?_append_left (by omega), List.getElem?_take_of_lt hi]
  · rw [List.getElem?_append_right (by simp only [List.length_append, hl]; omega),
      List.getElem?_drop]
    simp only [List.length_append, hl]
    congr 1
    omega

theorem numericInput_entriesValid (row_start_A row_end_A : Nat) (A_col_buffer : List Nat)
    (A_elements : List R) (B_row_buffer B_col_buffer : List Nat) (B_elements : List R)
    (B_size2 : Nat) (v1 : List Nat) (v1v : List R) (v2 : List Nat) (v2v : List R)
    (h : NumericInput row_start_A row_end_A A_col_buffer A_elements B_row_buffer B_col_buffer
      B_elements B_size2 v1 v1v v2 v2v) :
    EntriesValid row_start_A row_end_A A_col_buffer A_elements B_row_buffer B_col_buffer
      B_elements B_size2 := by
  obtain ⟨⟨_, _, _, hrows, _, _⟩, ha, hb, _, _⟩ := h
  intro i hi1 hi2
  obtain ⟨g1, g2, _, g4⟩ := hrows i hi1 hi2
  exact ⟨g1, by omega, by rw [hb]; exact g2, g4⟩

theorem numericInput_streamOK [Zero R] (row_start_A row_end_A : Nat) (A_col_buffer : List Nat)
    (A_elements : List R) (B_row_buffer B_col_buffer : List Nat) (B_elements : List R)
    (B_size2 : Nat) (v1 : List Nat) (v1v : List R) (v2 : List Nat) (v2v : List R)
    (h : NumericInput row_start_A row_end_A A_col_buffer A_elements B_row_buffer B_col_buffer
      B_elements B_size2 v1 v1v v2 v2v) :
    ∀ p ∈ row_entries row_start_A row_end_A A_col_buffer A_elements B_row_buffer
      B_col_buffer B_elements, StreamOK B_size2 p.2 := by
  obtain ⟨⟨hle, _, _, hrows, _, _⟩, ha, hb, _, _⟩ := h
  intro p hp
  rw [row_entries, mem_selected_rows] at hp
  obtain ⟨i, hi1, hi2, rfl⟩ := hp
  obtain ⟨g1, g2, g3, g4⟩ := hrows i hi1 (by omega)
  unfold StreamOK
  simp only
  rw [cols_csr_row _ _ _ _ (by rw [hb]; exact g2)]
  exact ⟨g3, g4⟩

theorem total_length_row_entries [Zero R] (row_start_A row_end_A : Nat)
    (A_col_buffer : List Nat) (A_elements : List R) (B_row_buffer B_col_buffer : List Nat)
    (B_elements : List R) (B_size2 : Nat)
    (hv : EntriesValid row_start_A row_end_A A_col_buffer A_elements B_row_buffer B_col_buffer
      B_elements B_size2) (hle : row_start_A ≤ row_end_A) :
    total_length (row_entries row_start_A row_end_A A_col_buffer A_elements B_row_buffer
      B_col_buffer B_elements)
      = selected_nnz row_start_A row_end_A A_col_buffer B_row_buffer B_col_buffer := by
  unfold total_length row_entries selected_nnz
  rw [selected_rows_eq_map, List.map_map]
  congr 1
  apply List.map_congr_left
  intro i hi
  rw [List.mem_range'_1] at hi
  obtain ⟨_, _, g3, _⟩ := hv i hi.1 (by omega)
  simp only [Function.comp]
  rw [← cols_csr_row _ _ _ _ g3, length_cols]

theorem take_of_carried_row (a : List Nat) (b : List R) (n : Nat) (res : Row R)
    (h : carried_row a b n = res) (ha : n ≤ a.length) (hb : n ≤ b.length) :
    a.take n = cols res := by
  rw [← h]
  unfold carried_row
  rw [cols_zip_slice _ _ _ _ ha hb]
  simp [slice]

theorem symbolic_chunk_result [CommRing R]
    (fuel row_start_A row_end_A : Nat) (A_col_buffer : List Nat) (A_elements : List R)
    (B_row_buffer B_col_buffer : List Nat) (B_elements : List R) (B_size2 : Nat)
    (v1 : List Nat) (v1v : List R) (v2 : List Nat) (v2v : List R)
    (entries : List (R × Row R)) (res : Row R)
    (hent : entries = row_entries row_start_A row_end_A A_col_buffer A_elements
      B_row_buffer B_col_buffer B_elements)
    (hres : res = merge_chunks B_size2 entries.length entries [])
    (h2 : row_start_A + 2 ≤ row_end_A) (hu : row_end_A < U32)
    (hv : EntriesValid row_start_A row_end_A A_col_buffer A_elements B_row_buffer B_col_buffer
      B_elements B_size2)
    (hc1 : total_length entries ≤ v1.length) (hc1v : total_length entries ≤ v1v.length)
    (hc2 : total_length entries ≤ v2.length) (hc2v : total_length entries ≤ v2v.length)
    (hfuel : total_length entries + (row_end_A - row_start_A) < fuel)
    (hU : total_length entries < U32 ∨
      (B_size2 < U32 ∧ ∀ p ∈ entries, StreamOK B_size2 p.2)) :
    ∃ s1 s2, row_C_scan_symbolic_vector fuel row_start_A row_end_A A_col_buffer
      B_row_buffer B_col_buffer B_size2 v1 v2 = .ok (res.length, s1, s2) ∧
      s1.take res.length = cols res := by
  have hsub : ¬ u32_sub row_end_A row_start_A = 1 := by
    rw [u32_sub_of_le _ _ (by omega) hu]; omega
  have hlen : entries.length = row_end_A - row_start_A := by
    rw [hent]; exact length_selected_rows _ _ _ _ _ _ _
  obtain ⟨s1, hs1, hs2⟩ := numeric_chunk_loop_spec A_col_buffer A_elements B_row_buffer
    B_col_buffer B_elements B_size2 row_end_A fuel (total_length entries) (by omega)
    fuel row_start_A
    { row_C_len := 0, row_C_vector_1 := v1, row_C_vector_1_values := v1v,
      row_C_vector_2 := v2, row_C_vector_2_values := v2v } [] hv
    ⟨rfl, by simp [carried_row, slice], hc1, hc1v, hc2, hc2v⟩
    (by rw [hent]; simp [row_entries])
    (by
      rcases hU with h | ⟨hB, he⟩
      · exact Or.inl h
      · refine Or.inr ⟨hB, ⟨List.Pairwise.nil, fun c hc => by simp [cols] at hc⟩, ?_⟩
        rw [hent] at he; exact he)
    (by omega)
  have hmc : merge_chunks B_size2 fuel (selected_rows A_col_buffer A_elements B_row_buffer
      B_col_buffer B_elements (row_end_A - row_start_A) row_start_A) [] = res := by
    rw [hres, hent]
    exact merge_chunks_fuel B_size2 _ _ _ _
      (by rw [length_selected_rows]; omega)
      (by simp only [row_entries, length_selected_rows]; exact le_refl _)
  rw [hmc] at hs2
  have hrl : res.length ≤ total_length entries := by
    have := length_merge_chunks_le B_size2 entries.length entries []
    rw [← hres] at this
    simpa using this
  have hsim := numeric_chunk_loop_sim _ _ _ _ _ _ _ _ _ _ _ _ hs1
  obtain ⟨g1, g2, g3, g4, _, _⟩ := hs2
  refine ⟨s1.row_C_vector_1, s1.row_C_vector_2, ?_, ?_⟩
  · simp only [row_C_scan_symbolic_vector]
    rw [if_neg (by omega), if_neg hsub]
    simp only at hsim
    rw [hsim, g1]
  · rw [g1] at g2
    exact take_of_carried_row _ _ _ _ g2 (by omega) (by omega)

theorem u32_sub_eq (a b : Nat) (h1 : b ≤ a) (h2 : a - b < U32) : u32_sub a b = a - b := by
  unfold u32_sub
  rw [show a + U32 - b = (a - b) + U32 by omega, Nat.add_mod_right]
  exact Nat.mod_eq_of_lt h2

theorem product_row_many [Zero R] [One R] [Add R] [Mul R] (B : Nat)
    (entries : List (R × Row R)) (h : 2 ≤ entries.length) :
    product_row B entries = merge_chunks B entries.length entries [] := by
  match entries, h with
  | [], h => simp at h
  | [e], h => simp at h
  | e1 :: e2 :: es, _ => rfl

theorem written_at_nil {α : Type} (C : List α) (p : Nat) : written_at C p [] = C := by
  simp [written_at]

theorem driver_spec [CommRing R]
    (fuel row_start_A row_end_A : Nat) (A_col_buffer : List Nat) (A_elements : List R)
    (B_row_buffer B_col_buffer : List Nat) (B_elements : List R) (B_size2 : Nat)
    (row_start_C row_end_C : Nat) (C_col_buffer : List Nat) (C_elements : List R)
    (v1 : List Nat) (v1v : List R) (v2 : List Nat) (v2v : List R) (res : Row R)
    (hres : res = product_row B_size2 (row_entries row_start_A row_end_A A_col_buffer
      A_elements B_row_buffer B_col_buffer B_elements))
    (hwf : NumericInput row_start_A row_end_A A_col_buffer A_elements B_row_buffer
      B_col_buffer B_elements B_size2 v1 v1v v2 v2v)
    (hfuel : selected_nnz row_start_A row_end_A A_col_buffer B_row_buffer B_col_buffer
      + (row_end_A - row_start_A) < fuel)
    (hC : row_start_C + symbolic_length fuel row_start_A row_end_A A_col_buffer B_row_buffer
      B_col_buffer B_size2 v1 v2 ≤ C_col_buffer.length)
    (hCv : row_start_C + symbolic_length fuel row_start_A row_end_A A_col_buffer B_row_buffer
      B_col_buffer B_size2 v1 v2 ≤ C_elements.length) :
    ∃ r s1 s2,
      row_C_scan_numeric_vector fuel row_start_A row_end_A A_col_buffer A_elements
        B_row_buffer B_col_buffer B_elements B_size2 row_start_C row_end_C
        C_col_buffer C_elements v1 v1v v2 v2v = .ok r ∧
      row_C_scan_symbolic_vector fuel row_start_A row_end_A A_col_buffer
        B_row_buffer B_col_buffer B_size2 v1 v2 = .ok (res.length, s1, s2) ∧
      r.C_col_buffer = written_at C_col_buffer row_start_C (cols res) ∧
      r.C_elements = written_at C_elements row_start_C (vals res) ∧
      r.written = res.length ∧
      (row_start_A + 2 ≤ row_end_A → s1.take res.length = cols res) := by
  have hv := numericInput_entriesValid _ _ _ _ _ _ _ _ _ _ _ _ hwf
  have hok := numericInput_streamOK _ _ _ _ _ _ _ _ _ _ _ _ hwf
  obtain ⟨⟨hle, hu, hB, hrows, hc1, hc2⟩, ha, hb, hc1v, hc2v⟩ := hwf
  have htl := total_length_row_entries _ _ _ _ _ _ _ _ hv hle
  rcases Nat.lt_or_ge row_start_A row_end_A with hlt | hge
  · rcases Nat.lt_or_ge (row_start_A + 1) row_end_A with h2 | h1
    · -- two or more entries
      have hlen : (row_entries row_start_A row_end_A A_col_buffer A_elements B_row_buffer
          B_col_buffer B_elements).length = row_end_A - row_start_A :=
        length_selected_rows _ _ _ _ _ _ _
      rw [product_row_many _ _ (by omega)] at hres
      obtain ⟨s1, s2, hsym, htake⟩ := symbolic_chunk_result fuel row_start_A row_end_A
        A_col_buffer A_elements B_row_buffer B_col_buffer B_elements B_size2 v1 v1v v2 v2v
        _ res rfl hres (by omega) hu hv (by omega) (by omega) (by omega) (by omega)
        (by omega) (Or.inr ⟨hB, hok⟩)
      have hsl : symbolic_length fuel row_start_A row_end_A A_col_buffer B_row_buffer
          B_col_buffer B_size2 v1 v2 = res.length := by
        simp only [symbolic_length, hsym]
      rw [hsl] at hC hCv
      obtain ⟨r, hr, g1, g2, g3, _⟩ := row_C_scan_numeric_vector_many fuel row_start_A
        row_end_A A_col_buffer A_elements B_row_buffer B_col_buffer B_elements B_size2
        row_start_C row_end_C C_col_buffer C_elements v1 v1v v2 v2v _ res rfl hres
        (by omega) hu hv (by omega) (by omega) (by omega) (by omega) (by omega)
        (Or.inr ⟨hB, hok⟩) hC hCv
      exact ⟨r, s1, s2, hr, hsym, g1, g2, g3, fun _ => htake⟩
    · -- exactly one entry
      have h1 : row_end_A = row_start_A + 1 := by omega
      obtain ⟨a1, a2, a3, a4⟩ := hv row_start_A (le_refl _) hlt
      have hent : row_entries row_start_A row_end_A A_col_buffer A_elements B_row_buffer
          B_col_buffer B_elements = [(A_elements.getD row_start_A 0,
            csr_row B_row_buffer B_col_buffer B_elements (A_col_buffer.getD row_start_A 0))] := by
        simp only [row_entries, h1, Nat.add_sub_cancel_left, selected_rows]
      rw [hent] at hres
      simp only [product_row] at hres
      have hrow := rowValid_cursor B_row_buffer B_col_buffer B_elements _ a3
      have hsub : u32_sub row_end_A row_start_A = 1 := by
        rw [u32_sub_of_le _ _ (by omega) hu]; omega
      obtain ⟨g1, g2, g3, g4, g5⟩ := a3
      have hsym : row_C_scan_symbolic_vector fuel row_start_A row_end_A A_col_buffer
          B_row_buffer B_col_buffer B_size2 v1 v2 = .ok (res.length, v1, v2) := by
        simp only [row_C_scan_symbolic_vector]
        rw [if_neg (by omega), if_pos hsub, readAt_getD A_col_buffer _ 0 a1]
        simp only [ok_bind]
        rw [u32_add_one _ g2, readAt_getD B_row_buffer _ 0 g1,
          readAt_getD B_row_buffer _ 0 (by omega)]
        simp only [ok_bind]
        rw [u32_sub_eq _ _ g3 (by
          have h5 := length_le_of_streamOK B_size2 _ (hok _ (by
            rw [hent]; exact List.mem_singleton_self _))
          simp only at h5
          rw [hrow.2] at h5
          omega), hres, length_scale_row, hrow.2]
      have hsl : symbolic_length fuel row_start_A row_end_A A_col_buffer B_row_buffer
          B_col_buffer B_size2 v1 v2 = res.length := by
        simp only [symbolic_length, hsym]
      rw [hsl, hres, length_scale_row] at hC hCv
      have hnum := row_C_scan_numeric_vector_one fuel row_start_A row_end_A A_col_buffer
        A_elements B_row_buffer B_col_buffer B_elements B_size2 row_start_C row_end_C
        C_col_buffer C_elements v1 v1v v2 v2v h1 hu a1 a2 ⟨g1, g2, g3, g4, g5⟩ hC hCv
      refine ⟨_, v1, v2, hnum, hsym, ?_, ?_, ?_, fun h => absurd h (by omega)⟩
      · rw [hres]
      · rw [hres]
      · rw [hres, length_scale_row]
  · -- no entry
    have h0 : row_start_A = row_end_A := by omega
    have hent : row_entries row_start_A row_end_A A_col_buffer A_elements B_row_buffer
        B_col_buffer B_elements = [] := by
      simp only [row_entries, h0, Nat.sub_self, selected_rows]
    rw [hent] at hres
    simp only [product_row] at hres
    subst hres
    refine ⟨{ C_col_buffer := C_col_buffer, C_elements := C_elements, written := 0,
              row_C_vector_1 := v1, row_C_vector_1_values := v1v,
              row_C_vector_2 := v2, row_C_vector_2_values := v2v }, v1, v2, ?_, ?_, ?_, ?_,
      rfl, fun h => absurd h (by omega)⟩
    · simp only [row_C_scan_numeric_vector, if_pos h0]
    · simp only [row_C_scan_symbolic_vector, if_pos h0, List.length_nil]
    · simp only [cols_nil, written_at_nil]
    · simp only [vals_nil, written_at_nil]

theorem written_row_eq (r : NumericResult R) (C : List Nat) (Cv : List R) (p : Nat)
    (res : Row R) (h1 : r.C_col_buffer = written_at C p (cols res))
    (h2 : r.C_elements = written_at Cv p (vals res)) (h3 : r.written = res.length)
    (hC : p ≤ C.length) (hCv : p ≤ Cv.length) : written_row r p = res := by
  unfold written_row
  rw [h1, h2, h3]
  have e1 := slice_written_at C p (cols res) hC
  have e2 := slice_written_at Cv p (vals res) hCv
  rw [length_cols] at e1
  rw [length_vals] at e2
  rw [e1, e2, zip_cols_vals]

theorem symbolic_driver_spec [CommRing R]
    (fuel row_start_A row_end_A : Nat) (A_col_buffer : List Nat) (A_elements : List R)
    (B_row_buffer B_col_buffer : List Nat) (B_elements : List R) (B_size2 : Nat)
    (v1 : List Nat) (v1v : List R) (v2 : List Nat) (v2v : List R) (res : Row R)
    (hres : res = product_row B_size2 (row_entries row_start_A row_end_A A_col_buffer
      A_elements B_row_buffer B_col_buffer B_elements))
    (hwf : NumericInput row_start_A row_end_A A_col_buffer A_elements B_row_buffer
      B_col_buffer B_elements B_size2 v1 v1v v2 v2v)
    (hfuel : selected_nnz row_start_A row_end_A A_col_buffer B_row_buffer B_col_buffer
      + (row_end_A - row_start_A) < fuel) :
    ∃ s1 s2,
      row_C_scan_symbolic_vector fuel row_start_A row_end_A A_col_buffer
        B_row_buffer B_col_buffer B_size2 v1 v2 = .ok (res.length, s1, s2) ∧
      (row_start_A + 2 ≤ row_end_A → s1.take res.length = cols res) := by
  -- run the content pass on output arrays that are large enough
  obtain ⟨r, s1, s2, _, h2, _, _, _, h6⟩ := driver_spec fuel row_start_A row_end_A A_col_buffer
    A_elements B_row_buffer B_col_buffer B_elements B_size2 0 0
    (List.replicate (symbolic_length fuel row_start_A row_end_A A_col_buffer B_row_buffer
      B_col_buffer B_size2 v1 v2) 0)
    (List.replicate (symbolic_length fuel row_start_A row_end_A A_col_buffer B_row_buffer
      B_col_buffer B_size2 v1 v2) 0) v1 v1v v2 v2v res hres hwf hfuel
    (by simp) (by simp)
  exact ⟨s1, s2, h2, h6⟩

theorem length_zeros (xs : List Nat) : (zeros xs).length = xs.length := by
  simp [zeros]

theorem symbolic_pattern_spec
    (fuel row_start_A row_end_A : Nat) (A_col_buffer : List Nat)
    (B_row_buffer B_col_buffer : List Nat) (B_size2 : Nat) (v1 v2 : List Nat)
    (hwf : SymbolicInput row_start_A row_end_A A_col_buffer B_row_buffer B_col_buffer B_size2
      v1 v2)
    (hfuel : selected_nnz row_start_A row_end_A A_col_buffer B_row_buffer B_col_buffer
      + (row_end_A - row_start_A) < fuel) :
    ∃ pattern s1 s2,
      row_C_scan_symbolic_vector fuel row_start_A row_end_A A_col_buffer
        B_row_buffer B_col_buffer B_size2 v1 v2 = .ok (pattern.length, s1, s2) ∧
      StrictAsc pattern ∧ (∀ c ∈ pattern, c < B_size2) ∧
      (∀ c, c ∈ pattern ↔ ∃ k, row_start_A ≤ k ∧ k < row_end_A ∧
        c ∈ csr_cols B_row_buffer B_col_buffer (A_col_buffer.getD k 0)) ∧
      (row_start_A + 2 ≤ row_end_A → s1.take pattern.length = pattern) := by
  have hnum : NumericInput row_start_A row_end_A A_col_buffer (zeros A_col_buffer)
      B_row_buffer B_col_buffer (zeros B_col_buffer) B_size2 v1 (zeros v1) v2 (zeros v2) :=
    ⟨hwf, length_zeros _, length_zeros _, by rw [length_zeros]; exact hwf.2.2.2.2.1,
      by rw [length_zeros]; exact hwf.2.2.2.2.2⟩
  obtain ⟨s1, s2, h1, h2⟩ := symbolic_driver_spec fuel row_start_A row_end_A A_col_buffer
    (zeros A_col_buffer) B_row_buffer B_col_buffer (zeros B_col_buffer) B_size2
    v1 (zeros v1) v2 (zeros v2) _ rfl hnum hfuel
  have hok := numericInput_streamOK _ _ _ _ _ _ _ _ _ _ _ _ hnum
  have hv := numericInput_entriesValid _ _ _ _ _ _ _ _ _ _ _ _ hnum
  obtain ⟨p1, p2, _⟩ := product_row_spec B_size2 _ hok
  refine ⟨cols (product_row B_size2 (row_entries row_start_A row_end_A A_col_buffer
    (zeros A_col_buffer) B_row_buffer B_col_buffer (zeros B_col_buffer))), s1, s2, ?_,
    p1.1, p1.2, fun c => ?_, ?_⟩
  · rw [length_cols]; exact h1
  · rw [p2 c]
    constructor
    · rintro ⟨p, hp, hc⟩
      rw [row_entries, mem_selected_rows] at hp
      obtain ⟨i, hi1, hi2, rfl⟩ := hp
      have hi3 : i < row_end_A := by have := hwf.1; omega
      simp only at hc
      rw [cols_csr_row _ _ _ _ (hv i hi1 hi3).2.2.1] at hc
      exact ⟨i, hi1, hi3, hc⟩
    · rintro ⟨i, hi1, hi2, hc⟩
      refine ⟨(List.getD (zeros A_col_buffer) i 0, csr_row B_row_buffer B_col_buffer
        (zeros B_col_buffer) (A_col_buffer.getD i 0)), ?_, ?_⟩
      · rw [row_entries, mem_selected_rows]
        exact ⟨i, hi1, by omega, rfl⟩
      · simp only
        rw [cols_csr_row _ _ _ _ (hv i hi1 hi2).2.2.1]
        exact hc
  · rw [length_cols]; exact h2

/-! # Claims -/

/-- C1: for every well-formed input over a commutative ring, the content pass
returns, and the row it wrote at `row_start_C` holds, for every column `c`,
the sum over the entries `k` of the left row of `A_elements[k]` times the value
of row `A_col_buffer[k]` of B at `c` (zero where a row has no entry). -/
theorem numeric_row_is_weighted_sum [CommRing R]
    (fuel row_start_A row_end_A : Nat) (A_col_buffer : List Nat) (A_elements : List R)
    (B_row_buffer B_col_buffer : List Nat) (B_elements : List R) (B_size2 : Nat)
    (row_start_C row_end_C : Nat) (C_col_buffer : List Nat) (C_elements : List R)
    (row_C_vector_1 : List Nat) (row_C_vector_1_values : List R)
    (row_C_vector_2 : List Nat) (row_C_vector_2_values : List R)
    (hwf : NumericInput row_start_A row_end_A A_col_buffer A_elements B_row_buffer
      B_col_buffer B_elements B_size2 row_C_vector_1 row_C_vector_1_values
      row_C_vector_2 row_C_vector_2_values)
    (hfuel : selected_nnz row_start_A row_end_A A_col_buffer B_row_buffer B_col_buffer
      + (row_end_A - row_start_A) < fuel)
    (hC : row_start_C + symbolic_length fuel row_start_A row_end_A A_col_buffer B_row_buffer
      B_col_buffer B_size2 row_C_vector_1 row_C_vector_2 ≤ C_col_buffer.length)
    (hCv : row_start_C + symbolic_length fuel row_start_A row_end_A A_col_buffer B_row_buffer
      B_col_buffer B_size2 row_C_vector_1 row_C_vector_2 ≤ C_elements.length) :
    ∃ r, row_C_scan_numeric_vector fuel row_start_A row_end_A A_col_buffer A_elements
        B_row_buffer B_col_buffer B_elements B_size2 row_start_C row_end_C
        C_col_buffer C_elements row_C_vector_1 row_C_vector_1_values
        row_C_vector_2 row_C_vector_2_values = .ok r ∧
      ∀ c, value_at (written_row r row_start_C) c =
        ((List.range' row_start_A (row_end_A - row_start_A)).map (fun k =>
          A_elements.getD k 0 *
            value_at (csr_row B_row_buffer B_col_buffer B_elements (A_col_buffer.getD k 0))
              c)).sum := by
  obtain ⟨r, s1, s2, h1, _, h3, h4, h5, _⟩ := driver_spec fuel row_start_A row_end_A
    A_col_buffer A_elements B_row_buffer B_col_buffer B_elements B_size2 row_start_C row_end_C
    C_col_buffer C_elements row_C_vector_1 row_C_vector_1_values row_C_vector_2
    row_C_vector_2_values _ rfl hwf hfuel hC hCv
  refine ⟨r, h1, fun c => ?_⟩
  rw [written_row_eq r C_col_buffer C_elements row_start_C _ h3 h4 h5 (by omega) (by omega),
    (product_row_spec B_size2 _ (numericInput_streamOK _ _ _ _ _ _ _ _ _ _ _ _ hwf)).2.2 c,
    row_entries, weighted_sum_selected_rows]

/-- Witness for C1: the concrete scenario of the specification. -/
theorem numeric_row_is_weighted_sum_witness :
    NumericInput 0 2 [0, 2] ([2, 3] : List Int) [0, 1, 1, 3] [1, 1, 3] ([5, 4, 1] : List Int) 4
      [0, 0, 0] ([0, 0, 0] : List Int) [0, 0, 0] ([0, 0, 0] : List Int) ∧
    selected_nnz 0 2 [0, 2] [0, 1, 1, 3] [1, 1, 3] + (2 - 0) < 10 ∧
    0 + symbolic_length 10 0 2 [0, 2] [0, 1, 1, 3] [1, 1, 3] 4 [0, 0, 0] [0, 0, 0]
      ≤ [9, 9, 9].length ∧
    0 + symbolic_length 10 0 2 [0, 2] [0, 1, 1, 3] [1, 1, 3] 4 [0, 0, 0] [0, 0, 0]
      ≤ ([9, 9, 9] : List Int).length ∧
    ∃ r, row_C_scan_numeric_vector 10 0 2 [0, 2] ([2, 3] : List Int) [0, 1, 1, 3] [1, 1, 3]
        ([5, 4, 1] : List Int) 4 0 2 [9, 9, 9] ([9, 9, 9] : List Int)
        [0, 0, 0] ([0, 0, 0] : List Int) [0, 0, 0] ([0, 0, 0] : List Int) = .ok r ∧
      ∀ c, value_at (written_row r 0) c =
        ((List.range' 0 (2 - 0)).map (fun k =>
          ([2, 3] : List Int).getD k 0 *
            value_at (csr_row [0, 1, 1, 3] [1, 1, 3] ([5, 4, 1] : List Int)
              (([0, 2] : List Nat).getD k 0)) c)).sum :=
  ⟨by decide, by decide, by decide, by decide,
    numeric_row_is_weighted_sum 10 0 2 [0, 2] [2, 3] [0, 1, 1, 3] [1, 1, 3] [5, 4, 1] 4 0 2
      [9, 9, 9] [9, 9, 9] [0, 0, 0] [0, 0, 0] [0, 0, 0] [0, 0, 0]
      (by decide) (by decide) (by decide) (by decide)⟩

/-- C3: for every well-formed input the size pass returns the number of
distinct column indices in the union of the rows of B selected by
`A_col_buffer[row_start_A .. row_end_A)`. -/
theorem symbolic_length_counts_distinct_columns
    (fuel row_start_A row_end_A : Nat) (A_col_buffer : List Nat)
    (B_row_buffer B_col_buffer : List Nat) (B_size2 : Nat)
    (row_C_vector_1 row_C_vector_2 : List Nat)
    (hwf : SymbolicInput row_start_A row_end_A A_col_buffer B_row_buffer B_col_buffer B_size2
      row_C_vector_1 row_C_vector_2)
    (hfuel : selected_nnz row_start_A row_end_A A_col_buffer B_row_buffer B_col_buffer
      + (row_end_A - row_start_A) < fuel) :
    ∃ s1 s2, row_C_scan_symbolic_vector fuel row_start_A row_end_A A_col_buffer
        B_row_buffer B_col_buffer B_size2 row_C_vector_1 row_C_vector_2 =
      .ok (((List.range' row_start_A (row_end_A - row_start_A)).flatMap (fun k =>
              csr_cols B_row_buffer B_col_buffer (A_col_buffer.getD k 0))).toFinset.card,
           s1, s2) := by
  obtain ⟨pattern, s1, s2, h1, h2, _, h4, _⟩ := symbolic_pattern_spec fuel row_start_A
    row_end_A A_col_buffer B_row_buffer B_col_buffer B_size2 row_C_vector_1 row_C_vector_2
    hwf hfuel
  refine ⟨s1, s2, ?_⟩
  have hnd : pattern.Nodup := List.Pairwise.imp (fun h => Nat.ne_of_lt h) h2
  have hset : ((List.range' row_start_A (row_end_A - row_start_A)).flatMap (fun k =>
      csr_cols B_row_buffer B_col_buffer (A_col_buffer.getD k 0))).toFinset
      = pattern.toFinset := by
    ext c
    simp only [List.mem_toFinset, List.mem_flatMap, List.mem_range'_1, h4 c]
    constructor
    · rintro ⟨k, ⟨hk1, hk2⟩, hc⟩
      exact ⟨k, hk1, by have := hwf.1; omega, hc⟩
    · rintro ⟨k, hk1, hk2, hc⟩
      exact ⟨k, ⟨hk1, by omega⟩, hc⟩
  rw [hset, List.toFinset_card_of_nodup hnd]
  exact h1

/-- Witness for C3: a left row with four entries, two of them selecting rows
that share column 1. -/
theorem symbolic_length_counts_distinct_columns_witness :
    SymbolicInput 0 4 [0, 1, 2, 3] [0, 1, 3, 5, 7] [1, 1, 3, 0, 2, 2, 5] 6
      [0, 0, 0, 0, 0, 0, 0] [0, 0, 0, 0, 0, 0, 0] ∧
    selected_nnz 0 4 [0, 1, 2, 3] [0, 1, 3, 5, 7] [1, 1, 3, 0, 2, 2, 5] + (4 - 0) < 20 ∧
    ∃ s1 s2, row_C_scan_symbolic_vector 20 0 4 [0, 1, 2, 3] [0, 1, 3, 5, 7]
        [1, 1, 3, 0, 2, 2, 5] 6 [0, 0, 0, 0, 0, 0, 0] [0, 0, 0, 0, 0, 0, 0] =
      .ok (((List.range' 0 (4 - 0)).flatMap (fun k =>
              csr_cols [0, 1, 3, 5, 7] [1, 1, 3, 0, 2, 2, 5]
                (([0, 1, 2, 3] : List Nat).getD k 0))).toFinset.card, s1, s2) :=
  ⟨by decide, by decide,
    symbolic_length_counts_distinct_columns 20 0 4 [0, 1, 2, 3] [0, 1, 3, 5, 7]
      [1, 1, 3, 0, 2, 2, 5] 6 [0, 0, 0, 0, 0, 0, 0] [0, 0, 0, 0, 0, 0, 0]
      (by decide) (by decide)⟩

/-- C7: when `row_start_A == row_end_A` the size pass returns 0 and the
content pass writes nothing: the output arrays and both scratch buffer pairs
are returned unchanged, whatever the other arguments hold and with no fuel
at all (no loop is entered). -/
theorem empty_left_row [Zero R] [One R] [Add R] [Mul R]
    (fuel row_start_A : Nat) (A_col_buffer : List Nat) (A_elements : List R)
    (B_row_buffer B_col_buffer : List Nat) (B_elements : List R) (B_size2 : Nat)
    (row_start_C row_end_C : Nat) (C_col_buffer : List Nat) (C_elements : List R)
    (row_C_vector_1 : List Nat) (row_C_vector_1_values : List R)
    (row_C_vector_2 : List Nat) (row_C_vector_2_values : List R) :
    row_C_scan_symbolic_vector fuel row_start_A row_start_A A_col_buffer
      B_row_buffer B_col_buffer B_size2 row_C_vector_1 row_C_vector_2
      = .ok (0, row_C_vector_1, row_C_vector_2) ∧
    row_C_scan_numeric_vector fuel row_start_A row_start_A A_col_buffer A_elements
      B_row_buffer B_col_buffer B_elements B_size2 row_start_C row_end_C
      C_col_buffer C_elements row_C_vector_1 row_C_vector_1_values
      row_C_vector_2 row_C_vector_2_values
      = .ok { C_col_buffer := C_col_buffer, C_elements := C_elements, written := 0,
              row_C_vector_1 := row_C_vector_1,
              row_C_vector_1_values := row_C_vector_1_values,
              row_C_vector_2 := row_C_vector_2,
              row_C_vector_2_values := row_C_vector_2_values } := by
  constructor
  · simp only [row_C_scan_symbolic_vector, if_true]
  · simp only [row_C_scan_numeric_vector, if_true]

/-- C8: when `row_end_A - row_start_A == 1` (and the row is not empty), with
`A_col = A_col_buffer[row_start_A]` selecting a readable row of B, the size
pass returns the nonzero count of that row, and the content pass writes, from
`row_start_C` on, exactly the columns of that row in their order, each with
value `A_elements[row_start_A]` times the value of B at that position; all
other cells of the output arrays and the scratch buffers are unchanged. -/
theorem single_entry_left_row [Zero R] [One R] [Add R] [Mul R]
    (fuel row_start_A row_end_A : Nat) (A_col_buffer : List Nat) (A_elements : List R)
    (B_row_buffer B_col_buffer : List Nat) (B_elements : List R) (B_size2 : Nat)
    (row_start_C row_end_C : Nat) (C_col_buffer : List Nat) (C_elements : List R)
    (row_C_vector_1 : List Nat) (row_C_vector_1_values : List R)
    (row_C_vector_2 : List Nat) (row_C_vector_2_values : List R)
    (hne : row_start_A ≠ row_end_A) (h1 : u32_sub row_end_A row_start_A = 1)
    (ha : row_start_A < A_col_buffer.length) (hav : row_start_A < A_elements.length)
    (hr : RowValid B_row_buffer B_col_buffer B_elements.length
      (A_col_buffer.getD row_start_A 0))
    (hhi : B_row_buffer.getD (A_col_buffer.getD row_start_A 0 + 1) 0 < U32)
    (hC : row_start_C + (csr_cols B_row_buffer B_col_buffer
      (A_col_buffer.getD row_start_A 0)).length ≤ C_col_buffer.length)
    (hCv : row_start_C + (csr_cols B_row_buffer B_col_buffer
      (A_col_buffer.getD row_start_A 0)).length ≤ C_elements.length) :
    row_C_scan_symbolic_vector fuel row_start_A row_end_A A_col_buffer
      B_row_buffer B_col_buffer B_size2 row_C_vector_1 row_C_vector_2
      = .ok ((csr_cols B_row_buffer B_col_buffer (A_col_buffer.getD row_start_A 0)).length,
             row_C_vector_1, row_C_vector_2) ∧
    row_C_scan_numeric_vector fuel row_start_A row_end_A A_col_buffer A_elements
      B_row_buffer B_col_buffer B_elements B_size2 row_start_C row_end_C
      C_col_buffer C_elements row_C_vector_1 row_C_vector_1_values
      row_C_vector_2 row_C_vector_2_values
      = .ok { C_col_buffer := written_at C_col_buffer row_start_C
                (csr_cols B_row_buffer B_col_buffer (A_col_buffer.getD row_start_A 0)),
              C_elements := written_at C_elements row_start_C
                ((csr_row B_row_buffer B_col_buffer B_elements
                  (A_col_buffer.getD row_start_A 0)).map
                    (fun e => A_elements.getD row_start_A 0 * e.2)),
              written := (csr_cols B_row_buffer B_col_buffer
                (A_col_buffer.getD row_start_A 0)).length,
              row_C_vector_1 := row_C_vector_1,
              row_C_vector_1_values := row_C_vector_1_values,
              row_C_vector_2 := row_C_vector_2,
              row_C_vector_2_values := row_C_vector_2_values } := by
  have hrow := rowValid_cursor B_row_buffer B_col_buffer B_elements _ hr
  have hcc := cols_csr_row B_row_buffer B_col_buffer B_elements _ hr
  have hlen : (csr_row B_row_buffer B_col_buffer B_elements
      (A_col_buffer.getD row_start_A 0)).length
      = (csr_cols B_row_buffer B_col_buffer (A_col_buffer.getD row_start_A 0)).length := by
    rw [← hcc, length_cols]
  obtain ⟨g1, g2, g3, g4, g5⟩ := hr
  constructor
  · simp only [row_C_scan_symbolic_vector]
    rw [if_neg hne, if_pos h1, readAt_getD A_col_buffer _ 0 ha]
    simp only [ok_bind]
    rw [u32_add_one _ g2, readAt_getD B_row_buffer _ 0 g1,
      readAt_getD B_row_buffer _ 0 (by omega)]
    simp only [ok_bind]
    rw [u32_sub_eq _ _ g3 (by omega), ← hlen, hrow.2]
  · have hcopy := copy_scaled_row_spec (A_elements.getD row_start_A 0) B_col_buffer B_elements
      (csr_row B_row_buffer B_col_buffer B_elements (A_col_buffer.getD row_start_A 0))
      (B_row_buffer.getD (A_col_buffer.getD row_start_A 0) 0) row_start_C
      C_col_buffer C_elements (C_col_buffer.take row_start_C) (C_col_buffer.drop row_start_C)
      (C_elements.take row_start_C) (C_elements.drop row_start_C) hrow.1
      (List.take_append_drop _ _).symm (List.take_append_drop _ _).symm
      (by rw [List.length_take]; omega) (by rw [List.length_take]; omega)
      (by rw [List.length_drop]; omega) (by rw [List.length_drop]; omega)
    simp only [row_C_scan_numeric_vector]
    rw [if_neg hne, if_pos h1, readAt_getD A_col_buffer _ 0 ha]
    simp only [ok_bind]
    rw [u32_add_one _ g2, readAt_getD B_row_buffer _ 0 g1, readAt_getD A_elements _ 0 hav,
      readAt_getD B_row_buffer _ 0 (by omega)]
    simp only [ok_bind]
    have hcs : cols (scale_row (A_elements.getD row_start_A 0) (csr_row B_row_buffer
        B_col_buffer B_elements (A_col_buffer.getD row_start_A 0)))
        = csr_cols B_row_buffer B_col_buffer (A_col_buffer.getD row_start_A 0) := by
      rw [cols_scale_row, hcc]
    have hvs : vals (scale_row (A_elements.getD row_start_A 0) (csr_row B_row_buffer
        B_col_buffer B_elements (A_col_buffer.getD row_start_A 0)))
        = (csr_row B_row_buffer B_col_buffer B_elements (A_col_buffer.getD row_start_A 0)).map
            (fun e => A_elements.getD row_start_A 0 * e.2) := by
      simp [vals, scale_row]
    rw [← hrow.2, hcopy, hcs, hvs]
    simp only [ok_bind, written_at, List.drop_drop, hlen, Nat.add_sub_cancel_left,
      List.length_map]

/-- Witness for C8: the left row is the single entry (column 2, value 3). -/
theorem single_entry_left_row_witness :
    (1 : Nat) ≠ 2 ∧ u32_sub 2 1 = 1 ∧ 1 < [0, 2].length ∧ 1 < ([2, 3] : List Int).length ∧
    RowValid [0, 1, 1, 3] [1, 1, 3] ([5, 4, 1] : List Int).length (([0, 2] : List Nat).getD 1 0) ∧
    ([0, 1, 1, 3] : List Nat).getD (([0, 2] : List Nat).getD 1 0 + 1) 0 < U32 ∧
    1 + (csr_cols [0, 1, 1, 3] [1, 1, 3] (([0, 2] : List Nat).getD 1 0)).length
      ≤ [9, 9, 9, 9].length ∧
    1 + (csr_cols [0, 1, 1, 3] [1, 1, 3] (([0, 2] : List Nat).getD 1 0)).length
      ≤ ([9, 9, 9, 9] : List Int).length ∧
    row_C_scan_symbolic_vector 0 1 2 [0, 2] [0, 1, 1, 3] [1, 1, 3] 4 [] []
      = .ok ((csr_cols [0, 1, 1, 3] [1, 1, 3] (([0, 2] : List Nat).getD 1 0)).length, [], []) ∧
    row_C_scan_numeric_vector 0 1 2 [0, 2] ([2, 3] : List Int) [0, 1, 1, 3] [1, 1, 3]
      ([5, 4, 1] : List Int) 4 1 3 [9, 9, 9, 9] ([9, 9, 9, 9] : List Int) [] [] [] []
      = .ok { C_col_buffer := written_at [9, 9, 9, 9] 1
                (csr_cols [0, 1, 1, 3] [1, 1, 3] (([0, 2] : List Nat).getD 1 0)),
              C_elements := written_at ([9, 9, 9, 9] : List Int) 1
                ((csr_row [0, 1, 1, 3] [1, 1, 3] ([5, 4, 1] : List Int)
                  (([0, 2] : List Nat).getD 1 0)).map
                    (fun e => ([2, 3] : List Int).getD 1 0 * e.2)),
              written := (csr_cols [0, 1, 1, 3] [1, 1, 3] (([0, 2] : List Nat).getD 1 0)).length,
              row_C_vector_1 := [], row_C_vector_1_values := [],
              row_C_vector_2 := [], row_C_vector_2_values := [] } :=
  ⟨by decide, by decide, by decide, by decide, by decide, by decide, by decide, by decide,
    single_entry_left_row 0 1 2 [0, 2] [2, 3] [0, 1, 1, 3] [1, 1, 3] [5, 4, 1] 4 1 3
      [9, 9, 9, 9] [9, 9, 9, 9] [] [] [] []
      (by decide) (by decide) (by decide) (by decide) (by decide) (by decide) (by decide)
      (by decide)⟩

theorem scenario_rows (row1 : Row Int) :
    csr_row [0, 1, 1 + row1.length, 3 + row1.length] (1 :: (cols row1 ++ [1, 3]))
      (5 :: (vals row1 ++ [4, 1])) 0 = [(1, 5)] ∧
    csr_row [0, 1, 1 + row1.length, 3 + row1.length] (1 :: (cols row1 ++ [1, 3]))
      (5 :: (vals row1 ++ [4, 1])) 2 = [(1, 4), (3, 1)] := by
  constructor
  · simp [csr_row, slice]
  · have e1 : 3 + row1.length - (1 + row1.length) = 2 := by omega
    have e2 : List.drop (1 + row1.length) (1 :: (cols row1 ++ [1, 3])) = [1, 3] := by
      rw [Nat.add_comm, List.drop_succ_cons, List.drop_left' (length_cols row1)]
    have e3 : List.drop (1 + row1.length) ((5 : Int) :: (vals row1 ++ [4, 1])) = [4, 1] := by
      rw [Nat.add_comm, List.drop_succ_cons, List.drop_left' (length_vals row1)]
    simp only [csr_row, slice, List.getD_cons_succ, List.getD_cons_zero, e1, e2, e3]
    rfl

/-- C9: with left row `[(0, 2), (2, 3)]` and right operand rows
`row0 = [(1, 5)]`, `row2 = [(1, 4), (3, 1)]`, `row1` arbitrary, and
`B_size2 = 4`, the size pass returns 2 and the content pass writes exactly
`[(1, 22), (3, 3)]` at `row_start_C`. -/
theorem concrete_scenario (row1 : Row Int) (fuel row_start_C row_end_C : Nat)
    (C_col_buffer : List Nat) (C_elements : List Int)
    (row_C_vector_1 : List Nat) (row_C_vector_1_values : List Int)
    (row_C_vector_2 : List Nat) (row_C_vector_2_values : List Int)
    (hfuel : 5 < fuel)
    (h1 : 3 ≤ row_C_vector_1.length) (h1v : 3 ≤ row_C_vector_1_values.length)
    (h2 : 3 ≤ row_C_vector_2.length) (h2v : 3 ≤ row_C_vector_2_values.length)
    (hC : row_start_C + 2 ≤ C_col_buffer.length) (hCv : row_start_C + 2 ≤ C_elements.length) :
    (∃ s1 s2, row_C_scan_symbolic_vector fuel 0 2 [0, 2]
        [0, 1, 1 + row1.length, 3 + row1.length] (1 :: (cols row1 ++ [1, 3])) 4
        row_C_vector_1 row_C_vector_2 = .ok (2, s1, s2)) ∧
    ∃ r, row_C_scan_numeric_vector fuel 0 2 [0, 2] [2, 3]
        [0, 1, 1 + row1.length, 3 + row1.length] (1 :: (cols row1 ++ [1, 3]))
        (5 :: (vals row1 ++ [4, 1])) 4 row_start_C row_end_C C_col_buffer C_elements
        row_C_vector_1 row_C_vector_1_values row_C_vector_2 row_C_vector_2_values = .ok r ∧
      r.C_col_buffer = written_at C_col_buffer row_start_C [1, 3] ∧
      r.C_elements = written_at C_elements row_start_C [22, 3] ∧
      r.written = 2 ∧ written_row r row_start_C = [(1, 22), (3, 3)] := by
  obtain ⟨hr0, hr2⟩ := scenario_rows row1
  have hent : row_entries 0 2 [0, 2] ([2, 3] : List Int)
      [0, 1, 1 + row1.length, 3 + row1.length] (1 :: (cols row1 ++ [1, 3]))
      (5 :: (vals row1 ++ [4, 1])) = [(2, [(1, 5)]), (3, [(1, 4), (3, 1)])] := by
    simp only [row_entries, selected_rows, Nat.sub_zero, List.getD_cons_zero,
      List.getD_cons_succ, hr0, hr2]
  have hres : ([(1, 22), (3, 3)] : Row Int)
      = merge_chunks 4 ([(2, [(1, 5)]), (3, [(1, 4), (3, 1)])] : List (Int × Row Int)).length
          [(2, [(1, 5)]), (3, [(1, 4), (3, 1)])] [] := by decide
  have htl : total_length ([(2, [(1, 5)]), (3, [(1, 4), (3, 1)])] : List (Int × Row Int)) = 3 := by
    decide
  have hv : EntriesValid 0 2 [0, 2] ([2, 3] : List Int)
      [0, 1, 1 + row1.length, 3 + row1.length] (1 :: (cols row1 ++ [1, 3]))
      (5 :: (vals row1 ++ [4, 1])) 4 := by
    intro i _ hi2
    have hl1 : (1 :: (cols row1 ++ [1, 3])).length = 3 + row1.length := by
      simp [length_cols]; omega
    have hl2 : ((5 : Int) :: (vals row1 ++ [4, 1])).length = 3 + row1.length := by
      simp [length_vals]; omega
    have hU : (4 : Nat) < U32 := by decide
    interval_cases i
    · have hrv : RowValid [0, 1, 1 + row1.length, 3 + row1.length]
          (1 :: (cols row1 ++ [1, 3])) ((5 : Int) :: (vals row1 ++ [4, 1])).length
          (([0, 2] : List Nat).getD 0 0) := by
        unfold RowValid
        rw [hl1, hl2]
        simp only [List.getD_cons_zero, List.getD_cons_succ, List.length_cons, List.length_nil]
        refine ⟨by omega, by omega, by omega, by omega, by omega⟩
      refine ⟨by simp, by simp, hrv, ?_⟩
      rw [← cols_csr_row _ _ _ _ hrv]
      simp only [List.getD_cons_zero, hr0]
      decide
    · have hrv : RowValid [0, 1, 1 + row1.length, 3 + row1.length]
          (1 :: (cols row1 ++ [1, 3])) ((5 : Int) :: (vals row1 ++ [4, 1])).length
          (([0, 2] : List Nat).getD 1 0) := by
        unfold RowValid
        rw [hl1, hl2]
        simp only [List.getD_cons_zero, List.getD_cons_succ, List.length_cons, List.length_nil]
        refine ⟨by omega, by omega, by omega, by omega, by omega⟩
      refine ⟨by simp, by simp, hrv, ?_⟩
      rw [← cols_csr_row _ _ _ _ hrv]
      simp only [List.getD_cons_zero, List.getD_cons_succ, hr2]
      decide
  have hU3 : (3 : Nat) < U32 := by decide
  constructor
  · obtain ⟨s1, s2, h, _⟩ := symbolic_chunk_result fuel 0 2 [0, 2] ([2, 3] : List Int)
      [0, 1, 1 + row1.length, 3 + row1.length] (1 :: (cols row1 ++ [1, 3]))
      (5 :: (vals row1 ++ [4, 1])) 4 row_C_vector_1 row_C_vector_1_values
      row_C_vector_2 row_C_vector_2_values _ _ hent.symm hres (by omega) (by decide) hv
      (by omega) (by omega) (by omega) (by omega) (by omega) (Or.inl (by omega))
    exact ⟨s1, s2, h⟩
  · obtain ⟨r, g0, g1, g2, g3, _⟩ := row_C_scan_numeric_vector_many fuel 0 2 [0, 2]
      ([2, 3] : List Int) [0, 1, 1 + row1.length, 3 + row1.length]
      (1 :: (cols row1 ++ [1, 3])) (5 :: (vals row1 ++ [4, 1])) 4 row_start_C row_end_C
      C_col_buffer C_elements row_C_vector_1 row_C_vector_1_values
      row_C_vector_2 row_C_vector_2_values _ _ hent.symm hres (by omega) (by decide) hv
      (by omega) (by omega) (by omega) (by omega) (by omega) (Or.inl (by omega)) hC hCv
    exact ⟨r, g0, g1, g2, g3,
      written_row_eq r C_col_buffer C_elements row_start_C _ g1 g2 g3 (by omega) (by omega)⟩

/-- Witness for C9: `row1 = [(0, 7), (2, 8)]`. -/
theorem concrete_scenario_witness :
    5 < 10 ∧ 3 ≤ [0, 0, 0].length ∧ 3 ≤ ([0, 0, 0] : List Int).length ∧
    3 ≤ [0, 0, 0].length ∧ 3 ≤ ([0, 0, 0] : List Int).length ∧
    0 + 2 ≤ [9, 9].length ∧ 0 + 2 ≤ ([9, 9] : List Int).length ∧
    ((∃ s1 s2, row_C_scan_symbolic_vector 10 0 2 [0, 2]
        [0, 1, 1 + ([(0, 7), (2, 8)] : Row Int).length, 3 + ([(0, 7), (2, 8)] : Row Int).length]
        (1 :: (cols ([(0, 7), (2, 8)] : Row Int) ++ [1, 3])) 4
        [0, 0, 0] [0, 0, 0] = .ok (2, s1, s2)) ∧
    ∃ r, row_C_scan_numeric_vector 10 0 2 [0, 2] [2, 3]
        [0, 1, 1 + ([(0, 7), (2, 8)] : Row Int).length, 3 + ([(0, 7), (2, 8)] : Row Int).length]
        (1 :: (cols ([(0, 7), (2, 8)] : Row Int) ++ [1, 3]))
        (5 :: (vals ([(0, 7), (2, 8)] : Row Int) ++ [4, 1])) 4 0 2 [9, 9] [9, 9]
        [0, 0, 0] [0, 0, 0] [0, 0, 0] [0, 0, 0] = .ok r ∧
      r.C_col_buffer = written_at [9, 9] 0 [1, 3] ∧
      r.C_elements = written_at [9, 9] 0 [22, 3] ∧
      r.written = 2 ∧ written_row r 0 = [(1, 22), (3, 3)]) :=
  ⟨by decide, by decide, by decide, by decide, by decide, by decide, by decide,
    concrete_scenario [(0, 7), (2, 8)] 10 0 2 [9, 9] [9, 9] [0, 0, 0] [0, 0, 0] [0, 0, 0]
      [0, 0, 0] (by decide) (by decide) (by decide) (by decide) (by decide) (by decide)
      (by decide)⟩

theorem sum_map_filter_of_zero [AddCommMonoid R] {α : Type} (l : List α) (p : α → Bool)
    (f : α → R) (h : ∀ x ∈ l, p x = false → f x = 0) :
    (l.map f).sum = ((l.filter p).map f).sum := by
  induction l with
  | nil => rfl
  | cons a t ih =>
    have iht := ih (fun x hx => h x (List.mem_cons_of_mem _ hx))
    by_cases hp : p a = true
    · simp only [List.map_cons, List.sum_cons, List.filter_cons, hp, if_true, iht]
    · have hp2 : p a = false := by simpa using hp
      simp only [List.map_cons, List.sum_cons, List.filter_cons, hp2, iht,
        h a (List.mem_cons_self _ _) hp2, zero_add]
      rfl

theorem cols_carried_row (input : List Nat) (input_values : List R) (input_end : Nat)
    (h1 : input_end ≤ input.length) (h2 : input_end ≤ input_values.length) :
    cols (carried_row input input_values input_end) = input.take input_end := by
  unfold carried_row
  rw [cols_zip_slice _ _ _ _ h1 h2]
  simp [slice]

/-- C6: for every well-formed call of the numeric merge of `IndexNum` rows
over a commutative ring, the call returns; each emitted column is emitted
once; the emitted columns are exactly those of the `IndexNum + 1` streams; and
the value emitted for a column `c` is the sum, over exactly the rows `i` whose
stream contains `c`, of `val_A[i]` times the row's value at `c`, plus, when
the carried input contains `c`, one times its carried value. -/
theorem front_merge_accumulates [CommRing R]
    (fuel IndexNum : Nat) (row_indices_B : List Nat) (val_A : List R)
    (B_row_buffer B_col_buffer : List Nat) (B_elements : List R) (B_size2 : Nat)
    (input : List Nat) (input_end : Nat) (input_values : List R)
    (out : List Nat) (out_values : List R)
    (hrows : ∀ k, k < IndexNum → k < row_indices_B.length ∧ k < val_A.length ∧
      RowValid B_row_buffer B_col_buffer B_elements.length (row_indices_B.getD k 0) ∧
      StrictAsc (csr_cols B_row_buffer B_col_buffer (row_indices_B.getD k 0)) ∧
      ∀ c ∈ csr_cols B_row_buffer B_col_buffer (row_indices_B.getD k 0), c < B_size2)
    (hin : input_end ≤ input.length) (hinv : input_end ≤ input_values.length)
    (hcar : StrictAsc (input.take input_end)) (hcarB : ∀ c ∈ input.take input_end, c < B_size2)
    (hB : B_size2 < U32)
    (hcap : selected_nnz 0 IndexNum row_indices_B B_row_buffer B_col_buffer + input_end
      ≤ out.length)
    (hcapv : selected_nnz 0 IndexNum row_indices_B B_row_buffer B_col_buffer + input_end
      ≤ out_values.length)
    (hfuel : selected_nnz 0 IndexNum row_indices_B B_row_buffer B_col_buffer + input_end
      < fuel) :
    ∃ len out1 outv1,
      row_C_scan_numeric_vector_N fuel IndexNum row_indices_B val_A B_row_buffer B_col_buffer
        B_elements B_size2 input input_end input_values out out_values
        = .ok (len, out1, outv1) ∧
      (out1.take len).Nodup ∧
      (∀ c, c ∈ out1.take len ↔
        (∃ i, i < IndexNum ∧ c ∈ csr_cols B_row_buffer B_col_buffer (row_indices_B.getD i 0))
          ∨ c ∈ input.take input_end) ∧
      ∀ c ∈ out1.take len,
        value_at ((out1.take len).zip (outv1.take len)) c =
          (((List.range IndexNum).filter (fun i =>
              decide (c ∈ csr_cols B_row_buffer B_col_buffer (row_indices_B.getD i 0)))).map
            (fun i => val_A.getD i 0 *
              value_at (csr_row B_row_buffer B_col_buffer B_elements
                (row_indices_B.getD i 0)) c)).sum
          + (if c ∈ input.take input_end
             then 1 * value_at (carried_row input input_values input_end) c else 0) := by
  have hv : EntriesValid 0 IndexNum row_indices_B val_A B_row_buffer B_col_buffer
      B_elements B_size2 := fun i _ hi =>
    ⟨(hrows i hi).1, (hrows i hi).2.1, (hrows i hi).2.2.1, (hrows i hi).2.2.2.2⟩
  have hcc := cols_carried_row input input_values input_end hin hinv
  have hclen : (carried_row input input_values input_end).length = input_end :=
    (carried_cursor input input_values input_end hin hinv).2
  have htl := total_length_row_entries 0 IndexNum row_indices_B val_A B_row_buffer
    B_col_buffer B_elements B_size2 hv (Nat.zero_le _)
  simp only [row_entries, Nat.sub_zero] at htl
  have hok : ∀ p ∈ selected_rows row_indices_B val_A B_row_buffer B_col_buffer B_elements
      IndexNum 0 ++ [((1 : R), carried_row input input_values input_end)],
      StreamOK B_size2 p.2 := by
    intro p hp
    rcases List.mem_append.1 hp with h | h
    · rw [mem_selected_rows] at h
      obtain ⟨i, _, hi2, rfl⟩ := h
      obtain ⟨_, _, g3, g4, g5⟩ := hrows i (by omega)
      unfold StreamOK
      simp only
      rw [cols_csr_row _ _ _ _ g3]
      exact ⟨g4, g5⟩
    · simp only [List.mem_singleton] at h
      subst h
      unfold StreamOK
      simp only
      rw [hcc]
      exact ⟨hcar, hcarB⟩
  have htot : total_length (selected_rows row_indices_B val_A B_row_buffer B_col_buffer
      B_elements IndexNum 0 ++ [((1 : R), carried_row input input_values input_end)])
      = selected_nnz 0 IndexNum row_indices_B B_row_buffer B_col_buffer + input_end := by
    rw [total_length_append, total_length_cons, htl, hclen]
    simp [total_length]
  have hml := length_merge_front_le B_size2 (selected_rows row_indices_B val_A B_row_buffer
    B_col_buffer B_elements IndexNum 0 ++ [((1 : R), carried_row input input_values input_end)])
  have hsok := merge_front_streamOK B_size2 _ hok
  obtain ⟨m1, m2, m3⟩ := merge_front_isMergeOf B_size2 _ hok
  have hspec := row_C_scan_numeric_vector_N_spec fuel IndexNum row_indices_B val_A
    B_row_buffer B_col_buffer B_elements B_size2 input input_end input_values out out_values
    _ rfl (fun k hk => ⟨(hrows k hk).1, (hrows k hk).2.1, (hrows k hk).2.2.1⟩) hin hinv
    (by omega) (by omega) (by omega)
    (lt_of_le_of_lt (length_le_of_streamOK _ _ hsok) hB)
  refine ⟨_, _, _, hspec, ?_, ?_, ?_⟩
  · rw [List.take_left' (length_cols _)]
    exact List.Pairwise.imp (fun h => Nat.ne_of_lt h) m1
  · intro c
    rw [List.take_left' (length_cols _), m2 c]
    constructor
    · rintro ⟨p, hp, hc⟩
      rcases List.mem_append.1 hp with h | h
      · rw [mem_selected_rows] at h
        obtain ⟨i, _, hi2, rfl⟩ := h
        simp only at hc
        rw [cols_csr_row _ _ _ _ (hrows i (by omega)).2.2.1] at hc
        exact Or.inl ⟨i, by omega, hc⟩
      · simp only [List.mem_singleton] at h
        subst h
        simp only at hc
        rw [hcc] at hc
        exact Or.inr hc
    · rintro (⟨i, hi, hc⟩ | hc)
      · refine ⟨(val_A.getD i 0, csr_row B_row_buffer B_col_buffer B_elements
          (row_indices_B.getD i 0)), List.mem_append_left _ ?_, ?_⟩
        · rw [mem_selected_rows]
          exact ⟨i, Nat.zero_le _, by omega, rfl⟩
        · simp only
          rw [cols_csr_row _ _ _ _ (hrows i hi).2.2.1]
          exact hc
      · refine ⟨(1, carried_row input input_values input_end),
          List.mem_append_right _ (List.mem_singleton_self _), ?_⟩
        simp only
        rw [hcc]
        exact hc
  · intro c _
    rw [List.take_left' (length_cols _), List.take_left' (length_vals _), zip_cols_vals,
      m3 c, weighted_sum_append, weighted_sum_cons, weighted_sum_nil, add_zero,
      weighted_sum_selected_rows, ← List.range_eq_range']
    congr 1
    · apply sum_map_filter_of_zero
      intro i hi hdec
      have hi2 : i < IndexNum := List.mem_range.1 hi
      have hnot : c ∉ csr_cols B_row_buffer B_col_buffer (row_indices_B.getD i 0) := by
        simpa using hdec
      rw [← cols_csr_row _ _ _ _ (hrows i hi2).2.2.1] at hnot
      rw [value_at_of_not_mem _ _ hnot, mul_zero]
    · simp only
      split
      · rfl
      · rename_i hnot
        rw [← hcc] at hnot
        rw [value_at_of_not_mem _ _ hnot, mul_zero]

/-- Witness for C6: two rows sharing column 1 and a carried input holding column 3. -/
theorem front_merge_accumulates_witness :
    (∀ k, k < 2 → k < [0, 2].length ∧ k < ([2, 3] : List Int).length ∧
      RowValid [0, 1, 1, 3] [1, 1, 3] ([5, 4, 1] : List Int).length
        (([0, 2] : List Nat).getD k 0) ∧
      StrictAsc (csr_cols [0, 1, 1, 3] [1, 1, 3] (([0, 2] : List Nat).getD k 0)) ∧
      ∀ c ∈ csr_cols [0, 1, 1, 3] [1, 1, 3] (([0, 2] : List Nat).getD k 0), c < 4) ∧
    1 ≤ [3, 0, 0].length ∧ 1 ≤ ([7, 0, 0] : List Int).length ∧
    StrictAsc (([3, 0, 0] : List Nat).take 1) ∧ (∀ c ∈ ([3, 0, 0] : List Nat).take 1, c < 4) ∧
    4 < U32 ∧
    selected_nnz 0 2 [0, 2] [0, 1, 1, 3] [1, 1, 3] + 1 ≤ [0, 0, 0, 0].length ∧
    selected_nnz 0 2 [0, 2] [0, 1, 1, 3] [1, 1, 3] + 1 ≤ ([0, 0, 0, 0] : List Int).length ∧
    selected_nnz 0 2 [0, 2] [0, 1, 1, 3] [1, 1, 3] + 1 < 10 ∧
    ∃ len out1 outv1,
      row_C_scan_numeric_vector_N 10 2 [0, 2] ([2, 3] : List Int) [0, 1, 1, 3] [1, 1, 3] ([5, 4, 1] : List Int) 4
        [3, 0, 0] 1 ([7, 0, 0] : List Int) [0, 0, 0, 0] ([0, 0, 0, 0] : List Int)
        = .ok (len, out1, outv1) ∧
      (out1.take len).Nodup ∧
      (∀ c, c ∈ out1.take len ↔
        (∃ i, i < 2 ∧ c ∈ csr_cols [0, 1, 1, 3] [1, 1, 3] (([0, 2] : List Nat).getD i 0))
          ∨ c ∈ ([3, 0, 0] : List Nat).take 1) ∧
      ∀ c ∈ out1.take len,
        value_at ((out1.take len).zip (outv1.take len)) c =
          (((List.range 2).filter (fun i =>
              decide (c ∈ csr_cols [0, 1, 1, 3] [1, 1, 3] (([0, 2] : List Nat).getD i 0)))).map
            (fun i => ([2, 3] : List Int).getD i 0 *
              value_at (csr_row [0, 1, 1, 3] [1, 1, 3] ([5, 4, 1] : List Int)
                (([0, 2] : List Nat).getD i 0)) c)).sum
          + (if c ∈ ([3, 0, 0] : List Nat).take 1
             then 1 * value_at (carried_row [3, 0, 0] ([7, 0, 0] : List Int) 1) c else 0) :=
  ⟨by decide, by decide, by decide, by decide, by decide, by decide, by decide, by decide,
    by decide,
    front_merge_accumulates 10 2 [0, 2] [2, 3] [0, 1, 1, 3] [1, 1, 3] [5, 4, 1] 4
      [3, 0, 0] 1 [7, 0, 0] [0, 0, 0, 0] [0, 0, 0, 0]
      (by decide) (by decide) (by decide) (by decide) (by decide) (by decide) (by decide)
      (by decide) (by decide)⟩

theorem sum_ite_range [CommRing R] (N a : Nat) (x : R) :
    ((List.range N).map (fun k => if a = k then x else 0)).sum = if a < N then x else 0 := by
  induction N with
  | zero => simp
  | succ n ih =>
    rw [List.range_succ, List.map_append, List.sum_append, ih]
    simp only [List.map_cons, List.map_nil, List.sum_cons, List.sum_nil, add_zero]
    by_cases h1 : a < n
    · rw [if_pos h1, if_neg (by omega), if_pos (by omega), add_zero]
    · by_cases h2 : a = n
      · rw [if_neg h1, if_pos h2, if_pos (by omega), zero_add]
      · rw [if_neg h1, if_neg h2, if_neg (by omega), add_zero]

theorem dense_sum_eq [CommRing R] (N : Nat) (row : Row R) (f : Nat → R)
    (hnd : (cols row).Nodup) (hlt : ∀ k ∈ cols row, k < N) :
    ((List.range N).map (fun k => value_at row k * f k)).sum
      = (row.map (fun e => e.2 * f e.1)).sum := by
  induction row with
  | nil => simp [value_at]
  | cons e t ih =>
    rw [cols_cons] at hnd hlt
    have hnd2 := List.nodup_cons.1 hnd
    have hstep : ∀ k, value_at (e :: t) k * f k
        = (if e.1 = k then e.2 * f e.1 else 0) + value_at t k * f k := by
      intro k
      simp only [value_at]
      by_cases hk : e.1 = k
      · rw [if_pos hk, if_pos hk, ← hk, value_at_of_not_mem t e.1 hnd2.1]
        ring
      · rw [if_neg hk, if_neg hk, zero_add]
    simp only [hstep, List.sum_map_add, List.map_cons, List.sum_cons]
    rw [sum_ite_range, if_pos (hlt e.1 (List.mem_cons_self _ _)),
      ih hnd2.2 (fun k hk => hlt k (List.mem_cons_of_mem _ hk))]

theorem zip_slice_eq_map [Zero R] (A_col_buffer : List Nat) (A_elements : List R)
    (n row_start_A row_end_A : Nat) (hn : row_end_A - row_start_A = n)
    (h1 : row_start_A < row_end_A → row_end_A ≤ A_col_buffer.length)
    (h2 : row_start_A < row_end_A → row_end_A ≤ A_elements.length) :
    left_row row_start_A row_end_A A_col_buffer A_elements =
      (List.range' row_start_A n).map (fun i => (A_col_buffer.getD i 0, A_elements.getD i 0)) := by
  unfold left_row
  induction n generalizing row_start_A with
  | zero =>
    rw [slice_nil _ _ _ (by omega)]
    rfl
  | succ k ih =>
    have g1 := h1 (by omega)
    have g2 := h2 (by omega)
    rw [slice_cons A_col_buffer row_start_A row_end_A _ (by omega)
        (getElem?_of_getD A_col_buffer row_start_A 0 (by omega)),
      slice_cons A_elements row_start_A row_end_A _ (by omega)
        (getElem?_of_getD A_elements row_start_A 0 (by omega)),
      List.zip_cons_cons, ih (row_start_A + 1) (by omega) (fun _ => g1) (fun _ => g2),
      List.range'_succ, List.map_cons]

theorem cols_left_row (row_start_A row_end_A : Nat) (A_col_buffer : List Nat)
    (A_elements : List R) (h1 : row_start_A < row_end_A → row_end_A ≤ A_col_buffer.length)
    (h2 : row_start_A < row_end_A → row_end_A ≤ A_elements.length) :
    cols (left_row row_start_A row_end_A A_col_buffer A_elements)
      = slice A_col_buffer row_start_A row_end_A := by
  rcases Nat.lt_or_ge row_start_A row_end_A with h | h
  · exact cols_zip_slice _ _ _ _ (h1 h) (h2 h)
  · unfold left_row
    rw [slice_nil _ _ _ h]
    rfl

/-- Counterexample to C2 as stated: with left row `[(0, 1), (1, -1)]` and rows
`[(0, 1)]`, `[(0, 1)]` of B (a well-formed input), the dense product entry at
column 0 is `1 * 1 + (-1) * 1 = 0`, yet the content pass writes column 0. -/
theorem written_iff_dense_nonzero_counterexample :
    NumericInput 0 2 [0, 1] ([1, -1] : List Int) [0, 1, 2] [0, 0] ([1, 1] : List Int) 1
      [0, 0] ([0, 0] : List Int) [0, 0] ([0, 0] : List Int) ∧
    StrictAsc (slice [0, 1] 0 2) ∧
    ∃ r, row_C_scan_numeric_vector 10 0 2 [0, 1] ([1, -1] : List Int) [0, 1, 2] [0, 0]
        ([1, 1] : List Int) 1 0 1 [9] ([9] : List Int)
        [0, 0] ([0, 0] : List Int) [0, 0] ([0, 0] : List Int) = .ok r ∧
      ¬ (0 ∈ cols (written_row r 0) ↔
          dense_entry 0 2 [0, 1] ([1, -1] : List Int) [0, 1, 2] [0, 0] ([1, 1] : List Int) 0
            ≠ 0) :=
  ⟨by decide, by decide,
    { C_col_buffer := [0], C_elements := [0], written := 1,
      row_C_vector_1 := [0, 0], row_C_vector_1_values := [0, 0],
      row_C_vector_2 := [0, 0], row_C_vector_2_values := [1, 0] },
    by decide, by decide⟩

/-- C2 (amended): for every well-formed input with a strictly ascending left
row, over a commutative ring, the content pass returns and the row it wrote is
the dense row of the product restricted to the union of the patterns of the
selected rows of B: a column is written exactly when some selected row has an
entry at it, every column carries exactly the dense product value
`sum_k A[i,k] * B[k,c]` (columns not written have dense value zero), and so
every column whose dense value is nonzero is written. -/
theorem written_row_is_dense_row_on_pattern [CommRing R]
    (fuel row_start_A row_end_A : Nat) (A_col_buffer : List Nat) (A_elements : List R)
    (B_row_buffer B_col_buffer : List Nat) (B_elements : List R) (B_size2 : Nat)
    (row_start_C row_end_C : Nat) (C_col_buffer : List Nat) (C_elements : List R)
    (row_C_vector_1 : List Nat) (row_C_vector_1_values : List R)
    (row_C_vector_2 : List Nat) (row_C_vector_2_values : List R)
    (hwf : NumericInput row_start_A row_end_A A_col_buffer A_elements B_row_buffer
      B_col_buffer B_elements B_size2 row_C_vector_1 row_C_vector_1_values
      row_C_vector_2 row_C_vector_2_values)
    (hA : StrictAsc (slice A_col_buffer row_start_A row_end_A))
    (hfuel : selected_nnz row_start_A row_end_A A_col_buffer B_row_buffer B_col_buffer
      + (row_end_A - row_start_A) < fuel)
    (hC : row_start_C + symbolic_length fuel row_start_A row_end_A A_col_buffer B_row_buffer
      B_col_buffer B_size2 row_C_vector_1 row_C_vector_2 ≤ C_col_buffer.length)
    (hCv : row_start_C + symbolic_length fuel row_start_A row_end_A A_col_buffer B_row_buffer
      B_col_buffer B_size2 row_C_vector_1 row_C_vector_2 ≤ C_elements.length) :
    ∃ r, row_C_scan_numeric_vector fuel row_start_A row_end_A A_col_buffer A_elements
        B_row_buffer B_col_buffer B_elements B_size2 row_start_C row_end_C
        C_col_buffer C_elements row_C_vector_1 row_C_vector_1_values
        row_C_vector_2 row_C_vector_2_values = .ok r ∧
      (∀ c, c ∈ cols (written_row r row_start_C) ↔
        ∃ k, row_start_A ≤ k ∧ k < row_end_A ∧
          c ∈ csr_cols B_row_buffer B_col_buffer (A_col_buffer.getD k 0)) ∧
      (∀ c, value_at (written_row r row_start_C) c =
        dense_entry row_start_A row_end_A A_col_buffer A_elements
          B_row_buffer B_col_buffer B_elements c) ∧
      (∀ c, dense_entry row_start_A row_end_A A_col_buffer A_elements
          B_row_buffer B_col_buffer B_elements c ≠ 0 → c ∈ cols (written_row r row_start_C)) := by
  obtain ⟨r, s1, s2, h1, _, h3, h4, h5, _⟩ := driver_spec fuel row_start_A row_end_A
    A_col_buffer A_elements B_row_buffer B_col_buffer B_elements B_size2 row_start_C row_end_C
    C_col_buffer C_elements row_C_vector_1 row_C_vector_1_values row_C_vector_2
    row_C_vector_2_values _ rfl hwf hfuel hC hCv
  have hw := written_row_eq r C_col_buffer C_elements row_start_C _ h3 h4 h5
    (by omega) (by omega)
  have hv := numericInput_entriesValid _ _ _ _ _ _ _ _ _ _ _ _ hwf
  obtain ⟨_, p2, p3⟩ := product_row_spec B_size2 _
    (numericInput_streamOK _ _ _ _ _ _ _ _ _ _ _ _ hwf)
  obtain ⟨⟨hle, _, _, hrows, _, _⟩, ha, _, _, _⟩ := hwf
  have hre : row_start_A < row_end_A → row_end_A ≤ A_col_buffer.length := by
    intro h
    have := (hrows (row_end_A - 1) (by omega) (by omega)).1
    omega
  have hrev : row_start_A < row_end_A → row_end_A ≤ A_elements.length := by
    intro h
    have := hre h
    omega
  have hmem : ∀ c, c ∈ cols (written_row r row_start_C) ↔
      ∃ k, row_start_A ≤ k ∧ k < row_end_A ∧
        c ∈ csr_cols B_row_buffer B_col_buffer (A_col_buffer.getD k 0) := by
    intro c
    rw [hw, p2 c]
    constructor
    · rintro ⟨p, hp, hc⟩
      rw [row_entries, mem_selected_rows] at hp
      obtain ⟨i, hi1, hi2, rfl⟩ := hp
      simp only at hc
      rw [cols_csr_row _ _ _ _ (hv i hi1 (by omega)).2.2.1] at hc
      exact ⟨i, hi1, by omega, hc⟩
    · rintro ⟨i, hi1, hi2, hc⟩
      refine ⟨(A_elements.getD i 0, csr_row B_row_buffer B_col_buffer B_elements
        (A_col_buffer.getD i 0)), ?_, ?_⟩
      · rw [row_entries, mem_selected_rows]
        exact ⟨i, hi1, by omega, rfl⟩
      · simp only
        rw [cols_csr_row _ _ _ _ (hv i hi1 hi2).2.2.1]
        exact hc
  have hval : ∀ c, value_at (written_row r row_start_C) c =
      dense_entry row_start_A row_end_A A_col_buffer A_elements
        B_row_buffer B_col_buffer B_elements c := by
    intro c
    rw [hw, p3 c, row_entries, weighted_sum_selected_rows]
    unfold dense_entry
    rw [dense_sum_eq (B_row_buffer.length - 1)
      (left_row row_start_A row_end_A A_col_buffer A_elements)
      (fun k => value_at (csr_row B_row_buffer B_col_buffer B_elements k) c)
      (by
        rw [cols_left_row _ _ _ _ hre hrev]
        exact List.Pairwise.imp (fun h => Nat.ne_of_lt h) hA)
      (by
        rw [zip_slice_eq_map A_col_buffer A_elements _ row_start_A row_end_A rfl hre hrev]
        intro k hk
        simp only [cols, List.map_map, List.mem_map, List.mem_range'_1, Function.comp] at hk
        obtain ⟨i, ⟨hi1, hi2⟩, rfl⟩ := hk
        have := (hrows i hi1 (by omega)).2.1.1
        omega),
      zip_slice_eq_map A_col_buffer A_elements _ row_start_A row_end_A rfl hre hrev,
      List.map_map]
    rfl
  refine ⟨r, h1, hmem, hval, fun c hc => ?_⟩
  by_contra hnot
  exact hc ((hval c).symm.trans (value_at_of_not_mem _ _ hnot))

/-- Witness for the amended C2: the cancelling input of the counterexample. -/
theorem written_row_is_dense_row_on_pattern_witness :
    NumericInput 0 2 [0, 1] ([1, -1] : List Int) [0, 1, 2] [0, 0] ([1, 1] : List Int) 1
      [0, 0] ([0, 0] : List Int) [0, 0] ([0, 0] : List Int) ∧
    StrictAsc (slice [0, 1] 0 2) ∧
    selected_nnz 0 2 [0, 1] [0, 1, 2] [0, 0] + (2 - 0) < 10 ∧
    0 + symbolic_length 10 0 2 [0, 1] [0, 1, 2] [0, 0] 1 [0, 0] [0, 0] ≤ [9].length ∧
    0 + symbolic_length 10 0 2 [0, 1] [0, 1, 2] [0, 0] 1 [0, 0] [0, 0]
      ≤ ([9] : List Int).length ∧
    ∃ r, row_C_scan_numeric_vector 10 0 2 [0, 1] ([1, -1] : List Int) [0, 1, 2] [0, 0]
        ([1, 1] : List Int) 1 0 1 [9] ([9] : List Int)
        [0, 0] ([0, 0] : List Int) [0, 0] ([0, 0] : List Int) = .ok r ∧
      (∀ c, c ∈ cols (written_row r 0) ↔
        ∃ k, 0 ≤ k ∧ k < 2 ∧ c ∈ csr_cols [0, 1, 2] [0, 0] (([0, 1] : List Nat).getD k 0)) ∧
      (∀ c, value_at (written_row r 0) c =
        dense_entry 0 2 [0, 1] ([1, -1] : List Int) [0, 1, 2] [0, 0] ([1, 1] : List Int) c) ∧
      (∀ c, dense_entry 0 2 [0, 1] ([1, -1] : List Int) [0, 1, 2] [0, 0] ([1, 1] : List Int) c
          ≠ 0 → c ∈ cols (written_row r 0)) :=
  ⟨by decide, by decide, by decide, by decide, by decide,
    written_row_is_dense_row_on_pattern 10 0 2 [0, 1] [1, -1] [0, 1, 2] [0, 0] [1, 1] 1 0 1
      [9] [9] [0, 0] [0, 0] [0, 0] [0, 0]
      (by decide) (by decide) (by decide) (by decide) (by decide)⟩

theorem u32_cast_le (a : Nat) : u32_cast a ≤ a := Nat.mod_le _ _

theorem row_C_scan_numeric_vector_N_run [Zero R] [One R] [Add R] [Mul R]
    (fuel IndexNum : Nat) (row_indices_B : List Nat) (val_A : List R)
    (B_row_buffer B_col_buffer : List Nat) (B_elements : List R) (B_size2 : Nat)
    (input : List Nat) (input_end : Nat) (input_values : List R)
    (out : List Nat) (out_values : List R) (streams : List (R × Row R))
    (hs : streams = selected_rows row_indices_B val_A B_row_buffer B_col_buffer B_elements
      IndexNum 0 ++ [(1, carried_row input input_values input_end)])
    (h : ∀ k, k < IndexNum → k < row_indices_B.length ∧ k < val_A.length ∧
      RowValid B_row_buffer B_col_buffer B_elements.length (row_indices_B.getD k 0))
    (hi1 : input_end ≤ input.length) (hi2 : input_end ≤ input_values.length)
    (hfuel : total_length streams < fuel)
    (hc : (merge_front B_size2 streams).length ≤ out.length)
    (hcv : (merge_front B_size2 streams).length ≤ out_values.length) :
    row_C_scan_numeric_vector_N fuel IndexNum row_indices_B val_A B_row_buffer B_col_buffer
      B_elements B_size2 input input_end input_values out out_values =
    .ok (u32_cast (merge_front B_size2 streams).length,
         cols (merge_front B_size2 streams) ++ out.drop (merge_front B_size2 streams).length,
         vals (merge_front B_size2 streams)
           ++ out_values.drop (merge_front B_size2 streams).length) := by
  obtain ⟨rows, hr1, hr2⟩ := setup_front_numeric_spec row_indices_B val_A B_row_buffer
    B_col_buffer B_elements IndexNum 0 (fun k _ hk => h k (by omega))
  have hcar := carried_cursor input input_values input_end hi1 hi2
  have hall : List.Forall₂ CursorRep
      (rows ++ [{ buf := input, vbuf := input_values, index_front := 0,
                  index_front_start := 0, index_front_end := input_end,
                  value_front_start := 0, values_A := (1 : R) }]) streams := by
    rw [hs]
    exact List.rel_append hr2 (List.Forall₂.cons ⟨rfl, by simp only [hcar.2]; rfl, hcar.1⟩
      List.Forall₂.nil)
  obtain ⟨front, hf1, hf2⟩ := load_front_numeric_spec B_size2 _ _ hall
  have hfe : merge_streams B_size2 fuel streams = merge_front B_size2 streams :=
    merge_streams_fuel B_size2 _ _ streams hfuel (by omega)
  have hloop := numeric_front_loop_spec B_size2 fuel front streams hf2 hfuel [] out []
    out_values (by rw [hfe]; exact hc) (by rw [hfe]; exact hcv)
  simp only [row_C_scan_numeric_vector_N]
  rw [hr1]
  simp only [ok_bind]
  rw [hf1]
  simp only [ok_bind]
  simp only [List.nil_append, List.length_nil, Nat.zero_add] at hloop
  rw [hloop]
  simp only [ok_bind]
  rw [hfe]

theorem row_C_scan_numeric_vector_1_run [Zero R] [Add R] [Mul R]
    (fuel r : Nat) (w : R)
    (B_row_buffer B_col_buffer : List Nat) (B_elements : List R) (B_size2 : Nat)
    (input : List Nat) (input_end : Nat) (input_values : List R)
    (out : List Nat) (out_values : List R) (res : Row R)
    (hres : res = merge_row w (csr_row B_row_buffer B_col_buffer B_elements r)
      (carried_row input input_values input_end))
    (hr : RowValid B_row_buffer B_col_buffer B_elements.length r)
    (hlt : ∀ c ∈ cols (csr_row B_row_buffer B_col_buffer B_elements r), c < B_size2)
    (hi1 : input_end ≤ input.length) (hi2 : input_end ≤ input_values.length)
    (hfuel : input_end < fuel)
    (hc : res.length ≤ out.length) (hcv : res.length ≤ out_values.length) :
    row_C_scan_numeric_vector_1 fuel r w B_row_buffer B_col_buffer B_elements B_size2
      input input_end input_values out out_values =
    .ok (u32_cast res.length, cols res ++ out.drop res.length,
      vals res ++ out_values.drop res.length) := by
  have hcar := carried_cursor input input_values input_end hi1 hi2
  have hrow := rowValid_cursor B_row_buffer B_col_buffer B_elements r hr
  obtain ⟨g1, g2, g3, g4, g5⟩ := hr
  have hspec := scan_row_B_numeric_spec w B_size2 B_col_buffer B_elements input input_values
    input_end fuel (csr_row B_row_buffer B_col_buffer B_elements r) (B_row_buffer.getD r 0)
    hrow.1 hlt (carried_row input input_values input_end)
    { row_C_vector_input := 0, row_C_vector_input_values := 0,
      current_col_input := head_col B_size2 (carried_row input input_values input_end),
      current_col_input_value := head_val (carried_row input input_values input_end),
      out := out, out_values := out_values, output_ptr := 0, output_ptr_values := 0 }
    [] out [] out_values
    ⟨hcar.1, by simp only [hcar.2]; rfl, rfl, rfl, rfl, rfl, rfl, rfl⟩
    (by rw [hcar.2]; exact hfuel) (by rw [← hres]; exact hc) (by rw [← hres]; exact hcv)
  simp only [row_C_scan_numeric_vector_1]
  rw [load_index_rep B_size2 input input_values 0 0 input_end _ (by simp only [hcar.2]; rfl)
      hcar.1,
    load_value_rep input input_values 0 0 input_end _ (by simp only [hcar.2]; rfl) hcar.1]
  simp only [ok_bind]
  rw [u32_add_one _ g2, readAt_getD B_row_buffer _ 0 g1, readAt_getD B_row_buffer _ 0 (by omega)]
  simp only [ok_bind]
  rw [← hrow.2, ← bind_assoc, hspec]
  simp only [ok_bind, List.nil_append, List.length_nil, Nat.zero_add]
  rw [← hres]

theorem frontValidNumeric_entriesValid (IndexNum : Nat) (row_indices_B : List Nat)
    (val_A : List R) (B_row_buffer B_col_buffer : List Nat) (B_elements : List R)
    (B_size2 : Nat) (input : List Nat) (input_end : Nat) (input_values : List R)
    (out : List Nat) (out_values : List R)
    (h : FrontValidNumeric IndexNum row_indices_B val_A B_row_buffer B_col_buffer B_elements
      B_size2 input input_end input_values out out_values) :
    EntriesValid 0 IndexNum row_indices_B val_A B_row_buffer B_col_buffer B_elements
      B_size2 := by
  obtain ⟨⟨h1, h2, _, _⟩, h3, h4, _, _⟩ := h
  intro i _ hi
  exact ⟨by omega, by omega, by rw [h4]; exact (h2 i hi).1, (h2 i hi).2⟩

theorem mem_front_streams [Zero R] [One R] (IndexNum : Nat) (row_indices_B : List Nat)
    (val_A : List R) (B_row_buffer B_col_buffer : List Nat) (B_elements : List R)
    (input : List Nat) (input_end : Nat) (input_values : List R)
    (hr : ∀ k, k < IndexNum →
      RowValid B_row_buffer B_col_buffer B_elements.length (row_indices_B.getD k 0))
    (hin : input_end ≤ input.length) (hinv : input_end ≤ input_values.length) (c : Nat) :
    (∃ p ∈ selected_rows row_indices_B val_A B_row_buffer B_col_buffer B_elements
        IndexNum 0 ++ [((1 : R), carried_row input input_values input_end)], c ∈ cols p.2) ↔
      (∃ i, i < IndexNum ∧ c ∈ csr_cols B_row_buffer B_col_buffer (row_indices_B.getD i 0))
        ∨ c ∈ input.take input_end := by
  have hcc := cols_carried_row input input_values input_end hin hinv
  constructor
  · rintro ⟨p, hp, hc⟩
    rcases List.mem_append.1 hp with h | h
    · rw [mem_selected_rows] at h
      obtain ⟨i, _, hi2, rfl⟩ := h
      simp only at hc
      rw [cols_csr_row _ _ _ _ (hr i (by omega))] at hc
      exact Or.inl ⟨i, by omega, hc⟩
    · simp only [List.mem_singleton] at h
      subst h
      simp only at hc
      rw [hcc] at hc
      exact Or.inr hc
  · rintro (⟨i, hi, hc⟩ | hc)
    · refine ⟨(val_A.getD i 0, csr_row B_row_buffer B_col_buffer B_elements
        (row_indices_B.getD i 0)), List.mem_append_left _ ?_, ?_⟩
      · rw [mem_selected_rows]
        exact ⟨i, Nat.zero_le _, by omega, rfl⟩
      · simp only
        rw [cols_csr_row _ _ _ _ (hr i hi)]
        exact hc
    · refine ⟨(1, carried_row input input_values input_end),
        List.mem_append_right _ (List.mem_singleton_self _), ?_⟩
      simp only
      rw [hcc]
      exact hc

theorem numeric_front_call [CommRing R]
    (fuel IndexNum : Nat) (row_indices_B : List Nat) (val_A : List R)
    (B_row_buffer B_col_buffer : List Nat) (B_elements : List R) (B_size2 : Nat)
    (input : List Nat) (input_end : Nat) (input_values : List R)
    (out : List Nat) (out_values : List R)
    (hv : FrontValidNumeric IndexNum row_indices_B val_A B_row_buffer B_col_buffer B_elements
      B_size2 input input_end input_values out out_values)
    (hfuel : selected_nnz 0 IndexNum row_indices_B B_row_buffer B_col_buffer + input_end
      < fuel) :
    ∃ res : Row R,
      row_C_scan_numeric_vector_N fuel IndexNum row_indices_B val_A B_row_buffer B_col_buffer
        B_elements B_size2 input input_end input_values out out_values
        = .ok (u32_cast res.length, cols res ++ out.drop res.length,
            vals res ++ out_values.drop res.length) ∧
      res.length ≤ selected_nnz 0 IndexNum row_indices_B B_row_buffer B_col_buffer
        + input_end ∧
      (B_size2 < U32 →
        FrontSorted IndexNum row_indices_B B_row_buffer B_col_buffer B_size2 input input_end →
        res.length < U32 ∧ StreamOK B_size2 res ∧
        (∀ c, c ∈ cols res ↔
          (∃ i, i < IndexNum ∧
            c ∈ csr_cols B_row_buffer B_col_buffer (row_indices_B.getD i 0))
          ∨ c ∈ input.take input_end) ∧
        ∀ c, value_at res c =
          ((List.range IndexNum).map (fun i => val_A.getD i 0 *
            value_at (csr_row B_row_buffer B_col_buffer B_elements
              (row_indices_B.getD i 0)) c)).sum
          + value_at (carried_row input input_values input_end) c) := by
  have he := frontValidNumeric_entriesValid _ _ _ _ _ _ _ _ _ _ _ _ hv
  obtain ⟨⟨h1, h2, hin, hcap⟩, h3, h4, hinv, hcapv⟩ := hv
  have hr : ∀ k, k < IndexNum →
      RowValid B_row_buffer B_col_buffer B_elements.length (row_indices_B.getD k 0) :=
    fun k hk => (he k (Nat.zero_le _) hk).2.2.1
  have hcc := cols_carried_row input input_values input_end hin hinv
  have hclen : (carried_row input input_values input_end).length = input_end :=
    (carried_cursor input input_values input_end hin hinv).2
  have htl := total_length_row_entries 0 IndexNum row_indices_B val_A B_row_buffer
    B_col_buffer B_elements B_size2 he (Nat.zero_le _)
  simp only [row_entries, Nat.sub_zero] at htl
  have htot : total_length (selected_rows row_indices_B val_A B_row_buffer B_col_buffer
      B_elements IndexNum 0 ++ [((1 : R), carried_row input input_values input_end)])
      = selected_nnz 0 IndexNum row_indices_B B_row_buffer B_col_buffer + input_end := by
    rw [total_length_append, total_length_cons, htl, hclen]
    simp [total_length]
  have hml := length_merge_front_le B_size2 (selected_rows row_indices_B val_A B_row_buffer
    B_col_buffer B_elements IndexNum 0 ++ [((1 : R), carried_row input input_values input_end)])
  have hrun := row_C_scan_numeric_vector_N_run fuel IndexNum row_indices_B val_A
    B_row_buffer B_col_buffer B_elements B_size2 input input_end input_values out out_values
    _ rfl (fun k hk => ⟨by omega, by omega, hr k hk⟩) hin hinv
    (by omega) (by omega) (by omega)
  refine ⟨_, hrun, by omega, fun hB hs => ?_⟩
  have hok : ∀ p ∈ selected_rows row_indices_B val_A B_row_buffer B_col_buffer B_elements
      IndexNum 0 ++ [((1 : R), carried_row input input_values input_end)],
      StreamOK B_size2 p.2 := by
    intro p hp
    rcases List.mem_append.1 hp with h | h
    · rw [mem_selected_rows] at h
      obtain ⟨i, _, hi2, rfl⟩ := h
      unfold StreamOK
      simp only
      rw [cols_csr_row _ _ _ _ (hr i (by omega))]
      exact ⟨hs.1 i (by omega), (h2 i (by omega)).2⟩
    · simp only [List.mem_singleton] at h
      subst h
      unfold StreamOK
      simp only
      rw [hcc]
      exact hs.2
  have hsok := merge_front_streamOK B_size2 _ hok
  obtain ⟨_, m2, m3⟩ := merge_front_isMergeOf B_size2 _ hok
  refine ⟨lt_of_le_of_lt (length_le_of_streamOK _ _ hsok) hB, hsok, fun c => ?_, fun c => ?_⟩
  · rw [m2 c]
    exact mem_front_streams IndexNum row_indices_B val_A B_row_buffer B_col_buffer B_elements
      input input_end input_values hr hin hinv c
  · rw [m3 c, weighted_sum_append, weighted_sum_cons, weighted_sum_nil, add_zero,
      weighted_sum_selected_rows, ← List.range_eq_range']
    simp only [one_mul]

theorem length_csr_row [Zero R] (B_row_buffer B_col_buffer : List Nat) (B_elements : List R)
    (r : Nat) (h : RowValid B_row_buffer B_col_buffer B_elements.length r) :
    (csr_row B_row_buffer B_col_buffer B_elements r).length
      = (csr_cols B_row_buffer B_col_buffer r).length := by
  rw [← cols_csr_row _ _ _ _ h, length_cols]

theorem merge_row_nil [Add R] [Mul R] (w : R) (b : Row R) :
    merge_row w b [] = scale_row w b := by
  induction b with
  | nil => rfl
  | cons e bs ih =>
    simp only [merge_row, List.takeWhile_nil, List.dropWhile_nil, List.nil_append, ih]
    rfl

theorem numeric_single_call [CommRing R]
    (fuel row_index_B : Nat) (val_A : R)
    (B_row_buffer B_col_buffer : List Nat) (B_elements : List R) (B_size2 : Nat)
    (input : List Nat) (input_end : Nat) (input_values : List R)
    (out : List Nat) (out_values : List R)
    (hv : SingleValidNumeric row_index_B B_row_buffer B_col_buffer B_elements B_size2
      input input_end input_values out out_values)
    (hfuel : input_end < fuel) :
    ∃ res : Row R,
      row_C_scan_numeric_vector_1 fuel row_index_B val_A B_row_buffer B_col_buffer
        B_elements B_size2 input input_end input_values out out_values
        = .ok (u32_cast res.length, cols res ++ out.drop res.length,
            vals res ++ out_values.drop res.length) ∧
      res.length ≤ (csr_cols B_row_buffer B_col_buffer row_index_B).length + input_end ∧
      (input_end = 0 →
        res = scale_row val_A (csr_row B_row_buffer B_col_buffer B_elements row_index_B)) ∧
      (B_size2 < U32 →
        SingleSorted row_index_B B_row_buffer B_col_buffer B_size2 input input_end →
        res.length < U32 ∧ StreamOK B_size2 res ∧
        (∀ c, c ∈ cols res ↔
          c ∈ csr_cols B_row_buffer B_col_buffer row_index_B ∨ c ∈ input.take input_end) ∧
        ∀ c, value_at res c =
          val_A * value_at (csr_row B_row_buffer B_col_buffer B_elements row_index_B) c
          + value_at (carried_row input input_values input_end) c) := by
  obtain ⟨⟨hr, hlt, hin, hcap⟩, h4, hinv, hcapv⟩ := hv
  rw [← h4] at hr
  have hcc := cols_carried_row input input_values input_end hin hinv
  have hclen : (carried_row input input_values input_end).length = input_end :=
    (carried_cursor input input_values input_end hin hinv).2
  have hcr := cols_csr_row B_row_buffer B_col_buffer B_elements row_index_B hr
  have hlr := length_csr_row B_row_buffer B_col_buffer B_elements row_index_B hr
  have hle := length_merge_row_le val_A
    (csr_row B_row_buffer B_col_buffer B_elements row_index_B)
    (carried_row input input_values input_end)
  have hrun := row_C_scan_numeric_vector_1_run fuel row_index_B val_A B_row_buffer
    B_col_buffer B_elements B_size2 input input_end input_values out out_values _ rfl hr
    (by rw [hcr]; exact hlt) hin hinv hfuel (by omega) (by omega)
  refine ⟨_, hrun, by omega, fun h0 => ?_, fun hB hs => ?_⟩
  · subst h0
    have : carried_row input input_values 0 = [] := by simp [carried_row, slice]
    rw [this, merge_row_nil]
  · have hb : StreamOK B_size2 (csr_row B_row_buffer B_col_buffer B_elements row_index_B) := by
      unfold StreamOK
      rw [hcr]
      exact ⟨hs.1, hlt⟩
    have hi : StreamOK B_size2 (carried_row input input_values input_end) := by
      unfold StreamOK
      rw [hcc]
      exact hs.2
    have hsok := merge_row_streamOK B_size2 val_A _ _ hb hi
    refine ⟨lt_of_le_of_lt (length_le_of_streamOK _ _ hsok) hB, hsok, fun c => ?_,
      fun c => merge_row_value val_A _ _ hb.1 hi.1 c⟩
    rw [merge_row_mem, hcr, hcc]

theorem frontValid_zeros (IndexNum : Nat) (row_indices_B B_row_buffer B_col_buffer : List Nat)
    (B_size2 : Nat) (input : List Nat) (input_end : Nat) (out : List Nat)
    (h : FrontValid IndexNum row_indices_B B_row_buffer B_col_buffer B_size2 input
      input_end out) :
    FrontValidNumeric IndexNum row_indices_B (zeros row_indices_B) B_row_buffer B_col_buffer
      (zeros B_col_buffer) B_size2 input input_end (zeros input) out (zeros out) :=
  ⟨h, by rw [length_zeros]; exact h.1, length_zeros _, by rw [length_zeros]; exact h.2.2.1,
    by rw [length_zeros]; exact h.2.2.2⟩

theorem singleValid_zeros (row_index_B : Nat) (B_row_buffer B_col_buffer : List Nat)
    (B_size2 : Nat) (input : List Nat) (input_end : Nat) (out : List Nat)
    (h : SingleValid row_index_B B_row_buffer B_col_buffer B_size2 input input_end out) :
    SingleValidNumeric row_index_B B_row_buffer B_col_buffer (zeros B_col_buffer) B_size2
      input input_end (zeros input) out (zeros out) :=
  ⟨h, length_zeros _, by rw [length_zeros]; exact h.2.2.1,
    by rw [length_zeros]; exact h.2.2.2⟩

theorem symbolic_front_call
    (fuel IndexNum : Nat) (row_indices_B : List Nat)
    (B_row_buffer B_col_buffer : List Nat) (B_size2 : Nat)
    (input : List Nat) (input_end : Nat) (out : List Nat)
    (hv : FrontValid IndexNum row_indices_B B_row_buffer B_col_buffer B_size2 input
      input_end out)
    (hfuel : selected_nnz 0 IndexNum row_indices_B B_row_buffer B_col_buffer + input_end
      < fuel) :
    ∃ pattern : List Nat,
      row_C_scan_symbolic_vector_N fuel IndexNum row_indices_B B_row_buffer B_col_buffer
        B_size2 input input_end out
        = .ok (u32_cast pattern.length, pattern ++ out.drop pattern.length) ∧
      pattern.length ≤ selected_nnz 0 IndexNum row_indices_B B_row_buffer B_col_buffer
        + input_end ∧
      (B_size2 < U32 →
        FrontSorted IndexNum row_indices_B B_row_buffer B_col_buffer B_size2 input input_end →
        pattern.length < U32 ∧ StrictAsc pattern ∧ (∀ c ∈ pattern, c < B_size2) ∧
        ∀ c, c ∈ pattern ↔
          (∃ i, i < IndexNum ∧
            c ∈ csr_cols B_row_buffer B_col_buffer (row_indices_B.getD i 0))
          ∨ c ∈ input.take input_end) := by
  obtain ⟨res, h1, h2, h3⟩ := numeric_front_call fuel IndexNum row_indices_B
    (zeros row_indices_B) B_row_buffer B_col_buffer (zeros B_col_buffer) B_size2 input
    input_end (zeros input) out (zeros out) (frontValid_zeros _ _ _ _ _ _ _ _ hv) hfuel
  have hs := row_C_scan_numeric_vector_N_sim _ _ _ _ _ _ _ _ _ _ _ _ _ _ h1
  refine ⟨cols res, ?_, by rw [length_cols]; exact h2, fun hB hso => ?_⟩
  · rw [length_cols]; exact hs
  · obtain ⟨g1, g2, g3, _⟩ := h3 hB hso
    exact ⟨by rw [length_cols]; exact g1, g2.1, g2.2, g3⟩

theorem symbolic_single_call
    (fuel row_index_B : Nat)
    (B_row_buffer B_col_buffer : List Nat) (B_size2 : Nat)
    (input : List Nat) (input_end : Nat) (out : List Nat)
    (hv : SingleValid row_index_B B_row_buffer B_col_buffer B_size2 input input_end out)
    (hfuel : input_end < fuel) :
    ∃ pattern : List Nat,
      row_C_scan_symbolic_vector_1 fuel row_index_B B_row_buffer B_col_buffer
        B_size2 input input_end out
        = .ok (u32_cast pattern.length, pattern ++ out.drop pattern.length) ∧
      pattern.length ≤ (csr_cols B_row_buffer B_col_buffer row_index_B).length
        + input_end ∧
      (input_end = 0 → pattern = csr_cols B_row_buffer B_col_buffer row_index_B) ∧
      (B_size2 < U32 →
        SingleSorted row_index_B B_row_buffer B_col_buffer B_size2 input input_end →
        pattern.length < U32 ∧ StrictAsc pattern ∧ (∀ c ∈ pattern, c < B_size2) ∧
        ∀ c, c ∈ pattern ↔
          c ∈ csr_cols B_row_buffer B_col_buffer row_index_B ∨ c ∈ input.take input_end) := by
  obtain ⟨res, h1, h2, h0, h3⟩ := numeric_single_call fuel row_index_B (0 : Int)
    B_row_buffer B_col_buffer (zeros B_col_buffer) B_size2 input
    input_end (zeros input) out (zeros out) (singleValid_zeros _ _ _ _ _ _ _ hv) hfuel
  have hs := row_C_scan_numeric_vector_1_sim _ _ _ _ _ _ _ _ _ _ _ _ _ h1
  refine ⟨cols res, ?_, by rw [length_cols]; exact h2, fun hz => ?_, fun hB hso => ?_⟩
  · rw [length_cols]; exact hs
  · rw [h0 hz, cols_scale_row]
    exact cols_csr_row _ _ _ _ (by rw [length_zeros]; exact hv.1)
  · obtain ⟨g1, g2, g3, _⟩ := h3 hB hso
    exact ⟨by rw [length_cols]; exact g1, g2.1, g2.2, g3⟩

theorem selected_nnz_add (a b c : Nat) (A_col_buffer B_row_buffer B_col_buffer : List Nat)
    (hab : a ≤ b) (hbc : b ≤ c) :
    selected_nnz a c A_col_buffer B_row_buffer B_col_buffer
      = selected_nnz a b A_col_buffer B_row_buffer B_col_buffer
        + selected_nnz b c A_col_buffer B_row_buffer B_col_buffer := by
  unfold selected_nnz
  have h : List.range' a (c - a) = List.range' a (b - a) ++ List.range' b (c - b) := by
    have := List.range'_append_1 a (b - a) (c - b)
    rw [show a + (b - a) = b by omega, show c - b + (b - a) = c - a by omega] at this
    exact this.symm
  rw [h, List.map_append, List.sum_append]

theorem selected_nnz_one (s : Nat) (A_col_buffer B_row_buffer B_col_buffer : List Nat) :
    selected_nnz s (s + 1) A_col_buffer B_row_buffer B_col_buffer
      = (csr_cols B_row_buffer B_col_buffer (A_col_buffer.getD s 0)).length := by
  unfold selected_nnz
  simp

theorem selected_nnz_drop (s n : Nat) (A_col_buffer B_row_buffer B_col_buffer : List Nat) :
    selected_nnz 0 n (A_col_buffer.drop s) B_row_buffer B_col_buffer
      = selected_nnz s (s + n) A_col_buffer B_row_buffer B_col_buffer := by
  unfold selected_nnz
  simp only [Nat.sub_zero, Nat.add_sub_cancel_left]
  have h : List.range' s n = (List.range' 0 n).map (fun i => s + i) := by
    rw [List.range'_eq_map_range, List.range'_eq_map_range, List.map_map]
    apply List.map_congr_left
    intro i _
    simp
  rw [h, List.map_map]
  congr 1
  apply List.map_congr_left
  intro i _
  simp only [Function.comp, getD_drop]

theorem symbolicInput_driverValid (row_start_A row_end_A : Nat)
    (A_col_buffer B_row_buffer B_col_buffer : List Nat) (B_size2 : Nat) (v1 v2 : List Nat)
    (h : SymbolicInput row_start_A row_end_A A_col_buffer B_row_buffer B_col_buffer B_size2
      v1 v2) :
    DriverValid row_start_A row_end_A A_col_buffer B_row_buffer B_col_buffer B_size2 v1 v2 :=
  ⟨h.1, h.2.1, fun i h1 h2 =>
      ⟨(h.2.2.2.1 i h1 h2).1, (h.2.2.2.1 i h1 h2).2.1, (h.2.2.2.1 i h1 h2).2.2.2⟩,
    h.2.2.2.2.1, h.2.2.2.2.2⟩

theorem numericInput_driverValid (row_start_A row_end_A : Nat) (A_col_buffer : List Nat)
    (A_elements : List R) (B_row_buffer B_col_buffer : List Nat) (B_elements : List R)
    (B_size2 : Nat) (v1 : List Nat) (v1v : List R) (v2 : List Nat) (v2v : List R)
    (h : NumericInput row_start_A row_end_A A_col_buffer A_elements B_row_buffer B_col_buffer
      B_elements B_size2 v1 v1v v2 v2v) :
    DriverValidNumeric row_start_A row_end_A A_col_buffer A_elements B_row_buffer
      B_col_buffer B_elements B_size2 v1 v1v v2 v2v :=
  ⟨symbolicInput_driverValid _ _ _ _ _ _ _ _ h.1, h.2⟩

/-- The history ends in the state the loop returns, and starts in the state
the loop was entered with. -/
theorem symbolic_chunk_history_last (A_col_buffer B_row_buffer B_col_buffer : List Nat)
    (B_size2 row_end_A fuel k row_start_A row_C_len : Nat) (v1 v2 : List Nat)
    (hist : List SymScratch)
    (h : symbolic_chunk_history A_col_buffer B_row_buffer B_col_buffer B_size2 row_end_A fuel
      k row_start_A row_C_len v1 v2 = .ok hist) :
    ∃ st, hist.getLast? = some st ∧
      hist.head? = some { row_start_A := row_start_A, row_C_len := row_C_len,
                          row_C_vector_1 := v1, row_C_vector_2 := v2 } ∧
      symbolic_chunk_loop A_col_buffer B_row_buffer B_col_buffer B_size2 row_end_A fuel
        k row_start_A row_C_len v1 v2
        = .ok (st.row_C_len, st.row_C_vector_1, st.row_C_vector_2) := by
  induction k generalizing row_start_A row_C_len v1 v2 hist with
  | zero => simp [symbolic_chunk_history] at h
  | succ k ih =>
    simp only [symbolic_chunk_history] at h
    simp only [symbolic_chunk_loop]
    by_cases h0 : row_end_A > row_start_A
    · rw [if_pos h0] at h
      rw [if_pos h0]
      by_cases h3 : row_end_A - row_start_A > 3
      · rw [if_pos h3] at h
        rw [if_pos h3]
        obtain ⟨r, h1, h⟩ := bind_eq_ok h
        obtain ⟨rest, h2, h⟩ := bind_eq_ok h
        cases h
        obtain ⟨st, g1, g2, g3⟩ := ih _ _ _ _ _ h2
        refine ⟨st, ?_, rfl, ?_⟩
        · cases rest with
          | nil => simp at g1
          | cons a t => simpa [List.getLast?_cons_cons] using g1
        · rw [h1]
          simp only [ok_bind]
          exact g3
      · rw [if_neg h3] at h
        rw [if_neg h3]
        obtain ⟨row, h1, h⟩ := bind_eq_ok h
        obtain ⟨r, h4, h⟩ := bind_eq_ok h
        obtain ⟨rest, h2, h⟩ := bind_eq_ok h
        cases h
        obtain ⟨st, g1, g2, g3⟩ := ih _ _ _ _ _ h2
        refine ⟨st, ?_, rfl, ?_⟩
        · cases rest with
          | nil => simp at g1
          | cons a t => simpa [List.getLast?_cons_cons] using g1
        · rw [h1]
          simp only [ok_bind]
          rw [h4]
          simp only [ok_bind]
          exact g3
    · rw [if_neg h0] at h
      rw [if_neg h0]
      cases h
      exact ⟨_, rfl, rfl, rfl⟩

theorem take_pattern_out (pattern out : List Nat) (n : Nat) (h : n = pattern.length) :
    (pattern ++ out.drop pattern.length).take n = pattern := by
  subst h
  exact List.take_left' rfl

theorem length_pattern_out (pattern out : List Nat) (h : pattern.length ≤ out.length) :
    (pattern ++ out.drop pattern.length).length = out.length := by
  simp only [List.length_append, List.length_drop]
  omega

theorem symbolic_chunk_history_spec
    (A_col_buffer B_row_buffer B_col_buffer : List Nat)
    (B_size2 row_end_A fuel cap : Nat) (hcapf : cap < fuel)
    (k row_start_A len : Nat) (v1 v2 : List Nat)
    (hle : row_start_A ≤ row_end_A)
    (hv : ∀ i, row_start_A ≤ i → i < row_end_A →
      i < A_col_buffer.length ∧
      RowValid B_row_buffer B_col_buffer B_col_buffer.length (A_col_buffer.getD i 0) ∧
      ∀ c ∈ csr_cols B_row_buffer B_col_buffer (A_col_buffer.getD i 0), c < B_size2)
    (hk : row_end_A - row_start_A < k)
    (hcap : len + selected_nnz row_start_A row_end_A A_col_buffer B_row_buffer B_col_buffer
      ≤ cap)
    (h1 : cap ≤ v1.length) (h2 : cap ≤ v2.length) :
    ∃ hist, symbolic_chunk_history A_col_buffer B_row_buffer B_col_buffer B_size2 row_end_A
        fuel k row_start_A len v1 v2 = .ok hist ∧
      (∀ st ∈ hist, row_start_A ≤ st.row_start_A ∧ st.row_start_A ≤ row_end_A ∧
        st.row_C_len ≤ len + selected_nnz row_start_A st.row_start_A A_col_buffer
          B_row_buffer B_col_buffer ∧
        cap ≤ st.row_C_vector_1.length ∧ cap ≤ st.row_C_vector_2.length) ∧
      (B_size2 < U32 →
        (∀ i, row_start_A ≤ i → i < row_end_A →
          StrictAsc (csr_cols B_row_buffer B_col_buffer (A_col_buffer.getD i 0))) →
        StrictAsc (v1.take len) → (∀ c ∈ v1.take len, c < B_size2) →
        ∀ st ∈ hist, StrictAsc (st.row_C_vector_1.take st.row_C_len) ∧
          ∀ c ∈ st.row_C_vector_1.take st.row_C_len, c < B_size2) := by
  induction k generalizing row_start_A len v1 v2 with
  | zero => omega
  | succ k ih =>
    simp only [symbolic_chunk_history]
    have hzero : selected_nnz row_start_A row_start_A A_col_buffer B_row_buffer B_col_buffer
        = 0 := by simp [selected_nnz]
    by_cases h0 : row_end_A > row_start_A
    · rw [if_pos h0]
      have hlast := (hv (row_end_A - 1) (by omega) (by omega)).1
      by_cases h3 : row_end_A - row_start_A > 3
      · rw [if_pos h3]
        have hsplit := selected_nnz_add row_start_A (row_start_A + 3) row_end_A A_col_buffer
          B_row_buffer B_col_buffer (by omega) (by omega)
        have hd := selected_nnz_drop row_start_A 3 A_col_buffer B_row_buffer B_col_buffer
        have hfv : FrontValid 3 (A_col_buffer.drop row_start_A) B_row_buffer B_col_buffer
            B_size2 v1 len v2 := by
          refine ⟨by simp only [List.length_drop]; omega, fun j hj => ?_, by omega,
            by omega⟩
          rw [getD_drop]
          exact (hv (row_start_A + j) (by omega) (by omega)).2
        obtain ⟨pattern, c1, c2, c3⟩ := symbolic_front_call fuel 3
          (A_col_buffer.drop row_start_A) B_row_buffer B_col_buffer B_size2 v1 len v2 hfv
          (by omega)
        rw [c1]
        simp only [ok_bind]
        have hcl := u32_cast_le pattern.length
        obtain ⟨rest, r1, r2, r3⟩ := ih (row_start_A + 3) (u32_cast pattern.length)
          (pattern ++ v2.drop pattern.length) v1 (by omega)
          (fun i hi1 hi2 => hv i (by omega) hi2) (by omega) (by omega)
          (by rw [length_pattern_out _ _ (by omega)]; exact h2) h1
        rw [r1]
        simp only [ok_bind]
        refine ⟨_, rfl, ?_, ?_⟩
        · intro st hst
          rcases List.mem_cons.1 hst with rfl | hst
          · exact ⟨le_refl _, hle, by simp only; omega, h1, h2⟩
          · obtain ⟨q1, q2, q3, q4, q5⟩ := r2 st hst
            have := selected_nnz_add row_start_A (row_start_A + 3) st.row_start_A
              A_col_buffer B_row_buffer B_col_buffer (by omega) q1
            exact ⟨by omega, q2, by omega, q4, q5⟩
        · intro hB hs hc hcB st hst
          rcases List.mem_cons.1 hst with rfl | hst
          · exact ⟨hc, hcB⟩
          · have hfs : FrontSorted 3 (A_col_buffer.drop row_start_A) B_row_buffer
                B_col_buffer B_size2 v1 len := by
              refine ⟨fun j hj => ?_, hc, hcB⟩
              rw [getD_drop]
              exact hs (row_start_A + j) (by omega) (by omega)
            obtain ⟨p1, p2, p3, _⟩ := c3 hB hfs
            have ht := take_pattern_out pattern v2 (u32_cast pattern.length)
              (u32_cast_of_lt _ p1)
            exact r3 hB (fun i hi1 hi2 => hs i (by omega) hi2) (by rw [ht]; exact p2)
              (by rw [ht]; exact p3) st hst
      · rw [if_neg h3]
        obtain ⟨a1, a2, a3⟩ := hv row_start_A (le_refl _) h0
        rw [readAt_getD A_col_buffer row_start_A 0 a1]
        simp only [ok_bind]
        have hsplit := selected_nnz_add row_start_A (row_start_A + 1) row_end_A A_col_buffer
          B_row_buffer B_col_buffer (by omega) (by omega)
        have hd := selected_nnz_one row_start_A A_col_buffer B_row_buffer B_col_buffer
        have hsv : SingleValid (A_col_buffer.getD row_start_A 0) B_row_buffer B_col_buffer
            B_size2 v1 len v2 := ⟨a2, a3, by omega, by omega⟩
        obtain ⟨pattern, c1, c2, _, c3⟩ := symbolic_single_call fuel
          (A_col_buffer.getD row_start_A 0) B_row_buffer B_col_buffer B_size2 v1 len v2 hsv
          (by omega)
        rw [c1]
        simp only [ok_bind]
        have hcl := u32_cast_le pattern.length
        obtain ⟨rest, r1, r2, r3⟩ := ih (row_start_A + 1) (u32_cast pattern.length)
          (pattern ++ v2.drop pattern.length) v1 (by omega)
          (fun i hi1 hi2 => hv i (by omega) hi2) (by omega) (by omega)
          (by rw [length_pattern_out _ _ (by omega)]; exact h2) h1
        rw [r1]
        simp only [ok_bind]
        refine ⟨_, rfl, ?_, ?_⟩
        · intro st hst
          rcases List.mem_cons.1 hst with rfl | hst
          · exact ⟨le_refl _, hle, by simp only; omega, h1, h2⟩
          · obtain ⟨q1, q2, q3, q4, q5⟩ := r2 st hst
            have := selected_nnz_add row_start_A (row_start_A + 1) st.row_start_A
              A_col_buffer B_row_buffer B_col_buffer (by omega) q1
            exact ⟨by omega, q2, by omega, q4, q5⟩
        · intro hB hs hc hcB st hst
          rcases List.mem_cons.1 hst with rfl | hst
          · exact ⟨hc, hcB⟩
          · have hfs : SingleSorted (A_col_buffer.getD row_start_A 0) B_row_buffer
                B_col_buffer B_size2 v1 len := ⟨hs row_start_A (le_refl _) h0, hc, hcB⟩
            obtain ⟨p1, p2, p3, _⟩ := c3 hB hfs
            have ht := take_pattern_out pattern v2 (u32_cast pattern.length)
              (u32_cast_of_lt _ p1)
            exact r3 hB (fun i hi1 hi2 => hs i (by omega) hi2) (by rw [ht]; exact p2)
              (by rw [ht]; exact p3) st hst
    · rw [if_neg h0]
      refine ⟨_, rfl, ?_, ?_⟩
      · intro st hst
        rw [List.mem_singleton] at hst
        subst hst
        exact ⟨le_refl _, hle, by simp only; omega, h1, h2⟩
      · intro _ _ hc hcB st hst
        rw [List.mem_singleton] at hst
        subst hst
        exact ⟨hc, hcB⟩

theorem numeric_front_run [Zero R] [One R] [Add R] [Mul R]
    (fuel IndexNum : Nat) (row_indices_B : List Nat) (val_A : List R)
    (B_row_buffer B_col_buffer : List Nat) (B_elements : List R) (B_size2 : Nat)
    (input : List Nat) (input_end : Nat) (input_values : List R)
    (out : List Nat) (out_values : List R)
    (hv : FrontValidNumeric IndexNum row_indices_B val_A B_row_buffer B_col_buffer B_elements
      B_size2 input input_end input_values out out_values)
    (hfuel : selected_nnz 0 IndexNum row_indices_B B_row_buffer B_col_buffer + input_end
      < fuel) :
    ∃ res : Row R,
      row_C_scan_numeric_vector_N fuel IndexNum row_indices_B val_A B_row_buffer B_col_buffer
        B_elements B_size2 input input_end input_values out out_values
        = .ok (u32_cast res.length, cols res ++ out.drop res.length,
            vals res ++ out_values.drop res.length) ∧
      res.length ≤ selected_nnz 0 IndexNum row_indices_B B_row_buffer B_col_buffer
        + input_end := by
  have he := frontValidNumeric_entriesValid _ _ _ _ _ _ _ _ _ _ _ _ hv
  obtain ⟨⟨h1, h2, hin, hcap⟩, h3, h4, hinv, hcapv⟩ := hv
  have hr : ∀ k, k < IndexNum →
      RowValid B_row_buffer B_col_buffer B_elements.length (row_indices_B.getD k 0) :=
    fun k hk => (he k (Nat.zero_le _) hk).2.2.1
  have hclen : (carried_row input input_values input_end).length = input_end :=
    (carried_cursor input input_values input_end hin hinv).2
  have htl := total_length_row_entries 0 IndexNum row_indices_B val_A B_row_buffer
    B_col_buffer B_elements B_size2 he (Nat.zero_le _)
  simp only [row_entries, Nat.sub_zero] at htl
  have htot : total_length (selected_rows row_indices_B val_A B_row_buffer B_col_buffer
      B_elements IndexNum 0 ++ [((1 : R), carried_row input input_values input_end)])
      = selected_nnz 0 IndexNum row_indices_B B_row_buffer B_col_buffer + input_end := by
    rw [total_length_append, total_length_cons, htl, hclen]
    simp [total_length]
  have hml := length_merge_front_le B_size2 (selected_rows row_indices_B val_A B_row_buffer
    B_col_buffer B_elements IndexNum 0 ++ [((1 : R), carried_row input input_values input_end)])
  exact ⟨_, row_C_scan_numeric_vector_N_run fuel IndexNum row_indices_B val_A
    B_row_buffer B_col_buffer B_elements B_size2 input input_end input_values out out_values
    _ rfl (fun k hk => ⟨by omega, by omega, hr k hk⟩) hin hinv
    (by omega) (by omega) (by omega), by omega⟩

theorem numeric_single_run [Zero R] [Add R] [Mul R]
    (fuel row_index_B : Nat) (val_A : R)
    (B_row_buffer B_col_buffer : List Nat) (B_elements : List R) (B_size2 : Nat)
    (input : List Nat) (input_end : Nat) (input_values : List R)
    (out : List Nat) (out_values : List R)
    (hv : SingleValidNumeric row_index_B B_row_buffer B_col_buffer B_elements B_size2
      input input_end input_values out out_values)
    (hfuel : input_end < fuel) :
    ∃ res : Row R,
      row_C_scan_numeric_vector_1 fuel row_index_B val_A B_row_buffer B_col_buffer
        B_elements B_size2 input input_end input_values out out_values
        = .ok (u32_cast res.length, cols res ++ out.drop res.length,
            vals res ++ out_values.drop res.length) ∧
      res.length ≤ (csr_cols B_row_buffer B_col_buffer row_index_B).length + input_end := by
  obtain ⟨⟨hr, hlt, hin, hcap⟩, h4, hinv, hcapv⟩ := hv
  rw [← h4] at hr
  have hclen : (carried_row input input_values input_end).length = input_end :=
    (carried_cursor input input_values input_end hin hinv).2
  have hcr := cols_csr_row B_row_buffer B_col_buffer B_elements row_index_B hr
  have hlr : (csr_row B_row_buffer B_col_buffer B_elements row_index_B).length
      = (csr_cols B_row_buffer B_col_buffer row_index_B).length := by
    rw [← hcr, length_cols]
  have hle := length_merge_row_le_raw val_A
    (csr_row B_row_buffer B_col_buffer B_elements row_index_B)
    (carried_row input input_values input_end)
  exact ⟨_, row_C_scan_numeric_vector_1_run fuel row_index_B val_A B_row_buffer
    B_col_buffer B_elements B_size2 input input_end input_values out out_values _ rfl hr
    (by rw [hcr]; exact hlt) hin hinv hfuel (by omega) (by omega), by omega⟩

theorem numeric_chunk_loop_run [Zero R] [One R] [Add R] [Mul R]
    (A_col_buffer : List Nat) (A_elements : List R)
    (B_row_buffer B_col_buffer : List Nat) (B_elements : List R)
    (B_size2 row_end_A fuel cap : Nat) (hcapf : cap < fuel)
    (ha : A_elements.length = A_col_buffer.length)
    (hb : B_elements.length = B_col_buffer.length)
    (k row_start_A : Nat) (s : Scratch R)
    (hle : row_start_A ≤ row_end_A)
    (hv : ∀ i, row_start_A ≤ i → i < row_end_A →
      i < A_col_buffer.length ∧
      RowValid B_row_buffer B_col_buffer B_col_buffer.length (A_col_buffer.getD i 0) ∧
      ∀ c ∈ csr_cols B_row_buffer B_col_buffer (A_col_buffer.getD i 0), c < B_size2)
    (hk : row_end_A - row_start_A < k)
    (hcap : s.row_C_len + selected_nnz row_start_A row_end_A A_col_buffer B_row_buffer
      B_col_buffer ≤ cap)
    (h1 : cap ≤ s.row_C_vector_1.length) (h1v : cap ≤ s.row_C_vector_1_values.length)
    (h2 : cap ≤ s.row_C_vector_2.length) (h2v : cap ≤ s.row_C_vector_2_values.length) :
    ∃ s1, numeric_chunk_loop A_col_buffer A_elements B_row_buffer B_col_buffer B_elements
        B_size2 row_end_A fuel k row_start_A s = .ok s1 ∧
      s1.row_C_len ≤ s.row_C_len + selected_nnz row_start_A row_end_A A_col_buffer
        B_row_buffer B_col_buffer ∧
      cap ≤ s1.row_C_vector_1.length ∧ cap ≤ s1.row_C_vector_1_values.length ∧
      cap ≤ s1.row_C_vector_2.length ∧ cap ≤ s1.row_C_vector_2_values.length := by
  induction k generalizing row_start_A s with
  | zero => omega
  | succ k ih =>
    simp only [numeric_chunk_loop]
    by_cases h0 : row_end_A > row_start_A
    · rw [if_pos h0]
      have hlast := (hv (row_end_A - 1) (by omega) (by omega)).1
      by_cases h3 : row_end_A - row_start_A > 3
      · rw [if_pos h3]
        have hsplit := selected_nnz_add row_start_A (row_start_A + 3) row_end_A A_col_buffer
          B_row_buffer B_col_buffer (by omega) (by omega)
        have hd := selected_nnz_drop row_start_A 3 A_col_buffer B_row_buffer B_col_buffer
        have hfv : FrontValidNumeric 3 (A_col_buffer.drop row_start_A)
            (A_elements.drop row_start_A) B_row_buffer B_col_buffer B_elements
            B_size2 s.row_C_vector_1 s.row_C_len s.row_C_vector_1_values
            s.row_C_vector_2 s.row_C_vector_2_values := by
          refine ⟨⟨by simp only [List.length_drop]; omega, fun j hj => ?_, by omega,
            by omega⟩, by simp only [List.length_drop]; omega, hb, by omega, by omega⟩
          rw [getD_drop]
          exact (hv (row_start_A + j) (by omega) (by omega)).2
        obtain ⟨res, c1, c2⟩ := numeric_front_run fuel 3
          (A_col_buffer.drop row_start_A) (A_elements.drop row_start_A) B_row_buffer
          B_col_buffer B_elements B_size2 s.row_C_vector_1 s.row_C_len
          s.row_C_vector_1_values s.row_C_vector_2 s.row_C_vector_2_values hfv (by omega)
        rw [c1]
        simp only [ok_bind]
        have hcl := u32_cast_le res.length
        obtain ⟨s1, r1, r2, r3⟩ := ih (row_start_A + 3)
          { row_C_len := u32_cast res.length,
            row_C_vector_1 := cols res ++ s.row_C_vector_2.drop res.length,
            row_C_vector_1_values := vals res ++ s.row_C_vector_2_values.drop res.length,
            row_C_vector_2 := s.row_C_vector_1,
            row_C_vector_2_values := s.row_C_vector_1_values } (by omega)
          (fun i hi1 hi2 => hv i (by omega) hi2) (by omega) (by simp only; omega)
          (by simp only; rw [length_cols_out _ _ (by omega)]; exact h2)
          (by simp only; rw [length_vals_out _ _ (by omega)]; exact h2v) h1 h1v
        exact ⟨s1, r1, by simp only at r2; omega, r3⟩
      · rw [if_neg h3]
        obtain ⟨a1, a2, a3⟩ := hv row_start_A (le_refl _) h0
        rw [readAt_getD A_col_buffer row_start_A 0 a1,
          readAt_getD A_elements row_start_A 0 (by omega)]
        simp only [ok_bind]
        have hsplit := selected_nnz_add row_start_A (row_start_A + 1) row_end_A A_col_buffer
          B_row_buffer B_col_buffer (by omega) (by omega)
        have hd := selected_nnz_one row_start_A A_col_buffer B_row_buffer B_col_buffer
        have hsv : SingleValidNumeric (A_col_buffer.getD row_start_A 0) B_row_buffer
            B_col_buffer B_elements B_size2 s.row_C_vector_1 s.row_C_len
            s.row_C_vector_1_values s.row_C_vector_2 s.row_C_vector_2_values :=
          ⟨⟨a2, a3, by omega, by omega⟩, hb, by omega, by omega⟩
        obtain ⟨res, c1, c2⟩ := numeric_single_run fuel (A_col_buffer.getD row_start_A 0)
          (A_elements.getD row_start_A 0) B_row_buffer B_col_buffer B_elements B_size2
          s.row_C_vector_1 s.row_C_len s.row_C_vector_1_values s.row_C_vector_2
          s.row_C_vector_2_values hsv (by omega)
        rw [c1]
        simp only [ok_bind]
        have hcl := u32_cast_le res.length
        obtain ⟨s1, r1, r2, r3⟩ := ih (row_start_A + 1)
          { row_C_len := u32_cast res.length,
            row_C_vector_1 := cols res ++ s.row_C_vector_2.drop res.length,
            row_C_vector_1_values := vals res ++ s.row_C_vector_2_values.drop res.length,
            row_C_vector_2 := s.row_C_vector_1,
            row_C_vector_2_values := s.row_C_vector_1_values } (by omega)
          (fun i hi1 hi2 => hv i (by omega) hi2) (by omega) (by simp only; omega)
          (by simp only; rw [length_cols_out _ _ (by omega)]; exact h2)
          (by simp only; rw [length_vals_out _ _ (by omega)]; exact h2v) h1 h1v
        exact ⟨s1, r1, by simp only at r2; omega, r3⟩
    · rw [if_neg h0]
      exact ⟨s, rfl, by omega, h1, h1v, h2, h2v⟩

theorem u32_sub_le (a b : Nat) (h : b ≤ a) : u32_sub a b ≤ a - b := by
  unfold u32_sub
  rw [show a + U32 - b = (a - b) + U32 by omega, Nat.add_mod_right]
  exact Nat.mod_le _ _

theorem length_csr_cols (B_row_buffer B_col_buffer : List Nat) (n r : Nat)
    (h : RowValid B_row_buffer B_col_buffer n r) :
    (csr_cols B_row_buffer B_col_buffer r).length
      = B_row_buffer.getD (r + 1) 0 - B_row_buffer.getD r 0 := by
  unfold csr_cols
  exact length_slice _ _ _ h.2.2.2.1

theorem row_C_scan_symbolic_vector_one
    (fuel row_start_A row_end_A : Nat) (A_col_buffer : List Nat)
    (B_row_buffer B_col_buffer : List Nat) (B_size2 : Nat) (v1 v2 : List Nat) (n : Nat)
    (h1 : row_end_A = row_start_A + 1) (hu : row_end_A < U32)
    (ha : row_start_A < A_col_buffer.length)
    (hr : RowValid B_row_buffer B_col_buffer n (A_col_buffer.getD row_start_A 0)) :
    row_C_scan_symbolic_vector fuel row_start_A row_end_A A_col_buffer B_row_buffer
      B_col_buffer B_size2 v1 v2 =
    .ok (u32_sub (B_row_buffer.getD (A_col_buffer.getD row_start_A 0 + 1) 0)
          (B_row_buffer.getD (A_col_buffer.getD row_start_A 0) 0), v1, v2) := by
  obtain ⟨g1, g2, g3, g4, g5⟩ := hr
  have hsub : u32_sub row_end_A row_start_A = 1 := by
    rw [u32_sub_of_le _ _ (by omega) hu]; omega
  simp only [row_C_scan_symbolic_vector]
  rw [if_neg (by omega), if_pos hsub, readAt_getD A_col_buffer row_start_A 0 ha]
  simp only [ok_bind]
  rw [u32_add_one _ g2, readAt_getD B_row_buffer _ 0 g1, readAt_getD B_row_buffer _ 0 (by omega)]
  simp only [ok_bind]

theorem row_C_scan_symbolic_vector_many
    (fuel row_start_A row_end_A : Nat) (A_col_buffer : List Nat)
    (B_row_buffer B_col_buffer : List Nat) (B_size2 : Nat) (v1 v2 : List Nat)
    (h2 : row_start_A + 2 ≤ row_end_A) (hu : row_end_A < U32) :
    row_C_scan_symbolic_vector fuel row_start_A row_end_A A_col_buffer B_row_buffer
      B_col_buffer B_size2 v1 v2 =
    symbolic_chunk_loop A_col_buffer B_row_buffer B_col_buffer B_size2 row_end_A fuel
      fuel row_start_A 0 v1 v2 := by
  have hsub : ¬ u32_sub row_end_A row_start_A = 1 := by
    rw [u32_sub_of_le _ _ (by omega) hu]; omega
  simp only [row_C_scan_symbolic_vector]
  rw [if_neg (by omega), if_neg hsub]

theorem selected_nnz_mono (a b c : Nat) (A_col_buffer B_row_buffer B_col_buffer : List Nat)
    (hab : a ≤ b) (hbc : b ≤ c) :
    selected_nnz a b A_col_buffer B_row_buffer B_col_buffer
      ≤ selected_nnz a c A_col_buffer B_row_buffer B_col_buffer := by
  rw [selected_nnz_add a b c _ _ _ hab hbc]
  omega

theorem symbolic_driver_run
    (fuel row_start_A row_end_A : Nat) (A_col_buffer : List Nat)
    (B_row_buffer B_col_buffer : List Nat) (B_size2 : Nat) (v1 v2 : List Nat)
    (hv : DriverValid row_start_A row_end_A A_col_buffer B_row_buffer B_col_buffer B_size2
      v1 v2)
    (hfuel : selected_nnz row_start_A row_end_A A_col_buffer B_row_buffer B_col_buffer
      + (row_end_A - row_start_A) < fuel) :
    ∃ len s1 s2, row_C_scan_symbolic_vector fuel row_start_A row_end_A A_col_buffer
        B_row_buffer B_col_buffer B_size2 v1 v2 = .ok (len, s1, s2) ∧
      len ≤ selected_nnz row_start_A row_end_A A_col_buffer B_row_buffer B_col_buffer := by
  obtain ⟨hle, hu, hrows, hc1, hc2⟩ := hv
  rcases Nat.lt_or_ge row_start_A row_end_A with hlt | hge
  · rcases Nat.lt_or_ge (row_start_A + 1) row_end_A with h2 | h1
    · obtain ⟨hist, g1, g2, _⟩ := symbolic_chunk_history_spec A_col_buffer B_row_buffer
        B_col_buffer B_size2 row_end_A fuel
        (selected_nnz row_start_A row_end_A A_col_buffer B_row_buffer B_col_buffer)
        (by omega) fuel row_start_A 0 v1 v2 hle hrows (by omega) (by omega) hc1 hc2
      obtain ⟨st, l1, _, l3⟩ := symbolic_chunk_history_last _ _ _ _ _ _ _ _ _ _ _ _ g1
      obtain ⟨q1, q2, q3, _⟩ := g2 st (List.mem_of_getLast?_eq_some l1)
      have := selected_nnz_mono row_start_A st.row_start_A row_end_A A_col_buffer
        B_row_buffer B_col_buffer q1 q2
      refine ⟨st.row_C_len, st.row_C_vector_1, st.row_C_vector_2, ?_, ?_⟩
      · rw [row_C_scan_symbolic_vector_many _ _ _ _ _ _ _ _ _ (by omega) hu]
        exact l3
      · omega
    · have h1 : row_end_A = row_start_A + 1 := by omega
      obtain ⟨a1, a2, _⟩ := hrows row_start_A (le_refl _) hlt
      refine ⟨_, _, _, row_C_scan_symbolic_vector_one fuel row_start_A row_end_A A_col_buffer
        B_row_buffer B_col_buffer B_size2 v1 v2 _ h1 hu a1 a2, ?_⟩
      rw [h1, selected_nnz_one, length_csr_cols _ _ _ _ a2]
      exact u32_sub_le _ _ a2.2.2.1
  · refine ⟨0, v1, v2, ?_, Nat.zero_le _⟩
    simp only [row_C_scan_symbolic_vector]
    rw [if_pos (by omega)]

theorem numeric_driver_run [Zero R] [One R] [Add R] [Mul R]
    (fuel row_start_A row_end_A : Nat) (A_col_buffer : List Nat) (A_elements : List R)
    (B_row_buffer B_col_buffer : List Nat) (B_elements : List R) (B_size2 : Nat)
    (row_start_C row_end_C : Nat) (C_col_buffer : List Nat) (C_elements : List R)
    (v1 : List Nat) (v1v : List R) (v2 : List Nat) (v2v : List R)
    (hv : DriverValidNumeric row_start_A row_end_A A_col_buffer A_elements B_row_buffer
      B_col_buffer B_elements B_size2 v1 v1v v2 v2v)
    (hrl : ∀ i, row_start_A ≤ i → i < row_end_A →
      (csr_cols B_row_buffer B_col_buffer (A_col_buffer.getD i 0)).length < U32)
    (hfuel : selected_nnz row_start_A row_end_A A_col_buffer B_row_buffer B_col_buffer
      + (row_end_A - row_start_A) < fuel)
    (hC : row_start_C + symbolic_length fuel row_start_A row_end_A A_col_buffer B_row_buffer
      B_col_buffer B_size2 v1 v2 ≤ C_col_buffer.length)
    (hCv : row_start_C + symbolic_length fuel row_start_A row_end_A A_col_buffer B_row_buffer
      B_col_buffer B_size2 v1 v2 ≤ C_elements.length) :
    ∃ r xs xv, row_C_scan_numeric_vector fuel row_start_A row_end_A A_col_buffer A_elements
        B_row_buffer B_col_buffer B_elements B_size2 row_start_C row_end_C
        C_col_buffer C_elements v1 v1v v2 v2v = .ok r ∧
      r.written = symbolic_length fuel row_start_A row_end_A A_col_buffer B_row_buffer
        B_col_buffer B_size2 v1 v2 ∧
      xs.length = r.written ∧ xv.length = r.written ∧
      r.C_col_buffer = written_at C_col_buffer row_start_C xs ∧
      r.C_elements = written_at C_elements row_start_C xv := by
  obtain ⟨⟨hle, hu, hrows, hc1, hc2⟩, ha, hb, hc1v, hc2v⟩ := hv
  rcases Nat.lt_or_ge row_start_A row_end_A with hlt | hge
  · rcases Nat.lt_or_ge (row_start_A + 1) row_end_A with h2 | h1
    · have hsub : ¬ u32_sub row_end_A row_start_A = 1 := by
        rw [u32_sub_of_le _ _ (by omega) hu]; omega
      obtain ⟨s1, g1, g2, g3, g4, g5, g6⟩ := numeric_chunk_loop_run A_col_buffer A_elements
        B_row_buffer B_col_buffer B_elements B_size2 row_end_A fuel
        (selected_nnz row_start_A row_end_A A_col_buffer B_row_buffer B_col_buffer)
        (by omega) ha hb fuel row_start_A
        { row_C_len := 0, row_C_vector_1 := v1, row_C_vector_1_values := v1v,
          row_C_vector_2 := v2, row_C_vector_2_values := v2v }
        hle hrows (by omega) (by simp only; omega) hc1 hc1v hc2 hc2v
      simp only [Nat.zero_add] at g2
      have hsim := numeric_chunk_loop_sim _ _ _ _ _ _ _ _ _ _ _ _ g1
      have hsl : symbolic_length fuel row_start_A row_end_A A_col_buffer B_row_buffer
          B_col_buffer B_size2 v1 v2 = s1.row_C_len := by
        simp only [symbolic_length]
        rw [row_C_scan_symbolic_vector_many _ _ _ _ _ _ _ _ _ (by omega) hu, hsim]
      rw [hsl] at hC hCv
      have hcar := carried_cursor s1.row_C_vector_1 s1.row_C_vector_1_values s1.row_C_len
        (by omega) (by omega)
      have hcopy := copy_to_output_spec s1.row_C_vector_1 s1.row_C_vector_1_values
        (carried_row s1.row_C_vector_1 s1.row_C_vector_1_values s1.row_C_len) 0
        row_start_C C_col_buffer C_elements (C_col_buffer.take row_start_C)
        (C_col_buffer.drop row_start_C) (C_elements.take row_start_C)
        (C_elements.drop row_start_C) hcar.1
        (List.take_append_drop _ _).symm (List.take_append_drop _ _).symm
        (by rw [List.length_take]; omega) (by rw [List.length_take]; omega)
        (by rw [List.length_drop, hcar.2]; omega) (by rw [List.length_drop, hcar.2]; omega)
      rw [hcar.2] at hcopy
      refine ⟨{ C_col_buffer := C_col_buffer.take row_start_C
                    ++ cols (carried_row s1.row_C_vector_1 s1.row_C_vector_1_values
                      s1.row_C_len)
                    ++ (C_col_buffer.drop row_start_C).drop s1.row_C_len,
                C_elements := C_elements.take row_start_C
                    ++ vals (carried_row s1.row_C_vector_1 s1.row_C_vector_1_values
                      s1.row_C_len)
                    ++ (C_elements.drop row_start_C).drop s1.row_C_len,
                written := row_start_C + s1.row_C_len - row_start_C,
                row_C_vector_1 := s1.row_C_vector_1,
                row_C_vector_1_values := s1.row_C_vector_1_values,
                row_C_vector_2 := s1.row_C_vector_2,
                row_C_vector_2_values := s1.row_C_vector_2_values },
        cols (carried_row s1.row_C_vector_1 s1.row_C_vector_1_values s1.row_C_len),
        vals (carried_row s1.row_C_vector_1 s1.row_C_vector_1_values s1.row_C_len), ?_, ?_, ?_,
        ?_, ?_, ?_⟩
      · simp only [row_C_scan_numeric_vector]
        rw [if_neg (by omega), if_neg hsub, g1]
        simp only [ok_bind]
        rw [hcopy]
        simp only [ok_bind]
      · simp only [hsl]; omega
      · simp only [length_cols, hcar.2]; omega
      · simp only [length_vals, hcar.2]; omega
      · simp only [written_at, List.drop_drop, length_cols, hcar.2]
      · simp only [written_at, List.drop_drop, length_vals, hcar.2]
    · have h1 : row_end_A = row_start_A + 1 := by omega
      obtain ⟨a1, a2, _⟩ := hrows row_start_A (le_refl _) hlt
      have hsym := row_C_scan_symbolic_vector_one fuel row_start_A row_end_A A_col_buffer
        B_row_buffer B_col_buffer B_size2 v1 v2 _ h1 hu a1 a2
      have hhi := hrl row_start_A (le_refl _) hlt
      rw [length_csr_cols _ _ _ _ a2] at hhi
      have hsl : symbolic_length fuel row_start_A row_end_A A_col_buffer B_row_buffer
          B_col_buffer B_size2 v1 v2
          = (csr_row B_row_buffer B_col_buffer B_elements
              (A_col_buffer.getD row_start_A 0)).length := by
        simp only [symbolic_length, hsym]
        rw [u32_sub_eq _ _ a2.2.2.1 hhi, length_csr_row _ _ _ _ (by rw [hb]; exact a2),
          length_csr_cols _ _ _ _ a2]
      rw [hsl] at hC hCv
      have hone := row_C_scan_numeric_vector_one fuel row_start_A row_end_A A_col_buffer
        A_elements B_row_buffer B_col_buffer B_elements B_size2 row_start_C row_end_C
        C_col_buffer C_elements v1 v1v v2 v2v h1 hu a1 (by omega) (by rw [hb]; exact a2)
        hC hCv
      refine ⟨_, _, _, hone, ?_, ?_, ?_, rfl, rfl⟩
      · rw [hsl]
      · simp only [length_cols, length_scale_row]
      · simp only [length_vals, length_scale_row]
  · have heq : row_start_A = row_end_A := by omega
    refine ⟨{ C_col_buffer := C_col_buffer, C_elements := C_elements, written := 0,
              row_C_vector_1 := v1, row_C_vector_1_values := v1v,
              row_C_vector_2 := v2, row_C_vector_2_values := v2v }, [], [], ?_, ?_, rfl, rfl,
      ?_, ?_⟩
    · simp only [row_C_scan_numeric_vector]
      rw [if_pos heq]
    · simp only [symbolic_length, row_C_scan_symbolic_vector]
      rw [if_pos heq]
    · simp [written_at]
    · simp [written_at]

/-- C11: cardinality bound. For every input of the size pass whose memory is
valid (sortedness is not needed), `row_C_scan_symbolic_vector` returns a
length that is at most the sum of the nonzero counts of the rows of B selected
by the left row; when the loop runs (two or more entries), at every
evaluation of the loop condition the partial row length `row_C_len` is at
most the sum of the nonzero counts of the rows selected so far, hence at most
the sum over the whole left row. Per call: every valid call of
`row_C_scan_symbolic_vector_N`, `row_C_scan_symbolic_vector_1`,
`row_C_scan_numeric_vector_N` and `row_C_scan_numeric_vector_1` returns a
length that is at most the carried-input length plus the nonzero counts of
the rows of B merged in that call. -/
theorem merge_length_bound [Zero R] [One R] [Add R] [Mul R]
    (fuel row_start_A row_end_A : Nat) (A_col_buffer : List Nat)
    (B_row_buffer B_col_buffer : List Nat) (B_size2 : Nat)
    (row_C_vector_1 row_C_vector_2 : List Nat)
    (hv : DriverValid row_start_A row_end_A A_col_buffer B_row_buffer B_col_buffer B_size2
      row_C_vector_1 row_C_vector_2)
    (hfuel : selected_nnz row_start_A row_end_A A_col_buffer B_row_buffer B_col_buffer
      + (row_end_A - row_start_A) < fuel) :
    (∃ len s1 s2, row_C_scan_symbolic_vector fuel row_start_A row_end_A A_col_buffer
        B_row_buffer B_col_buffer B_size2 row_C_vector_1 row_C_vector_2 = .ok (len, s1, s2) ∧
      len ≤ selected_nnz row_start_A row_end_A A_col_buffer B_row_buffer B_col_buffer) ∧
    (row_start_A + 2 ≤ row_end_A →
      ∃ hist last, symbolic_chunk_history A_col_buffer B_row_buffer B_col_buffer B_size2
          row_end_A fuel fuel row_start_A 0 row_C_vector_1 row_C_vector_2 = .ok hist ∧
        hist.getLast? = some last ∧
        row_C_scan_symbolic_vector fuel row_start_A row_end_A A_col_buffer
          B_row_buffer B_col_buffer B_size2 row_C_vector_1 row_C_vector_2
          = .ok (last.row_C_len, last.row_C_vector_1, last.row_C_vector_2) ∧
        ∀ st ∈ hist,
          st.row_C_len ≤ selected_nnz row_start_A st.row_start_A A_col_buffer B_row_buffer
            B_col_buffer ∧
          selected_nnz row_start_A st.row_start_A A_col_buffer B_row_buffer B_col_buffer
            ≤ selected_nnz row_start_A row_end_A A_col_buffer B_row_buffer B_col_buffer) ∧
    (∀ (IndexNum : Nat) (row_indices_B input : List Nat) (input_end : Nat) (out : List Nat),
      FrontValid IndexNum row_indices_B B_row_buffer B_col_buffer B_size2 input input_end out →
      selected_nnz 0 IndexNum row_indices_B B_row_buffer B_col_buffer + input_end < fuel →
      ∃ len o, row_C_scan_symbolic_vector_N fuel IndexNum row_indices_B B_row_buffer
          B_col_buffer B_size2 input input_end out = .ok (len, o) ∧
        len ≤ input_end + selected_nnz 0 IndexNum row_indices_B B_row_buffer B_col_buffer) ∧
    (∀ (row_index_B : Nat) (input : List Nat) (input_end : Nat) (out : List Nat),
      SingleValid row_index_B B_row_buffer B_col_buffer B_size2 input input_end out →
      input_end < fuel →
      ∃ len o, row_C_scan_symbolic_vector_1 fuel row_index_B B_row_buffer
          B_col_buffer B_size2 input input_end out = .ok (len, o) ∧
        len ≤ input_end + (csr_cols B_row_buffer B_col_buffer row_index_B).length) ∧
    (∀ (IndexNum : Nat) (row_indices_B : List Nat) (val_A B_elements : List R)
        (input : List Nat) (input_end : Nat) (input_values : List R)
        (out : List Nat) (out_values : List R),
      FrontValidNumeric IndexNum row_indices_B val_A B_row_buffer B_col_buffer B_elements
        B_size2 input input_end input_values out out_values →
      selected_nnz 0 IndexNum row_indices_B B_row_buffer B_col_buffer + input_end < fuel →
      ∃ len o ov, row_C_scan_numeric_vector_N fuel IndexNum row_indices_B val_A B_row_buffer
          B_col_buffer B_elements B_size2 input input_end input_values out out_values
          = .ok (len, o, ov) ∧
        len ≤ input_end + selected_nnz 0 IndexNum row_indices_B B_row_buffer B_col_buffer) ∧
    (∀ (row_index_B : Nat) (val_A : R) (B_elements : List R)
        (input : List Nat) (input_end : Nat) (input_values : List R)
        (out : List Nat) (out_values : List R),
      SingleValidNumeric row_index_B B_row_buffer B_col_buffer B_elements B_size2
        input input_end input_values out out_values →
      input_end < fuel →
      ∃ len o ov, row_C_scan_numeric_vector_1 fuel row_index_B val_A B_row_buffer
          B_col_buffer B_elements B_size2 input input_end input_values out out_values
          = .ok (len, o, ov) ∧
        len ≤ input_end + (csr_cols B_row_buffer B_col_buffer row_index_B).length) := by
  refine ⟨symbolic_driver_run fuel row_start_A row_end_A A_col_buffer B_row_buffer
    B_col_buffer B_size2 row_C_vector_1 row_C_vector_2 hv hfuel, fun h2 => ?_, ?_, ?_, ?_, ?_⟩
  · obtain ⟨hle, hu, hrows, hc1, hc2⟩ := hv
    obtain ⟨hist, g1, g2, _⟩ := symbolic_chunk_history_spec A_col_buffer B_row_buffer
      B_col_buffer B_size2 row_end_A fuel
      (selected_nnz row_start_A row_end_A A_col_buffer B_row_buffer B_col_buffer)
      (by omega) fuel row_start_A 0 row_C_vector_1 row_C_vector_2 hle hrows (by omega)
      (by omega) hc1 hc2
    obtain ⟨last, l1, _, l3⟩ := symbolic_chunk_history_last _ _ _ _ _ _ _ _ _ _ _ _ g1
    refine ⟨hist, last, g1, l1, ?_, fun st hst => ?_⟩
    · rw [row_C_scan_symbolic_vector_many _ _ _ _ _ _ _ _ _ h2 hu]
      exact l3
    · obtain ⟨q1, q2, q3, _⟩ := g2 st hst
      exact ⟨by omega, selected_nnz_mono _ _ _ _ _ _ q1 q2⟩
  · intro IndexNum row_indices_B input input_end out hfv hf
    obtain ⟨pattern, c1, c2, _⟩ := symbolic_front_call fuel IndexNum row_indices_B
      B_row_buffer B_col_buffer B_size2 input input_end out hfv hf
    have := u32_cast_le pattern.length
    exact ⟨_, _, c1, by omega⟩
  · intro row_index_B input input_end out hsv hf
    obtain ⟨pattern, c1, c2, _⟩ := symbolic_single_call fuel row_index_B
      B_row_buffer B_col_buffer B_size2 input input_end out hsv hf
    have := u32_cast_le pattern.length
    exact ⟨_, _, c1, by omega⟩
  · intro IndexNum row_indices_B val_A B_elements input input_end input_values out
      out_values hfv hf
    obtain ⟨res, c1, c2⟩ := numeric_front_run fuel IndexNum row_indices_B val_A
      B_row_buffer B_col_buffer B_elements B_size2 input input_end input_values out
      out_values hfv hf
    have := u32_cast_le res.length
    exact ⟨_, _, _, c1, by omega⟩
  · intro row_index_B val_A B_elements input input_end input_values out out_values hsv hf
    obtain ⟨res, c1, c2⟩ := numeric_single_run fuel row_index_B val_A
      B_row_buffer B_col_buffer B_elements B_size2 input input_end input_values out
      out_values hsv hf
    have := u32_cast_le res.length
    exact ⟨_, _, _, c1, by omega⟩

/-- Witness for C11: a left row with four entries selecting rows with 1, 2,
2 and 2 nonzeros, and calls of the four merges on rows of the same matrix
with the carried input `2, 4`. -/
theorem merge_length_bound_witness :
    DriverValid 0 4 [0, 1, 2, 3] [0, 1, 3, 5, 7] [1, 1, 3, 0, 2, 2, 5] 6
      [0, 0, 0, 0, 0, 0, 0] [0, 0, 0, 0, 0, 0, 0] ∧
    selected_nnz 0 4 [0, 1, 2, 3] [0, 1, 3, 5, 7] [1, 1, 3, 0, 2, 2, 5] + (4 - 0) < 20 ∧
    (∃ len s1 s2, row_C_scan_symbolic_vector 20 0 4 [0, 1, 2, 3] [0, 1, 3, 5, 7]
        [1, 1, 3, 0, 2, 2, 5] 6 [0, 0, 0, 0, 0, 0, 0] [0, 0, 0, 0, 0, 0, 0]
        = .ok (len, s1, s2) ∧
      len ≤ selected_nnz 0 4 [0, 1, 2, 3] [0, 1, 3, 5, 7] [1, 1, 3, 0, 2, 2, 5]) ∧
    (∃ hist last, symbolic_chunk_history [0, 1, 2, 3] [0, 1, 3, 5, 7] [1, 1, 3, 0, 2, 2, 5] 6
          4 20 20 0 0 [0, 0, 0, 0, 0, 0, 0] [0, 0, 0, 0, 0, 0, 0] = .ok hist ∧
        hist.getLast? = some last ∧
        row_C_scan_symbolic_vector 20 0 4 [0, 1, 2, 3] [0, 1, 3, 5, 7]
          [1, 1, 3, 0, 2, 2, 5] 6 [0, 0, 0, 0, 0, 0, 0] [0, 0, 0, 0, 0, 0, 0]
          = .ok (last.row_C_len, last.row_C_vector_1, last.row_C_vector_2) ∧
        ∀ st ∈ hist,
          st.row_C_len ≤ selected_nnz 0 st.row_start_A [0, 1, 2, 3] [0, 1, 3, 5, 7]
            [1, 1, 3, 0, 2, 2, 5] ∧
          selected_nnz 0 st.row_start_A [0, 1, 2, 3] [0, 1, 3, 5, 7] [1, 1, 3, 0, 2, 2, 5]
            ≤ selected_nnz 0 4 [0, 1, 2, 3] [0, 1, 3, 5, 7] [1, 1, 3, 0, 2, 2, 5]) ∧
    (∃ len o, row_C_scan_symbolic_vector_N 20 3 [0, 1, 2] [0, 1, 3, 5, 7]
        [1, 1, 3, 0, 2, 2, 5] 6 [2, 4, 0] 2 [9, 9, 9, 9, 9, 9, 9] = .ok (len, o) ∧
      len ≤ 2 + selected_nnz 0 3 [0, 1, 2] [0, 1, 3, 5, 7] [1, 1, 3, 0, 2, 2, 5]) ∧
    (∃ len o, row_C_scan_symbolic_vector_1 20 1 [0, 1, 3, 5, 7]
        [1, 1, 3, 0, 2, 2, 5] 6 [2, 4, 0] 2 [9, 9, 9, 9] = .ok (len, o) ∧
      len ≤ 2 + (csr_cols [0, 1, 3, 5, 7] [1, 1, 3, 0, 2, 2, 5] 1).length) ∧
    (∃ len o ov, row_C_scan_numeric_vector_N 20 3 [0, 1, 2] ([2, 3, 1] : List Int)
        [0, 1, 3, 5, 7] [1, 1, 3, 0, 2, 2, 5] ([5, 4, 1, 1, 1, 1, 1] : List Int) 6
        [2, 4, 0] 2 ([7, 8, 0] : List Int) [9, 9, 9, 9, 9, 9, 9]
        ([9, 9, 9, 9, 9, 9, 9] : List Int) = .ok (len, o, ov) ∧
      len ≤ 2 + selected_nnz 0 3 [0, 1, 2] [0, 1, 3, 5, 7] [1, 1, 3, 0, 2, 2, 5]) ∧
    (∃ len o ov, row_C_scan_numeric_vector_1 20 1 (3 : Int)
        [0, 1, 3, 5, 7] [1, 1, 3, 0, 2, 2, 5] ([5, 4, 1, 1, 1, 1, 1] : List Int) 6
        [2, 4, 0] 2 ([7, 8, 0] : List Int) [9, 9, 9, 9] ([9, 9, 9, 9] : List Int)
        = .ok (len, o, ov) ∧
      len ≤ 2 + (csr_cols [0, 1, 3, 5, 7] [1, 1, 3, 0, 2, 2, 5] 1).length) :=
  (fun h => ⟨by decide, by decide, h.1, h.2.1 (by decide),
    h.2.2.1 3 [0, 1, 2] [2, 4, 0] 2 [9, 9, 9, 9, 9, 9, 9] (by decide) (by decide),
    h.2.2.2.1 1 [2, 4, 0] 2 [9, 9, 9, 9] (by decide) (by decide),
    h.2.2.2.2.1 3 [0, 1, 2] [2, 3, 1] [5, 4, 1, 1, 1, 1, 1] [2, 4, 0] 2 [7, 8, 0]
      [9, 9, 9, 9, 9, 9, 9] [9, 9, 9, 9, 9, 9, 9] (by decide) (by decide),
    h.2.2.2.2.2 1 3 [5, 4, 1, 1, 1, 1, 1] [2, 4, 0] 2 [7, 8, 0] [9, 9, 9, 9] [9, 9, 9, 9]
      (by decide) (by decide)⟩)
    (@merge_length_bound Int _ _ _ _ 20 0 4 [0, 1, 2, 3] [0, 1, 3, 5, 7]
      [1, 1, 3, 0, 2, 2, 5] 6 [0, 0, 0, 0, 0, 0, 0] [0, 0, 0, 0, 0, 0, 0]
      (by decide) (by decide))

theorem load_index_live (buf : List Nat) (p p_end B v : Nat)
    (h : load_index buf p p_end B = .ok v) (hv : v ≠ B) : p < p_end := by
  unfold load_index at h
  by_cases hp : p < p_end
  · exact hp
  · rw [if_neg hp] at h
    cases h
    exact absurd rfl hv

theorem load_front_live (B : Nat) (front0 front : List FrontEntry)
    (h : load_front B front0 = .ok front) :
    ∀ e ∈ front, e.index_front ≠ B → e.index_front_start < e.index_front_end := by
  induction front0 generalizing front with
  | nil =>
    simp only [load_front] at h
    cases h
    intro e he
    cases he
  | cons e0 es ih =>
    simp only [load_front] at h
    obtain ⟨v, h1, h⟩ := bind_eq_ok h
    obtain ⟨es1, h2, h⟩ := bind_eq_ok h
    cases h
    intro e he hne
    rcases List.mem_cons.1 he with rfl | he
    · exact load_index_live _ _ _ _ _ h1 hne
    · exact ih es1 h2 e he hne

theorem min_index_attained (m0 : Nat) (front : List FrontEntry) :
    min_index_in_front m0 front = m0 ∨
      ∃ e ∈ front, e.index_front = min_index_in_front m0 front := by
  induction front generalizing m0 with
  | nil => exact Or.inl rfl
  | cons e es ih =>
    simp only [min_index_in_front, List.foldl_cons] at ih ⊢
    rcases ih (min m0 e.index_front) with h | ⟨x, hx, hh⟩
    · rcases Nat.le_total m0 e.index_front with hle | hle
      · rw [Nat.min_eq_left hle] at h ⊢
        exact Or.inl h
      · rw [Nat.min_eq_right hle] at h ⊢
        exact Or.inr ⟨e, List.mem_cons_self _ _, h.symm⟩
    · exact Or.inr ⟨x, List.mem_cons_of_mem _ hx, hh⟩

theorem advance_front_live (B m : Nat) (front front1 : List FrontEntry)
    (h : advance_front B m front = .ok front1) (hm : m ≠ B)
    (hinv : ∀ e ∈ front, e.index_front ≠ B → e.index_front_start < e.index_front_end) :
    (∀ e ∈ front1, e.index_front ≠ B → e.index_front_start < e.index_front_end) ∧
    unconsumed front1 ≤ unconsumed front ∧
    ((∃ e ∈ front, e.index_front = m) → unconsumed front1 < unconsumed front) := by
  induction front generalizing front1 with
  | nil =>
    simp only [advance_front] at h
    cases h
    refine ⟨hinv, le_refl _, ?_⟩
    rintro ⟨e, he, _⟩
    cases he
  | cons e es ih =>
    simp only [advance_front] at h
    have hinv2 : ∀ x ∈ es, x.index_front ≠ B → x.index_front_start < x.index_front_end :=
      fun x hx => hinv x (List.mem_cons_of_mem _ hx)
    by_cases he : e.index_front = m
    · rw [if_pos he] at h
      obtain ⟨v, h1, h⟩ := bind_eq_ok h
      obtain ⟨es1, h2, h⟩ := bind_eq_ok h
      cases h
      obtain ⟨i1, i2, _⟩ := ih es1 h2 hinv2
      have hlive := hinv e (List.mem_cons_self _ _) (by rw [he]; exact hm)
      refine ⟨?_, ?_, fun _ => ?_⟩
      · intro x hx hne
        rcases List.mem_cons.1 hx with rfl | hx
        · exact load_index_live _ _ _ _ _ h1 hne
        · exact i1 x hx hne
      · simp only [unconsumed, List.map_cons, List.sum_cons] at i2 ⊢
        omega
      · simp only [unconsumed, List.map_cons, List.sum_cons] at i2 ⊢
        omega
    · rw [if_neg he] at h
      obtain ⟨es1, h2, h⟩ := bind_eq_ok h
      cases h
      obtain ⟨i1, i2, i3⟩ := ih es1 h2 hinv2
      refine ⟨?_, ?_, ?_⟩
      · intro x hx hne
        rcases List.mem_cons.1 hx with rfl | hx
        · exact hinv x (List.mem_cons_self _ _) hne
        · exact i1 x hx hne
      · simp only [unconsumed, List.map_cons, List.sum_cons] at i2 ⊢
        omega
      · rintro ⟨x, hx, hxm⟩
        rcases List.mem_cons.1 hx with rfl | hx
        · exact absurd hxm he
        · have := i3 ⟨x, hx, hxm⟩
          simp only [unconsumed, List.map_cons, List.sum_cons] at this ⊢
          omega

theorem advance_front_decreases (B : Nat) (front front1 : List FrontEntry)
    (hinv : ∀ e ∈ front, e.index_front ≠ B → e.index_front_start < e.index_front_end)
    (hm : min_index_in_front B front ≠ B)
    (h : advance_front B (min_index_in_front B front) front = .ok front1) :
    (∀ e ∈ front1, e.index_front ≠ B → e.index_front_start < e.index_front_end) ∧
    unconsumed front1 < unconsumed front := by
  obtain ⟨i1, _, i3⟩ := advance_front_live B _ front front1 h hm hinv
  rcases min_index_attained B front with h0 | h0
  · exact absurd h0 hm
  · exact ⟨i1, i3 h0⟩

theorem load_front_numeric_live (B : Nat) (front0 front : List (NumFrontEntry R))
    (h : load_front_numeric B front0 = .ok front) :
    ∀ e ∈ front, e.index_front ≠ B → e.index_front_start < e.index_front_end := by
  intro e he hne
  exact load_front_live B _ _ (load_front_sim B front0 front h) (index_part e)
    (List.mem_map_of_mem _ he) hne

theorem advance_front_numeric_decreases [Add R] [Mul R] (B : Nat)
    (front : List (NumFrontEntry R)) (acc : R) (r : List (NumFrontEntry R) × R)
    (hinv : ∀ e ∈ front, e.index_front ≠ B → e.index_front_start < e.index_front_end)
    (hm : min_index_in_front_numeric B front ≠ B)
    (h : advance_front_numeric B (min_index_in_front_numeric B front) front acc = .ok r) :
    (∀ e ∈ r.1, e.index_front ≠ B → e.index_front_start < e.index_front_end) ∧
    unconsumed (r.1.map index_part) < unconsumed (front.map index_part) := by
  have hs := advance_front_sim B _ front acc r h
  rw [← min_index_sim] at hs hm
  have hinv2 : ∀ e ∈ front.map index_part, e.index_front ≠ B →
      e.index_front_start < e.index_front_end := by
    intro e he hne
    obtain ⟨x, hx, rfl⟩ := List.mem_map.1 he
    exact hinv x hx hne
  obtain ⟨g1, g2⟩ := advance_front_decreases B _ _ hinv2 hm hs
  exact ⟨fun e he hne => g1 (index_part e) (List.mem_map_of_mem _ he) hne, g2⟩

/-- C12: totality. For every input whose memory is valid and whose rows of B
hold only columns below `B_size2` (sortedness is not needed), and for every
fuel above an explicit bound, the embedded loops return instead of running out
of fuel: the chunk loop of both drivers (bound: the nonzero counts of the
selected rows plus the number of entries), the `while (1)` loop inside
`row_C_scan_symbolic_vector_N` and `row_C_scan_numeric_vector_N` (bound: the
nonzero counts of the merged rows plus the carried-input length), and the
inner `while` loop inside `row_C_scan_symbolic_vector_1` and
`row_C_scan_numeric_vector_1` (bound: the carried-input length). The measure:
"load indices" establishes that every slot showing a column other than the
sentinel has an unconsumed element; whenever the minimum of such a front is
not the sentinel, "advance index front" keeps that property and strictly
decreases the total number of unconsumed stream elements, in the symbolic and
in the numeric merge. -/
theorem merges_terminate [Zero R] [One R] [Add R] [Mul R]
    (row_start_A row_end_A : Nat) (A_col_buffer : List Nat) (A_elements : List R)
    (B_row_buffer B_col_buffer : List Nat) (B_elements : List R) (B_size2 : Nat)
    (row_C_vector_1 : List Nat) (row_C_vector_1_values : List R)
    (row_C_vector_2 : List Nat) (row_C_vector_2_values : List R)
    (hv : DriverValidNumeric row_start_A row_end_A A_col_buffer A_elements B_row_buffer
      B_col_buffer B_elements B_size2 row_C_vector_1 row_C_vector_1_values
      row_C_vector_2 row_C_vector_2_values) :
    (∀ fuel, selected_nnz row_start_A row_end_A A_col_buffer B_row_buffer B_col_buffer
        + (row_end_A - row_start_A) < fuel →
      (∃ r, symbolic_chunk_loop A_col_buffer B_row_buffer B_col_buffer B_size2 row_end_A fuel
        fuel row_start_A 0 row_C_vector_1 row_C_vector_2 = .ok r) ∧
      (∃ s, numeric_chunk_loop A_col_buffer A_elements B_row_buffer B_col_buffer B_elements
        B_size2 row_end_A fuel fuel row_start_A
        { row_C_len := 0, row_C_vector_1 := row_C_vector_1,
          row_C_vector_1_values := row_C_vector_1_values,
          row_C_vector_2 := row_C_vector_2,
          row_C_vector_2_values := row_C_vector_2_values } = .ok s)) ∧
    (∀ (fuel IndexNum : Nat) (row_indices_B input : List Nat) (input_end : Nat)
        (out : List Nat),
      FrontValid IndexNum row_indices_B B_row_buffer B_col_buffer B_size2 input input_end out →
      selected_nnz 0 IndexNum row_indices_B B_row_buffer B_col_buffer + input_end < fuel →
      ∃ r, row_C_scan_symbolic_vector_N fuel IndexNum row_indices_B B_row_buffer
          B_col_buffer B_size2 input input_end out = .ok r) ∧
    (∀ (fuel IndexNum : Nat) (row_indices_B : List Nat) (val_A : List R)
        (input : List Nat) (input_end : Nat) (input_values : List R)
        (out : List Nat) (out_values : List R),
      FrontValidNumeric IndexNum row_indices_B val_A B_row_buffer B_col_buffer B_elements
        B_size2 input input_end input_values out out_values →
      selected_nnz 0 IndexNum row_indices_B B_row_buffer B_col_buffer + input_end < fuel →
      ∃ r, row_C_scan_numeric_vector_N fuel IndexNum row_indices_B val_A B_row_buffer
          B_col_buffer B_elements B_size2 input input_end input_values out out_values
          = .ok r) ∧
    (∀ (fuel row_index_B : Nat) (input : List Nat) (input_end : Nat) (out : List Nat),
      SingleValid row_index_B B_row_buffer B_col_buffer B_size2 input input_end out →
      input_end < fuel →
      ∃ r, row_C_scan_symbolic_vector_1 fuel row_index_B B_row_buffer
          B_col_buffer B_size2 input input_end out = .ok r) ∧
    (∀ (fuel row_index_B : Nat) (val_A : R)
        (input : List Nat) (input_end : Nat) (input_values : List R)
        (out : List Nat) (out_values : List R),
      SingleValidNumeric row_index_B B_row_buffer B_col_buffer B_elements B_size2
        input input_end input_values out out_values →
      input_end < fuel →
      ∃ r, row_C_scan_numeric_vector_1 fuel row_index_B val_A B_row_buffer
          B_col_buffer B_elements B_size2 input input_end input_values out out_values
          = .ok r) ∧
    (∀ front0 front : List FrontEntry, load_front B_size2 front0 = .ok front →
      ∀ e ∈ front, e.index_front ≠ B_size2 → e.index_front_start < e.index_front_end) ∧
    (∀ front front1 : List FrontEntry,
      (∀ e ∈ front, e.index_front ≠ B_size2 → e.index_front_start < e.index_front_end) →
      min_index_in_front B_size2 front ≠ B_size2 →
      advance_front B_size2 (min_index_in_front B_size2 front) front = .ok front1 →
      (∀ e ∈ front1, e.index_front ≠ B_size2 → e.index_front_start < e.index_front_end) ∧
      unconsumed front1 < unconsumed front) ∧
    (∀ front0 front : List (NumFrontEntry R), load_front_numeric B_size2 front0 = .ok front →
      ∀ e ∈ front, e.index_front ≠ B_size2 → e.index_front_start < e.index_front_end) ∧
    (∀ (front : List (NumFrontEntry R)) (row_C_value : R) (r : List (NumFrontEntry R) × R),
      (∀ e ∈ front, e.index_front ≠ B_size2 → e.index_front_start < e.index_front_end) →
      min_index_in_front_numeric B_size2 front ≠ B_size2 →
      advance_front_numeric B_size2 (min_index_in_front_numeric B_size2 front) front
        row_C_value = .ok r →
      (∀ e ∈ r.1, e.index_front ≠ B_size2 → e.index_front_start < e.index_front_end) ∧
      unconsumed (r.1.map index_part) < unconsumed (front.map index_part)) := by
  refine ⟨fun fuel hfuel => ?_, ?_, ?_, ?_, ?_, load_front_live B_size2,
    advance_front_decreases B_size2, load_front_numeric_live B_size2,
    advance_front_numeric_decreases B_size2⟩
  · obtain ⟨⟨hle, hu, hrows, hc1, hc2⟩, ha, hb, hc1v, hc2v⟩ := hv
    obtain ⟨s1, g1, _⟩ := numeric_chunk_loop_run A_col_buffer A_elements
      B_row_buffer B_col_buffer B_elements B_size2 row_end_A fuel
      (selected_nnz row_start_A row_end_A A_col_buffer B_row_buffer B_col_buffer)
      (by omega) ha hb fuel row_start_A
      { row_C_len := 0, row_C_vector_1 := row_C_vector_1,
        row_C_vector_1_values := row_C_vector_1_values,
        row_C_vector_2 := row_C_vector_2, row_C_vector_2_values := row_C_vector_2_values }
      hle hrows (by omega) (by simp only; omega) hc1 hc1v hc2 hc2v
    exact ⟨⟨_, numeric_chunk_loop_sim _ _ _ _ _ _ _ _ _ _ _ _ g1⟩, ⟨s1, g1⟩⟩
  · intro fuel IndexNum row_indices_B input input_end out hfv hf
    obtain ⟨pattern, c1, _⟩ := symbolic_front_call fuel IndexNum row_indices_B
      B_row_buffer B_col_buffer B_size2 input input_end out hfv hf
    exact ⟨_, c1⟩
  · intro fuel IndexNum row_indices_B val_A input input_end input_values out out_values
      hfv hf
    obtain ⟨res, c1, _⟩ := numeric_front_run fuel IndexNum row_indices_B val_A
      B_row_buffer B_col_buffer B_elements B_size2 input input_end input_values out
      out_values hfv hf
    exact ⟨_, c1⟩
  · intro fuel row_index_B input input_end out hsv hf
    obtain ⟨pattern, c1, _⟩ := symbolic_single_call fuel row_index_B
      B_row_buffer B_col_buffer B_size2 input input_end out hsv hf
    exact ⟨_, c1⟩
  · intro fuel row_index_B val_A input input_end input_values out out_values hsv hf
    obtain ⟨res, c1, _⟩ := numeric_single_run fuel row_index_B val_A
      B_row_buffer B_col_buffer B_elements B_size2 input input_end input_values out
      out_values hsv hf
    exact ⟨_, c1⟩

/-- Witness for C12: a left row with four entries, calls of the four merges
on rows of the same matrix with the carried input `2, 4`, and one "advance
index front" step on a front of two cursors tied at column 1. -/
theorem merges_terminate_witness :
    DriverValidNumeric 0 4 [0, 1, 2, 3] ([2, 3, 1, 1] : List Int) [0, 1, 3, 5, 7]
      [1, 1, 3, 0, 2, 2, 5] ([5, 4, 1, 1, 1, 1, 1] : List Int) 6
      [0, 0, 0, 0, 0, 0, 0] ([0, 0, 0, 0, 0, 0, 0] : List Int)
      [0, 0, 0, 0, 0, 0, 0] ([0, 0, 0, 0, 0, 0, 0] : List Int) ∧
    ((∃ r, symbolic_chunk_loop [0, 1, 2, 3] [0, 1, 3, 5, 7] [1, 1, 3, 0, 2, 2, 5] 6 4 20
        20 0 0 [0, 0, 0, 0, 0, 0, 0] [0, 0, 0, 0, 0, 0, 0] = .ok r) ∧
      (∃ s, numeric_chunk_loop [0, 1, 2, 3] ([2, 3, 1, 1] : List Int) [0, 1, 3, 5, 7]
        [1, 1, 3, 0, 2, 2, 5] ([5, 4, 1, 1, 1, 1, 1] : List Int) 6 4 20 20 0
        { row_C_len := 0, row_C_vector_1 := [0, 0, 0, 0, 0, 0, 0],
          row_C_vector_1_values := ([0, 0, 0, 0, 0, 0, 0] : List Int),
          row_C_vector_2 := [0, 0, 0, 0, 0, 0, 0],
          row_C_vector_2_values := ([0, 0, 0, 0, 0, 0, 0] : List Int) } = .ok s)) ∧
    (∃ r, row_C_scan_symbolic_vector_N 20 3 [0, 1, 2] [0, 1, 3, 5, 7]
        [1, 1, 3, 0, 2, 2, 5] 6 [2, 4, 0] 2 [9, 9, 9, 9, 9, 9, 9] = .ok r) ∧
    (∃ r, row_C_scan_numeric_vector_N 20 3 [0, 1, 2] ([2, 3, 1] : List Int)
        [0, 1, 3, 5, 7] [1, 1, 3, 0, 2, 2, 5] ([5, 4, 1, 1, 1, 1, 1] : List Int) 6
        [2, 4, 0] 2 ([7, 8, 0] : List Int) [9, 9, 9, 9, 9, 9, 9]
        ([9, 9, 9, 9, 9, 9, 9] : List Int) = .ok r) ∧
    (∃ r, row_C_scan_symbolic_vector_1 20 1 [0, 1, 3, 5, 7]
        [1, 1, 3, 0, 2, 2, 5] 6 [2, 4, 0] 2 [9, 9, 9, 9] = .ok r) ∧
    (∃ r, row_C_scan_numeric_vector_1 20 1 (3 : Int)
        [0, 1, 3, 5, 7] [1, 1, 3, 0, 2, 2, 5] ([5, 4, 1, 1, 1, 1, 1] : List Int) 6
        [2, 4, 0] 2 ([7, 8, 0] : List Int) [9, 9, 9, 9] ([9, 9, 9, 9] : List Int)
        = .ok r) ∧
    ((∀ e ∈
        [({ buf := [1, 3], index_front := 1, index_front_start := 0, index_front_end := 2 } :
            FrontEntry),
          { buf := [1], index_front := 1, index_front_start := 0, index_front_end := 1 }],
        e.index_front ≠ 6 → e.index_front_start < e.index_front_end) ∧
      advance_front 6 1
          [{ buf := [1, 3], index_front := 1, index_front_start := 0, index_front_end := 2 },
           { buf := [1], index_front := 1, index_front_start := 0, index_front_end := 1 }]
        = .ok
          [{ buf := [1, 3], index_front := 3, index_front_start := 1, index_front_end := 2 },
           { buf := [1], index_front := 6, index_front_start := 1, index_front_end := 1 }] ∧
      (∀ e ∈
        [({ buf := [1, 3], index_front := 3, index_front_start := 1, index_front_end := 2 } :
            FrontEntry),
          { buf := [1], index_front := 6, index_front_start := 1, index_front_end := 1 }],
        e.index_front ≠ 6 → e.index_front_start < e.index_front_end) ∧
      unconsumed
          [{ buf := [1, 3], index_front := 3, index_front_start := 1, index_front_end := 2 },
           { buf := [1], index_front := 6, index_front_start := 1, index_front_end := 1 }]
        < unconsumed
          [{ buf := [1, 3], index_front := 1, index_front_start := 0, index_front_end := 2 },
           { buf := [1], index_front := 1, index_front_start := 0, index_front_end := 1 }]) :=
  (fun h => ⟨by decide, h.1 20 (by decide),
    h.2.1 20 3 [0, 1, 2] [2, 4, 0] 2 [9, 9, 9, 9, 9, 9, 9] (by decide) (by decide),
    h.2.2.1 20 3 [0, 1, 2] [2, 3, 1] [2, 4, 0] 2 [7, 8, 0]
      [9, 9, 9, 9, 9, 9, 9] [9, 9, 9, 9, 9, 9, 9] (by decide) (by decide),
    h.2.2.2.1 20 1 [2, 4, 0] 2 [9, 9, 9, 9] (by decide) (by decide),
    h.2.2.2.2.1 20 1 3 [2, 4, 0] 2 [7, 8, 0] [9, 9, 9, 9] [9, 9, 9, 9]
      (by decide) (by decide),
    by decide, by decide,
    h.2.2.2.2.2.2.1
      [{ buf := [1, 3], index_front := 1, index_front_start := 0, index_front_end := 2 },
       { buf := [1], index_front := 1, index_front_start := 0, index_front_end := 1 }]
      [{ buf := [1, 3], index_front := 3, index_front_start := 1, index_front_end := 2 },
       { buf := [1], index_front := 6, index_front_start := 1, index_front_end := 1 }]
      (by decide) (by decide) (by decide)⟩)
    (merges_terminate 0 4 [0, 1, 2, 3] ([2, 3, 1, 1] : List Int) [0, 1, 3, 5, 7]
      [1, 1, 3, 0, 2, 2, 5] ([5, 4, 1, 1, 1, 1, 1] : List Int) 6
      [0, 0, 0, 0, 0, 0, 0] [0, 0, 0, 0, 0, 0, 0] [0, 0, 0, 0, 0, 0, 0]
      [0, 0, 0, 0, 0, 0, 0] (by decide))

theorem symbolicInput_row_length (row_start_A row_end_A : Nat)
    (A_col_buffer B_row_buffer B_col_buffer : List Nat) (B_size2 : Nat) (v1 v2 : List Nat)
    (h : SymbolicInput row_start_A row_end_A A_col_buffer B_row_buffer B_col_buffer B_size2
      v1 v2) :
    ∀ i, row_start_A ≤ i → i < row_end_A →
      (csr_cols B_row_buffer B_col_buffer (A_col_buffer.getD i 0)).length < U32 := by
  intro i h1 h2
  obtain ⟨_, _, g3, g4⟩ := h.2.2.2.1 i h1 h2
  exact lt_of_le_of_lt (length_le_of_strictAsc B_size2 _ g3 g4) h.2.2.1

/-- C13: frame of the content pass. For every well-formed input, with `len`
the length the size pass returns for the same row and output arrays that have
room for `len` entries from `row_start_C` on, `row_C_scan_numeric_vector`
returns having advanced its output pointers by `len`; the two output arrays
keep their lengths; every cell of `C_col_buffer` and `C_elements` at a
position below `row_start_C` or at or above `row_start_C + len` keeps its
previous content; and the result does not depend on `row_end_C`. -/
theorem content_pass_frame [Zero R] [One R] [Add R] [Mul R]
    (fuel row_start_A row_end_A : Nat) (A_col_buffer : List Nat) (A_elements : List R)
    (B_row_buffer B_col_buffer : List Nat) (B_elements : List R) (B_size2 : Nat)
    (row_start_C row_end_C : Nat) (C_col_buffer : List Nat) (C_elements : List R)
    (row_C_vector_1 : List Nat) (row_C_vector_1_values : List R)
    (row_C_vector_2 : List Nat) (row_C_vector_2_values : List R)
    (hwf : NumericInput row_start_A row_end_A A_col_buffer A_elements B_row_buffer
      B_col_buffer B_elements B_size2 row_C_vector_1 row_C_vector_1_values
      row_C_vector_2 row_C_vector_2_values)
    (hfuel : selected_nnz row_start_A row_end_A A_col_buffer B_row_buffer B_col_buffer
      + (row_end_A - row_start_A) < fuel)
    (hC : row_start_C + symbolic_length fuel row_start_A row_end_A A_col_buffer B_row_buffer
      B_col_buffer B_size2 row_C_vector_1 row_C_vector_2 ≤ C_col_buffer.length)
    (hCv : row_start_C + symbolic_length fuel row_start_A row_end_A A_col_buffer B_row_buffer
      B_col_buffer B_size2 row_C_vector_1 row_C_vector_2 ≤ C_elements.length) :
    ∃ r len s1 s2,
      row_C_scan_numeric_vector fuel row_start_A row_end_A A_col_buffer A_elements
        B_row_buffer B_col_buffer B_elements B_size2 row_start_C row_end_C
        C_col_buffer C_elements row_C_vector_1 row_C_vector_1_values
        row_C_vector_2 row_C_vector_2_values = .ok r ∧
      row_C_scan_symbolic_vector fuel row_start_A row_end_A A_col_buffer
        B_row_buffer B_col_buffer B_size2 row_C_vector_1 row_C_vector_2
        = .ok (len, s1, s2) ∧
      r.written = len ∧
      r.C_col_buffer.length = C_col_buffer.length ∧
      r.C_elements.length = C_elements.length ∧
      (∀ i, i < row_start_C ∨ row_start_C + len ≤ i →
        r.C_col_buffer[i]? = C_col_buffer[i]? ∧ r.C_elements[i]? = C_elements[i]?) ∧
      ∀ row_end_C1,
        row_C_scan_numeric_vector fuel row_start_A row_end_A A_col_buffer A_elements
          B_row_buffer B_col_buffer B_elements B_size2 row_start_C row_end_C1
          C_col_buffer C_elements row_C_vector_1 row_C_vector_1_values
          row_C_vector_2 row_C_vector_2_values = .ok r := by
  obtain ⟨len, s1, s2, hsym, _⟩ := symbolic_driver_run fuel row_start_A row_end_A
    A_col_buffer B_row_buffer B_col_buffer B_size2 row_C_vector_1 row_C_vector_2
    (symbolicInput_driverValid _ _ _ _ _ _ _ _ hwf.1) hfuel
  have hsl : symbolic_length fuel row_start_A row_end_A A_col_buffer B_row_buffer
      B_col_buffer B_size2 row_C_vector_1 row_C_vector_2 = len := by
    simp only [symbolic_length, hsym]
  obtain ⟨r, xs, xv, g1, g2, g3, g4, g5, g6⟩ := numeric_driver_run fuel row_start_A
    row_end_A A_col_buffer A_elements B_row_buffer B_col_buffer B_elements B_size2
    row_start_C row_end_C C_col_buffer C_elements row_C_vector_1 row_C_vector_1_values
    row_C_vector_2 row_C_vector_2_values (numericInput_driverValid _ _ _ _ _ _ _ _ _ _ _ _ hwf)
    (symbolicInput_row_length _ _ _ _ _ _ _ _ hwf.1) hfuel hC hCv
  rw [hsl] at g2 hC hCv
  rw [g2] at g3 g4
  refine ⟨r, len, s1, s2, g1, hsym, g2, ?_, ?_, fun i hi => ⟨?_, ?_⟩, fun _ => g1⟩
  · rw [g5, length_written_at _ _ _ (by omega)]
  · rw [g6, length_written_at _ _ _ (by omega)]
  · rw [g5]
    exact getElem?_written_at _ _ _ (by omega) i (by omega)
  · rw [g6]
    exact getElem?_written_at _ _ _ (by omega) i (by omega)

/-- Witness for C13: the concrete scenario of the specification written at
offset 1 of output arrays of five cells. -/
theorem content_pass_frame_witness :
    NumericInput 0 2 [0, 2] ([2, 3] : List Int) [0, 1, 1, 3] [1, 1, 3] ([5, 4, 1] : List Int) 4
      [0, 0, 0] ([0, 0, 0] : List Int) [0, 0, 0] ([0, 0, 0] : List Int) ∧
    selected_nnz 0 2 [0, 2] [0, 1, 1, 3] [1, 1, 3] + (2 - 0) < 10 ∧
    1 + symbolic_length 10 0 2 [0, 2] [0, 1, 1, 3] [1, 1, 3] 4 [0, 0, 0] [0, 0, 0]
      ≤ [9, 9, 9, 9, 9].length ∧
    1 + symbolic_length 10 0 2 [0, 2] [0, 1, 1, 3] [1, 1, 3] 4 [0, 0, 0] [0, 0, 0]
      ≤ ([8, 8, 8, 8, 8] : List Int).length ∧
    ∃ r len s1 s2,
      row_C_scan_numeric_vector 10 0 2 [0, 2] ([2, 3] : List Int) [0, 1, 1, 3] [1, 1, 3]
        ([5, 4, 1] : List Int) 4 1 3 [9, 9, 9, 9, 9] ([8, 8, 8, 8, 8] : List Int)
        [0, 0, 0] ([0, 0, 0] : List Int) [0, 0, 0] ([0, 0, 0] : List Int) = .ok r ∧
      row_C_scan_symbolic_vector 10 0 2 [0, 2] [0, 1, 1, 3] [1, 1, 3] 4 [0, 0, 0] [0, 0, 0]
        = .ok (len, s1, s2) ∧
      r.written = len ∧
      r.C_col_buffer.length = [9, 9, 9, 9, 9].length ∧
      r.C_elements.length = ([8, 8, 8, 8, 8] : List Int).length ∧
      (∀ i, i < 1 ∨ 1 + len ≤ i →
        r.C_col_buffer[i]? = [9, 9, 9, 9, 9][i]? ∧
        r.C_elements[i]? = ([8, 8, 8, 8, 8] : List Int)[i]?) ∧
      ∀ row_end_C1,
        row_C_scan_numeric_vector 10 0 2 [0, 2] ([2, 3] : List Int) [0, 1, 1, 3] [1, 1, 3]
          ([5, 4, 1] : List Int) 4 1 row_end_C1 [9, 9, 9, 9, 9] ([8, 8, 8, 8, 8] : List Int)
          [0, 0, 0] ([0, 0, 0] : List Int) [0, 0, 0] ([0, 0, 0] : List Int) = .ok r :=
  ⟨by decide, by decide, by decide, by decide,
    content_pass_frame 10 0 2 [0, 2] [2, 3] [0, 1, 1, 3] [1, 1, 3] [5, 4, 1] 4 1 3
      [9, 9, 9, 9, 9] [8, 8, 8, 8, 8] [0, 0, 0] [0, 0, 0] [0, 0, 0] [0, 0, 0]
      (by decide) (by decide) (by decide) (by decide)⟩

theorem drop_pattern_out (pattern out : List Nat) :
    (pattern ++ out.drop pattern.length).drop pattern.length = out.drop pattern.length := by
  rw [List.drop_left' rfl]

/-- C14: the symbolic merge of `IndexNum` rows is a sorted set union. For
every `IndexNum` and every valid call whose `IndexNum` selected rows of B and
whose carried input are strictly ascending with all columns below `B_size2`,
`row_C_scan_symbolic_vector_N` returns a length `len` and an output buffer
whose first `len` cells are strictly ascending and hold exactly the columns
that occur in one of the `IndexNum + 1` streams; the cells from `len` on are
left as they were. -/
theorem symbolic_front_merge_is_union
    (fuel IndexNum : Nat) (row_indices_B : List Nat)
    (B_row_buffer B_col_buffer : List Nat) (B_size2 : Nat)
    (input : List Nat) (input_end : Nat) (out : List Nat)
    (hv : FrontValid IndexNum row_indices_B B_row_buffer B_col_buffer B_size2 input
      input_end out)
    (hs : FrontSorted IndexNum row_indices_B B_row_buffer B_col_buffer B_size2 input
      input_end)
    (hB : B_size2 < U32)
    (hfuel : selected_nnz 0 IndexNum row_indices_B B_row_buffer B_col_buffer + input_end
      < fuel) :
    ∃ len o,
      row_C_scan_symbolic_vector_N fuel IndexNum row_indices_B B_row_buffer B_col_buffer
        B_size2 input input_end out = .ok (len, o) ∧
      (o.take len).length = len ∧
      StrictAsc (o.take len) ∧
      (∀ c, c ∈ o.take len ↔
        (∃ i, i < IndexNum ∧
          c ∈ csr_cols B_row_buffer B_col_buffer (row_indices_B.getD i 0))
        ∨ c ∈ input.take input_end) ∧
      o.length = out.length ∧ o.drop len = out.drop len := by
  obtain ⟨pattern, c1, c2, c3⟩ := symbolic_front_call fuel IndexNum row_indices_B
    B_row_buffer B_col_buffer B_size2 input input_end out hv hfuel
  obtain ⟨p1, p2, _, p4⟩ := c3 hB hs
  have hcap := hv.2.2.2
  rw [u32_cast_of_lt _ p1] at c1
  have ht := take_pattern_out pattern out pattern.length rfl
  refine ⟨_, _, c1, ?_, ?_, ?_, length_pattern_out _ _ (by omega),
    drop_pattern_out _ _⟩
  · rw [ht]
  · rw [ht]; exact p2
  · rw [ht]; exact p4

/-- Witness for C14: three rows `1`, `1 3`, `0 2` and the carried input `2 4`. -/
theorem symbolic_front_merge_is_union_witness :
    FrontValid 3 [0, 1, 2] [0, 1, 3, 5, 7] [1, 1, 3, 0, 2, 2, 5] 6 [2, 4, 0] 2
      [9, 9, 9, 9, 9, 9, 9] ∧
    FrontSorted 3 [0, 1, 2] [0, 1, 3, 5, 7] [1, 1, 3, 0, 2, 2, 5] 6 [2, 4, 0] 2 ∧
    6 < U32 ∧
    selected_nnz 0 3 [0, 1, 2] [0, 1, 3, 5, 7] [1, 1, 3, 0, 2, 2, 5] + 2 < 20 ∧
    ∃ len o,
      row_C_scan_symbolic_vector_N 20 3 [0, 1, 2] [0, 1, 3, 5, 7] [1, 1, 3, 0, 2, 2, 5]
        6 [2, 4, 0] 2 [9, 9, 9, 9, 9, 9, 9] = .ok (len, o) ∧
      (o.take len).length = len ∧
      StrictAsc (o.take len) ∧
      (∀ c, c ∈ o.take len ↔
        (∃ i, i < 3 ∧
          c ∈ csr_cols [0, 1, 3, 5, 7] [1, 1, 3, 0, 2, 2, 5] (([0, 1, 2] : List Nat).getD i 0))
        ∨ c ∈ ([2, 4, 0] : List Nat).take 2) ∧
      o.length = [9, 9, 9, 9, 9, 9, 9].length ∧
      o.drop len = ([9, 9, 9, 9, 9, 9, 9] : List Nat).drop len :=
  ⟨by decide, by decide, by decide, by decide,
    symbolic_front_merge_is_union 20 3 [0, 1, 2] [0, 1, 3, 5, 7] [1, 1, 3, 0, 2, 2, 5]
      6 [2, 4, 0] 2 [9, 9, 9, 9, 9, 9, 9] (by decide) (by decide) (by decide) (by decide)⟩

/-- C15: the symbolic single-row merge is the two-way sorted set union. For
every valid call whose selected row of B and whose carried input are strictly
ascending with all columns below `B_size2`, `row_C_scan_symbolic_vector_1`
returns a length `len` and an output buffer whose first `len` cells are
strictly ascending (so a column present in both streams occurs once) and hold
exactly the columns that occur in the row or in the carried input; the cells
from `len` on are left as they were. -/
theorem symbolic_single_merge_is_union
    (fuel row_index_B : Nat)
    (B_row_buffer B_col_buffer : List Nat) (B_size2 : Nat)
    (input : List Nat) (input_end : Nat) (out : List Nat)
    (hv : SingleValid row_index_B B_row_buffer B_col_buffer B_size2 input input_end out)
    (hs : SingleSorted row_index_B B_row_buffer B_col_buffer B_size2 input input_end)
    (hB : B_size2 < U32)
    (hfuel : input_end < fuel) :
    ∃ len o,
      row_C_scan_symbolic_vector_1 fuel row_index_B B_row_buffer B_col_buffer
        B_size2 input input_end out = .ok (len, o) ∧
      (o.take len).length = len ∧
      StrictAsc (o.take len) ∧
      (∀ c, c ∈ o.take len ↔
        c ∈ csr_cols B_row_buffer B_col_buffer row_index_B ∨ c ∈ input.take input_end) ∧
      o.length = out.length ∧ o.drop len = out.drop len := by
  obtain ⟨pattern, c1, c2, _, c3⟩ := symbolic_single_call fuel row_index_B
    B_row_buffer B_col_buffer B_size2 input input_end out hv hfuel
  obtain ⟨p1, p2, _, p4⟩ := c3 hB hs
  have hcap := hv.2.2.2
  rw [u32_cast_of_lt _ p1] at c1
  have ht := take_pattern_out pattern out pattern.length rfl
  refine ⟨_, _, c1, ?_, ?_, ?_, length_pattern_out _ _ (by omega),
    drop_pattern_out _ _⟩
  · rw [ht]
  · rw [ht]; exact p2
  · rw [ht]; exact p4

/-- Witness for C15: the row `1 3` merged into the carried input `1 2 4`,
which shares column 1 with the row. -/
theorem symbolic_single_merge_is_union_witness :
    SingleValid 1 [0, 1, 3, 5, 7] [1, 1, 3, 0, 2, 2, 5] 6 [1, 2, 4, 0] 3 [9, 9, 9, 9, 9, 9] ∧
    SingleSorted 1 [0, 1, 3, 5, 7] [1, 1, 3, 0, 2, 2, 5] 6 [1, 2, 4, 0] 3 ∧
    6 < U32 ∧ 3 < 20 ∧
    ∃ len o,
      row_C_scan_symbolic_vector_1 20 1 [0, 1, 3, 5, 7] [1, 1, 3, 0, 2, 2, 5]
        6 [1, 2, 4, 0] 3 [9, 9, 9, 9, 9, 9] = .ok (len, o) ∧
      (o.take len).length = len ∧
      StrictAsc (o.take len) ∧
      (∀ c, c ∈ o.take len ↔
        c ∈ csr_cols [0, 1, 3, 5, 7] [1, 1, 3, 0, 2, 2, 5] 1
          ∨ c ∈ ([1, 2, 4, 0] : List Nat).take 3) ∧
      o.length = [9, 9, 9, 9, 9, 9].length ∧
      o.drop len = ([9, 9, 9, 9, 9, 9] : List Nat).drop len :=
  ⟨by decide, by decide, by decide, by decide,
    symbolic_single_merge_is_union 20 1 [0, 1, 3, 5, 7] [1, 1, 3, 0, 2, 2, 5]
      6 [1, 2, 4, 0] 3 [9, 9, 9, 9, 9, 9] (by decide) (by decide) (by decide) (by decide)⟩

theorem vals_scale_row [Mul R] (a : R) (row : Row R) :
    vals (scale_row a row) = row.map (fun e => a * e.2) := by
  simp [vals, scale_row]

theorem carried_row_zero (input : List Nat) (input_values : List R) :
    carried_row input input_values 0 = [] := by
  simp [carried_row, slice]

theorem numeric_single_empty [Zero R] [Add R] [Mul R]
    (fuel row_index_B : Nat) (val_A : R)
    (B_row_buffer B_col_buffer : List Nat) (B_elements : List R) (B_size2 : Nat)
    (input : List Nat) (input_values : List R) (out : List Nat) (out_values : List R)
    (hv : SingleValidNumeric row_index_B B_row_buffer B_col_buffer B_elements B_size2
      input 0 input_values out out_values)
    (hlen : (csr_cols B_row_buffer B_col_buffer row_index_B).length < U32)
    (hfuel : 0 < fuel) :
    row_C_scan_numeric_vector_1 fuel row_index_B val_A B_row_buffer B_col_buffer
      B_elements B_size2 input 0 input_values out out_values
      = .ok ((csr_cols B_row_buffer B_col_buffer row_index_B).length,
          csr_cols B_row_buffer B_col_buffer row_index_B
            ++ out.drop (csr_cols B_row_buffer B_col_buffer row_index_B).length,
          (csr_row B_row_buffer B_col_buffer B_elements row_index_B).map
              (fun e => val_A * e.2)
            ++ out_values.drop (csr_cols B_row_buffer B_col_buffer row_index_B).length) := by
  obtain ⟨⟨hr, hlt, hin, hcap⟩, h4, hinv, hcapv⟩ := hv
  rw [← h4] at hr
  have hcr := cols_csr_row B_row_buffer B_col_buffer B_elements row_index_B hr
  have hlr := length_csr_row B_row_buffer B_col_buffer B_elements row_index_B hr
  have hrun := row_C_scan_numeric_vector_1_run fuel row_index_B val_A B_row_buffer
    B_col_buffer B_elements B_size2 input 0 input_values out out_values
    (scale_row val_A (csr_row B_row_buffer B_col_buffer B_elements row_index_B))
    (by rw [carried_row_zero, merge_row_nil]) hr
    (by rw [hcr]; exact hlt) hin hinv hfuel
    (by rw [length_scale_row, hlr]; omega) (by rw [length_scale_row, hlr]; omega)
  rw [length_scale_row, hlr, u32_cast_of_lt _ hlen, cols_scale_row, hcr, vals_scale_row]
    at hrun
  exact hrun

theorem symbolic_single_empty
    (fuel row_index_B : Nat)
    (B_row_buffer B_col_buffer : List Nat) (B_size2 : Nat)
    (input : List Nat) (out : List Nat)
    (hv : SingleValid row_index_B B_row_buffer B_col_buffer B_size2 input 0 out)
    (hlen : (csr_cols B_row_buffer B_col_buffer row_index_B).length < U32)
    (hfuel : 0 < fuel) :
    row_C_scan_symbolic_vector_1 fuel row_index_B B_row_buffer B_col_buffer
      B_size2 input 0 out
      = .ok ((csr_cols B_row_buffer B_col_buffer row_index_B).length,
          csr_cols B_row_buffer B_col_buffer row_index_B
            ++ out.drop (csr_cols B_row_buffer B_col_buffer row_index_B).length) :=
  row_C_scan_numeric_vector_1_sim _ _ _ _ _ _ _ _ _ _ _ _ _
    (numeric_single_empty fuel row_index_B (0 : Int) B_row_buffer B_col_buffer
      (zeros B_col_buffer) B_size2 input (zeros input) out (zeros out)
      (singleValid_zeros _ _ _ _ _ _ _ hv) hlen hfuel)

theorem readAt_of_getElem? {α : Type} (xs : List α) (i : Nat) (v : α) (h : xs[i]? = some v) :
    readAt xs i = .ok v := by
  simp only [readAt, h]

theorem numeric_chunk_loop_single [Zero R] [One R] [Add R] [Mul R]
    (fuel row_start_A row_end_A row_index_B : Nat) (val_A : R)
    (A_col_buffer : List Nat) (A_elements : List R)
    (B_row_buffer B_col_buffer : List Nat) (B_elements : List R) (B_size2 : Nat)
    (v1 : List Nat) (v1v : List R) (v2 : List Nat) (v2v : List R)
    (h1 : row_end_A = row_start_A + 1)
    (ha : A_col_buffer[row_start_A]? = some row_index_B)
    (hav : A_elements[row_start_A]? = some val_A)
    (hv : SingleValidNumeric row_index_B B_row_buffer B_col_buffer B_elements B_size2
      v1 0 v1v v2 v2v)
    (hlen : (csr_cols B_row_buffer B_col_buffer row_index_B).length < U32)
    (hfuel : 2 ≤ fuel) :
    numeric_chunk_loop A_col_buffer A_elements B_row_buffer B_col_buffer B_elements
      B_size2 row_end_A fuel fuel row_start_A
      { row_C_len := 0, row_C_vector_1 := v1, row_C_vector_1_values := v1v,
        row_C_vector_2 := v2, row_C_vector_2_values := v2v }
      = .ok { row_C_len := (csr_cols B_row_buffer B_col_buffer row_index_B).length,
              row_C_vector_1 := csr_cols B_row_buffer B_col_buffer row_index_B
                ++ v2.drop (csr_cols B_row_buffer B_col_buffer row_index_B).length,
              row_C_vector_1_values :=
                (csr_row B_row_buffer B_col_buffer B_elements row_index_B).map
                    (fun e => val_A * e.2)
                  ++ v2v.drop (csr_cols B_row_buffer B_col_buffer row_index_B).length,
              row_C_vector_2 := v1, row_C_vector_2_values := v1v } := by
  obtain ⟨k, rfl⟩ : ∃ k, fuel = k + 2 := ⟨fuel - 2, by omega⟩
  have hcall := numeric_single_empty (k + 2) row_index_B val_A B_row_buffer B_col_buffer
    B_elements B_size2 v1 v1v v2 v2v hv hlen (by omega)
  simp only [numeric_chunk_loop]
  rw [if_pos (by omega), if_neg (by omega), readAt_of_getElem? _ _ _ ha,
    readAt_of_getElem? _ _ _ hav]
  simp only [ok_bind]
  rw [hcall]
  simp only [ok_bind]
  rw [if_neg (by omega)]

/-- C16: merging with an empty front is the identity. For every readable
row `row_index_B` of B whose columns are below `B_size2` (sortedness is not
needed) and whose nonzero count `n` is an `unsigned int`:
`row_C_scan_symbolic_vector_1` called with an empty carried input writes
exactly the row's column sequence and returns `n`;
`row_C_scan_numeric_vector_1` called with an empty carried input writes the
same columns with the values `val_A * B_elements[j]`; and for every left row
whose single entry is `(row_index_B, val_A)` the length-one shortcut of the
drivers gives what their general path would give: the size pass returns `n`,
as its loop does, and the content pass leaves in the output arrays what its
loop followed by "copy to output" leaves there. -/
theorem empty_front_merge_is_identity [Zero R] [One R] [Add R] [Mul R]
    (fuel row_index_B : Nat) (val_A : R)
    (B_row_buffer B_col_buffer : List Nat) (B_elements : List R) (B_size2 : Nat)
    (input : List Nat) (input_values : List R) (out : List Nat) (out_values : List R)
    (hv : SingleValidNumeric row_index_B B_row_buffer B_col_buffer B_elements B_size2
      input 0 input_values out out_values)
    (hlen : (csr_cols B_row_buffer B_col_buffer row_index_B).length < U32)
    (hfuel : 0 < fuel) :
    row_C_scan_symbolic_vector_1 fuel row_index_B B_row_buffer B_col_buffer
      B_size2 input 0 out
      = .ok ((csr_cols B_row_buffer B_col_buffer row_index_B).length,
          csr_cols B_row_buffer B_col_buffer row_index_B
            ++ out.drop (csr_cols B_row_buffer B_col_buffer row_index_B).length) ∧
    row_C_scan_numeric_vector_1 fuel row_index_B val_A B_row_buffer B_col_buffer
      B_elements B_size2 input 0 input_values out out_values
      = .ok ((csr_cols B_row_buffer B_col_buffer row_index_B).length,
          csr_cols B_row_buffer B_col_buffer row_index_B
            ++ out.drop (csr_cols B_row_buffer B_col_buffer row_index_B).length,
          (csr_row B_row_buffer B_col_buffer B_elements row_index_B).map
              (fun e => val_A * e.2)
            ++ out_values.drop (csr_cols B_row_buffer B_col_buffer row_index_B).length) ∧
    (∀ (fuel1 row_start_A row_end_A : Nat) (A_col_buffer : List Nat) (A_elements : List R)
        (row_start_C row_end_C : Nat) (C_col_buffer : List Nat) (C_elements : List R)
        (v1 : List Nat) (v1v : List R) (v2 : List Nat) (v2v : List R),
      row_end_A = row_start_A + 1 → row_end_A < U32 →
      A_col_buffer[row_start_A]? = some row_index_B →
      A_elements[row_start_A]? = some val_A →
      row_start_C + (csr_cols B_row_buffer B_col_buffer row_index_B).length
        ≤ C_col_buffer.length →
      row_start_C + (csr_cols B_row_buffer B_col_buffer row_index_B).length
        ≤ C_elements.length →
      2 ≤ fuel1 →
      row_C_scan_symbolic_vector fuel1 row_start_A row_end_A A_col_buffer
        B_row_buffer B_col_buffer B_size2 v1 v2
        = .ok ((csr_cols B_row_buffer B_col_buffer row_index_B).length, v1, v2) ∧
      row_C_scan_numeric_vector fuel1 row_start_A row_end_A A_col_buffer A_elements
        B_row_buffer B_col_buffer B_elements B_size2 row_start_C row_end_C
        C_col_buffer C_elements v1 v1v v2 v2v
        = .ok { C_col_buffer := written_at C_col_buffer row_start_C
                  (csr_cols B_row_buffer B_col_buffer row_index_B),
                C_elements := written_at C_elements row_start_C
                  ((csr_row B_row_buffer B_col_buffer B_elements row_index_B).map
                    (fun e => val_A * e.2)),
                written := (csr_cols B_row_buffer B_col_buffer row_index_B).length,
                row_C_vector_1 := v1, row_C_vector_1_values := v1v,
                row_C_vector_2 := v2, row_C_vector_2_values := v2v } ∧
      ((csr_cols B_row_buffer B_col_buffer row_index_B).length ≤ v2.length →
        ∃ t1 t2, symbolic_chunk_loop A_col_buffer B_row_buffer B_col_buffer B_size2
          row_end_A fuel1 fuel1 row_start_A 0 v1 v2
          = .ok ((csr_cols B_row_buffer B_col_buffer row_index_B).length, t1, t2)) ∧
      ((csr_cols B_row_buffer B_col_buffer row_index_B).length ≤ v2.length →
        (csr_cols B_row_buffer B_col_buffer row_index_B).length ≤ v2v.length →
        ∃ s, numeric_chunk_loop A_col_buffer A_elements B_row_buffer B_col_buffer
            B_elements B_size2 row_end_A fuel1 fuel1 row_start_A
            { row_C_len := 0, row_C_vector_1 := v1, row_C_vector_1_values := v1v,
              row_C_vector_2 := v2, row_C_vector_2_values := v2v } = .ok s ∧
          copy_to_output s.row_C_vector_1 s.row_C_vector_1_values s.row_C_len 0
            row_start_C C_col_buffer C_elements
            = .ok (written_at C_col_buffer row_start_C
                    (csr_cols B_row_buffer B_col_buffer row_index_B),
                  written_at C_elements row_start_C
                    ((csr_row B_row_buffer B_col_buffer B_elements row_index_B).map
                      (fun e => val_A * e.2)),
                  row_start_C + (csr_cols B_row_buffer B_col_buffer row_index_B).length))) := by
  refine ⟨symbolic_single_empty fuel row_index_B B_row_buffer B_col_buffer B_size2 input out
    hv.1 hlen hfuel, numeric_single_empty fuel row_index_B val_A B_row_buffer B_col_buffer
    B_elements B_size2 input input_values out out_values hv hlen hfuel, ?_⟩
  intro fuel1 row_start_A row_end_A A_col_buffer A_elements row_start_C row_end_C
    C_col_buffer C_elements v1 v1v v2 v2v h1 hu ha hav hC hCv hf1
  obtain ⟨⟨hr, hlt, _, _⟩, h4, _, _⟩ := hv
  have hr2 := hr
  rw [← h4] at hr2
  have ha1 : row_start_A < A_col_buffer.length := (List.getElem?_eq_some.1 ha).1
  have hav1 : row_start_A < A_elements.length := (List.getElem?_eq_some.1 hav).1
  have ha2 : A_col_buffer.getD row_start_A 0 = row_index_B := by
    rw [List.getD_eq_getElem?_getD, ha]; rfl
  have hav2 : A_elements.getD row_start_A 0 = val_A := by
    rw [List.getD_eq_getElem?_getD, hav]; rfl
  have hcr := cols_csr_row B_row_buffer B_col_buffer B_elements row_index_B hr2
  have hlr := length_csr_row B_row_buffer B_col_buffer B_elements row_index_B hr2
  have hlc := length_csr_cols B_row_buffer B_col_buffer _ row_index_B hr
  refine ⟨?_, ?_, fun hc2 => ?_, fun hc2 hc2v => ?_⟩
  · rw [row_C_scan_symbolic_vector_one fuel1 row_start_A row_end_A A_col_buffer
      B_row_buffer B_col_buffer B_size2 v1 v2 _ h1 hu ha1 (by rw [ha2]; exact hr), ha2,
      u32_sub_eq _ _ hr.2.2.1 (by omega), hlc]
  · rw [row_C_scan_numeric_vector_one fuel1 row_start_A row_end_A A_col_buffer A_elements
      B_row_buffer B_col_buffer B_elements B_size2 row_start_C row_end_C C_col_buffer
      C_elements v1 v1v v2 v2v h1 hu ha1 hav1 (by rw [ha2]; exact hr2)
      (by rw [ha2, hlr]; exact hC) (by rw [ha2, hlr]; exact hCv), ha2, hav2, cols_scale_row,
      hcr, vals_scale_row, hlr]
  · have hz : (zeros A_col_buffer)[row_start_A]? = some 0 := by
      unfold zeros
      rw [List.getElem?_map, ha]
      rfl
    have hloop := numeric_chunk_loop_single fuel1 row_start_A row_end_A row_index_B (0 : Int)
      A_col_buffer (zeros A_col_buffer) B_row_buffer B_col_buffer (zeros B_col_buffer) B_size2
      v1 (zeros v1) v2 (zeros v2) h1 ha hz
      ⟨⟨hr, hlt, Nat.zero_le _, by omega⟩, length_zeros _, Nat.zero_le _,
        by rw [length_zeros]; omega⟩ hlen hf1
    exact ⟨_, _, numeric_chunk_loop_sim _ _ _ _ _ _ _ _ _ _ _ _ hloop⟩
  · have hloop := numeric_chunk_loop_single fuel1 row_start_A row_end_A row_index_B val_A
      A_col_buffer A_elements B_row_buffer B_col_buffer B_elements B_size2
      v1 v1v v2 v2v h1 ha hav
      ⟨⟨hr, hlt, Nat.zero_le _, by omega⟩, h4, Nat.zero_le _, by omega⟩ hlen hf1
    refine ⟨_, hloop, ?_⟩
    simp only
    have hsl : (scale_row val_A (csr_row B_row_buffer B_col_buffer B_elements
        row_index_B)).length = (csr_cols B_row_buffer B_col_buffer row_index_B).length := by
      rw [length_scale_row, hlr]
    have hcar := carried_cursor
      (cols (scale_row val_A (csr_row B_row_buffer B_col_buffer B_elements row_index_B))
        ++ v2.drop (csr_cols B_row_buffer B_col_buffer row_index_B).length)
      (vals (scale_row val_A (csr_row B_row_buffer B_col_buffer B_elements row_index_B))
        ++ v2v.drop (csr_cols B_row_buffer B_col_buffer row_index_B).length)
      (scale_row val_A (csr_row B_row_buffer B_col_buffer B_elements row_index_B)).length
      (by simp only [List.length_append, length_cols]; omega)
      (by simp only [List.length_append, length_vals]; omega)
    rw [carried_row_append] at hcar
    have hcopy := copy_to_output_spec _ _
      (scale_row val_A (csr_row B_row_buffer B_col_buffer B_elements row_index_B)) 0
      row_start_C C_col_buffer C_elements (C_col_buffer.take row_start_C)
      (C_col_buffer.drop row_start_C) (C_elements.take row_start_C)
      (C_elements.drop row_start_C) hcar.1
      (List.take_append_drop _ _).symm (List.take_append_drop _ _).symm
      (by rw [List.length_take]; omega) (by rw [List.length_take]; omega)
      (by rw [List.length_drop, hsl]; omega) (by rw [List.length_drop, hsl]; omega)
    rw [hsl, cols_scale_row, hcr, vals_scale_row] at hcopy
    rw [hcopy]
    simp only [written_at, List.drop_drop, List.length_map, hlr]

/-- Witness for C16: row 1 of B, `(1, 4), (3, 1)`, with weight 3, and the
left row whose single entry is `(1, 3)`, written at offset 1 of the output. -/
theorem empty_front_merge_is_identity_witness :
    SingleValidNumeric 1 [0, 1, 3, 5, 7] [1, 1, 3, 0, 2, 2, 5]
      ([5, 4, 1, 1, 1, 1, 1] : List Int) 6 [7] 0 ([7] : List Int) [9, 9, 9]
      ([9, 9, 9] : List Int) ∧
    (csr_cols [0, 1, 3, 5, 7] [1, 1, 3, 0, 2, 2, 5] 1).length < U32 ∧ 0 < 5 ∧
    row_C_scan_symbolic_vector_1 5 1 [0, 1, 3, 5, 7] [1, 1, 3, 0, 2, 2, 5] 6 [7] 0 [9, 9, 9]
      = .ok ((csr_cols [0, 1, 3, 5, 7] [1, 1, 3, 0, 2, 2, 5] 1).length,
          csr_cols [0, 1, 3, 5, 7] [1, 1, 3, 0, 2, 2, 5] 1
            ++ ([9, 9, 9] : List Nat).drop
              (csr_cols [0, 1, 3, 5, 7] [1, 1, 3, 0, 2, 2, 5] 1).length) ∧
    row_C_scan_numeric_vector_1 5 1 (3 : Int) [0, 1, 3, 5, 7] [1, 1, 3, 0, 2, 2, 5]
      ([5, 4, 1, 1, 1, 1, 1] : List Int) 6 [7] 0 ([7] : List Int) [9, 9, 9]
      ([9, 9, 9] : List Int)
      = .ok ((csr_cols [0, 1, 3, 5, 7] [1, 1, 3, 0, 2, 2, 5] 1).length,
          csr_cols [0, 1, 3, 5, 7] [1, 1, 3, 0, 2, 2, 5] 1
            ++ ([9, 9, 9] : List Nat).drop
              (csr_cols [0, 1, 3, 5, 7] [1, 1, 3, 0, 2, 2, 5] 1).length,
          (csr_row [0, 1, 3, 5, 7] [1, 1, 3, 0, 2, 2, 5]
              ([5, 4, 1, 1, 1, 1, 1] : List Int) 1).map (fun e => 3 * e.2)
            ++ ([9, 9, 9] : List Int).drop
              (csr_cols [0, 1, 3, 5, 7] [1, 1, 3, 0, 2, 2, 5] 1).length) ∧
    row_C_scan_symbolic_vector 5 0 1 [1] [0, 1, 3, 5, 7] [1, 1, 3, 0, 2, 2, 5] 6
      [0, 0] [0, 0]
      = .ok ((csr_cols [0, 1, 3, 5, 7] [1, 1, 3, 0, 2, 2, 5] 1).length, [0, 0], [0, 0]) ∧
    row_C_scan_numeric_vector 5 0 1 [1] ([3] : List Int) [0, 1, 3, 5, 7]
      [1, 1, 3, 0, 2, 2, 5] ([5, 4, 1, 1, 1, 1, 1] : List Int) 6 1 3
      [9, 9, 9, 9] ([8, 8, 8, 8] : List Int) [0, 0] ([0, 0] : List Int) [0, 0]
      ([0, 0] : List Int)
      = .ok { C_col_buffer := written_at [9, 9, 9, 9] 1
                (csr_cols [0, 1, 3, 5, 7] [1, 1, 3, 0, 2, 2, 5] 1),
              C_elements := written_at ([8, 8, 8, 8] : List Int) 1
                ((csr_row [0, 1, 3, 5, 7] [1, 1, 3, 0, 2, 2, 5]
                  ([5, 4, 1, 1, 1, 1, 1] : List Int) 1).map (fun e => 3 * e.2)),
              written := (csr_cols [0, 1, 3, 5, 7] [1, 1, 3, 0, 2, 2, 5] 1).length,
              row_C_vector_1 := [0, 0], row_C_vector_1_values := [0, 0],
              row_C_vector_2 := [0, 0], row_C_vector_2_values := [0, 0] } ∧
    (∃ t1 t2, symbolic_chunk_loop [1] [0, 1, 3, 5, 7] [1, 1, 3, 0, 2, 2, 5] 6 1 5 5 0 0
        [0, 0] [0, 0]
        = .ok ((csr_cols [0, 1, 3, 5, 7] [1, 1, 3, 0, 2, 2, 5] 1).length, t1, t2)) ∧
    (∃ s, numeric_chunk_loop [1] ([3] : List Int) [0, 1, 3, 5, 7] [1, 1, 3, 0, 2, 2, 5]
        ([5, 4, 1, 1, 1, 1, 1] : List Int) 6 1 5 5 0
        { row_C_len := 0, row_C_vector_1 := [0, 0],
          row_C_vector_1_values := ([0, 0] : List Int),
          row_C_vector_2 := [0, 0], row_C_vector_2_values := ([0, 0] : List Int) } = .ok s ∧
      copy_to_output s.row_C_vector_1 s.row_C_vector_1_values s.row_C_len 0 1
        [9, 9, 9, 9] ([8, 8, 8, 8] : List Int)
        = .ok (written_at [9, 9, 9, 9] 1 (csr_cols [0, 1, 3, 5, 7] [1, 1, 3, 0, 2, 2, 5] 1),
              written_at ([8, 8, 8, 8] : List Int) 1
                ((csr_row [0, 1, 3, 5, 7] [1, 1, 3, 0, 2, 2, 5]
                  ([5, 4, 1, 1, 1, 1, 1] : List Int) 1).map (fun e => 3 * e.2)),
              1 + (csr_cols [0, 1, 3, 5, 7] [1, 1, 3, 0, 2, 2, 5] 1).length)) :=
  (fun h =>
    (fun g => ⟨by decide, by decide, by decide, h.1, h.2.1, g.1, g.2.1, g.2.2.1 (by decide),
      g.2.2.2 (by decide) (by decide)⟩)
      (h.2.2 5 0 1 [1] [3] 1 3 [9, 9, 9, 9] [8, 8, 8, 8] [0, 0] [0, 0] [0, 0] [0, 0]
        rfl (by decide) rfl rfl (by decide) (by decide) (by decide)))
    (empty_front_merge_is_identity 5 1 (3 : Int) [0, 1, 3, 5, 7] [1, 1, 3, 0, 2, 2, 5]
      [5, 4, 1, 1, 1, 1, 1] 6 [7] [7] [9, 9, 9] [9, 9, 9] (by decide) (by decide) (by decide))

/-- C17: the numeric merges have the control structure of the symbolic ones.
For every input on which `row_C_scan_numeric_vector_N` returns (nothing is
assumed about sortedness, values or weights), `row_C_scan_symbolic_vector_N`
on the same index arguments returns the same length and the same contents of
the output column buffer; likewise `row_C_scan_numeric_vector_1` and
`row_C_scan_symbolic_vector_1`. Hence two runs of a numeric merge on the same
index arguments with different values, weights and scalar types that both
return agree on the length and on the output column buffer. -/
theorem numeric_merges_follow_symbolic {S : Type} [Zero R] [One R] [Add R] [Mul R]
    [Zero S] [One S] [Add S] [Mul S]
    (fuel : Nat) (B_row_buffer B_col_buffer : List Nat) (B_size2 : Nat)
    (input : List Nat) (input_end : Nat) (out : List Nat) :
    (∀ (IndexNum : Nat) (row_indices_B : List Nat) (val_A B_elements input_values
        out_values : List R) (len : Nat) (o : List Nat) (ov : List R),
      row_C_scan_numeric_vector_N fuel IndexNum row_indices_B val_A B_row_buffer B_col_buffer
        B_elements B_size2 input input_end input_values out out_values = .ok (len, o, ov) →
      row_C_scan_symbolic_vector_N fuel IndexNum row_indices_B B_row_buffer B_col_buffer
        B_size2 input input_end out = .ok (len, o)) ∧
    (∀ (row_index_B : Nat) (val_A : R) (B_elements input_values out_values : List R)
        (len : Nat) (o : List Nat) (ov : List R),
      row_C_scan_numeric_vector_1 fuel row_index_B val_A B_row_buffer B_col_buffer
        B_elements B_size2 input input_end input_values out out_values = .ok (len, o, ov) →
      row_C_scan_symbolic_vector_1 fuel row_index_B B_row_buffer B_col_buffer
        B_size2 input input_end out = .ok (len, o)) ∧
    (∀ (IndexNum : Nat) (row_indices_B : List Nat)
        (val_A B_elements input_values out_values : List R)
        (val_A1 B_elements1 input_values1 out_values1 : List S)
        (len len1 : Nat) (o o1 : List Nat) (ov : List R) (ov1 : List S),
      row_C_scan_numeric_vector_N fuel IndexNum row_indices_B val_A B_row_buffer B_col_buffer
        B_elements B_size2 input input_end input_values out out_values = .ok (len, o, ov) →
      row_C_scan_numeric_vector_N fuel IndexNum row_indices_B val_A1 B_row_buffer B_col_buffer
        B_elements1 B_size2 input input_end input_values1 out out_values1
        = .ok (len1, o1, ov1) →
      len = len1 ∧ o = o1) ∧
    (∀ (row_index_B : Nat) (val_A : R) (B_elements input_values out_values : List R)
        (val_A1 : S) (B_elements1 input_values1 out_values1 : List S)
        (len len1 : Nat) (o o1 : List Nat) (ov : List R) (ov1 : List S),
      row_C_scan_numeric_vector_1 fuel row_index_B val_A B_row_buffer B_col_buffer
        B_elements B_size2 input input_end input_values out out_values = .ok (len, o, ov) →
      row_C_scan_numeric_vector_1 fuel row_index_B val_A1 B_row_buffer B_col_buffer
        B_elements1 B_size2 input input_end input_values1 out out_values1
        = .ok (len1, o1, ov1) →
      len = len1 ∧ o = o1) := by
  refine ⟨?_, ?_, ?_, ?_⟩
  · intro IndexNum row_indices_B val_A B_elements input_values out_values len o ov h
    exact row_C_scan_numeric_vector_N_sim _ _ _ _ _ _ _ _ _ _ _ _ _ _ h
  · intro row_index_B val_A B_elements input_values out_values len o ov h
    exact row_C_scan_numeric_vector_1_sim _ _ _ _ _ _ _ _ _ _ _ _ _ h
  · intro IndexNum row_indices_B val_A B_elements input_values out_values val_A1 B_elements1
      input_values1 out_values1 len len1 o o1 ov ov1 h h1
    have g := row_C_scan_numeric_vector_N_sim _ _ _ _ _ _ _ _ _ _ _ _ _ _ h
    have g1 := row_C_scan_numeric_vector_N_sim _ _ _ _ _ _ _ _ _ _ _ _ _ _ h1
    rw [g] at g1
    simp only [Except.ok.injEq, Prod.mk.injEq] at g1
    exact g1
  · intro row_index_B val_A B_elements input_values out_values val_A1 B_elements1
      input_values1 out_values1 len len1 o o1 ov ov1 h h1
    have g := row_C_scan_numeric_vector_1_sim _ _ _ _ _ _ _ _ _ _ _ _ _ h
    have g1 := row_C_scan_numeric_vector_1_sim _ _ _ _ _ _ _ _ _ _ _ _ _ h1
    rw [g] at g1
    simp only [Except.ok.injEq, Prod.mk.injEq] at g1
    exact g1

/-- Witness for C17: unsorted rows (row 1 of B is `3 1`), integer values in
one run and natural-number values in the other. -/
theorem numeric_merges_follow_symbolic_witness :
    (∃ len o ov,
      row_C_scan_numeric_vector_N 20 2 [0, 1] ([2, 3] : List Int) [0, 1, 3] [1, 3, 1]
        ([5, 4, 1] : List Int) 6 [2, 4, 0] 2 ([7, 8, 0] : List Int) [9, 9, 9, 9, 9]
        ([9, 9, 9, 9, 9] : List Int) = .ok (len, o, ov) ∧
      row_C_scan_symbolic_vector_N 20 2 [0, 1] [0, 1, 3] [1, 3, 1] 6 [2, 4, 0] 2
        [9, 9, 9, 9, 9] = .ok (len, o)) ∧
    (∃ len o ov,
      row_C_scan_numeric_vector_1 20 1 (3 : Int) [0, 1, 3] [1, 3, 1]
        ([5, 4, 1] : List Int) 6 [2, 4, 0] 2 ([7, 8, 0] : List Int) [9, 9, 9, 9, 9]
        ([9, 9, 9, 9, 9] : List Int) = .ok (len, o, ov) ∧
      row_C_scan_symbolic_vector_1 20 1 [0, 1, 3] [1, 3, 1] 6 [2, 4, 0] 2
        [9, 9, 9, 9, 9] = .ok (len, o)) ∧
    (∃ len len1 o o1 ov ov1,
      row_C_scan_numeric_vector_N 20 2 [0, 1] ([2, 3] : List Int) [0, 1, 3] [1, 3, 1]
        ([5, 4, 1] : List Int) 6 [2, 4, 0] 2 ([7, 8, 0] : List Int) [9, 9, 9, 9, 9]
        ([9, 9, 9, 9, 9] : List Int) = .ok (len, o, ov) ∧
      row_C_scan_numeric_vector_N 20 2 [0, 1] ([1, 1] : List Nat) [0, 1, 3] [1, 3, 1]
        ([0, 6, 2] : List Nat) 6 [2, 4, 0] 2 ([1, 0, 0] : List Nat) [9, 9, 9, 9, 9]
        ([3, 3, 3, 3, 3] : List Nat) = .ok (len1, o1, ov1) ∧
      len = len1 ∧ o = o1) :=
  (fun h => ⟨⟨5, [1, 2, 3, 1, 4], [10, 7, 12, 3, 8], by decide,
      h.1 2 [0, 1] [2, 3] [5, 4, 1] [7, 8, 0] [9, 9, 9, 9, 9] 5 [1, 2, 3, 1, 4]
        [10, 7, 12, 3, 8] (by decide)⟩,
    ⟨4, [2, 3, 1, 4, 9], [7, 12, 3, 8, 9], by decide,
      h.2.1 1 3 [5, 4, 1] [7, 8, 0] [9, 9, 9, 9, 9] 4 [2, 3, 1, 4, 9] [7, 12, 3, 8, 9]
        (by decide)⟩,
    ⟨5, 5, [1, 2, 3, 1, 4], [1, 2, 3, 1, 4], [10, 7, 12, 3, 8], [0, 1, 6, 2, 0],
      by decide, by decide,
      h.2.2.1 2 [0, 1] [2, 3] [5, 4, 1] [7, 8, 0] [9, 9, 9, 9, 9] [1, 1] [0, 6, 2]
        [1, 0, 0] [3, 3, 3, 3, 3] 5 5 [1, 2, 3, 1, 4] [1, 2, 3, 1, 4] [10, 7, 12, 3, 8]
        [0, 1, 6, 2, 0] (by decide) (by decide)⟩⟩)
    (@numeric_merges_follow_symbolic Int Nat _ _ _ _ _ _ _ _ 20 [0, 1, 3] [1, 3, 1] 6
      [2, 4, 0] 2 [9, 9, 9, 9, 9])

theorem symbolic_front_sorted
    (fuel IndexNum : Nat) (row_indices_B : List Nat)
    (B_row_buffer B_col_buffer : List Nat) (B_size2 : Nat)
    (input : List Nat) (input_end : Nat) (out : List Nat)
    (hv : FrontValid IndexNum row_indices_B B_row_buffer B_col_buffer B_size2 input
      input_end out)
    (hs : FrontSorted IndexNum row_indices_B B_row_buffer B_col_buffer B_size2 input
      input_end)
    (hB : B_size2 < U32)
    (hfuel : selected_nnz 0 IndexNum row_indices_B B_row_buffer B_col_buffer + input_end
      < fuel) :
    ∃ len o,
      row_C_scan_symbolic_vector_N fuel IndexNum row_indices_B B_row_buffer B_col_buffer
        B_size2 input input_end out = .ok (len, o) ∧
      len ≤ o.length ∧ StrictAsc (o.take len) ∧ ∀ c ∈ o.take len, c < B_size2 := by
  obtain ⟨pattern, c1, c2, c3⟩ := symbolic_front_call fuel IndexNum row_indices_B
    B_row_buffer B_col_buffer B_size2 input input_end out hv hfuel
  obtain ⟨p1, p2, p3, _⟩ := c3 hB hs
  rw [u32_cast_of_lt _ p1] at c1
  have ht := take_pattern_out pattern out pattern.length rfl
  refine ⟨_, _, c1, ?_, ?_, ?_⟩
  · simp only [List.length_append]; omega
  · rw [ht]; exact p2
  · rw [ht]; exact p3

theorem symbolic_single_sorted
    (fuel row_index_B : Nat)
    (B_row_buffer B_col_buffer : List Nat) (B_size2 : Nat)
    (input : List Nat) (input_end : Nat) (out : List Nat)
    (hv : SingleValid row_index_B B_row_buffer B_col_buffer B_size2 input input_end out)
    (hs : SingleSorted row_index_B B_row_buffer B_col_buffer B_size2 input input_end)
    (hB : B_size2 < U32)
    (hfuel : input_end < fuel) :
    ∃ len o,
      row_C_scan_symbolic_vector_1 fuel row_index_B B_row_buffer B_col_buffer
        B_size2 input input_end out = .ok (len, o) ∧
      len ≤ o.length ∧ StrictAsc (o.take len) ∧ ∀ c ∈ o.take len, c < B_size2 := by
  obtain ⟨pattern, c1, c2, _, c3⟩ := symbolic_single_call fuel row_index_B
    B_row_buffer B_col_buffer B_size2 input input_end out hv hfuel
  obtain ⟨p1, p2, p3, _⟩ := c3 hB hs
  rw [u32_cast_of_lt _ p1] at c1
  have ht := take_pattern_out pattern out pattern.length rfl
  refine ⟨_, _, c1, ?_, ?_, ?_⟩
  · simp only [List.length_append]; omega
  · rw [ht]; exact p2
  · rw [ht]; exact p3

/-- C19: the sentinel is never emitted and well-formedness is preserved. For
every valid call of `row_C_scan_symbolic_vector_N`,
`row_C_scan_symbolic_vector_1`, `row_C_scan_numeric_vector_N` and
`row_C_scan_numeric_vector_1` whose streams are strictly ascending with all
columns below `B_size2`, the call returns a length `len` within the output
buffer whose first `len` cells are strictly ascending and below `B_size2`:
exactly what the next call requires of its carried input. In the driver, for
every well-formed input of two or more entries, at every evaluation of the
loop condition the partial row `row_C_vector_1[0 .. row_C_len)` lies within
its buffer, is strictly ascending and holds only columns below `B_size2`. -/
theorem merge_output_well_formed [Zero R] [One R] [Add R] [Mul R]
    (fuel row_start_A row_end_A : Nat) (A_col_buffer : List Nat)
    (B_row_buffer B_col_buffer : List Nat) (B_size2 : Nat)
    (row_C_vector_1 row_C_vector_2 : List Nat)
    (hwf : SymbolicInput row_start_A row_end_A A_col_buffer B_row_buffer B_col_buffer B_size2
      row_C_vector_1 row_C_vector_2)
    (hfuel : selected_nnz row_start_A row_end_A A_col_buffer B_row_buffer B_col_buffer
      + (row_end_A - row_start_A) < fuel) :
    (row_start_A + 2 ≤ row_end_A →
      ∃ hist, symbolic_chunk_history A_col_buffer B_row_buffer B_col_buffer B_size2
          row_end_A fuel fuel row_start_A 0 row_C_vector_1 row_C_vector_2 = .ok hist ∧
        ∀ st ∈ hist, st.row_C_len ≤ st.row_C_vector_1.length ∧
          StrictAsc (st.row_C_vector_1.take st.row_C_len) ∧
          ∀ c ∈ st.row_C_vector_1.take st.row_C_len, c < B_size2) ∧
    (∀ (fuel1 IndexNum : Nat) (row_indices_B input : List Nat) (input_end : Nat)
        (out : List Nat),
      FrontValid IndexNum row_indices_B B_row_buffer B_col_buffer B_size2 input input_end out →
      FrontSorted IndexNum row_indices_B B_row_buffer B_col_buffer B_size2 input input_end →
      selected_nnz 0 IndexNum row_indices_B B_row_buffer B_col_buffer + input_end < fuel1 →
      ∃ len o, row_C_scan_symbolic_vector_N fuel1 IndexNum row_indices_B B_row_buffer
          B_col_buffer B_size2 input input_end out = .ok (len, o) ∧
        len ≤ o.length ∧ StrictAsc (o.take len) ∧ ∀ c ∈ o.take len, c < B_size2) ∧
    (∀ (fuel1 row_index_B : Nat) (input : List Nat) (input_end : Nat) (out : List Nat),
      SingleValid row_index_B B_row_buffer B_col_buffer B_size2 input input_end out →
      SingleSorted row_index_B B_row_buffer B_col_buffer B_size2 input input_end →
      input_end < fuel1 →
      ∃ len o, row_C_scan_symbolic_vector_1 fuel1 row_index_B B_row_buffer
          B_col_buffer B_size2 input input_end out = .ok (len, o) ∧
        len ≤ o.length ∧ StrictAsc (o.take len) ∧ ∀ c ∈ o.take len, c < B_size2) ∧
    (∀ (fuel1 IndexNum : Nat) (row_indices_B : List Nat) (val_A B_elements : List R)
        (input : List Nat) (input_end : Nat) (input_values : List R)
        (out : List Nat) (out_values : List R),
      FrontValidNumeric IndexNum row_indices_B val_A B_row_buffer B_col_buffer B_elements
        B_size2 input input_end input_values out out_values →
      FrontSorted IndexNum row_indices_B B_row_buffer B_col_buffer B_size2 input input_end →
      selected_nnz 0 IndexNum row_indices_B B_row_buffer B_col_buffer + input_end < fuel1 →
      ∃ len o ov, row_C_scan_numeric_vector_N fuel1 IndexNum row_indices_B val_A B_row_buffer
          B_col_buffer B_elements B_size2 input input_end input_values out out_values
          = .ok (len, o, ov) ∧
        len ≤ o.length ∧ len ≤ ov.length ∧
        StrictAsc (o.take len) ∧ ∀ c ∈ o.take len, c < B_size2) ∧
    (∀ (fuel1 row_index_B : Nat) (val_A : R) (B_elements : List R)
        (input : List Nat) (input_end : Nat) (input_values : List R)
        (out : List Nat) (out_values : List R),
      SingleValidNumeric row_index_B B_row_buffer B_col_buffer B_elements B_size2
        input input_end input_values out out_values →
      SingleSorted row_index_B B_row_buffer B_col_buffer B_size2 input input_end →
      input_end < fuel1 →
      ∃ len o ov, row_C_scan_numeric_vector_1 fuel1 row_index_B val_A B_row_buffer
          B_col_buffer B_elements B_size2 input input_end input_values out out_values
          = .ok (len, o, ov) ∧
        len ≤ o.length ∧ len ≤ ov.length ∧
        StrictAsc (o.take len) ∧ ∀ c ∈ o.take len, c < B_size2) := by
  have hB : B_size2 < U32 := hwf.2.2.1
  refine ⟨fun h2 => ?_, ?_, ?_, ?_, ?_⟩
  · obtain ⟨hle, hu, _, hrows, hc1, hc2⟩ := hwf
    obtain ⟨hist, g1, g2, g3⟩ := symbolic_chunk_history_spec A_col_buffer B_row_buffer
      B_col_buffer B_size2 row_end_A fuel
      (selected_nnz row_start_A row_end_A A_col_buffer B_row_buffer B_col_buffer)
      (by omega) fuel row_start_A 0 row_C_vector_1 row_C_vector_2 hle
      (fun i h1 h2 => ⟨(hrows i h1 h2).1, (hrows i h1 h2).2.1, (hrows i h1 h2).2.2.2⟩)
      (by omega) (by omega) hc1 hc2
    refine ⟨hist, g1, fun st hst => ?_⟩
    obtain ⟨q1, q2, q3, q4, _⟩ := g2 st hst
    have hm := selected_nnz_mono row_start_A st.row_start_A row_end_A A_col_buffer
      B_row_buffer B_col_buffer q1 q2
    have hsorted := g3 hB (fun i h1 h2 => (hrows i h1 h2).2.2.1)
      (by simp [StrictAsc]) (by simp) st hst
    exact ⟨by omega, hsorted.1, hsorted.2⟩
  · intro fuel1 IndexNum row_indices_B input input_end out hv hs hf
    exact symbolic_front_sorted fuel1 IndexNum row_indices_B B_row_buffer B_col_buffer
      B_size2 input input_end out hv hs hB hf
  · intro fuel1 row_index_B input input_end out hv hs hf
    exact symbolic_single_sorted fuel1 row_index_B B_row_buffer B_col_buffer
      B_size2 input input_end out hv hs hB hf
  · intro fuel1 IndexNum row_indices_B val_A B_elements input input_end input_values out
      out_values hv hs hf
    obtain ⟨res, c1, c2⟩ := numeric_front_run fuel1 IndexNum row_indices_B val_A
      B_row_buffer B_col_buffer B_elements B_size2 input input_end input_values out
      out_values hv hf
    obtain ⟨len, o, d1, d2, d3, d4⟩ := symbolic_front_sorted fuel1 IndexNum row_indices_B
      B_row_buffer B_col_buffer B_size2 input input_end out hv.1 hs hB hf
    have hsim := row_C_scan_numeric_vector_N_sim _ _ _ _ _ _ _ _ _ _ _ _ _ _ c1
    rw [d1] at hsim
    simp only [Except.ok.injEq, Prod.mk.injEq] at hsim
    obtain ⟨e1, e2⟩ := hsim
    have hcl := u32_cast_le res.length
    have hcapv := hv.2.2.2.2
    refine ⟨_, _, _, c1, ?_, ?_, ?_, ?_⟩
    · rw [← e1, ← e2]; exact d2
    · simp only [List.length_append, length_vals, List.length_drop]; omega
    · rw [← e1, ← e2]; exact d3
    · rw [← e1, ← e2]; exact d4
  · intro fuel1 row_index_B val_A B_elements input input_end input_values out out_values
      hv hs hf
    obtain ⟨res, c1, c2⟩ := numeric_single_run fuel1 row_index_B val_A
      B_row_buffer B_col_buffer B_elements B_size2 input input_end input_values out
      out_values hv hf
    obtain ⟨len, o, d1, d2, d3, d4⟩ := symbolic_single_sorted fuel1 row_index_B
      B_row_buffer B_col_buffer B_size2 input input_end out hv.1 hs hB hf
    have hsim := row_C_scan_numeric_vector_1_sim _ _ _ _ _ _ _ _ _ _ _ _ _ c1
    rw [d1] at hsim
    simp only [Except.ok.injEq, Prod.mk.injEq] at hsim
    obtain ⟨e1, e2⟩ := hsim
    have hcl := u32_cast_le res.length
    have hcapv := hv.2.2.2
    refine ⟨_, _, _, c1, ?_, ?_, ?_, ?_⟩
    · rw [← e1, ← e2]; exact d2
    · simp only [List.length_append, length_vals, List.length_drop]; omega
    · rw [← e1, ← e2]; exact d3
    · rw [← e1, ← e2]; exact d4

/-- Witness for C19: a left row with four entries, and calls of the four
merges on rows of the same matrix with the carried input `2, 4`. -/
theorem merge_output_well_formed_witness :
    SymbolicInput 0 4 [0, 1, 2, 3] [0, 1, 3, 5, 7] [1, 1, 3, 0, 2, 2, 5] 6
      [0, 0, 0, 0, 0, 0, 0] [0, 0, 0, 0, 0, 0, 0] ∧
    selected_nnz 0 4 [0, 1, 2, 3] [0, 1, 3, 5, 7] [1, 1, 3, 0, 2, 2, 5] + (4 - 0) < 20 ∧
    (∃ hist, symbolic_chunk_history [0, 1, 2, 3] [0, 1, 3, 5, 7] [1, 1, 3, 0, 2, 2, 5] 6
          4 20 20 0 0 [0, 0, 0, 0, 0, 0, 0] [0, 0, 0, 0, 0, 0, 0] = .ok hist ∧
        ∀ st ∈ hist, st.row_C_len ≤ st.row_C_vector_1.length ∧
          StrictAsc (st.row_C_vector_1.take st.row_C_len) ∧
          ∀ c ∈ st.row_C_vector_1.take st.row_C_len, c < 6) ∧
    (∃ len o, row_C_scan_symbolic_vector_N 20 3 [0, 1, 2] [0, 1, 3, 5, 7]
        [1, 1, 3, 0, 2, 2, 5] 6 [2, 4, 0] 2 [9, 9, 9, 9, 9, 9, 9] = .ok (len, o) ∧
      len ≤ o.length ∧ StrictAsc (o.take len) ∧ ∀ c ∈ o.take len, c < 6) ∧
    (∃ len o, row_C_scan_symbolic_vector_1 20 1 [0, 1, 3, 5, 7]
        [1, 1, 3, 0, 2, 2, 5] 6 [2, 4, 0] 2 [9, 9, 9, 9] = .ok (len, o) ∧
      len ≤ o.length ∧ StrictAsc (o.take len) ∧ ∀ c ∈ o.take len, c < 6) ∧
    (∃ len o ov, row_C_scan_numeric_vector_N 20 3 [0, 1, 2] ([2, 3, 1] : List Int)
        [0, 1, 3, 5, 7] [1, 1, 3, 0, 2, 2, 5] ([5, 4, 1, 1, 1, 1, 1] : List Int) 6
        [2, 4, 0] 2 ([7, 8, 0] : List Int) [9, 9, 9, 9, 9, 9, 9]
        ([9, 9, 9, 9, 9, 9, 9] : List Int) = .ok (len, o, ov) ∧
      len ≤ o.length ∧ len ≤ ov.length ∧
      StrictAsc (o.take len) ∧ ∀ c ∈ o.take len, c < 6) ∧
    (∃ len o ov, row_C_scan_numeric_vector_1 20 1 (3 : Int)
        [0, 1, 3, 5, 7] [1, 1, 3, 0, 2, 2, 5] ([5, 4, 1, 1, 1, 1, 1] : List Int) 6
        [2, 4, 0] 2 ([7, 8, 0] : List Int) [9, 9, 9, 9] ([9, 9, 9, 9] : List Int)
        = .ok (len, o, ov) ∧
      len ≤ o.length ∧ len ≤ ov.length ∧
      StrictAsc (o.take len) ∧ ∀ c ∈ o.take len, c < 6) :=
  (fun h => ⟨by decide, by decide, h.1 (by decide),
    h.2.1 20 3 [0, 1, 2] [2, 4, 0] 2 [9, 9, 9, 9, 9, 9, 9] (by decide) (by decide)
      (by decide),
    h.2.2.1 20 1 [2, 4, 0] 2 [9, 9, 9, 9] (by decide) (by decide) (by decide),
    h.2.2.2.1 20 3 [0, 1, 2] [2, 3, 1] [5, 4, 1, 1, 1, 1, 1] [2, 4, 0] 2 [7, 8, 0]
      [9, 9, 9, 9, 9, 9, 9] [9, 9, 9, 9, 9, 9, 9] (by decide) (by decide) (by decide),
    h.2.2.2.2 20 1 3 [5, 4, 1, 1, 1, 1, 1] [2, 4, 0] 2 [7, 8, 0] [9, 9, 9, 9] [9, 9, 9, 9]
      (by decide) (by decide) (by decide)⟩)
    (@merge_output_well_formed Int _ _ _ _ 20 0 4 [0, 1, 2, 3] [0, 1, 3, 5, 7]
      [1, 1, 3, 0, 2, 2, 5] 6 [0, 0, 0, 0, 0, 0, 0] [0, 0, 0, 0, 0, 0, 0]
      (by decide) (by decide))

theorem bind_fuel {α β : Type} (x x1 : Except Fault α) (f f1 : α → Except Fault β) (r : β)
    (h : (x >>= f) = .ok r)
    (hx : ∀ a, x = .ok a → x1 = .ok a ∨ x1 = .error .outOfFuel)
    (hf : ∀ a, x = .ok a → f a = .ok r → f1 a = .ok r ∨ f1 a = .error .outOfFuel) :
    (x1 >>= f1) = .ok r ∨ (x1 >>= f1) = .error .outOfFuel := by
  obtain ⟨a, ha, hfa⟩ := bind_eq_ok h
  rcases hx a ha with h1 | h1
  · rw [h1]
    exact hf a ha hfa
  · rw [h1]
    exact Or.inr rfl

theorem symbolic_front_loop_fuel (B fuel : Nat) (front : List FrontEntry) (out : List Nat)
    (p : Nat) (r : List Nat × Nat) (h : symbolic_front_loop B fuel front out p = .ok r)
    (fuel1 : Nat) :
    symbolic_front_loop B fuel1 front out p = .ok r ∨
      symbolic_front_loop B fuel1 front out p = .error .outOfFuel := by
  induction fuel1 generalizing fuel front out p with
  | zero => exact Or.inr rfl
  | succ n ih =>
    cases fuel with
    | zero => simp [symbolic_front_loop] at h
    | succ m =>
      simp only [symbolic_front_loop] at h ⊢
      by_cases hm : min_index_in_front B front = B
      · rw [if_pos hm] at h ⊢
        exact Or.inl h
      · rw [if_neg hm] at h ⊢
        refine bind_fuel _ _ _ _ _ h (fun a ha => Or.inl ha) (fun a _ h => ?_)
        refine bind_fuel _ _ _ _ _ h (fun a ha => Or.inl ha) (fun a _ h => ?_)
        exact ih _ _ _ _ h

theorem row_C_scan_symbolic_vector_N_fuel (fuel IndexNum : Nat) (row_indices_B : List Nat)
    (B_row_buffer B_col_buffer : List Nat) (B_size2 : Nat)
    (input : List Nat) (input_end : Nat) (out : List Nat) (r : Nat × List Nat)
    (h : row_C_scan_symbolic_vector_N fuel IndexNum row_indices_B B_row_buffer B_col_buffer
      B_size2 input input_end out = .ok r) (fuel1 : Nat) :
    row_C_scan_symbolic_vector_N fuel1 IndexNum row_indices_B B_row_buffer B_col_buffer
        B_size2 input input_end out = .ok r ∨
      row_C_scan_symbolic_vector_N fuel1 IndexNum row_indices_B B_row_buffer B_col_buffer
        B_size2 input input_end out = .error .outOfFuel := by
  simp only [row_C_scan_symbolic_vector_N] at h ⊢
  refine bind_fuel _ _ _ _ _ h (fun a ha => Or.inl ha) (fun a _ h => ?_)
  refine bind_fuel _ _ _ _ _ h (fun a ha => Or.inl ha) (fun a _ h => ?_)
  refine bind_fuel _ _ _ _ _ h (fun a ha => symbolic_front_loop_fuel _ _ _ _ _ _ ha fuel1)
    (fun a _ h => Or.inl h)

theorem advance_input_fuel (input : List Nat) (input_end B col_B fuel : Nat) (st r : Scan1)
    (h : advance_input input input_end B col_B fuel st = .ok r) (fuel1 : Nat) :
    advance_input input input_end B col_B fuel1 st = .ok r ∨
      advance_input input input_end B col_B fuel1 st = .error .outOfFuel := by
  induction fuel1 generalizing fuel st with
  | zero => exact Or.inr rfl
  | succ n ih =>
    cases fuel with
    | zero => simp [advance_input] at h
    | succ m =>
      simp only [advance_input] at h ⊢
      by_cases hc : st.current_col_input < col_B
      · rw [if_pos hc] at h ⊢
        refine bind_fuel _ _ _ _ _ h (fun a ha => Or.inl ha) (fun a _ h => ?_)
        refine bind_fuel _ _ _ _ _ h (fun a ha => Or.inl ha) (fun a _ h => ?_)
        exact ih _ _ h
      · rw [if_neg hc] at h ⊢
        exact Or.inl h

theorem scan_row_B_fuel (B_col_buffer input : List Nat) (input_end B fuel n j : Nat)
    (st r : Scan1)
    (h : scan_row_B B_col_buffer input input_end B fuel n j st = .ok r) (fuel1 : Nat) :
    scan_row_B B_col_buffer input input_end B fuel1 n j st = .ok r ∨
      scan_row_B B_col_buffer input input_end B fuel1 n j st = .error .outOfFuel := by
  induction n generalizing j st with
  | zero =>
    simp only [scan_row_B] at h ⊢
    exact Or.inl h
  | succ n ih =>
    simp only [scan_row_B] at h ⊢
    refine bind_fuel _ _ _ _ _ h (fun a ha => Or.inl ha) (fun col_B _ h => ?_)
    refine bind_fuel _ _ _ _ _ h (fun a ha => advance_input_fuel _ _ _ _ _ _ _ ha fuel1)
      (fun st1 _ h => ?_)
    refine bind_fuel _ _ _ _ _ h (fun a ha => Or.inl ha) (fun out1 _ h => ?_)
    by_cases hc : st1.current_col_input = col_B
    · rw [if_pos hc] at h ⊢
      refine bind_fuel _ _ _ _ _ h (fun a ha => Or.inl ha) (fun c _ h => ?_)
      simp only [pure_eq_ok, ok_bind] at h ⊢
      exact ih _ _ h
    · rw [if_neg hc] at h ⊢
      simp only [pure_eq_ok, ok_bind] at h ⊢
      exact ih _ _ h

theorem row_C_scan_symbolic_vector_1_fuel (fuel row_index_B : Nat)
    (B_row_buffer B_col_buffer : List Nat) (B_size2 : Nat)
    (input : List Nat) (input_end : Nat) (out : List Nat) (r : Nat × List Nat)
    (h : row_C_scan_symbolic_vector_1 fuel row_index_B B_row_buffer B_col_buffer
      B_size2 input input_end out = .ok r) (fuel1 : Nat) :
    row_C_scan_symbolic_vector_1 fuel1 row_index_B B_row_buffer B_col_buffer
        B_size2 input input_end out = .ok r ∨
      row_C_scan_symbolic_vector_1 fuel1 row_index_B B_row_buffer B_col_buffer
        B_size2 input input_end out = .error .outOfFuel := by
  simp only [row_C_scan_symbolic_vector_1] at h ⊢
  refine bind_fuel _ _ _ _ _ h (fun a ha => Or.inl ha) (fun a _ h => ?_)
  refine bind_fuel _ _ _ _ _ h (fun a ha => Or.inl ha) (fun a _ h => ?_)
  refine bind_fuel _ _ _ _ _ h (fun a ha => Or.inl ha) (fun a _ h => ?_)
  refine bind_fuel _ _ _ _ _ h (fun a ha => scan_row_B_fuel _ _ _ _ _ _ _ _ _ ha fuel1)
    (fun a _ h => Or.inl h)

theorem symbolic_chunk_loop_fuel (A_col_buffer B_row_buffer B_col_buffer : List Nat)
    (B_size2 row_end_A fuel k row_start_A len : Nat) (v1 v2 : List Nat)
    (r : Nat × List Nat × List Nat)
    (h : symbolic_chunk_loop A_col_buffer B_row_buffer B_col_buffer B_size2 row_end_A fuel
      k row_start_A len v1 v2 = .ok r) (fuel1 k1 : Nat) :
    symbolic_chunk_loop A_col_buffer B_row_buffer B_col_buffer B_size2 row_end_A fuel1
        k1 row_start_A len v1 v2 = .ok r ∨
      symbolic_chunk_loop A_col_buffer B_row_buffer B_col_buffer B_size2 row_end_A fuel1
        k1 row_start_A len v1 v2 = .error .outOfFuel := by
  induction k1 generalizing k row_start_A len v1 v2 with
  | zero => exact Or.inr rfl
  | succ n ih =>
    cases k with
    | zero => simp [symbolic_chunk_loop] at h
    | succ m =>
      simp only [symbolic_chunk_loop] at h ⊢
      by_cases h0 : row_end_A > row_start_A
      · rw [if_pos h0] at h ⊢
        by_cases h3 : row_end_A - row_start_A > 3
        · rw [if_pos h3] at h ⊢
          refine bind_fuel _ _ _ _ _ h
            (fun a ha => row_C_scan_symbolic_vector_N_fuel _ _ _ _ _ _ _ _ _ _ ha fuel1)
            (fun a _ h => ?_)
          exact ih _ _ _ _ _ h
        · rw [if_neg h3] at h ⊢
          refine bind_fuel _ _ _ _ _ h (fun a ha => Or.inl ha) (fun a _ h => ?_)
          refine bind_fuel _ _ _ _ _ h
            (fun a ha => row_C_scan_symbolic_vector_1_fuel _ _ _ _ _ _ _ _ _ ha fuel1)
            (fun a _ h => ?_)
          exact ih _ _ _ _ _ h
      · rw [if_neg h0] at h ⊢
        exact Or.inl h

theorem row_C_scan_symbolic_vector_fuel (fuel row_start_A row_end_A : Nat)
    (A_col_buffer B_row_buffer B_col_buffer : List Nat) (B_size2 : Nat) (v1 v2 : List Nat)
    (r : Nat × List Nat × List Nat)
    (h : row_C_scan_symbolic_vector fuel row_start_A row_end_A A_col_buffer B_row_buffer
      B_col_buffer B_size2 v1 v2 = .ok r) (fuel1 : Nat) :
    row_C_scan_symbolic_vector fuel1 row_start_A row_end_A A_col_buffer B_row_buffer
        B_col_buffer B_size2 v1 v2 = .ok r ∨
      row_C_scan_symbolic_vector fuel1 row_start_A row_end_A A_col_buffer B_row_buffer
        B_col_buffer B_size2 v1 v2 = .error .outOfFuel := by
  simp only [row_C_scan_symbolic_vector] at h ⊢
  by_cases h0 : row_start_A = row_end_A
  · rw [if_pos h0] at h ⊢
    exact Or.inl h
  · rw [if_neg h0] at h ⊢
    by_cases h1 : u32_sub row_end_A row_start_A = 1
    · rw [if_pos h1] at h ⊢
      exact Or.inl h
    · rw [if_neg h1] at h ⊢
      exact symbolic_chunk_loop_fuel _ _ _ _ _ _ _ _ _ _ _ _ h fuel1 fuel1

theorem numeric_front_loop_fuel [Zero R] [Add R] [Mul R] (B fuel : Nat)
    (front : List (NumFrontEntry R)) (o r : NumOut R)
    (h : numeric_front_loop B fuel front o = .ok r) (fuel1 : Nat) :
    numeric_front_loop B fuel1 front o = .ok r ∨
      numeric_front_loop B fuel1 front o = .error .outOfFuel := by
  induction fuel1 generalizing fuel front o with
  | zero => exact Or.inr rfl
  | succ n ih =>
    cases fuel with
    | zero => simp [numeric_front_loop] at h
    | succ m =>
      simp only [numeric_front_loop] at h ⊢
      by_cases hm : min_index_in_front_numeric B front = B
      · rw [if_pos hm] at h ⊢
        exact Or.inl h
      · rw [if_neg hm] at h ⊢
        refine bind_fuel _ _ _ _ _ h (fun a ha => Or.inl ha) (fun a _ h => ?_)
        refine bind_fuel _ _ _ _ _ h (fun a ha => Or.inl ha) (fun a _ h => ?_)
        refine bind_fuel _ _ _ _ _ h (fun a ha => Or.inl ha) (fun a _ h => ?_)
        exact ih _ _ _ h

theorem row_C_scan_numeric_vector_N_fuel [Zero R] [One R] [Add R] [Mul R]
    (fuel IndexNum : Nat) (row_indices_B : List Nat) (val_A : List R)
    (B_row_buffer B_col_buffer : List Nat) (B_elements : List R) (B_size2 : Nat)
    (input : List Nat) (input_end : Nat) (input_values : List R)
    (out : List Nat) (out_values : List R) (r : Nat × List Nat × List R)
    (h : row_C_scan_numeric_vector_N fuel IndexNum row_indices_B val_A B_row_buffer
      B_col_buffer B_elements B_size2 input input_end input_values out out_values = .ok r)
    (fuel1 : Nat) :
    row_C_scan_numeric_vector_N fuel1 IndexNum row_indices_B val_A B_row_buffer
        B_col_buffer B_elements B_size2 input input_end input_values out out_values = .ok r ∨
      row_C_scan_numeric_vector_N fuel1 IndexNum row_indices_B val_A B_row_buffer
        B_col_buffer B_elements B_size2 input input_end input_values out out_values
        = .error .outOfFuel := by
  simp only [row_C_scan_numeric_vector_N] at h ⊢
  refine bind_fuel _ _ _ _ _ h (fun a ha => Or.inl ha) (fun a _ h => ?_)
  refine bind_fuel _ _ _ _ _ h (fun a ha => Or.inl ha) (fun a _ h => ?_)
  refine bind_fuel _ _ _ _ _ h (fun a ha => numeric_front_loop_fuel _ _ _ _ _ ha fuel1)
    (fun a _ h => Or.inl h)

theorem advance_input_numeric_fuel [Zero R] (input : List Nat) (input_values : List R)
    (input_end B col_B fuel : Nat) (st r : NumScan1 R)
    (h : advance_input_numeric input input_values input_end B col_B fuel st = .ok r)
    (fuel1 : Nat) :
    advance_input_numeric input input_values input_end B col_B fuel1 st = .ok r ∨
      advance_input_numeric input input_values input_end B col_B fuel1 st
        = .error .outOfFuel := by
  induction fuel1 generalizing fuel st with
  | zero => exact Or.inr rfl
  | succ n ih =>
    cases fuel with
    | zero => simp [advance_input_numeric] at h
    | succ m =>
      simp only [advance_input_numeric] at h ⊢
      by_cases hc : st.current_col_input < col_B
      · rw [if_pos hc] at h ⊢
        refine bind_fuel _ _ _ _ _ h (fun a ha => Or.inl ha) (fun a _ h => ?_)
        refine bind_fuel _ _ _ _ _ h (fun a ha => Or.inl ha) (fun a _ h => ?_)
        refine bind_fuel _ _ _ _ _ h (fun a ha => Or.inl ha) (fun a _ h => ?_)
        refine bind_fuel _ _ _ _ _ h (fun a ha => Or.inl ha) (fun a _ h => ?_)
        exact ih _ _ h
      · rw [if_neg hc] at h ⊢
        exact Or.inl h

theorem scan_row_B_numeric_fuel [Zero R] [Add R] [Mul R] (val_A : R)
    (B_col_buffer : List Nat) (B_elements : List R) (input : List Nat)
    (input_values : List R) (input_end B fuel n j : Nat) (st r : NumScan1 R)
    (h : scan_row_B_numeric val_A B_col_buffer B_elements input input_values input_end B
      fuel n j st = .ok r) (fuel1 : Nat) :
    scan_row_B_numeric val_A B_col_buffer B_elements input input_values input_end B
        fuel1 n j st = .ok r ∨
      scan_row_B_numeric val_A B_col_buffer B_elements input input_values input_end B
        fuel1 n j st = .error .outOfFuel := by
  induction n generalizing j st with
  | zero =>
    simp only [scan_row_B_numeric] at h ⊢
    exact Or.inl h
  | succ n ih =>
    simp only [scan_row_B_numeric] at h ⊢
    refine bind_fuel _ _ _ _ _ h (fun a ha => Or.inl ha) (fun col_B _ h => ?_)
    refine bind_fuel _ _ _ _ _ h
      (fun a ha => advance_input_numeric_fuel _ _ _ _ _ _ _ _ ha fuel1) (fun st1 _ h => ?_)
    refine bind_fuel _ _ _ _ _ h (fun a ha => Or.inl ha) (fun out1 _ h => ?_)
    by_cases hc : st1.current_col_input = col_B
    · rw [if_pos hc] at h ⊢
      refine bind_fuel _ _ _ _ _ h (fun a ha => Or.inl ha) (fun b _ h => ?_)
      refine bind_fuel _ _ _ _ _ h (fun a ha => Or.inl ha) (fun outv1 _ h => ?_)
      refine bind_fuel _ _ _ _ _ h (fun a ha => Or.inl ha) (fun c _ h => ?_)
      refine bind_fuel _ _ _ _ _ h (fun a ha => Or.inl ha) (fun x _ h => ?_)
      simp only [pure_eq_ok, ok_bind] at h ⊢
      exact ih _ _ h
    · rw [if_neg hc] at h ⊢
      refine bind_fuel _ _ _ _ _ h (fun a ha => Or.inl ha) (fun b _ h => ?_)
      refine bind_fuel _ _ _ _ _ h (fun a ha => Or.inl ha) (fun outv1 _ h => ?_)
      simp only [pure_eq_ok, ok_bind] at h ⊢
      exact ih _ _ h

theorem row_C_scan_numeric_vector_1_fuel [Zero R] [Add R] [Mul R]
    (fuel row_index_B : Nat) (val_A : R)
    (B_row_buffer B_col_buffer : List Nat) (B_elements : List R) (B_size2 : Nat)
    (input : List Nat) (input_end : Nat) (input_values : List R)
    (out : List Nat) (out_values : List R) (r : Nat × List Nat × List R)
    (h : row_C_scan_numeric_vector_1 fuel row_index_B val_A B_row_buffer B_col_buffer
      B_elements B_size2 input input_end input_values out out_values = .ok r)
    (fuel1 : Nat) :
    row_C_scan_numeric_vector_1 fuel1 row_index_B val_A B_row_buffer B_col_buffer
        B_elements B_size2 input input_end input_values out out_values = .ok r ∨
      row_C_scan_numeric_vector_1 fuel1 row_index_B val_A B_row_buffer B_col_buffer
        B_elements B_size2 input input_end input_values out out_values
        = .error .outOfFuel := by
  simp only [row_C_scan_numeric_vector_1] at h ⊢
  refine bind_fuel _ _ _ _ _ h (fun a ha => Or.inl ha) (fun a _ h => ?_)
  refine bind_fuel _ _ _ _ _ h (fun a ha => Or.inl ha) (fun a _ h => ?_)
  refine bind_fuel _ _ _ _ _ h (fun a ha => Or.inl ha) (fun a _ h => ?_)
  refine bind_fuel _ _ _ _ _ h (fun a ha => Or.inl ha) (fun a _ h => ?_)
  refine bind_fuel _ _ _ _ _ h
    (fun a ha => scan_row_B_numeric_fuel _ _ _ _ _ _ _ _ _ _ _ _ ha fuel1)
    (fun a _ h => Or.inl h)

theorem numeric_chunk_loop_fuel [Zero R] [One R] [Add R] [Mul R]
    (A_col_buffer : List Nat) (A_elements : List R)
    (B_row_buffer B_col_buffer : List Nat) (B_elements : List R)
    (B_size2 row_end_A fuel k row_start_A : Nat) (s r : Scratch R)
    (h : numeric_chunk_loop A_col_buffer A_elements B_row_buffer B_col_buffer B_elements
      B_size2 row_end_A fuel k row_start_A s = .ok r) (fuel1 k1 : Nat) :
    numeric_chunk_loop A_col_buffer A_elements B_row_buffer B_col_buffer B_elements
        B_size2 row_end_A fuel1 k1 row_start_A s = .ok r ∨
      numeric_chunk_loop A_col_buffer A_elements B_row_buffer B_col_buffer B_elements
        B_size2 row_end_A fuel1 k1 row_start_A s = .error .outOfFuel := by
  induction k1 generalizing k row_start_A s with
  | zero => exact Or.inr rfl
  | succ n ih =>
    cases k with
    | zero => simp [numeric_chunk_loop] at h
    | succ m =>
      simp only [numeric_chunk_loop] at h ⊢
      by_cases h0 : row_end_A > row_start_A
      · rw [if_pos h0] at h ⊢
        by_cases h3 : row_end_A - row_start_A > 3
        · rw [if_pos h3] at h ⊢
          refine bind_fuel _ _ _ _ _ h
            (fun a ha => row_C_scan_numeric_vector_N_fuel _ _ _ _ _ _ _ _ _ _ _ _ _ _ ha
              fuel1)
            (fun a _ h => ?_)
          exact ih _ _ _ h
        · rw [if_neg h3] at h ⊢
          refine bind_fuel _ _ _ _ _ h (fun a ha => Or.inl ha) (fun a _ h => ?_)
          refine bind_fuel _ _ _ _ _ h (fun a ha => Or.inl ha) (fun a _ h => ?_)
          refine bind_fuel _ _ _ _ _ h
            (fun a ha => row_C_scan_numeric_vector_1_fuel _ _ _ _ _ _ _ _ _ _ _ _ _ ha
              fuel1)
            (fun a _ h => ?_)
          exact ih _ _ _ h
      · rw [if_neg h0] at h ⊢
        exact Or.inl h

theorem row_C_scan_numeric_vector_fuel [Zero R] [One R] [Add R] [Mul R]
    (fuel row_start_A row_end_A : Nat) (A_col_buffer : List Nat) (A_elements : List R)
    (B_row_buffer B_col_buffer : List Nat) (B_elements : List R) (B_size2 : Nat)
    (row_start_C row_end_C : Nat) (C_col_buffer : List Nat) (C_elements : List R)
    (v1 : List Nat) (v1v : List R) (v2 : List Nat) (v2v : List R) (r : NumericResult R)
    (h : row_C_scan_numeric_vector fuel row_start_A row_end_A A_col_buffer A_elements
      B_row_buffer B_col_buffer B_elements B_size2 row_start_C row_end_C
      C_col_buffer C_elements v1 v1v v2 v2v = .ok r) (fuel1 : Nat) :
    row_C_scan_numeric_vector fuel1 row_start_A row_end_A A_col_buffer A_elements
        B_row_buffer B_col_buffer B_elements B_size2 row_start_C row_end_C
        C_col_buffer C_elements v1 v1v v2 v2v = .ok r ∨
      row_C_scan_numeric_vector fuel1 row_start_A row_end_A A_col_buffer A_elements
        B_row_buffer B_col_buffer B_elements B_size2 row_start_C row_end_C
        C_col_buffer C_elements v1 v1v v2 v2v = .error .outOfFuel := by
  simp only [row_C_scan_numeric_vector] at h ⊢
  by_cases h0 : row_start_A = row_end_A
  · rw [if_pos h0] at h ⊢
    exact Or.inl h
  · rw [if_neg h0] at h ⊢
    by_cases h1 : u32_sub row_end_A row_start_A = 1
    · rw [if_pos h1] at h ⊢
      exact Or.inl h
    · rw [if_neg h1] at h ⊢
      refine bind_fuel _ _ _ _ _ h
        (fun a ha => numeric_chunk_loop_fuel _ _ _ _ _ _ _ _ _ _ _ _ ha fuel1 fuel1)
        (fun a _ h => Or.inl h)

/-- C20: in-bounds access. For every input whose memory is valid (the left
row lies within its arrays; every column of the left row selects a readable
row of B, with ordered row pointers inside the column and value arrays, with
columns below `B_size2` and with a nonzero count that is an `unsigned int`;
each scratch buffer has room for the sum of the nonzero counts of the selected
rows; the output arrays have room for the length the size pass returns), with
nothing assumed about the order of the columns within a row:
`row_C_scan_symbolic_vector` and `row_C_scan_numeric_vector` return when given
enough fuel, so every checked read and write they make is in bounds; and for
no amount of fuel does either of them end in `Fault.outOfBounds`. -/
theorem accesses_in_bounds [Zero R] [One R] [Add R] [Mul R]
    (fuel row_start_A row_end_A : Nat) (A_col_buffer : List Nat) (A_elements : List R)
    (B_row_buffer B_col_buffer : List Nat) (B_elements : List R) (B_size2 : Nat)
    (row_start_C row_end_C : Nat) (C_col_buffer : List Nat) (C_elements : List R)
    (row_C_vector_1 : List Nat) (row_C_vector_1_values : List R)
    (row_C_vector_2 : List Nat) (row_C_vector_2_values : List R)
    (hv : DriverValidNumeric row_start_A row_end_A A_col_buffer A_elements B_row_buffer
      B_col_buffer B_elements B_size2 row_C_vector_1 row_C_vector_1_values
      row_C_vector_2 row_C_vector_2_values)
    (hrl : ∀ i, row_start_A ≤ i → i < row_end_A →
      (csr_cols B_row_buffer B_col_buffer (A_col_buffer.getD i 0)).length < U32)
    (hfuel : selected_nnz row_start_A row_end_A A_col_buffer B_row_buffer B_col_buffer
      + (row_end_A - row_start_A) < fuel)
    (hC : row_start_C + symbolic_length fuel row_start_A row_end_A A_col_buffer B_row_buffer
      B_col_buffer B_size2 row_C_vector_1 row_C_vector_2 ≤ C_col_buffer.length)
    (hCv : row_start_C + symbolic_length fuel row_start_A row_end_A A_col_buffer B_row_buffer
      B_col_buffer B_size2 row_C_vector_1 row_C_vector_2 ≤ C_elements.length) :
    (∃ r, row_C_scan_symbolic_vector fuel row_start_A row_end_A A_col_buffer
      B_row_buffer B_col_buffer B_size2 row_C_vector_1 row_C_vector_2 = .ok r) ∧
    (∃ r, row_C_scan_numeric_vector fuel row_start_A row_end_A A_col_buffer A_elements
      B_row_buffer B_col_buffer B_elements B_size2 row_start_C row_end_C
      C_col_buffer C_elements row_C_vector_1 row_C_vector_1_values
      row_C_vector_2 row_C_vector_2_values = .ok r) ∧
    (∀ fuel1, row_C_scan_symbolic_vector fuel1 row_start_A row_end_A A_col_buffer
      B_row_buffer B_col_buffer B_size2 row_C_vector_1 row_C_vector_2
      ≠ .error .outOfBounds) ∧
    (∀ fuel1, row_C_scan_numeric_vector fuel1 row_start_A row_end_A A_col_buffer A_elements
      B_row_buffer B_col_buffer B_elements B_size2 row_start_C row_end_C
      C_col_buffer C_elements row_C_vector_1 row_C_vector_1_values
      row_C_vector_2 row_C_vector_2_values ≠ .error .outOfBounds) := by
  obtain ⟨len, s1, s2, hsym, _⟩ := symbolic_driver_run fuel row_start_A row_end_A
    A_col_buffer B_row_buffer B_col_buffer B_size2 row_C_vector_1 row_C_vector_2 hv.1 hfuel
  obtain ⟨r, _, _, hnum, _⟩ := numeric_driver_run fuel row_start_A row_end_A A_col_buffer
    A_elements B_row_buffer B_col_buffer B_elements B_size2 row_start_C row_end_C
    C_col_buffer C_elements row_C_vector_1 row_C_vector_1_values row_C_vector_2
    row_C_vector_2_values hv hrl hfuel hC hCv
  refine ⟨⟨_, hsym⟩, ⟨_, hnum⟩, fun fuel1 => ?_, fun fuel1 => ?_⟩
  · rcases row_C_scan_symbolic_vector_fuel _ _ _ _ _ _ _ _ _ _ hsym fuel1 with h | h
    · rw [h]; exact fun hh => by cases hh
    · rw [h]; exact fun hh => by cases hh
  · rcases row_C_scan_numeric_vector_fuel _ _ _ _ _ _ _ _ _ _ _ _ _ _ _ _ _ _ hnum fuel1
      with h | h
    · rw [h]; exact fun hh => by cases hh
    · rw [h]; exact fun hh => by cases hh

/-- Witness for C20: a left row with four entries selecting the rows `1` and
`3 1` (not sorted) twice each, with scratch buffers of exactly six cells. -/
theorem accesses_in_bounds_witness :
    DriverValidNumeric 0 4 [0, 1, 0, 1] ([2, 3, 1, 1] : List Int) [0, 1, 3]
      [1, 3, 1] ([5, 4, 1] : List Int) 6
      [0, 0, 0, 0, 0, 0] ([0, 0, 0, 0, 0, 0] : List Int)
      [0, 0, 0, 0, 0, 0] ([0, 0, 0, 0, 0, 0] : List Int) ∧
    (∀ i, 0 ≤ i → i < 4 →
      (csr_cols [0, 1, 3] [1, 3, 1] (([0, 1, 0, 1] : List Nat).getD i 0)).length < U32) ∧
    selected_nnz 0 4 [0, 1, 0, 1] [0, 1, 3] [1, 3, 1] + (4 - 0) < 20 ∧
    1 + symbolic_length 20 0 4 [0, 1, 0, 1] [0, 1, 3] [1, 3, 1] 6
      [0, 0, 0, 0, 0, 0] [0, 0, 0, 0, 0, 0] ≤ [9, 9, 9, 9, 9, 9, 9, 9].length ∧
    1 + symbolic_length 20 0 4 [0, 1, 0, 1] [0, 1, 3] [1, 3, 1] 6
      [0, 0, 0, 0, 0, 0] [0, 0, 0, 0, 0, 0]
      ≤ ([9, 9, 9, 9, 9, 9, 9, 9] : List Int).length ∧
    (∃ r, row_C_scan_symbolic_vector 20 0 4 [0, 1, 0, 1] [0, 1, 3] [1, 3, 1] 6
      [0, 0, 0, 0, 0, 0] [0, 0, 0, 0, 0, 0] = .ok r) ∧
    (∃ r, row_C_scan_numeric_vector 20 0 4 [0, 1, 0, 1] ([2, 3, 1, 1] : List Int)
      [0, 1, 3] [1, 3, 1] ([5, 4, 1] : List Int) 6 1 7
      [9, 9, 9, 9, 9, 9, 9, 9] ([9, 9, 9, 9, 9, 9, 9, 9] : List Int)
      [0, 0, 0, 0, 0, 0] ([0, 0, 0, 0, 0, 0] : List Int)
      [0, 0, 0, 0, 0, 0] ([0, 0, 0, 0, 0, 0] : List Int) = .ok r) ∧
    (∀ fuel1, row_C_scan_symbolic_vector fuel1 0 4 [0, 1, 0, 1] [0, 1, 3] [1, 3, 1] 6
      [0, 0, 0, 0, 0, 0] [0, 0, 0, 0, 0, 0] ≠ .error .outOfBounds) ∧
    (∀ fuel1, row_C_scan_numeric_vector fuel1 0 4 [0, 1, 0, 1] ([2, 3, 1, 1] : List Int)
      [0, 1, 3] [1, 3, 1] ([5, 4, 1] : List Int) 6 1 7
      [9, 9, 9, 9, 9, 9, 9, 9] ([9, 9, 9, 9, 9, 9, 9, 9] : List Int)
      [0, 0, 0, 0, 0, 0] ([0, 0, 0, 0, 0, 0] : List Int)
      [0, 0, 0, 0, 0, 0] ([0, 0, 0, 0, 0, 0] : List Int) ≠ .error .outOfBounds) :=
  ⟨by decide, by decide, by decide, by decide, by decide,
    accesses_in_bounds 20 0 4 [0, 1, 0, 1] [2, 3, 1, 1] [0, 1, 3] [1, 3, 1] [5, 4, 1] 6 1 7
      [9, 9, 9, 9, 9, 9, 9, 9] [9, 9, 9, 9, 9, 9, 9, 9]
      [0, 0, 0, 0, 0, 0] [0, 0, 0, 0, 0, 0] [0, 0, 0, 0, 0, 0] [0, 0, 0, 0, 0, 0]
      (by decide) (by decide) (by decide) (by decide) (by decide)⟩

/-- C21: precondition violations are not detected. Four concrete calls on
valid memory with every column below `B_size2 = 4`, in which the selected row
of B is `1 1` (a duplicate) or `3 1` (out of order): both
`row_C_scan_symbolic_vector_N` and `row_C_scan_symbolic_vector_1` return
normally, and the column sequence they wrote is the row as it stands, which is
not strictly increasing. -/
theorem violations_pass_silently :
    (FrontValid 1 [0] [0, 2] [1, 1] 4 [] 0 [9, 9] ∧
      ¬ StrictAsc (csr_cols [0, 2] [1, 1] 0) ∧
      row_C_scan_symbolic_vector_N 10 1 [0] [0, 2] [1, 1] 4 [] 0 [9, 9] = .ok (2, [1, 1]) ∧
      ¬ StrictAsc (([1, 1] : List Nat).take 2)) ∧
    (FrontValid 1 [0] [0, 2] [3, 1] 4 [] 0 [9, 9] ∧
      ¬ StrictAsc (csr_cols [0, 2] [3, 1] 0) ∧
      row_C_scan_symbolic_vector_N 10 1 [0] [0, 2] [3, 1] 4 [] 0 [9, 9] = .ok (2, [3, 1]) ∧
      ¬ StrictAsc (([3, 1] : List Nat).take 2)) ∧
    (SingleValid 0 [0, 2] [1, 1] 4 [] 0 [9, 9] ∧
      ¬ StrictAsc (csr_cols [0, 2] [1, 1] 0) ∧
      row_C_scan_symbolic_vector_1 10 0 [0, 2] [1, 1] 4 [] 0 [9, 9] = .ok (2, [1, 1]) ∧
      ¬ StrictAsc (([1, 1] : List Nat).take 2)) ∧
    (SingleValid 0 [0, 2] [3, 1] 4 [] 0 [9, 9] ∧
      ¬ StrictAsc (csr_cols [0, 2] [3, 1] 0) ∧
      row_C_scan_symbolic_vector_1 10 0 [0, 2] [3, 1] 4 [] 0 [9, 9] = .ok (2, [3, 1]) ∧
      ¬ StrictAsc (([3, 1] : List Nat).take 2)) := by
  decide

/-- C22: operator naming in the code generator. `evaluate_str` returns a name
for each of the eleven operator types it has a case for (unary minus, assign,
in-place add, in-place sub, add, sub, mult, element-prod, div, element-div,
access), and these eleven names are pairwise distinct; none of them is a name
`evaluate` returns for any type; `evaluate` itself returns `-` for unary minus
and sub, `*` for mult and element-prod, and `/` for div and element-div; and
for every other type `evaluate_str` gives exactly what `evaluate` gives, so it
throws `generator_not_supported_exception` exactly when `evaluate` does. -/
theorem evaluate_str_names (Other : Type) :
    ((overridden_types Other).map evaluate_str).Nodup ∧
    (∀ t ∈ overridden_types Other, ∃ s, evaluate_str t = .ok s) ∧
    (∀ t ∈ overridden_types Other, ∀ (u : operation_node_type Other) (s : String),
      evaluate u = .ok s → evaluate_str t ≠ .ok s) ∧
    (evaluate (.OPERATION_UNARY_MINUS_TYPE : operation_node_type Other) = .ok "-" ∧
      evaluate (.OPERATION_BINARY_SUB_TYPE : operation_node_type Other) = .ok "-" ∧
      evaluate (.OPERATION_BINARY_MULT_TYPE : operation_node_type Other) = .ok "*" ∧
      evaluate (.OPERATION_BINARY_ELEMENT_PROD_TYPE : operation_node_type Other) = .ok "*" ∧
      evaluate (.OPERATION_BINARY_DIV_TYPE : operation_node_type Other) = .ok "/" ∧
      evaluate (.OPERATION_BINARY_ELEMENT_DIV_TYPE : operation_node_type Other) = .ok "/") ∧
    (∀ t : operation_node_type Other, t ∉ overridden_types Other →
      evaluate_str t = evaluate t) ∧
    (∀ t : operation_node_type Other, t ∉ overridden_types Other →
      ∀ e, evaluate_str t = .error e ↔ evaluate t = .error e) := by
  have h5 : ∀ t : operation_node_type Other, t ∉ overridden_types Other →
      evaluate_str t = evaluate t := by
    intro t ht
    cases t <;> first | rfl | (exact absurd (by simp [overridden_types]) ht)
  refine ⟨?_, ?_, ?_, ⟨rfl, rfl, rfl, rfl, rfl, rfl⟩, h5, fun t ht e => by rw [h5 t ht]⟩
  · simp only [overridden_types, List.map_cons, List.map_nil, evaluate_str]
    decide
  · intro t ht
    simp only [overridden_types, List.mem_cons, List.mem_singleton, List.not_mem_nil,
      or_false] at ht
    rcases ht with rfl | rfl | rfl | rfl | rfl | rfl | rfl | rfl | rfl | rfl | rfl <;>
      exact ⟨_, rfl⟩
  · intro t ht u s hu hts
    simp only [overridden_types, List.mem_cons, List.mem_singleton, List.not_mem_nil,
      or_false] at ht
    rcases ht with rfl | rfl | rfl | rfl | rfl | rfl | rfl | rfl | rfl | rfl | rfl <;>
      (simp only [evaluate_str, Except.ok.injEq] at hts
       subst hts
       cases u <;> simp [evaluate] at hu)

theorem readAt_eq_ok {α : Type} (xs : List α) (i : Nat) (v : α) (h : readAt xs i = .ok v) :
    xs[i]? = some v := by
  unfold readAt at h
  cases hx : xs[i]? with
  | none => rw [hx] at h; cases h
  | some w => rw [hx] at h; cases h; rfl

theorem load_index_loaded (buf : List Nat) (p p_end B v : Nat)
    (h : load_index buf p p_end B = .ok v) :
    CursorLoaded B { buf := buf, index_front := v, index_front_start := p,
                     index_front_end := p_end } := by
  unfold load_index at h
  unfold CursorLoaded
  by_cases hp : p < p_end
  · rw [if_pos hp] at h
    simp only [if_pos hp]
    exact readAt_eq_ok _ _ _ h
  · rw [if_neg hp] at h
    simp only [if_neg hp]
    cases h
    rfl

theorem load_front_inv (B : Nat) (front front1 : List FrontEntry)
    (h : load_front B front = .ok front1) :
    front_streams front1 = front_streams front ∧
    (∀ e ∈ front1, CursorLoaded B e) ∧
    ((∀ e ∈ front, FrontBelow B e) → ∀ e ∈ front1, FrontBelow B e) := by
  induction front generalizing front1 with
  | nil =>
    simp only [load_front] at h
    cases h
    exact ⟨rfl, fun e he => (by cases he), fun _ e he => (by cases he)⟩
  | cons e0 es ih =>
    simp only [load_front] at h
    obtain ⟨v, h1, h⟩ := bind_eq_ok h
    obtain ⟨es1, h2, h⟩ := bind_eq_ok h
    cases h
    obtain ⟨i1, i2, i3⟩ := ih _ h2
    refine ⟨?_, ?_, ?_⟩
    · simp only [front_streams, List.map_cons] at i1 ⊢
      rw [i1]
    · intro e he
      rcases List.mem_cons.1 he with rfl | he
      · exact load_index_loaded _ _ _ _ _ h1
      · exact i2 e he
    · intro hb e he
      rcases List.mem_cons.1 he with rfl | he
      · exact hb e0 (List.mem_cons_self _ _)
      · exact i3 (fun x hx => hb x (List.mem_cons_of_mem _ hx)) e he

theorem advance_front_inv (B m : Nat) (front front1 : List FrontEntry)
    (h : advance_front B m front = .ok front1) :
    front_streams front1 = front_streams front ∧
    ((∀ e ∈ front, CursorLoaded B e) → ∀ e ∈ front1, CursorLoaded B e) ∧
    ((∀ e ∈ front, FrontBelow B e) → ∀ e ∈ front1, FrontBelow B e) := by
  induction front generalizing front1 with
  | nil =>
    simp only [advance_front] at h
    cases h
    exact ⟨rfl, fun _ e he => (by cases he), fun _ e he => (by cases he)⟩
  | cons e0 es ih =>
    simp only [advance_front] at h
    by_cases he0 : e0.index_front = m
    · rw [if_pos he0] at h
      obtain ⟨v, h1, h⟩ := bind_eq_ok h
      obtain ⟨es1, h2, h⟩ := bind_eq_ok h
      cases h
      obtain ⟨i1, i2, i3⟩ := ih _ h2
      refine ⟨?_, ?_, ?_⟩
      · simp only [front_streams, List.map_cons] at i1 ⊢
        rw [i1]
      · intro hc e he
        rcases List.mem_cons.1 he with rfl | he
        · exact load_index_loaded _ _ _ _ _ h1
        · exact i2 (fun x hx => hc x (List.mem_cons_of_mem _ hx)) e he
      · intro hb e he
        rcases List.mem_cons.1 he with rfl | he
        · intro p hp1 hp2
          exact hb e0 (List.mem_cons_self _ _) p (by simp only at hp1; omega) hp2
        · exact i3 (fun x hx => hb x (List.mem_cons_of_mem _ hx)) e he
    · rw [if_neg he0] at h
      obtain ⟨es1, h2, h⟩ := bind_eq_ok h
      cases h
      obtain ⟨i1, i2, i3⟩ := ih _ h2
      refine ⟨?_, ?_, ?_⟩
      · simp only [front_streams, List.map_cons] at i1 ⊢
        rw [i1]
      · intro hc e he
        rcases List.mem_cons.1 he with rfl | he
        · exact hc _ (List.mem_cons_self _ _)
        · exact i2 (fun x hx => hc x (List.mem_cons_of_mem _ hx)) e he
      · intro hb e he
        rcases List.mem_cons.1 he with rfl | he
        · exact hb _ (List.mem_cons_self _ _)
        · exact i3 (fun x hx => hb x (List.mem_cons_of_mem _ hx)) e he

theorem symbolic_front_history_inv (B fuel : Nat) (front : List FrontEntry) (out : List Nat)
    (p : Nat) (hist : List (List FrontEntry))
    (h : symbolic_front_history B fuel front out p = .ok hist)
    (hc : ∀ e ∈ front, CursorLoaded B e) :
    ∀ f ∈ hist, front_streams f = front_streams front ∧
      (∀ e ∈ f, CursorLoaded B e) ∧
      ((∀ e ∈ front, FrontBelow B e) → ∀ e ∈ f, FrontBelow B e) := by
  induction fuel generalizing front out p hist with
  | zero => simp [symbolic_front_history] at h
  | succ n ih =>
    simp only [symbolic_front_history] at h
    by_cases hm : min_index_in_front B front = B
    · rw [if_pos hm] at h
      cases h
      intro f hf
      rcases List.mem_singleton.1 hf with rfl
      exact ⟨rfl, hc, fun hb => hb⟩
    · rw [if_neg hm] at h
      obtain ⟨front1, h1, h⟩ := bind_eq_ok h
      obtain ⟨out1, h2, h⟩ := bind_eq_ok h
      obtain ⟨rest, h3, h⟩ := bind_eq_ok h
      cases h
      obtain ⟨a1, a2, a3⟩ := advance_front_inv B _ front front1 h1
      intro f hf
      rcases List.mem_cons.1 hf with rfl | hf
      · exact ⟨rfl, hc, fun hb => hb⟩
      · obtain ⟨b1, b2, b3⟩ := ih front1 out1 (p + 1) rest h3 (a2 hc) f hf
        exact ⟨b1.trans a1, b2, fun hb => b3 (a3 hb)⟩

/-- The history ends where the loop leaves, begins with the initial front,
and has one front per element written plus the last one. -/
theorem symbolic_front_history_last (B fuel : Nat) (front : List FrontEntry) (out : List Nat)
    (p : Nat) (r : List Nat × Nat)
    (h : symbolic_front_loop B fuel front out p = .ok r) :
    ∃ hist last, symbolic_front_history B fuel front out p = .ok hist ∧
      hist.head? = some front ∧ hist.getLast? = some last ∧
      min_index_in_front B last = B ∧
      (∀ f ∈ hist.dropLast, min_index_in_front B f ≠ B) ∧
      r.2 + 1 = p + hist.length := by
  induction fuel generalizing front out p with
  | zero => simp [symbolic_front_loop] at h
  | succ n ih =>
    simp only [symbolic_front_loop] at h
    simp only [symbolic_front_history]
    by_cases hm : min_index_in_front B front = B
    · rw [if_pos hm] at h
      cases h
      rw [if_pos hm]
      exact ⟨[front], front, rfl, rfl, rfl, hm, fun f hf => (by cases hf), rfl⟩
    · rw [if_neg hm] at h
      rw [if_neg hm]
      obtain ⟨front1, h1, h⟩ := bind_eq_ok h
      obtain ⟨out1, h2, h⟩ := bind_eq_ok h
      obtain ⟨hist, last, i1, i2, i3, i4, i5, i6⟩ := ih front1 out1 (p + 1) h
      obtain ⟨a, t, rfl⟩ : ∃ a t, hist = a :: t := by
        cases hist with
        | nil => cases i2
        | cons a t => exact ⟨a, t, rfl⟩
      refine ⟨front :: a :: t, last, ?_, rfl, ?_, i4, ?_, ?_⟩
      · simp only [h1, h2, ok_bind, i1]
      · rw [List.getLast?_cons_cons]
        exact i3
      · intro f hf
        rw [List.dropLast_cons₂] at hf
        rcases List.mem_cons.1 hf with rfl | hf
        · exact hm
        · exact i5 f hf
      · simp only [List.length_cons] at i6 ⊢
        omega

theorem min_index_le_init (m : Nat) (front : List FrontEntry) :
    min_index_in_front m front ≤ m := by
  induction front generalizing m with
  | nil => exact Nat.le_refl _
  | cons e es ih =>
    simp only [min_index_in_front, List.foldl_cons] at ih ⊢
    exact Nat.le_trans (ih _) (Nat.min_le_left _ _)

theorem min_index_le_mem (m : Nat) (front : List FrontEntry) (e : FrontEntry)
    (he : e ∈ front) : min_index_in_front m front ≤ e.index_front := by
  induction front generalizing m with
  | nil => cases he
  | cons e0 es ih =>
    simp only [min_index_in_front, List.foldl_cons] at ih ⊢
    rcases List.mem_cons.1 he with rfl | he
    · exact Nat.le_trans (min_index_le_init _ es) (Nat.min_le_right _ _)
    · exact ih _ he

theorem min_index_all_sentinel (B : Nat) (front : List FrontEntry)
    (h : ∀ e ∈ front, e.index_front = B) : min_index_in_front B front = B := by
  induction front with
  | nil => rfl
  | cons e0 es ih =>
    simp only [min_index_in_front, List.foldl_cons] at ih ⊢
    rw [h e0 (List.mem_cons_self _ _), Nat.min_self]
    exact ih (fun e he => h e (List.mem_cons_of_mem _ he))

/-- With the cursor invariant and every unconsumed element below `B_size2`,
the minimum is the sentinel exactly when all cursors are exhausted. -/
theorem min_index_sentinel_iff (B : Nat) (front : List FrontEntry)
    (hc : ∀ e ∈ front, CursorLoaded B e) (hb : ∀ e ∈ front, FrontBelow B e) :
    min_index_in_front B front = B ↔
      ∀ e ∈ front, ¬ e.index_front_start < e.index_front_end := by
  constructor
  · intro hm e he hlt
    have h1 := hc e he
    unfold CursorLoaded at h1
    rw [if_pos hlt] at h1
    obtain ⟨c, h2, h3⟩ := hb e he _ (Nat.le_refl _) hlt
    rw [h1] at h2
    cases h2
    have := min_index_le_mem B front e he
    omega
  · intro hx
    apply min_index_all_sentinel
    intro e he
    have h1 := hc e he
    unfold CursorLoaded at h1
    rw [if_neg (hx e he)] at h1
    exact h1

theorem mem_slice_of_getElem? {α : Type} (xs : List α) (lo hi p : Nat) (c : α)
    (h1 : lo ≤ p) (h2 : p < hi) (h : xs[p]? = some c) : c ∈ slice xs lo hi := by
  unfold slice
  rw [List.mem_iff_getElem?]
  refine ⟨p - lo, ?_⟩
  rw [List.getElem?_take_of_lt (by omega), List.getElem?_drop]
  rw [show lo + (p - lo) = p from by omega]
  exact h

theorem setup_front_inv (row_indices_B B_row_buffer B_col_buffer : List Nat) (B n i : Nat)
    (rows : List FrontEntry)
    (hv : ∀ k, i ≤ k → k < i + n →
      RowValid B_row_buffer B_col_buffer B_col_buffer.length (row_indices_B.getD k 0) ∧
      ∀ c ∈ csr_cols B_row_buffer B_col_buffer (row_indices_B.getD k 0), c < B)
    (h : setup_front row_indices_B B_row_buffer B_col_buffer n i = .ok rows) :
    front_streams rows = ((row_indices_B.drop i).take n).map
      (fun r => (B_col_buffer, B_row_buffer.getD (r + 1) 0)) ∧
    ∀ e ∈ rows, FrontBelow B e := by
  induction n generalizing i rows with
  | zero =>
    simp only [setup_front] at h
    cases h
    exact ⟨by simp [front_streams], fun e he => (by cases he)⟩
  | succ n ih =>
    simp only [setup_front] at h
    obtain ⟨row_B, h1, h⟩ := bind_eq_ok h
    obtain ⟨s, h2, h⟩ := bind_eq_ok h
    obtain ⟨e, h3, h⟩ := bind_eq_ok h
    obtain ⟨rest, h4, h⟩ := bind_eq_ok h
    cases h
    have g1 := readAt_eq_ok _ _ _ h1
    have g2 := readAt_eq_ok _ _ _ h2
    have g3 := readAt_eq_ok _ _ _ h3
    have hrow : row_indices_B.getD i 0 = row_B := by
      rw [List.getD_eq_getElem?_getD, g1]; rfl
    obtain ⟨hrv, hcb⟩ := hv i (Nat.le_refl _) (by omega)
    rw [hrow] at hrv hcb
    rw [u32_add_one _ hrv.2.1] at g3
    have hs : B_row_buffer.getD row_B 0 = s := by
      rw [List.getD_eq_getElem?_getD, g2]; rfl
    have he : B_row_buffer.getD (row_B + 1) 0 = e := by
      rw [List.getD_eq_getElem?_getD, g3]; rfl
    obtain ⟨i1, i2⟩ := ih (i + 1) rest (fun k hk1 hk2 => hv k (by omega) (by omega)) h4
    have hlt : i < row_indices_B.length := by
      by_contra hge
      rw [List.getElem?_eq_none (by omega)] at g1
      cases g1
    have hd : row_indices_B.drop i = row_B :: row_indices_B.drop (i + 1) := by
      rw [List.drop_eq_getElem_cons hlt]
      congr 1
      have := List.getElem?_eq_getElem hlt
      rw [g1] at this
      exact (Option.some.inj this).symm
    refine ⟨?_, ?_⟩
    · rw [hd]
      simp only [front_streams, List.map_cons, List.take_succ_cons] at i1 ⊢
      rw [i1, he]
    · intro x hx
      rcases List.mem_cons.1 hx with rfl | hx
      · intro p hp1 hp2
        simp only at hp1 hp2
        have hpl : p < B_col_buffer.length := by
          have := hrv.2.2.2.1
          rw [he] at this
          omega
        refine ⟨B_col_buffer[p], List.getElem?_eq_getElem hpl, ?_⟩
        apply hcb
        unfold csr_cols
        rw [hs, he]
        exact mem_slice_of_getElem? _ _ _ _ _ hp1 hp2 (List.getElem?_eq_getElem hpl)
      · exact i2 x hx

theorem carried_below (B : Nat) (input : List Nat) (input_end : Nat)
    (h1 : input_end ≤ input.length) (h2 : ∀ c ∈ input.take input_end, c < B) :
    FrontBelow B { buf := input, index_front := 0, index_front_start := 0,
                   index_front_end := input_end } := by
  intro p _ hp
  simp only at hp
  have hpl : p < input.length := by omega
  refine ⟨input[p], List.getElem?_eq_getElem hpl, ?_⟩
  apply h2
  rw [List.mem_iff_getElem?]
  exact ⟨p, by rw [List.getElem?_take_of_lt hp]; exact List.getElem?_eq_getElem hpl⟩

theorem symbolic_N_history_exists (fuel IndexNum : Nat) (row_indices_B : List Nat)
    (B_row_buffer B_col_buffer : List Nat) (B_size2 : Nat)
    (input : List Nat) (input_end : Nat) (out : List Nat) (r : Nat × List Nat)
    (h : row_C_scan_symbolic_vector_N fuel IndexNum row_indices_B B_row_buffer B_col_buffer
      B_size2 input input_end out = .ok r) :
    ∃ hist, row_C_scan_symbolic_vector_N_history fuel IndexNum row_indices_B B_row_buffer
        B_col_buffer B_size2 input input_end out = .ok hist ∧
      r.1 = u32_cast (hist.length - 1) := by
  simp only [row_C_scan_symbolic_vector_N] at h
  obtain ⟨rows, h1, h⟩ := bind_eq_ok h
  obtain ⟨front, h2, h⟩ := bind_eq_ok h
  obtain ⟨r0, h3, h⟩ := bind_eq_ok h
  cases h
  obtain ⟨hist, last, i1, -, -, -, -, i6⟩ := symbolic_front_history_last _ _ _ _ _ _ h3
  refine ⟨hist, ?_, ?_⟩
  · simp only [row_C_scan_symbolic_vector_N_history, h1, h2, ok_bind, i1]
  · simp only
    congr 1
    omega

theorem symbolic_N_history_props (fuel IndexNum : Nat) (row_indices_B : List Nat)
    (B_row_buffer B_col_buffer : List Nat) (B_size2 : Nat)
    (input : List Nat) (input_end : Nat) (out : List Nat) (hist : List (List FrontEntry))
    (hv : FrontValid IndexNum row_indices_B B_row_buffer B_col_buffer B_size2 input
      input_end out)
    (h : row_C_scan_symbolic_vector_N_history fuel IndexNum row_indices_B B_row_buffer
      B_col_buffer B_size2 input input_end out = .ok hist) :
    ∀ f ∈ hist,
      front_streams f = contributor_streams IndexNum row_indices_B B_row_buffer B_col_buffer
        input input_end ∧
      (∀ e ∈ f, CursorLoaded B_size2 e) ∧
      ((∀ c ∈ input.take input_end, c < B_size2) →
        (min_index_in_front B_size2 f = B_size2 ↔
          ∀ e ∈ f, ¬ e.index_front_start < e.index_front_end)) := by
  simp only [row_C_scan_symbolic_vector_N_history] at h
  obtain ⟨rows, h1, h⟩ := bind_eq_ok h
  obtain ⟨front, h2, h⟩ := bind_eq_ok h
  obtain ⟨s1, s2⟩ := setup_front_inv row_indices_B B_row_buffer B_col_buffer B_size2
    IndexNum 0 rows (fun k _ hk => hv.2.1 k (by omega)) h1
  obtain ⟨l1, l2, l3⟩ := load_front_inv _ _ _ h2
  intro f hf
  obtain ⟨a1, a2, a3⟩ := symbolic_front_history_inv _ _ _ _ _ _ h l2 f hf
  refine ⟨?_, a2, ?_⟩
  · rw [a1, l1]
    simp only [front_streams, List.map_append, List.map_cons, List.map_nil] at s1 ⊢
    rw [s1]
    simp only [contributor_streams, List.drop_zero]
  · intro hb
    apply min_index_sentinel_iff _ _ a2
    apply a3
    apply l3
    intro e he
    rcases List.mem_append.1 he with he | he
    · exact s2 e he
    · rcases List.mem_singleton.1 he with rfl
      exact carried_below _ _ _ hv.2.2.1 hb

theorem numeric_front_history_sim [Zero R] [Add R] [Mul R] (B fuel : Nat)
    (front : List (NumFrontEntry R)) (o : NumOut R) (hist : List (List (NumFrontEntry R)))
    (h : numeric_front_history B fuel front o = .ok hist) :
    symbolic_front_history B fuel (front.map index_part) o.out o.output_ptr
      = .ok (hist.map (List.map index_part)) := by
  induction fuel generalizing front o hist with
  | zero => simp [numeric_front_history] at h
  | succ n ih =>
    simp only [numeric_front_history] at h
    simp only [symbolic_front_history, min_index_sim]
    by_cases hm : min_index_in_front_numeric B front = B
    · rw [if_pos hm] at h
      cases h
      rw [if_pos hm]
      rfl
    · rw [if_neg hm] at h
      rw [if_neg hm]
      obtain ⟨r, h1, h⟩ := bind_eq_ok h
      obtain ⟨out1, h2, h⟩ := bind_eq_ok h
      obtain ⟨outv1, h3, h⟩ := bind_eq_ok h
      obtain ⟨rest, h4, h⟩ := bind_eq_ok h
      cases h
      rw [advance_front_sim B _ front 0 r h1, h2]
      simp only [ok_bind]
      rw [ih _ _ _ h4]
      rfl

theorem numeric_front_history_exists [Zero R] [Add R] [Mul R] (B fuel : Nat)
    (front : List (NumFrontEntry R)) (o o1 : NumOut R)
    (h : numeric_front_loop B fuel front o = .ok o1) :
    ∃ hist, numeric_front_history B fuel front o = .ok hist := by
  induction fuel generalizing front o with
  | zero => simp [numeric_front_loop] at h
  | succ n ih =>
    simp only [numeric_front_loop] at h
    simp only [numeric_front_history]
    by_cases hm : min_index_in_front_numeric B front = B
    · rw [if_pos hm]
      exact ⟨_, rfl⟩
    · rw [if_neg hm] at h
      rw [if_neg hm]
      obtain ⟨r, h1, h⟩ := bind_eq_ok h
      obtain ⟨out1, h2, h⟩ := bind_eq_ok h
      obtain ⟨outv1, h3, h⟩ := bind_eq_ok h
      obtain ⟨rest, h4⟩ := ih _ _ h
      exact ⟨front :: rest, by simp only [h1, h2, h3, ok_bind, h4]⟩

theorem numeric_N_history_sim [Zero R] [One R] [Add R] [Mul R]
    (fuel IndexNum : Nat) (row_indices_B : List Nat) (val_A : List R)
    (B_row_buffer B_col_buffer : List Nat) (B_elements : List R) (B_size2 : Nat)
    (input : List Nat) (input_end : Nat) (input_values : List R)
    (out : List Nat) (out_values : List R) (hist : List (List (NumFrontEntry R)))
    (h : row_C_scan_numeric_vector_N_history fuel IndexNum row_indices_B val_A B_row_buffer
      B_col_buffer B_elements B_size2 input input_end input_values out out_values = .ok hist) :
    row_C_scan_symbolic_vector_N_history fuel IndexNum row_indices_B B_row_buffer B_col_buffer
      B_size2 input input_end out = .ok (hist.map (List.map index_part)) := by
  simp only [row_C_scan_numeric_vector_N_history] at h
  obtain ⟨rows, h1, h⟩ := bind_eq_ok h
  obtain ⟨front, h2, h⟩ := bind_eq_ok h
  have h2s := load_front_sim B_size2 _ _ h2
  simp only [List.map_append, List.map_cons, List.map_nil, index_part] at h2s
  have h3s := numeric_front_history_sim B_size2 fuel front _ _ h
  simp only [row_C_scan_symbolic_vector_N_history, setup_front_sim _ _ _ _ _ _ _ _ h1, ok_bind,
    h2s, h3s]

theorem numeric_N_history_exists [Zero R] [One R] [Add R] [Mul R]
    (fuel IndexNum : Nat) (row_indices_B : List Nat) (val_A : List R)
    (B_row_buffer B_col_buffer : List Nat) (B_elements : List R) (B_size2 : Nat)
    (input : List Nat) (input_end : Nat) (input_values : List R)
    (out : List Nat) (out_values : List R) (r : Nat × List Nat × List R)
    (h : row_C_scan_numeric_vector_N fuel IndexNum row_indices_B val_A B_row_buffer
      B_col_buffer B_elements B_size2 input input_end input_values out out_values = .ok r) :
    ∃ hist, row_C_scan_numeric_vector_N_history fuel IndexNum row_indices_B val_A B_row_buffer
        B_col_buffer B_elements B_size2 input input_end input_values out out_values
        = .ok hist ∧
      r.1 = u32_cast (hist.length - 1) := by
  have hs := row_C_scan_numeric_vector_N_sim _ _ _ _ _ _ _ _ _ _ _ _ _ _ h
  obtain ⟨hist1, g1, g2⟩ := symbolic_N_history_exists _ _ _ _ _ _ _ _ _ _ hs
  simp only [row_C_scan_numeric_vector_N] at h
  obtain ⟨rows, h1, h⟩ := bind_eq_ok h
  obtain ⟨front, h2, h⟩ := bind_eq_ok h
  obtain ⟨o1, h3, h⟩ := bind_eq_ok h
  obtain ⟨hist, h4⟩ := numeric_front_history_exists _ _ _ _ _ h3
  have h5 : row_C_scan_numeric_vector_N_history fuel IndexNum row_indices_B val_A B_row_buffer
      B_col_buffer B_elements B_size2 input input_end input_values out out_values
      = .ok hist := by
    simp only [row_C_scan_numeric_vector_N_history, h1, h2, ok_bind, h4]
  refine ⟨hist, h5, ?_⟩
  have h6 := numeric_N_history_sim _ _ _ _ _ _ _ _ _ _ _ _ _ _ h5
  rw [g1] at h6
  have h7 := Except.ok.inj h6
  rw [h7, List.length_map] at g2
  exact g2

theorem length_setup_front (row_indices_B B_row_buffer B_col_buffer : List Nat) (n i : Nat)
    (rows : List FrontEntry)
    (h : setup_front row_indices_B B_row_buffer B_col_buffer n i = .ok rows) :
    rows.length = n := by
  induction n generalizing i rows with
  | zero =>
    simp only [setup_front] at h
    cases h
    rfl
  | succ n ih =>
    simp only [setup_front] at h
    obtain ⟨row_B, h1, h⟩ := bind_eq_ok h
    obtain ⟨s, h2, h⟩ := bind_eq_ok h
    obtain ⟨e, h3, h⟩ := bind_eq_ok h
    obtain ⟨rest, h4, h⟩ := bind_eq_ok h
    cases h
    simp only [List.length_cons, ih _ _ h4]

theorem symbolic_N_history_loaded (fuel IndexNum : Nat) (row_indices_B : List Nat)
    (B_row_buffer B_col_buffer : List Nat) (B_size2 : Nat)
    (input : List Nat) (input_end : Nat) (out : List Nat) (hist : List (List FrontEntry))
    (h : row_C_scan_symbolic_vector_N_history fuel IndexNum row_indices_B B_row_buffer
      B_col_buffer B_size2 input input_end out = .ok hist) :
    ∀ f ∈ hist, f.length = IndexNum + 1 ∧ ∀ e ∈ f, CursorLoaded B_size2 e := by
  simp only [row_C_scan_symbolic_vector_N_history] at h
  obtain ⟨rows, h1, h⟩ := bind_eq_ok h
  obtain ⟨front, h2, h⟩ := bind_eq_ok h
  have s1 := length_setup_front _ _ _ _ _ _ h1
  obtain ⟨l1, l2, -⟩ := load_front_inv _ _ _ h2
  intro f hf
  obtain ⟨a1, a2, -⟩ := symbolic_front_history_inv _ _ _ _ _ _ h l2 f hf
  refine ⟨?_, a2⟩
  have := congrArg List.length (a1.trans l1)
  simp only [front_streams, List.length_map, List.length_append, List.length_cons,
    List.length_nil, s1] at this
  exact this

/-- C23: cursor invariant of the merge front. The fronts are those the main
loop of `row_C_scan_symbolic_vector_N` and of `row_C_scan_numeric_vector_N`
has at the start of each iteration, as the history runs record them (one front
per element written, plus the one at which the loop leaves). On every run
that returns, each recorded front has `IndexNum + 1` slots, and in every slot
`index_front` is the element at `index_front_start` when
`index_front_start < index_front_end` and is `B_size2` otherwise. On valid
memory with the columns of the selected rows below `B_size2`, and with enough
fuel, both functions and both history runs return, the slots of every
recorded front are those of the contributors in order (the selected rows of
B, then the carried input), and, when the carried columns are below `B_size2`
as well, the minimum computed from a recorded front is `B_size2` exactly when
no slot has `index_front_start < index_front_end`. -/
theorem front_cursor_invariant [Zero R] [One R] [Add R] [Mul R]
    (fuel IndexNum : Nat) (row_indices_B : List Nat) (val_A : List R)
    (B_row_buffer B_col_buffer : List Nat) (B_elements : List R) (B_size2 : Nat)
    (input : List Nat) (input_end : Nat) (input_values : List R)
    (out : List Nat) (out_values : List R) :
    (∀ hist,
      row_C_scan_symbolic_vector_N_history fuel IndexNum row_indices_B B_row_buffer
        B_col_buffer B_size2 input input_end out = .ok hist →
      ∀ f ∈ hist, f.length = IndexNum + 1 ∧ ∀ e ∈ f, CursorLoaded B_size2 e) ∧
    (∀ hist,
      row_C_scan_numeric_vector_N_history fuel IndexNum row_indices_B val_A B_row_buffer
        B_col_buffer B_elements B_size2 input input_end input_values out out_values = .ok hist →
      ∀ f ∈ hist, f.length = IndexNum + 1 ∧ ∀ e ∈ f, CursorLoaded B_size2 (index_part e)) ∧
    (FrontValidNumeric IndexNum row_indices_B val_A B_row_buffer B_col_buffer B_elements
        B_size2 input input_end input_values out out_values →
      selected_nnz 0 IndexNum row_indices_B B_row_buffer B_col_buffer + input_end < fuel →
      (∃ hist r,
        row_C_scan_symbolic_vector_N fuel IndexNum row_indices_B B_row_buffer
        B_col_buffer B_size2 input input_end out = .ok r ∧
        row_C_scan_symbolic_vector_N_history fuel IndexNum row_indices_B B_row_buffer
        B_col_buffer B_size2 input input_end out = .ok hist ∧
        r.1 = u32_cast (hist.length - 1) ∧
        ∀ f ∈ hist,
          front_streams f = contributor_streams IndexNum row_indices_B B_row_buffer
            B_col_buffer input input_end ∧
          ((∀ c ∈ input.take input_end, c < B_size2) →
            (min_index_in_front B_size2 f = B_size2 ↔
              ∀ e ∈ f, ¬ e.index_front_start < e.index_front_end))) ∧
      (∃ hist r,
        row_C_scan_numeric_vector_N fuel IndexNum row_indices_B val_A B_row_buffer
        B_col_buffer B_elements B_size2 input input_end input_values out out_values = .ok r ∧
        row_C_scan_numeric_vector_N_history fuel IndexNum row_indices_B val_A B_row_buffer
        B_col_buffer B_elements B_size2 input input_end input_values out out_values = .ok hist ∧
        r.1 = u32_cast (hist.length - 1) ∧
        ∀ f ∈ hist,
          front_streams (f.map index_part) = contributor_streams IndexNum row_indices_B B_row_buffer
            B_col_buffer input input_end ∧
          ((∀ c ∈ input.take input_end, c < B_size2) →
            (min_index_in_front_numeric B_size2 f = B_size2 ↔
              ∀ e ∈ f, ¬ e.index_front_start < e.index_front_end)))) := by
  refine ⟨?_, ?_, ?_⟩
  · intro hist h
    exact symbolic_N_history_loaded _ _ _ _ _ _ _ _ _ _ h
  · intro hist h f hf
    have g3 := numeric_N_history_sim _ _ _ _ _ _ _ _ _ _ _ _ _ _ h
    obtain ⟨a1, a2⟩ := symbolic_N_history_loaded _ _ _ _ _ _ _ _ _ _ g3
      (f.map index_part) (List.mem_map_of_mem _ hf)
    rw [List.length_map] at a1
    exact ⟨a1, fun e he => a2 _ (List.mem_map_of_mem _ he)⟩
  · intro hv hfuel
    constructor
    · obtain ⟨pattern, hp, -⟩ := symbolic_front_call fuel IndexNum row_indices_B B_row_buffer
        B_col_buffer B_size2 input input_end out hv.1 hfuel
      obtain ⟨hist, g1, g2⟩ := symbolic_N_history_exists _ _ _ _ _ _ _ _ _ _ hp
      refine ⟨hist, _, hp, g1, g2, ?_⟩
      intro f hf
      obtain ⟨a1, -, a3⟩ := symbolic_N_history_props _ _ _ _ _ _ _ _ _ _ hv.1 g1 f hf
      exact ⟨a1, a3⟩
    · obtain ⟨res, hp, -⟩ := numeric_front_run fuel IndexNum row_indices_B val_A B_row_buffer
        B_col_buffer B_elements B_size2 input input_end input_values out out_values hv hfuel
      obtain ⟨hist, g1, g2⟩ := numeric_N_history_exists _ _ _ _ _ _ _ _ _ _ _ _ _ _ hp
      refine ⟨hist, _, hp, g1, g2, ?_⟩
      have g3 := numeric_N_history_sim _ _ _ _ _ _ _ _ _ _ _ _ _ _ g1
      intro f hf
      obtain ⟨a1, -, a3⟩ := symbolic_N_history_props _ _ _ _ _ _ _ _ _ _ hv.1 g3
        (f.map index_part) (List.mem_map_of_mem _ hf)
      refine ⟨a1, ?_⟩
      intro hb
      rw [← min_index_sim, a3 hb]
      constructor
      · intro hx e he
        exact hx _ (List.mem_map_of_mem _ he)
      · intro hx e he
        obtain ⟨e0, he0, rfl⟩ := List.mem_map.1 he
        exact hx e0 he0

/-- Witness for C23: the rows `1`, `1 3` and `0 2` of B merged with the
carried row `2 4`, with `B_size2 = 6`. -/
theorem front_cursor_invariant_witness :
    FrontValidNumeric 3 [0, 1, 2] ([2, 3, 1] : List Int) [0, 1, 3, 5, 7]
      [1, 1, 3, 0, 2, 2, 5] ([5, 4, 1, 7, 2, 6, 3] : List Int) 6 [2, 4, 0] 2
      ([8, 9, 0] : List Int) [9, 9, 9, 9, 9, 9, 9] ([9, 9, 9, 9, 9, 9, 9] : List Int) ∧
    selected_nnz 0 3 [0, 1, 2] [0, 1, 3, 5, 7] [1, 1, 3, 0, 2, 2, 5] + 2 < 20 ∧
    (∀ hist,
      row_C_scan_symbolic_vector_N_history 20 3 [0, 1, 2] [0, 1, 3, 5, 7]
        [1, 1, 3, 0, 2, 2, 5] 6 [2, 4, 0] 2 [9, 9, 9, 9, 9, 9, 9] = .ok hist →
      ∀ f ∈ hist, f.length = 3 + 1 ∧ ∀ e ∈ f, CursorLoaded 6 e) ∧
    (∀ hist,
      row_C_scan_numeric_vector_N_history 20 3 [0, 1, 2] ([2, 3, 1] : List Int)
        [0, 1, 3, 5, 7] [1, 1, 3, 0, 2, 2, 5] ([5, 4, 1, 7, 2, 6, 3] : List Int) 6
        [2, 4, 0] 2 ([8, 9, 0] : List Int) [9, 9, 9, 9, 9, 9, 9]
        ([9, 9, 9, 9, 9, 9, 9] : List Int) = .ok hist →
      ∀ f ∈ hist, f.length = 3 + 1 ∧ ∀ e ∈ f, CursorLoaded 6 (index_part e)) ∧
    ((∃ hist r,
        row_C_scan_symbolic_vector_N 20 3 [0, 1, 2] [0, 1, 3, 5, 7]
        [1, 1, 3, 0, 2, 2, 5] 6 [2, 4, 0] 2 [9, 9, 9, 9, 9, 9, 9] = .ok r ∧
        row_C_scan_symbolic_vector_N_history 20 3 [0, 1, 2] [0, 1, 3, 5, 7]
        [1, 1, 3, 0, 2, 2, 5] 6 [2, 4, 0] 2 [9, 9, 9, 9, 9, 9, 9] = .ok hist ∧
        r.1 = u32_cast (hist.length - 1) ∧
        ∀ f ∈ hist,
          front_streams f = contributor_streams 3 [0, 1, 2] [0, 1, 3, 5, 7]
            [1, 1, 3, 0, 2, 2, 5] [2, 4, 0] 2 ∧
          ((∀ c ∈ ([2, 4, 0] : List Nat).take 2, c < 6) →
            (min_index_in_front 6 f = 6 ↔
              ∀ e ∈ f, ¬ e.index_front_start < e.index_front_end))) ∧
      (∃ hist r,
        row_C_scan_numeric_vector_N 20 3 [0, 1, 2] ([2, 3, 1] : List Int)
        [0, 1, 3, 5, 7] [1, 1, 3, 0, 2, 2, 5] ([5, 4, 1, 7, 2, 6, 3] : List Int) 6
        [2, 4, 0] 2 ([8, 9, 0] : List Int) [9, 9, 9, 9, 9, 9, 9]
        ([9, 9, 9, 9, 9, 9, 9] : List Int) = .ok r ∧
        row_C_scan_numeric_vector_N_history 20 3 [0, 1, 2] ([2, 3, 1] : List Int)
        [0, 1, 3, 5, 7] [1, 1, 3, 0, 2, 2, 5] ([5, 4, 1, 7, 2, 6, 3] : List Int) 6
        [2, 4, 0] 2 ([8, 9, 0] : List Int) [9, 9, 9, 9, 9, 9, 9]
        ([9, 9, 9, 9, 9, 9, 9] : List Int) = .ok hist ∧
        r.1 = u32_cast (hist.length - 1) ∧
        ∀ f ∈ hist,
          front_streams (f.map index_part) = contributor_streams 3 [0, 1, 2] [0, 1, 3, 5, 7]
            [1, 1, 3, 0, 2, 2, 5] [2, 4, 0] 2 ∧
          ((∀ c ∈ ([2, 4, 0] : List Nat).take 2, c < 6) →
            (min_index_in_front_numeric 6 f = 6 ↔
              ∀ e ∈ f, ¬ e.index_front_start < e.index_front_end)))) :=
  ⟨by decide, by decide,
    (front_cursor_invariant 20 3 [0, 1, 2] ([2, 3, 1] : List Int) [0, 1, 3, 5, 7]
      [1, 1, 3, 0, 2, 2, 5] [5, 4, 1, 7, 2, 6, 3] 6 [2, 4, 0] 2 [8, 9, 0]
      [9, 9, 9, 9, 9, 9, 9] [9, 9, 9, 9, 9, 9, 9]).1,
    (front_cursor_invariant 20 3 [0, 1, 2] ([2, 3, 1] : List Int) [0, 1, 3, 5, 7]
      [1, 1, 3, 0, 2, 2, 5] [5, 4, 1, 7, 2, 6, 3] 6 [2, 4, 0] 2 [8, 9, 0]
      [9, 9, 9, 9, 9, 9, 9] [9, 9, 9, 9, 9, 9, 9]).2.1,
    (front_cursor_invariant 20 3 [0, 1, 2] ([2, 3, 1] : List Int) [0, 1, 3, 5, 7]
      [1, 1, 3, 0, 2, 2, 5] [5, 4, 1, 7, 2, 6, 3] 6 [2, 4, 0] 2 [8, 9, 0]
      [9, 9, 9, 9, 9, 9, 9] [9, 9, 9, 9, 9, 9, 9]).2.2 (by decide) (by decide)⟩

theorem changed_cells_self (C : List Nat) : changed_cells C C = 0 := by
  unfold changed_cells
  rw [List.countP_eq_zero]
  intro p hp
  induction C with
  | nil => cases hp
  | cons a t ih =>
    simp only [List.zip_cons_cons, List.mem_cons] at hp
    rcases hp with rfl | hp
    · simp
    · exact ih hp

theorem changed_cells_append (a1 a2 b1 b2 : List Nat) (h : a1.length = b1.length) :
    changed_cells (a1 ++ a2) (b1 ++ b2) = changed_cells a1 b1 + changed_cells a2 b2 := by
  unfold changed_cells
  rw [List.zip_append h, List.countP_append]

theorem changed_cells_all (a b : List Nat) (B : Nat) (h : a.length = b.length)
    (ha : ∀ c ∈ a, B ≤ c) (hb : ∀ c ∈ b, c < B) : changed_cells a b = b.length := by
  unfold changed_cells
  have hl : (a.zip b).length = b.length := by
    rw [List.length_zip, h, Nat.min_self]
  rw [← hl, List.countP_eq_length]
  intro p hp
  have h1 := ha _ (List.of_mem_zip (show (p.1, p.2) ∈ a.zip b from hp)).1
  have h2 := hb _ (List.of_mem_zip (show (p.1, p.2) ∈ a.zip b from hp)).2
  simp only [ne_eq, decide_eq_true_eq]
  omega

/-- Writing `xs`, all of whose cells are below `B`, into an array none of
whose cells is below `B` changes exactly `xs.length` cells. -/
theorem changed_cells_written_at (C xs : List Nat) (p B : Nat)
    (h : p + xs.length ≤ C.length) (hC : ∀ c ∈ C, B ≤ c) (hx : ∀ c ∈ xs, c < B) :
    changed_cells C (written_at C p xs) = xs.length := by
  have hsplit : C = C.take p ++ ((C.drop p).take xs.length ++ C.drop (p + xs.length)) := by
    rw [← List.drop_drop, List.take_append_drop, List.take_append_drop]
  have hw : written_at C p xs = C.take p ++ (xs ++ C.drop (p + xs.length)) := by
    unfold written_at
    rw [List.append_assoc]
  rw [hw]
  conv_lhs => arg 1; rw [hsplit]
  have hmid : ((C.drop p).take xs.length).length = xs.length := by
    rw [List.length_take, List.length_drop]
    omega
  rw [changed_cells_append _ _ _ _ rfl, changed_cells_append _ _ _ _ hmid,
    changed_cells_self, changed_cells_self,
    changed_cells_all _ _ B hmid
      (fun c hc => hC c (List.mem_of_mem_drop (List.mem_of_mem_take hc))) hx]
  omega

/-- The content pass on valid memory: the entries it writes do not depend on
the output arrays or on `row_start_C`, and their columns are those the size
pass leaves behind. -/
theorem numeric_driver_content [Zero R] [One R] [Add R] [Mul R]
    (fuel row_start_A row_end_A : Nat) (A_col_buffer : List Nat) (A_elements : List R)
    (B_row_buffer B_col_buffer : List Nat) (B_elements : List R) (B_size2 : Nat)
    (v1 : List Nat) (v1v : List R) (v2 : List Nat) (v2v : List R)
    (hv : DriverValidNumeric row_start_A row_end_A A_col_buffer A_elements B_row_buffer
      B_col_buffer B_elements B_size2 v1 v1v v2 v2v)
    (hrl : ∀ i, row_start_A ≤ i → i < row_end_A →
      (csr_cols B_row_buffer B_col_buffer (A_col_buffer.getD i 0)).length < U32)
    (hfuel : selected_nnz row_start_A row_end_A A_col_buffer B_row_buffer B_col_buffer
      + (row_end_A - row_start_A) < fuel) :
    ∃ len s1 s2 xs xv,
      row_C_scan_symbolic_vector fuel row_start_A row_end_A A_col_buffer
        B_row_buffer B_col_buffer B_size2 v1 v2 = .ok (len, s1, s2) ∧
      xs.length = len ∧ xv.length = len ∧
      (row_start_A + 2 ≤ row_end_A → s1.take len = xs) ∧
      (row_end_A = row_start_A + 1 →
        xs = csr_cols B_row_buffer B_col_buffer (A_col_buffer.getD row_start_A 0)) ∧
      ∀ (row_start_C row_end_C : Nat) (C_col_buffer : List Nat) (C_elements : List R),
        row_start_C + len ≤ C_col_buffer.length → row_start_C + len ≤ C_elements.length →
        ∃ r, row_C_scan_numeric_vector fuel row_start_A row_end_A A_col_buffer A_elements
            B_row_buffer B_col_buffer B_elements B_size2 row_start_C row_end_C
            C_col_buffer C_elements v1 v1v v2 v2v = .ok r ∧
          r.written = len ∧
          r.C_col_buffer = written_at C_col_buffer row_start_C xs ∧
          r.C_elements = written_at C_elements row_start_C xv := by
  obtain ⟨⟨hle, hu, hrows, hc1, hc2⟩, ha, hb, hc1v, hc2v⟩ := hv
  rcases Nat.lt_or_ge row_start_A row_end_A with hlt | hge
  · rcases Nat.lt_or_ge (row_start_A + 1) row_end_A with h2 | h1
    · have hsub : ¬ u32_sub row_end_A row_start_A = 1 := by
        rw [u32_sub_of_le _ _ (by omega) hu]; omega
      obtain ⟨s1, g1, g2, g3, g4, g5, g6⟩ := numeric_chunk_loop_run A_col_buffer A_elements
        B_row_buffer B_col_buffer B_elements B_size2 row_end_A fuel
        (selected_nnz row_start_A row_end_A A_col_buffer B_row_buffer B_col_buffer)
        (by omega) ha hb fuel row_start_A
        { row_C_len := 0, row_C_vector_1 := v1, row_C_vector_1_values := v1v,
          row_C_vector_2 := v2, row_C_vector_2_values := v2v }
        hle hrows (by omega) (by simp only; omega) hc1 hc1v hc2 hc2v
      simp only [Nat.zero_add] at g2
      have hsim := numeric_chunk_loop_sim _ _ _ _ _ _ _ _ _ _ _ _ g1
      have hsym : row_C_scan_symbolic_vector fuel row_start_A row_end_A A_col_buffer
          B_row_buffer B_col_buffer B_size2 v1 v2
          = .ok (s1.row_C_len, s1.row_C_vector_1, s1.row_C_vector_2) := by
        rw [row_C_scan_symbolic_vector_many _ _ _ _ _ _ _ _ _ (by omega) hu]
        exact hsim
      have hcar := carried_cursor s1.row_C_vector_1 s1.row_C_vector_1_values s1.row_C_len
        (by omega) (by omega)
      refine ⟨s1.row_C_len, s1.row_C_vector_1, s1.row_C_vector_2,
        cols (carried_row s1.row_C_vector_1 s1.row_C_vector_1_values s1.row_C_len),
        vals (carried_row s1.row_C_vector_1 s1.row_C_vector_1_values s1.row_C_len),
        hsym, ?_, ?_, fun _ => ?_, fun h => ?_, ?_⟩
      · rw [length_cols, hcar.2]
      · rw [length_vals, hcar.2]
      · rw [cols_carried_row _ _ _ (by omega) (by omega)]
      · omega
      · intro row_start_C row_end_C C_col_buffer C_elements hC hCv
        have hcopy := copy_to_output_spec s1.row_C_vector_1 s1.row_C_vector_1_values
          (carried_row s1.row_C_vector_1 s1.row_C_vector_1_values s1.row_C_len) 0
          row_start_C C_col_buffer C_elements (C_col_buffer.take row_start_C)
          (C_col_buffer.drop row_start_C) (C_elements.take row_start_C)
          (C_elements.drop row_start_C) hcar.1
          (List.take_append_drop _ _).symm (List.take_append_drop _ _).symm
          (by rw [List.length_take]; omega) (by rw [List.length_take]; omega)
          (by rw [List.length_drop, hcar.2]; omega) (by rw [List.length_drop, hcar.2]; omega)
        rw [hcar.2] at hcopy
        refine ⟨{ C_col_buffer := C_col_buffer.take row_start_C
                      ++ cols (carried_row s1.row_C_vector_1 s1.row_C_vector_1_values
                        s1.row_C_len)
                      ++ (C_col_buffer.drop row_start_C).drop s1.row_C_len,
                  C_elements := C_elements.take row_start_C
                      ++ vals (carried_row s1.row_C_vector_1 s1.row_C_vector_1_values
                        s1.row_C_len)
                      ++ (C_elements.drop row_start_C).drop s1.row_C_len,
                  written := row_start_C + s1.row_C_len - row_start_C,
                  row_C_vector_1 := s1.row_C_vector_1,
                  row_C_vector_1_values := s1.row_C_vector_1_values,
                  row_C_vector_2 := s1.row_C_vector_2,
                  row_C_vector_2_values := s1.row_C_vector_2_values }, ?_, ?_, ?_, ?_⟩
        · simp only [row_C_scan_numeric_vector]
          rw [if_neg (by omega), if_neg hsub, g1]
          simp only [ok_bind]
          rw [hcopy]
          simp only [ok_bind]
        · simp only; omega
        · simp only [written_at, List.drop_drop, length_cols, hcar.2]
        · simp only [written_at, List.drop_drop, length_vals, hcar.2]
    · have h1 : row_end_A = row_start_A + 1 := by omega
      obtain ⟨a1, a2, _⟩ := hrows row_start_A (le_refl _) hlt
      have hsym := row_C_scan_symbolic_vector_one fuel row_start_A row_end_A A_col_buffer
        B_row_buffer B_col_buffer B_size2 v1 v2 _ h1 hu a1 a2
      have hhi := hrl row_start_A (le_refl _) hlt
      rw [length_csr_cols _ _ _ _ a2] at hhi
      have hlen : u32_sub (B_row_buffer.getD (A_col_buffer.getD row_start_A 0 + 1) 0)
          (B_row_buffer.getD (A_col_buffer.getD row_start_A 0) 0)
          = (csr_row B_row_buffer B_col_buffer B_elements
              (A_col_buffer.getD row_start_A 0)).length := by
        rw [u32_sub_eq _ _ a2.2.2.1 hhi, length_csr_row _ _ _ _ (by rw [hb]; exact a2),
          length_csr_cols _ _ _ _ a2]
      rw [hlen] at hsym
      refine ⟨_, v1, v2,
        cols (scale_row (A_elements.getD row_start_A 0) (csr_row B_row_buffer B_col_buffer
          B_elements (A_col_buffer.getD row_start_A 0))),
        vals (scale_row (A_elements.getD row_start_A 0) (csr_row B_row_buffer B_col_buffer
          B_elements (A_col_buffer.getD row_start_A 0))),
        hsym, ?_, ?_, fun h => ?_, fun _ => ?_, ?_⟩
      · simp only [length_cols, length_scale_row]
      · simp only [length_vals, length_scale_row]
      · omega
      · rw [cols_scale_row, cols_csr_row _ _ _ _ (by rw [hb]; exact a2)]
      · intro row_start_C row_end_C C_col_buffer C_elements hC hCv
        exact ⟨_, row_C_scan_numeric_vector_one fuel row_start_A row_end_A A_col_buffer
          A_elements B_row_buffer B_col_buffer B_elements B_size2 row_start_C row_end_C
          C_col_buffer C_elements v1 v1v v2 v2v h1 hu a1 (by omega) (by rw [hb]; exact a2)
          hC hCv, rfl, rfl, rfl⟩
  · have heq : row_start_A = row_end_A := by omega
    refine ⟨0, v1, v2, [], [], ?_, rfl, rfl, fun h => ?_, fun h => ?_, ?_⟩
    · simp only [row_C_scan_symbolic_vector]
      rw [if_pos heq]
    · omega
    · omega
    · intro row_start_C row_end_C C_col_buffer C_elements _ _
      refine ⟨{ C_col_buffer := C_col_buffer, C_elements := C_elements, written := 0,
                row_C_vector_1 := v1, row_C_vector_1_values := v1v,
                row_C_vector_2 := v2, row_C_vector_2_values := v2v }, ?_, rfl, ?_, ?_⟩
      · simp only [row_C_scan_numeric_vector]
        rw [if_pos heq]
      · simp [written_at]
      · simp [written_at]

/-- The content pass on well-formed input, for any scalar type: the columns it
writes are strictly ascending, below `B_size2`, and those the size pass
leaves in its result scratch buffer. -/
theorem numeric_driver_columns [Zero R] [One R] [Add R] [Mul R]
    (fuel row_start_A row_end_A : Nat) (A_col_buffer : List Nat) (A_elements : List R)
    (B_row_buffer B_col_buffer : List Nat) (B_elements : List R) (B_size2 : Nat)
    (v1 : List Nat) (v1v : List R) (v2 : List Nat) (v2v : List R)
    (hwf : NumericInput row_start_A row_end_A A_col_buffer A_elements B_row_buffer
      B_col_buffer B_elements B_size2 v1 v1v v2 v2v)
    (hfuel : selected_nnz row_start_A row_end_A A_col_buffer B_row_buffer B_col_buffer
      + (row_end_A - row_start_A) < fuel) :
    ∃ len s1 s2 xs xv,
      row_C_scan_symbolic_vector fuel row_start_A row_end_A A_col_buffer
        B_row_buffer B_col_buffer B_size2 v1 v2 = .ok (len, s1, s2) ∧
      xs.length = len ∧ xv.length = len ∧
      StrictAsc xs ∧ (∀ c ∈ xs, c < B_size2) ∧
      (row_start_A + 2 ≤ row_end_A → s1.take len = xs) ∧
      ∀ (row_start_C row_end_C : Nat) (C_col_buffer : List Nat) (C_elements : List R),
        row_start_C + len ≤ C_col_buffer.length → row_start_C + len ≤ C_elements.length →
        ∃ r, row_C_scan_numeric_vector fuel row_start_A row_end_A A_col_buffer A_elements
            B_row_buffer B_col_buffer B_elements B_size2 row_start_C row_end_C
            C_col_buffer C_elements v1 v1v v2 v2v = .ok r ∧
          r.written = len ∧
          r.C_col_buffer = written_at C_col_buffer row_start_C xs ∧
          r.C_elements = written_at C_elements row_start_C xv := by
  obtain ⟨len, s1, s2, xs, xv, c1, c2, c3, c4, c5, c6⟩ := numeric_driver_content fuel
    row_start_A row_end_A A_col_buffer A_elements B_row_buffer B_col_buffer B_elements B_size2
    v1 v1v v2 v2v (numericInput_driverValid _ _ _ _ _ _ _ _ _ _ _ _ hwf)
    (symbolicInput_row_length _ _ _ _ _ _ _ _ hwf.1) hfuel
  obtain ⟨pattern, t1, t2, p1, p2, p3, p4, p5⟩ := symbolic_pattern_spec fuel row_start_A
    row_end_A A_col_buffer B_row_buffer B_col_buffer B_size2 v1 v2 hwf.1 hfuel
  rw [c1] at p1
  have e1 : len = pattern.length := congrArg Prod.fst (Except.ok.inj p1)
  have e2 : s1 = t1 := congrArg (fun x => x.2.1) (Except.ok.inj p1)
  have hxs : StrictAsc xs ∧ ∀ c ∈ xs, c < B_size2 := by
    rcases Nat.lt_or_ge (row_start_A + 1) row_end_A with h2 | h2
    · have := c4 (by omega)
      rw [e1, e2, p5 (by omega)] at this
      rw [← this]
      exact ⟨p2, p3⟩
    · rcases Nat.lt_or_ge row_start_A row_end_A with h1 | h1
      · rw [c5 (by omega)]
        obtain ⟨_, _, g3, g4⟩ := hwf.1.2.2.2.1 row_start_A (le_refl _) h1
        exact ⟨g3, g4⟩
      · have hp : pattern = [] := by
          rw [List.eq_nil_iff_forall_not_mem]
          intro c hc
          obtain ⟨k, k1, k2, _⟩ := (p4 c).1 hc
          omega
        rw [hp] at e1
        rw [e1] at c2
        rw [List.length_eq_zero.1 c2]
        exact ⟨List.Pairwise.nil, fun c hc => by cases hc⟩
  exact ⟨len, s1, s2, xs, xv, c1, c2, c3, hxs.1, hxs.2, c4, c6⟩

/-- C4: length-content consistency, for any scalar type. For every well-formed
input the size pass returns a length `len`, and there are `len` columns `xs`
and `len` values `xv`, the same whatever the output arrays hold and wherever
the row starts in them, such that for all output arrays with room for `len`
entries from `row_start_C` on the content pass returns with its output
pointers advanced by `len`, `C_col_buffer` holding `xs` and `C_elements`
holding `xv` in the cells `row_start_C .. row_start_C + len - 1`, and all
other cells as before. When no cell of `C_col_buffer` held a column below
`B_size2` beforehand, so that every write shows, exactly `len` cells of
`C_col_buffer` differ afterwards. The left row may have no entry, one entry
(the shortcut, where the size pass returns a difference of row pointers and
the content pass counts copied cells) or more. -/
theorem length_content_consistency [Zero R] [One R] [Add R] [Mul R]
    (fuel row_start_A row_end_A : Nat) (A_col_buffer : List Nat) (A_elements : List R)
    (B_row_buffer B_col_buffer : List Nat) (B_elements : List R) (B_size2 : Nat)
    (row_C_vector_1 : List Nat) (row_C_vector_1_values : List R)
    (row_C_vector_2 : List Nat) (row_C_vector_2_values : List R)
    (hwf : NumericInput row_start_A row_end_A A_col_buffer A_elements B_row_buffer
      B_col_buffer B_elements B_size2 row_C_vector_1 row_C_vector_1_values
      row_C_vector_2 row_C_vector_2_values)
    (hfuel : selected_nnz row_start_A row_end_A A_col_buffer B_row_buffer B_col_buffer
      + (row_end_A - row_start_A) < fuel) :
    ∃ len s1 s2 xs xv,
      row_C_scan_symbolic_vector fuel row_start_A row_end_A A_col_buffer
        B_row_buffer B_col_buffer B_size2 row_C_vector_1 row_C_vector_2
        = .ok (len, s1, s2) ∧
      xs.length = len ∧ xv.length = len ∧
      ∀ (row_start_C row_end_C : Nat) (C_col_buffer : List Nat) (C_elements : List R),
        row_start_C + len ≤ C_col_buffer.length → row_start_C + len ≤ C_elements.length →
        ∃ r,
          row_C_scan_numeric_vector fuel row_start_A row_end_A A_col_buffer A_elements
            B_row_buffer B_col_buffer B_elements B_size2 row_start_C row_end_C
            C_col_buffer C_elements row_C_vector_1 row_C_vector_1_values
            row_C_vector_2 row_C_vector_2_values = .ok r ∧
          r.written = len ∧ (written_row r row_start_C).length = len ∧
          r.C_col_buffer = written_at C_col_buffer row_start_C xs ∧
          r.C_elements = written_at C_elements row_start_C xv ∧
          written_row r row_start_C = xs.zip xv ∧
          ((∀ c ∈ C_col_buffer, B_size2 ≤ c) →
            changed_cells C_col_buffer r.C_col_buffer = len) := by
  obtain ⟨len, s1, s2, xs, xv, c1, c2, c3, c4, c5, _, c7⟩ := numeric_driver_columns fuel
    row_start_A row_end_A A_col_buffer A_elements B_row_buffer B_col_buffer B_elements B_size2
    row_C_vector_1 row_C_vector_1_values row_C_vector_2 row_C_vector_2_values hwf hfuel
  refine ⟨len, s1, s2, xs, xv, c1, c2, c3, ?_⟩
  intro row_start_C row_end_C C_col_buffer C_elements hC hCv
  obtain ⟨r, g1, g2, g3, g4⟩ := c7 row_start_C row_end_C C_col_buffer C_elements hC hCv
  have hw : written_row r row_start_C = xs.zip xv := by
    have h1 : slice (written_at C_col_buffer row_start_C xs) row_start_C (row_start_C + len)
        = xs := by
      rw [← c2]
      exact slice_written_at _ _ _ (by omega)
    have h2 : slice (written_at C_elements row_start_C xv) row_start_C (row_start_C + len)
        = xv := by
      rw [← c3]
      exact slice_written_at _ _ _ (by omega)
    unfold written_row
    rw [g2, g3, g4, h1, h2]
  refine ⟨r, g1, g2, ?_, g3, g4, hw, fun hcells => ?_⟩
  · rw [hw, List.length_zip, c2, c3, Nat.min_self]
  · rw [g3, changed_cells_written_at _ _ _ B_size2 (by omega) hcells c5, c2]

/-- Witness for C4: a left row with four entries (one chunk of three, then one). -/
theorem length_content_consistency_witness :
    NumericInput 0 4 [0, 1, 2, 3] ([2, 3, 1, 1] : List Int) [0, 1, 3, 5, 7]
      [1, 1, 3, 0, 2, 2, 5] ([5, 4, 1, 1, 1, 1, 1] : List Int) 6
      [0, 0, 0, 0, 0, 0, 0] ([0, 0, 0, 0, 0, 0, 0] : List Int)
      [0, 0, 0, 0, 0, 0, 0] ([0, 0, 0, 0, 0, 0, 0] : List Int) ∧
    selected_nnz 0 4 [0, 1, 2, 3] [0, 1, 3, 5, 7] [1, 1, 3, 0, 2, 2, 5] + (4 - 0) < 20 ∧
    ∃ len s1 s2 xs xv,
      row_C_scan_symbolic_vector 20 0 4 [0, 1, 2, 3] [0, 1, 3, 5, 7] [1, 1, 3, 0, 2, 2, 5] 6
        [0, 0, 0, 0, 0, 0, 0] [0, 0, 0, 0, 0, 0, 0] = .ok (len, s1, s2) ∧
      xs.length = len ∧ xv.length = len ∧
      ∀ (row_start_C row_end_C : Nat) (C_col_buffer : List Nat) (C_elements : List Int),
        row_start_C + len ≤ C_col_buffer.length → row_start_C + len ≤ C_elements.length →
        ∃ r,
          row_C_scan_numeric_vector 20 0 4 [0, 1, 2, 3] ([2, 3, 1, 1] : List Int)
            [0, 1, 3, 5, 7] [1, 1, 3, 0, 2, 2, 5] ([5, 4, 1, 1, 1, 1, 1] : List Int) 6
            row_start_C row_end_C C_col_buffer C_elements
            [0, 0, 0, 0, 0, 0, 0] ([0, 0, 0, 0, 0, 0, 0] : List Int)
            [0, 0, 0, 0, 0, 0, 0] ([0, 0, 0, 0, 0, 0, 0] : List Int) = .ok r ∧
          r.written = len ∧ (written_row r row_start_C).length = len ∧
          r.C_col_buffer = written_at C_col_buffer row_start_C xs ∧
          r.C_elements = written_at C_elements row_start_C xv ∧
          written_row r row_start_C = xs.zip xv ∧
          ((∀ c ∈ C_col_buffer, 6 ≤ c) → changed_cells C_col_buffer r.C_col_buffer = len) :=
  ⟨by decide, by decide,
    length_content_consistency 20 0 4 [0, 1, 2, 3] [2, 3, 1, 1] [0, 1, 3, 5, 7]
      [1, 1, 3, 0, 2, 2, 5] [5, 4, 1, 1, 1, 1, 1] 6
      [0, 0, 0, 0, 0, 0, 0] [0, 0, 0, 0, 0, 0, 0] [0, 0, 0, 0, 0, 0, 0] [0, 0, 0, 0, 0, 0, 0]
      (by decide) (by decide)⟩

/-- C5: sortedness and no duplicates, for any scalar type. For every
well-formed input the content pass returns, the column sequence it wrote for
the row (the cells `row_start_C .. row_start_C + written - 1` of
`C_col_buffer`, `written` being the length the size pass returns) is strictly
increasing, hence free of duplicates, with every column below `B_size2`; and
for a left row with at least two entries the column sequence the size pass
leaves in its result scratch buffer is that same sequence, strictly
increasing and free of duplicates. -/
theorem output_columns_strictly_increasing [Zero R] [One R] [Add R] [Mul R]
    (fuel row_start_A row_end_A : Nat) (A_col_buffer : List Nat) (A_elements : List R)
    (B_row_buffer B_col_buffer : List Nat) (B_elements : List R) (B_size2 : Nat)
    (row_start_C row_end_C : Nat) (C_col_buffer : List Nat) (C_elements : List R)
    (row_C_vector_1 : List Nat) (row_C_vector_1_values : List R)
    (row_C_vector_2 : List Nat) (row_C_vector_2_values : List R)
    (hwf : NumericInput row_start_A row_end_A A_col_buffer A_elements B_row_buffer
      B_col_buffer B_elements B_size2 row_C_vector_1 row_C_vector_1_values
      row_C_vector_2 row_C_vector_2_values)
    (hfuel : selected_nnz row_start_A row_end_A A_col_buffer B_row_buffer B_col_buffer
      + (row_end_A - row_start_A) < fuel)
    (hC : row_start_C + symbolic_length fuel row_start_A row_end_A A_col_buffer B_row_buffer
      B_col_buffer B_size2 row_C_vector_1 row_C_vector_2 ≤ C_col_buffer.length)
    (hCv : row_start_C + symbolic_length fuel row_start_A row_end_A A_col_buffer B_row_buffer
      B_col_buffer B_size2 row_C_vector_1 row_C_vector_2 ≤ C_elements.length) :
    ∃ r len s1 s2,
      row_C_scan_numeric_vector fuel row_start_A row_end_A A_col_buffer A_elements
        B_row_buffer B_col_buffer B_elements B_size2 row_start_C row_end_C
        C_col_buffer C_elements row_C_vector_1 row_C_vector_1_values
        row_C_vector_2 row_C_vector_2_values = .ok r ∧
      row_C_scan_symbolic_vector fuel row_start_A row_end_A A_col_buffer
        B_row_buffer B_col_buffer B_size2 row_C_vector_1 row_C_vector_2
        = .ok (len, s1, s2) ∧
      r.written = len ∧
      StrictAsc (slice r.C_col_buffer row_start_C (row_start_C + r.written)) ∧
      (slice r.C_col_buffer row_start_C (row_start_C + r.written)).Nodup ∧
      (∀ c ∈ slice r.C_col_buffer row_start_C (row_start_C + r.written), c < B_size2) ∧
      (row_start_A + 2 ≤ row_end_A →
        s1.take len = slice r.C_col_buffer row_start_C (row_start_C + r.written) ∧
        StrictAsc (s1.take len) ∧ (s1.take len).Nodup) := by
  obtain ⟨len, s1, s2, xs, xv, c1, c2, c3, c4, c5, c6, c7⟩ := numeric_driver_columns fuel
    row_start_A row_end_A A_col_buffer A_elements B_row_buffer B_col_buffer B_elements B_size2
    row_C_vector_1 row_C_vector_1_values row_C_vector_2 row_C_vector_2_values hwf hfuel
  have hsl : symbolic_length fuel row_start_A row_end_A A_col_buffer B_row_buffer
      B_col_buffer B_size2 row_C_vector_1 row_C_vector_2 = len := by
    simp only [symbolic_length, c1]
  rw [hsl] at hC hCv
  obtain ⟨r, g1, g2, g3, _⟩ := c7 row_start_C row_end_C C_col_buffer C_elements hC hCv
  have hnd : ∀ l : List Nat, StrictAsc l → l.Nodup :=
    fun l hl => List.Pairwise.imp (fun h => Nat.ne_of_lt h) hl
  have hsc : slice r.C_col_buffer row_start_C (row_start_C + r.written) = xs := by
    rw [g2, g3, ← c2]
    exact slice_written_at _ _ _ (by omega)
  refine ⟨r, len, s1, s2, g1, c1, g2, ?_, ?_, ?_, fun hn => ?_⟩
  · rw [hsc]; exact c4
  · rw [hsc]; exact hnd _ c4
  · rw [hsc]; exact c5
  · rw [hsc, c6 hn]
    exact ⟨rfl, c4, hnd _ c4⟩

/-- Witness for C5: a left row with four entries (one chunk of three, then one). -/
theorem output_columns_strictly_increasing_witness :
    NumericInput 0 4 [0, 1, 2, 3] ([2, 3, 1, 1] : List Int) [0, 1, 3, 5, 7]
      [1, 1, 3, 0, 2, 2, 5] ([5, 4, 1, 1, 1, 1, 1] : List Int) 6
      [0, 0, 0, 0, 0, 0, 0] ([0, 0, 0, 0, 0, 0, 0] : List Int)
      [0, 0, 0, 0, 0, 0, 0] ([0, 0, 0, 0, 0, 0, 0] : List Int) ∧
    selected_nnz 0 4 [0, 1, 2, 3] [0, 1, 3, 5, 7] [1, 1, 3, 0, 2, 2, 5] + (4 - 0) < 20 ∧
    1 + symbolic_length 20 0 4 [0, 1, 2, 3] [0, 1, 3, 5, 7] [1, 1, 3, 0, 2, 2, 5] 6
      [0, 0, 0, 0, 0, 0, 0] [0, 0, 0, 0, 0, 0, 0] ≤ [9, 9, 9, 9, 9, 9, 9, 9].length ∧
    1 + symbolic_length 20 0 4 [0, 1, 2, 3] [0, 1, 3, 5, 7] [1, 1, 3, 0, 2, 2, 5] 6
      [0, 0, 0, 0, 0, 0, 0] [0, 0, 0, 0, 0, 0, 0]
      ≤ ([9, 9, 9, 9, 9, 9, 9, 9] : List Int).length ∧
    ∃ r len s1 s2,
      row_C_scan_numeric_vector 20 0 4 [0, 1, 2, 3] ([2, 3, 1, 1] : List Int) [0, 1, 3, 5, 7]
        [1, 1, 3, 0, 2, 2, 5] ([5, 4, 1, 1, 1, 1, 1] : List Int) 6 1 6
        [9, 9, 9, 9, 9, 9, 9, 9] ([9, 9, 9, 9, 9, 9, 9, 9] : List Int)
        [0, 0, 0, 0, 0, 0, 0] ([0, 0, 0, 0, 0, 0, 0] : List Int)
        [0, 0, 0, 0, 0, 0, 0] ([0, 0, 0, 0, 0, 0, 0] : List Int) = .ok r ∧
      row_C_scan_symbolic_vector 20 0 4 [0, 1, 2, 3] [0, 1, 3, 5, 7] [1, 1, 3, 0, 2, 2, 5] 6
        [0, 0, 0, 0, 0, 0, 0] [0, 0, 0, 0, 0, 0, 0] = .ok (len, s1, s2) ∧
      r.written = len ∧
      StrictAsc (slice r.C_col_buffer 1 (1 + r.written)) ∧
      (slice r.C_col_buffer 1 (1 + r.written)).Nodup ∧
      (∀ c ∈ slice r.C_col_buffer 1 (1 + r.written), c < 6) ∧
      (0 + 2 ≤ 4 →
        s1.take len = slice r.C_col_buffer 1 (1 + r.written) ∧
        StrictAsc (s1.take len) ∧ (s1.take len).Nodup) :=
  ⟨by decide, by decide, by decide, by decide,
    output_columns_strictly_increasing 20 0 4 [0, 1, 2, 3] [2, 3, 1, 1] [0, 1, 3, 5, 7]
      [1, 1, 3, 0, 2, 2, 5] [5, 4, 1, 1, 1, 1, 1] 6 1 6
      [9, 9, 9, 9, 9, 9, 9, 9] [9, 9, 9, 9, 9, 9, 9, 9]
      [0, 0, 0, 0, 0, 0, 0] [0, 0, 0, 0, 0, 0, 0] [0, 0, 0, 0, 0, 0, 0] [0, 0, 0, 0, 0, 0, 0]
      (by decide) (by decide) (by decide) (by decide)⟩

/-- C18: values of the single-row numeric merge. For every well-formed call of
`row_C_scan_numeric_vector_1` over a commutative ring (valid memory, the row
of B and the carried input strictly ascending with columns below `B_size2`),
the call returns a length `len` within the output buffers; the `len` emitted
columns are strictly ascending, so each is emitted once, and they are exactly
the columns of the row of B and of the carried input. A column `c` that is
in the row of B and in the carried input is emitted with the value
`val_A * B(c) + carried(c)`; a column that is only in the row of B is emitted
with `val_A * B(c)`; a column that is only in the carried input is emitted
with `carried(c)`, not multiplied by `val_A`. -/
theorem single_merge_values [CommRing R]
    (fuel row_index_B : Nat) (val_A : R)
    (B_row_buffer B_col_buffer : List Nat) (B_elements : List R) (B_size2 : Nat)
    (input : List Nat) (input_end : Nat) (input_values : List R)
    (out : List Nat) (out_values : List R)
    (hv : SingleValidNumeric row_index_B B_row_buffer B_col_buffer B_elements B_size2
      input input_end input_values out out_values)
    (hs : SingleSorted row_index_B B_row_buffer B_col_buffer B_size2 input input_end)
    (hB : B_size2 < U32)
    (hfuel : input_end < fuel) :
    ∃ len o ov,
      row_C_scan_numeric_vector_1 fuel row_index_B val_A B_row_buffer B_col_buffer
        B_elements B_size2 input input_end input_values out out_values
        = .ok (len, o, ov) ∧
      len ≤ o.length ∧ len ≤ ov.length ∧
      StrictAsc (o.take len) ∧ (o.take len).Nodup ∧
      (∀ c, c ∈ o.take len ↔
        c ∈ csr_cols B_row_buffer B_col_buffer row_index_B ∨ c ∈ input.take input_end) ∧
      (∀ c, c ∈ csr_cols B_row_buffer B_col_buffer row_index_B → c ∈ input.take input_end →
        c ∈ o.take len ∧
        value_at ((o.take len).zip (ov.take len)) c =
          val_A * value_at (csr_row B_row_buffer B_col_buffer B_elements row_index_B) c
            + value_at (carried_row input input_values input_end) c) ∧
      (∀ c, c ∈ csr_cols B_row_buffer B_col_buffer row_index_B → c ∉ input.take input_end →
        c ∈ o.take len ∧
        value_at ((o.take len).zip (ov.take len)) c =
          val_A * value_at (csr_row B_row_buffer B_col_buffer B_elements row_index_B) c) ∧
      (∀ c, c ∉ csr_cols B_row_buffer B_col_buffer row_index_B → c ∈ input.take input_end →
        c ∈ o.take len ∧
        value_at ((o.take len).zip (ov.take len)) c =
          value_at (carried_row input input_values input_end) c) ∧
      ∀ c ∈ o.take len,
        value_at ((o.take len).zip (ov.take len)) c =
          if c ∈ csr_cols B_row_buffer B_col_buffer row_index_B then
            if c ∈ input.take input_end then
              val_A * value_at (csr_row B_row_buffer B_col_buffer B_elements row_index_B) c
                + value_at (carried_row input input_values input_end) c
            else
              val_A * value_at (csr_row B_row_buffer B_col_buffer B_elements row_index_B) c
          else value_at (carried_row input input_values input_end) c := by
  obtain ⟨res, c1, _, _, c3⟩ := numeric_single_call fuel row_index_B val_A
    B_row_buffer B_col_buffer B_elements B_size2 input input_end input_values out
    out_values hv hfuel
  obtain ⟨p1, p2, p3, p4⟩ := c3 hB hs
  obtain ⟨⟨hr, _, hin, _⟩, h4, hinv, _⟩ := hv
  rw [← h4] at hr
  have hcr := cols_csr_row B_row_buffer B_col_buffer B_elements row_index_B hr
  have hcc := cols_carried_row input input_values input_end hin hinv
  rw [u32_cast_of_lt _ p1] at c1
  have ht : (cols res ++ out.drop res.length).take res.length = cols res :=
    List.take_left' (length_cols _)
  have hz : ((cols res ++ out.drop res.length).take res.length).zip
      ((vals res ++ out_values.drop res.length).take res.length) = res := by
    rw [ht, List.take_left' (length_vals _), zip_cols_vals]
  have hnotB : ∀ c, c ∉ csr_cols B_row_buffer B_col_buffer row_index_B →
      value_at (csr_row B_row_buffer B_col_buffer B_elements row_index_B) c = 0 :=
    fun c hb => value_at_of_not_mem _ c (by rw [hcr]; exact hb)
  have hnotI : ∀ c, c ∉ input.take input_end →
      value_at (carried_row input input_values input_end) c = 0 :=
    fun c hi => value_at_of_not_mem _ c (by rw [hcc]; exact hi)
  refine ⟨_, _, _, c1, ?_, ?_, ?_, ?_, ?_, ?_, ?_, ?_, ?_⟩
  · simp only [List.length_append, length_cols]; omega
  · simp only [List.length_append, length_vals]; omega
  · rw [ht]; exact p2.1
  · rw [ht]; exact List.Pairwise.imp (fun h => Nat.ne_of_lt h) p2.1
  · intro c
    rw [ht]
    exact p3 c
  · intro c hb hi
    rw [hz, ht]
    exact ⟨(p3 c).2 (Or.inl hb), p4 c⟩
  · intro c hb hi
    rw [hz, ht]
    refine ⟨(p3 c).2 (Or.inl hb), ?_⟩
    rw [p4 c, hnotI c hi, add_zero]
  · intro c hb hi
    rw [hz, ht]
    refine ⟨(p3 c).2 (Or.inr hi), ?_⟩
    rw [p4 c, hnotB c hb, mul_zero, zero_add]
  · intro c _
    rw [hz, p4 c]
    by_cases hb : c ∈ csr_cols B_row_buffer B_col_buffer row_index_B
    · rw [if_pos hb]
      by_cases hi : c ∈ input.take input_end
      · rw [if_pos hi]
      · rw [if_neg hi, hnotI c hi, add_zero]
    · rw [if_neg hb, hnotB c hb, mul_zero, zero_add]

/-- Witness for C18: the row `(1, 4), (3, 1)` with weight 3 merged into the
carried input `(1, 7), (2, 8), (4, 6)`: column 1 is in both, column 3 only in
the row, columns 2 and 4 only in the carried input. -/
theorem single_merge_values_witness :
    SingleValidNumeric 1 [0, 1, 3, 5, 7] [1, 1, 3, 0, 2, 2, 5]
      ([5, 4, 1, 1, 1, 1, 1] : List Int) 6 [1, 2, 4, 0] 3 ([7, 8, 6, 0] : List Int)
      [9, 9, 9, 9, 9, 9] ([9, 9, 9, 9, 9, 9] : List Int) ∧
    SingleSorted 1 [0, 1, 3, 5, 7] [1, 1, 3, 0, 2, 2, 5] 6 [1, 2, 4, 0] 3 ∧
    6 < U32 ∧ 3 < 20 ∧
    ∃ len o ov,
      row_C_scan_numeric_vector_1 20 1 (3 : Int) [0, 1, 3, 5, 7] [1, 1, 3, 0, 2, 2, 5]
        ([5, 4, 1, 1, 1, 1, 1] : List Int) 6 [1, 2, 4, 0] 3 ([7, 8, 6, 0] : List Int)
        [9, 9, 9, 9, 9, 9] ([9, 9, 9, 9, 9, 9] : List Int) = .ok (len, o, ov) ∧
      len ≤ o.length ∧ len ≤ ov.length ∧
      StrictAsc (o.take len) ∧ (o.take len).Nodup ∧
      (∀ c, c ∈ o.take len ↔
        c ∈ csr_cols [0, 1, 3, 5, 7] [1, 1, 3, 0, 2, 2, 5] 1 ∨
          c ∈ ([1, 2, 4, 0] : List Nat).take 3) ∧
      (∀ c, c ∈ csr_cols [0, 1, 3, 5, 7] [1, 1, 3, 0, 2, 2, 5] 1 →
        c ∈ ([1, 2, 4, 0] : List Nat).take 3 →
        c ∈ o.take len ∧
        value_at ((o.take len).zip (ov.take len)) c =
          3 * value_at (csr_row [0, 1, 3, 5, 7] [1, 1, 3, 0, 2, 2, 5]
              ([5, 4, 1, 1, 1, 1, 1] : List Int) 1) c
            + value_at (carried_row [1, 2, 4, 0] ([7, 8, 6, 0] : List Int) 3) c) ∧
      (∀ c, c ∈ csr_cols [0, 1, 3, 5, 7] [1, 1, 3, 0, 2, 2, 5] 1 →
        c ∉ ([1, 2, 4, 0] : List Nat).take 3 →
        c ∈ o.take len ∧
        value_at ((o.take len).zip (ov.take len)) c =
          3 * value_at (csr_row [0, 1, 3, 5, 7] [1, 1, 3, 0, 2, 2, 5]
              ([5, 4, 1, 1, 1, 1, 1] : List Int) 1) c) ∧
      (∀ c, c ∉ csr_cols [0, 1, 3, 5, 7] [1, 1, 3, 0, 2, 2, 5] 1 →
        c ∈ ([1, 2, 4, 0] : List Nat).take 3 →
        c ∈ o.take len ∧
        value_at ((o.take len).zip (ov.take len)) c =
          value_at (carried_row [1, 2, 4, 0] ([7, 8, 6, 0] : List Int) 3) c) ∧
      ∀ c ∈ o.take len,
        value_at ((o.take len).zip (ov.take len)) c =
          if c ∈ csr_cols [0, 1, 3, 5, 7] [1, 1, 3, 0, 2, 2, 5] 1 then
            if c ∈ ([1, 2, 4, 0] : List Nat).take 3 then
              3 * value_at (csr_row [0, 1, 3, 5, 7] [1, 1, 3, 0, 2, 2, 5]
                  ([5, 4, 1, 1, 1, 1, 1] : List Int) 1) c
                + value_at (carried_row [1, 2, 4, 0] ([7, 8, 6, 0] : List Int) 3) c
            else
              3 * value_at (csr_row [0, 1, 3, 5, 7] [1, 1, 3, 0, 2, 2, 5]
                  ([5, 4, 1, 1, 1, 1, 1] : List Int) 1) c
          else value_at (carried_row [1, 2, 4, 0] ([7, 8, 6, 0] : List Int) 3) c :=
  ⟨by decide, by decide, by decide, by decide,
    single_merge_values 20 1 3 [0, 1, 3, 5, 7] [1, 1, 3, 0, 2, 2, 5] [5, 4, 1, 1, 1, 1, 1] 6
      [1, 2, 4, 0] 3 [7, 8, 6, 0] [9, 9, 9, 9, 9, 9] [9, 9, 9, 9, 9, 9]
      (by decide) (by decide) (by decide) (by decide)⟩

end Spgemm

